import Mathlib

/-!
# picturedsk: GCR track encoder and WOZ container writer

A shallow embedding of `apple_gcr.c` and `woz_image.c`.

Conventions of the embedding:
* a C byte buffer is a `List Nat` whose entries are bytes (`is_bytes`);
* a pointer into a buffer is the buffer with the bytes before it dropped;
* every array access is checked: a read or a write outside the buffer makes
  the function return `none`, so `= some _` theorems include memory safety;
* machine integers are natural numbers; a store into a `uint8_t` cell reduces
  modulo 256 wherever the stored expression may exceed a byte.
-/

namespace PictureDsk

/-- Every entry of the list is a byte. -/
def is_bytes (l : List Nat) : Prop := ∀ b ∈ l, b < 256

instance (l : List Nat) : Decidable (is_bytes l) := by
  unfold is_bytes; infer_instance

/-! ## woz_image.c : CRC routine and table -/

/-- The table `crc32_tab` of woz_image.c, entry for entry. -/
def crc32_tab : List Nat := [
  0x00000000, 0x77073096, 0xee0e612c, 0x990951ba, 0x076dc419, 0x706af48f,
  0xe963a535, 0x9e6495a3, 0x0edb8832, 0x79dcb8a4, 0xe0d5e91e, 0x97d2d988,
  0x09b64c2b, 0x7eb17cbd, 0xe7b82d07, 0x90bf1d91, 0x1db71064, 0x6ab020f2,
  0xf3b97148, 0x84be41de, 0x1adad47d, 0x6ddde4eb, 0xf4d4b551, 0x83d385c7,
  0x136c9856, 0x646ba8c0, 0xfd62f97a, 0x8a65c9ec, 0x14015c4f, 0x63066cd9,
  0xfa0f3d63, 0x8d080df5, 0x3b6e20c8, 0x4c69105e, 0xd56041e4, 0xa2677172,
  0x3c03e4d1, 0x4b04d447, 0xd20d85fd, 0xa50ab56b, 0x35b5a8fa, 0x42b2986c,
  0xdbbbc9d6, 0xacbcf940, 0x32d86ce3, 0x45df5c75, 0xdcd60dcf, 0xabd13d59,
  0x26d930ac, 0x51de003a, 0xc8d75180, 0xbfd06116, 0x21b4f4b5, 0x56b3c423,
  0xcfba9599, 0xb8bda50f, 0x2802b89e, 0x5f058808, 0xc60cd9b2, 0xb10be924,
  0x2f6f7c87, 0x58684c11, 0xc1611dab, 0xb6662d3d, 0x76dc4190, 0x01db7106,
  0x98d220bc, 0xefd5102a, 0x71b18589, 0x06b6b51f, 0x9fbfe4a5, 0xe8b8d433,
  0x7807c9a2, 0x0f00f934, 0x9609a88e, 0xe10e9818, 0x7f6a0dbb, 0x086d3d2d,
  0x91646c97, 0xe6635c01, 0x6b6b51f4, 0x1c6c6162, 0x856530d8, 0xf262004e,
  0x6c0695ed, 0x1b01a57b, 0x8208f4c1, 0xf50fc457, 0x65b0d9c6, 0x12b7e950,
  0x8bbeb8ea, 0xfcb9887c, 0x62dd1ddf, 0x15da2d49, 0x8cd37cf3, 0xfbd44c65,
  0x4db26158, 0x3ab551ce, 0xa3bc0074, 0xd4bb30e2, 0x4adfa541, 0x3dd895d7,
  0xa4d1c46d, 0xd3d6f4fb, 0x4369e96a, 0x346ed9fc, 0xad678846, 0xda60b8d0,
  0x44042d73, 0x33031de5, 0xaa0a4c5f, 0xdd0d7cc9, 0x5005713c, 0x270241aa,
  0xbe0b1010, 0xc90c2086, 0x5768b525, 0x206f85b3, 0xb966d409, 0xce61e49f,
  0x5edef90e, 0x29d9c998, 0xb0d09822, 0xc7d7a8b4, 0x59b33d17, 0x2eb40d81,
  0xb7bd5c3b, 0xc0ba6cad, 0xedb88320, 0x9abfb3b6, 0x03b6e20c, 0x74b1d29a,
  0xead54739, 0x9dd277af, 0x04db2615, 0x73dc1683, 0xe3630b12, 0x94643b84,
  0x0d6d6a3e, 0x7a6a5aa8, 0xe40ecf0b, 0x9309ff9d, 0x0a00ae27, 0x7d079eb1,
  0xf00f9344, 0x8708a3d2, 0x1e01f268, 0x6906c2fe, 0xf762575d, 0x806567cb,
  0x196c3671, 0x6e6b06e7, 0xfed41b76, 0x89d32be0, 0x10da7a5a, 0x67dd4acc,
  0xf9b9df6f, 0x8ebeeff9, 0x17b7be43, 0x60b08ed5, 0xd6d6a3e8, 0xa1d1937e,
  0x38d8c2c4, 0x4fdff252, 0xd1bb67f1, 0xa6bc5767, 0x3fb506dd, 0x48b2364b,
  0xd80d2bda, 0xaf0a1b4c, 0x36034af6, 0x41047a60, 0xdf60efc3, 0xa867df55,
  0x316e8eef, 0x4669be79, 0xcb61b38c, 0xbc66831a, 0x256fd2a0, 0x5268e236,
  0xcc0c7795, 0xbb0b4703, 0x220216b9, 0x5505262f, 0xc5ba3bbe, 0xb2bd0b28,
  0x2bb45a92, 0x5cb36a04, 0xc2d7ffa7, 0xb5d0cf31, 0x2cd99e8b, 0x5bdeae1d,
  0x9b64c2b0, 0xec63f226, 0x756aa39c, 0x026d930a, 0x9c0906a9, 0xeb0e363f,
  0x72076785, 0x05005713, 0x95bf4a82, 0xe2b87a14, 0x7bb12bae, 0x0cb61b38,
  0x92d28e9b, 0xe5d5be0d, 0x7cdcefb7, 0x0bdbdf21, 0x86d3d2d4, 0xf1d4e242,
  0x68ddb3f8, 0x1fda836e, 0x81be16cd, 0xf6b9265b, 0x6fb077e1, 0x18b74777,
  0x88085ae6, 0xff0f6a70, 0x66063bca, 0x11010b5c, 0x8f659eff, 0xf862ae69,
  0x616bffd3, 0x166ccf45, 0xa00ae278, 0xd70dd2ee, 0x4e048354, 0x3903b3c2,
  0xa7672661, 0xd06016f7, 0x4969474d, 0x3e6e77db, 0xaed16a4a, 0xd9d65adc,
  0x40df0b66, 0x37d83bf0, 0xa9bcae53, 0xdebb9ec5, 0x47b2cf7f, 0x30b5ffe9,
  0xbdbdf21c, 0xcabac28a, 0x53b39330, 0x24b4a3a6, 0xbad03605, 0xcdd70693,
  0x54de5729, 0x23d967bf, 0xb3667a2e, 0xc4614ab8, 0x5d681b02, 0x2a6f2b94,
  0xb40bbe37, 0xc30c8ea1, 0x5a05df1b, 0x2d02ef8d]

/-- The loop `while (size--) crc = crc32_tab[(crc ^ *p++) & 0xFF] ^ (crc >> 8);`
of `woz_crc32`: `p` is the rest of the buffer, `size` the bytes still to read. -/
def woz_crc32_loop : List Nat → Nat → Nat → Option Nat
  | _, 0, crc => some crc
  | [], _ + 1, _ => none
  | b :: p, size + 1, crc => do
      let t ← crc32_tab[(crc ^^^ b) &&& 0xFF]?
      woz_crc32_loop p size (t ^^^ (crc >>> 8))

/-- The function `woz_crc32(buf, size)`: the accumulator starts as `~0U` and
the result is the final accumulator XOR `~0U`. -/
def woz_crc32 (buf : List Nat) (size : Nat) : Option Nat :=
  (woz_crc32_loop buf size 0xFFFFFFFF).map (fun crc => crc ^^^ 0xFFFFFFFF)

/-- One step of the bit-by-bit reflected CRC-32: shift right by one and XOR the
polynomial `0xEDB88320` when the bit shifted out was 1. -/
def crc32_bit_step (crc : Nat) : Nat :=
  if crc % 2 = 1 then (crc >>> 1) ^^^ 0xEDB88320 else crc >>> 1

/-- Reference treatment of one byte: XOR it into the low byte of the
accumulator, then take eight bit steps. -/
def crc32_reference_byte (crc b : Nat) : Nat :=
  crc32_bit_step^[8] (crc ^^^ b)

/-- The bit-by-bit reflected CRC-32 reference: accumulator initialised to
`0xFFFFFFFF`, one `crc32_reference_byte` per byte, final XOR `0xFFFFFFFF`. -/
def crc32_reference (bytes : List Nat) : Nat :=
  (bytes.foldl crc32_reference_byte 0xFFFFFFFF) ^^^ 0xFFFFFFFF

/-! ## Checked memory accesses -/

/-- The assignment `buffer[i] = v`; `none` when `i` is outside the buffer. -/
def store (buffer : List Nat) (i v : Nat) : Option (List Nat) :=
  if i < buffer.length then some (buffer.set i v) else none

/-- The libc call `memcpy(&dest[off], src, n)`; `none` when it would read past
the end of `src` or write past the end of `dest`. -/
def memcpy (dest : List Nat) (off : Nat) (src : List Nat) (n : Nat) : Option (List Nat) :=
  if n ≤ src.length ∧ off + n ≤ dest.length then
    some (dest.take off ++ src.take n ++ dest.drop (off + n))
  else none

/-- The block returned by `malloc(n)`: `n` bytes of indeterminate content,
given by `junk`. -/
def malloc (n : Nat) (junk : Nat → Nat) : List Nat :=
  (List.range n).map junk

/-! ## woz_image.c : chunks and the file writer -/

/-- The struct `woz_chunk`: the 4-character tag, the write cursor `mark`, the
allocated size and the allocated bytes. -/
structure woz_chunk where
  name : List Nat
  mark : Nat
  buffer_size : Nat
  data : List Nat
  deriving DecidableEq, Repr

/-- The struct `woz_file`: four chunk pointers, `none` for `NULL`. -/
structure woz_file where
  info : Option woz_chunk
  tmap : Option woz_chunk
  trks : Option woz_chunk
  writ : Option woz_chunk
  deriving DecidableEq, Repr

/-- Representation invariant of a chunk: a 4-byte tag, `data` is the allocated
block of `buffer_size` bytes, and the cursor lies inside it. -/
def woz_chunk.valid (chunk : woz_chunk) : Prop :=
  chunk.name.length = 4 ∧ chunk.data.length = chunk.buffer_size ∧
    chunk.mark ≤ chunk.buffer_size

instance (chunk : woz_chunk) : Decidable chunk.valid := by
  unfold woz_chunk.valid; infer_instance

/-- The constant `WOZ_HEADER_SIZE`. -/
def WOZ_HEADER_SIZE : Nat := 12

/-- The function `chunk_size_on_disk`, in `size_t` arithmetic. -/
def chunk_size_on_disk (chunk : woz_chunk) : Nat :=
  (4 + 4 + chunk.mark) % 2 ^ 64

/-- The function `serialize_chunk_to_buffer(chunk, &buffer[off])`: returns the
buffer after the writes and the number of bytes the chunk takes. -/
def serialize_chunk_to_buffer (chunk : woz_chunk) (buffer : List Nat) (off : Nat) :
    Option (List Nat × Nat) := do
  let buffer ← memcpy buffer off chunk.name 4
  let size := chunk.mark
  let buffer ← store buffer (off + 4) (size &&& 0xFF)
  let buffer ← store buffer (off + 5) (size >>> 8 &&& 0xFF)
  let buffer ← store buffer (off + 6) (size >>> 16 &&& 0xFF)
  let buffer ← store buffer (off + 7) (size >>> 24 &&& 0xFF)
  let buffer ← memcpy buffer (off + 8) chunk.data chunk.mark
  some (buffer, (4 + 4 + chunk.mark) % 2 ^ 64)

/-- Lines 67-74 of `write_woz_to_file`: the assignments of the eight fixed
header bytes `file_buffer[0] = 'W'` to `file_buffer[7] = '\n'`. -/
def write_woz_magic (file_buffer : List Nat) : Option (List Nat) := do
  let file_buffer ← store file_buffer 0 0x57
  let file_buffer ← store file_buffer 1 0x4F
  let file_buffer ← store file_buffer 2 0x5A
  let file_buffer ← store file_buffer 3 0x32
  let file_buffer ← store file_buffer 4 0xFF
  let file_buffer ← store file_buffer 5 0x0A
  let file_buffer ← store file_buffer 6 0x0D
  store file_buffer 7 0x0A

/-- Lines 76-80 of `write_woz_to_file`: the four chunks are serialized one
after the other from offset `WOZ_HEADER_SIZE`, `byte_index` advancing by what
each call returns (the last increment is commented out in the source). -/
def write_woz_chunks (info tmap trks writ : woz_chunk) (file_buffer : List Nat) :
    Option (List Nat) := do
  let byte_index := WOZ_HEADER_SIZE
  let r ← serialize_chunk_to_buffer info file_buffer byte_index
  let byte_index := (byte_index + r.2) % 2 ^ 64
  let r ← serialize_chunk_to_buffer tmap r.1 byte_index
  let byte_index := (byte_index + r.2) % 2 ^ 64
  let r ← serialize_chunk_to_buffer trks r.1 byte_index
  let byte_index := (byte_index + r.2) % 2 ^ 64
  let r ← serialize_chunk_to_buffer writ r.1 byte_index
  some r.1

/-- Lines 83-87 of `write_woz_to_file`: the CRC of everything after the header
is computed and stored, least significant byte first, at offsets 8 to 11. -/
def write_woz_crc (file_buffer : List Nat) (total_file_size : Nat) : Option (List Nat) := do
  let crc ← woz_crc32 (file_buffer.drop WOZ_HEADER_SIZE)
    ((total_file_size + 2 ^ 64 - WOZ_HEADER_SIZE) % 2 ^ 64)
  let file_buffer ← store file_buffer 8 (crc &&& 0xFF)
  let file_buffer ← store file_buffer 9 (crc >>> 8 &&& 0xFF)
  let file_buffer ← store file_buffer 10 (crc >>> 16 &&& 0xFF)
  store file_buffer 11 (crc >>> 24 &&& 0xFF)

/-- The size computation of lines 54-58 of `write_woz_to_file`, in `size_t`
arithmetic. -/
def woz_total_file_size (info tmap trks writ : woz_chunk) : Nat :=
  let total_file_size := WOZ_HEADER_SIZE
  let total_file_size := (total_file_size + chunk_size_on_disk info) % 2 ^ 64
  let total_file_size := (total_file_size + chunk_size_on_disk tmap) % 2 ^ 64
  let total_file_size := (total_file_size + chunk_size_on_disk trks) % 2 ^ 64
  (total_file_size + chunk_size_on_disk writ) % 2 ^ 64

/-- The function `write_woz_to_file`, from the size computation to the call of
`fwrite`: the result is the byte sequence handed to `fwrite`, that is the
first `total_file_size` bytes of `file_buffer`. `junk` is the content of the
freshly allocated block; a `NULL` chunk pointer makes the result `none`. The
file operations themselves (`fopen`, `fwrite`, `fclose`) are not part of the
embedding. -/
def write_woz_to_file (woz : woz_file) (junk : Nat → Nat) : Option (List Nat) :=
  match woz.info, woz.tmap, woz.trks, woz.writ with
  | some info, some tmap, some trks, some writ => do
    let total_file_size := woz_total_file_size info tmap trks writ
    let file_buffer := malloc total_file_size junk
    let file_buffer ← write_woz_magic file_buffer
    let file_buffer ← write_woz_chunks info tmap trks writ file_buffer
    let file_buffer ← write_woz_crc file_buffer total_file_size
    if total_file_size ≤ file_buffer.length then some (file_buffer.take total_file_size)
    else none
  | _, _, _, _ => none

/-- A 32-bit value as four bytes, least significant first. -/
def le32 (n : Nat) : List Nat :=
  [n % 256, n / 256 % 256, n / 65536 % 256, n / 16777216 % 256]

/-- The value of four bytes read as a little-endian 32-bit number. -/
def read_le32 (b0 b1 b2 b3 : Nat) : Nat :=
  b0 + 256 * b1 + 65536 * b2 + 16777216 * b3

/-- The on-disk form of a chunk in the words of the format: the 4-byte tag,
the payload length as a little-endian 32-bit value, then the payload, which is
the first `mark` bytes of the chunk's data. -/
def chunk_layout (chunk : woz_chunk) : List Nat :=
  chunk.name ++ le32 chunk.mark ++ chunk.data.take chunk.mark

/-- The first eight bytes of a WOZ 2 file: 'W' 'O' 'Z' '2' 0xFF 0x0A 0x0D 0x0A. -/
def woz_magic : List Nat := [0x57, 0x4F, 0x5A, 0x32, 0xFF, 0x0A, 0x0D, 0x0A]

/-- A small INFO chunk used to instantiate the theorems: two payload bytes in
a four-byte allocation. -/
def sample_info : woz_chunk := ⟨[0x49, 0x4E, 0x46, 0x4F], 2, 4, [2, 1, 0, 0]⟩

/-- A small TMAP chunk: three payload bytes. -/
def sample_tmap : woz_chunk := ⟨[0x54, 0x4D, 0x41, 0x50], 3, 4, [0, 0, 0xFF, 0]⟩

/-- A small TRKS chunk: an empty payload. -/
def sample_trks : woz_chunk := ⟨[0x54, 0x52, 0x4B, 0x53], 0, 2, [0, 0]⟩

/-- A small WRIT chunk: one payload byte. -/
def sample_writ : woz_chunk := ⟨[0x57, 0x52, 0x49, 0x54], 1, 1, [7]⟩

/-! ## Loops -/

/-- The iterations `i, i + 1, ...` of a counting loop, `count` of them: each
runs `body` on the current state and index and fails when `body` fails. -/
def for_loop_from {σ : Type} (body : σ → Nat → Option σ) : Nat → Nat → σ → Option σ
  | 0, _, state => some state
  | count + 1, i, state => do
      let state ← body state i
      for_loop_from body count (i + 1) state

/-- The C loop `for (int i = 0; i < n; i++) state = body(state, i);`. -/
def for_loop {σ : Type} (n : Nat) (body : σ → Nat → Option σ) (init : σ) : Option σ :=
  for_loop_from body n 0 init

/-- The libc call `memset(dest, value, n)`; `none` when it would write past the
end of `dest`. -/
def memset (dest : List Nat) (value n : Nat) : Option (List Nat) :=
  if n ≤ dest.length then some (List.replicate n value ++ dest.drop n) else none

/-! ## apple_gcr.h and apple_gcr.c -/

/-- The macro `GCR_RAW_TRACK_SIZE`. -/
def GCR_RAW_TRACK_SIZE : Nat := 16 * 256

/-- The macro `GCR_ENCODED_TRACK_SIZE`. -/
def GCR_ENCODED_TRACK_SIZE : Nat := 13 * 512

/-- The macro `DOS_VOLUME_NUMBER`. -/
def DOS_VOLUME_NUMBER : Nat := 254

/-- The macro `TRACK_LEADER_SYNC_COUNT`. -/
def TRACK_LEADER_SYNC_COUNT : Nat := 64

/-- The macro `SECTORS_PER_TRACK`. -/
def SECTORS_PER_TRACK : Nat := 16

/-- The macro `BYTES_PER_SECTOR`. -/
def BYTES_PER_SECTOR : Nat := 256

/-- The macro `GCR_SECTOR_ENCODED_SIZE`. -/
def GCR_SECTOR_ENCODED_SIZE : Nat := 343

/-- The enum `dsk_sector_format`. -/
inductive dsk_sector_format where
  | dos_3_3
  | prodos
  deriving DecidableEq, Repr

/-- The function `bits_write_byte`: returns the buffer after the writes and
the new bit index. `value` is a non-negative `int`; the two stores into
`uint8_t` cells keep the low eight bits. -/
def bits_write_byte (buffer : List Nat) (index value : Nat) : Option (List Nat × Nat) := do
  let shift := index &&& 7
  let byte_position := index >>> 3
  let b ← buffer[byte_position]?
  let buffer ← store buffer byte_position ((b ||| (value >>> shift)) % 256)
  if shift ≠ 0 then
    let b ← buffer[byte_position + 1]?
    let buffer ← store buffer (byte_position + 1) ((b ||| (value <<< (8 - shift))) % 256)
    some (buffer, index + 8)
  else
    some (buffer, index + 8)

/-- The function `bits_write_4_and_4`. -/
def bits_write_4_and_4 (buffer : List Nat) (index value : Nat) : Option (List Nat × Nat) := do
  let r ← bits_write_byte buffer index ((value >>> 1) ||| 0xAA)
  bits_write_byte r.1 r.2 (value ||| 0xAA)

/-- The function `bits_write_sync`. -/
def bits_write_sync (buffer : List Nat) (index : Nat) : Option (List Nat × Nat) := do
  let r ← bits_write_byte buffer index 0xFF
  some (r.1, r.2 + 2)

/-- The table `six_and_two_mapping` of `encode_6_and_2`. -/
def six_and_two_mapping : List Nat := [
  0x96, 0x97, 0x9a, 0x9b, 0x9d, 0x9e, 0x9f, 0xa6,
  0xa7, 0xab, 0xac, 0xad, 0xae, 0xaf, 0xb2, 0xb3,
  0xb4, 0xb5, 0xb6, 0xb7, 0xb9, 0xba, 0xbb, 0xbc,
  0xbd, 0xbe, 0xbf, 0xcb, 0xcd, 0xce, 0xcf, 0xd3,
  0xd6, 0xd7, 0xd9, 0xda, 0xdb, 0xdc, 0xdd, 0xde,
  0xdf, 0xe5, 0xe6, 0xe7, 0xe9, 0xea, 0xeb, 0xec,
  0xed, 0xee, 0xef, 0xf2, 0xf3, 0xf4, 0xf5, 0xf6,
  0xf7, 0xf9, 0xfa, 0xfb, 0xfc, 0xfd, 0xfe, 0xff]

/-- The table `bit_reverse` of `encode_6_and_2`. -/
def bit_reverse : List Nat := [0, 2, 1, 3]

/-- Body of the first loop of `encode_6_and_2` (lines 168-173):
`dest[c] = bit_reverse[src[c] & 3] | (bit_reverse[src[c + 86] & 3] << 2)
| (bit_reverse[src[c + 172] & 3] << 4)`. -/
def encode_low_bits_step (src dest : List Nat) (c : Nat) : Option (List Nat) := do
  let s0 ← src[c]?
  let s1 ← src[c + 86]?
  let s2 ← src[c + 172]?
  let r0 ← bit_reverse[s0 &&& 3]?
  let r1 ← bit_reverse[s1 &&& 3]?
  let r2 ← bit_reverse[s2 &&& 3]?
  store dest c (r0 ||| (r1 <<< 2) ||| (r2 <<< 4))

/-- The assignments to `dest[84]` and `dest[85]` (lines 174-179), for
`(i, j, k)` = `(84, 84, 170)` and `(85, 85, 171)`:
`dest[i] = (bit_reverse[src[j] & 3] << 0) | (bit_reverse[src[k] & 3] << 2)`. -/
def encode_low_bits_pair (src dest : List Nat) (i j k : Nat) : Option (List Nat) := do
  let s0 ← src[j]?
  let s1 ← src[k]?
  let r0 ← bit_reverse[s0 &&& 3]?
  let r1 ← bit_reverse[s1 &&& 3]?
  store dest i ((r0 <<< 0) ||| (r1 <<< 2))

/-- Body of the second loop of `encode_6_and_2` (lines 181-183):
`dest[86 + c] = src[c] >> 2`. -/
def encode_high_bits_step (src dest : List Nat) (c : Nat) : Option (List Nat) := do
  let s ← src[c]?
  store dest (86 + c) (s >>> 2)

/-- The loop `while (location > 1) { location--; dest[location] ^=
dest[location-1]; }` of `encode_6_and_2` (lines 188-191), by the value of
`location` at the loop test. -/
def encode_xor_chain : Nat → List Nat → Option (List Nat)
  | location + 2, dest => do
      let a ← dest[location + 1]?
      let b ← dest[location]?
      let dest ← store dest (location + 1) (a ^^^ b)
      encode_xor_chain (location + 1) dest
  | _, dest => some dest

/-- Body of the last loop of `encode_6_and_2` (lines 194-196):
`dest[c] = six_and_two_mapping[dest[c]]`. -/
def encode_map_step (dest : List Nat) (c : Nat) : Option (List Nat) := do
  let d ← dest[c]?
  let m ← six_and_two_mapping[d]?
  store dest c m

/-- The function `encode_6_and_2(dest, src)`: returns `dest` after the
writes. -/
def encode_6_and_2 (dest src : List Nat) : Option (List Nat) := do
  let dest ← for_loop 84 (encode_low_bits_step src) dest
  let dest ← encode_low_bits_pair src dest 84 84 170
  let dest ← encode_low_bits_pair src dest 85 85 171
  let dest ← for_loop 256 (encode_high_bits_step src) dest
  let d ← dest[341]?
  let dest ← store dest 342 d
  let dest ← encode_xor_chain 342 dest
  for_loop 343 encode_map_step dest

/-- The value that `encode_6_and_2` first writes to `dest[i]`, for `i` in
0..341: the packed low bits for `i < 86`, the top six bits of `src[i - 86]`
above. Reads outside `src` count as 0. -/
def encode_fill (src : List Nat) (i : Nat) : Nat :=
  if i < 84 then
    bit_reverse.getD (src.getD i 0 &&& 3) 0
      ||| (bit_reverse.getD (src.getD (i + 86) 0 &&& 3) 0 <<< 2)
      ||| (bit_reverse.getD (src.getD (i + 172) 0 &&& 3) 0 <<< 4)
  else if i < 86 then
    (bit_reverse.getD (src.getD i 0 &&& 3) 0 <<< 0)
      ||| (bit_reverse.getD (src.getD (i + 86) 0 &&& 3) 0 <<< 2)
  else src.getD (i - 86) 0 >>> 2

/-- The six-bit value in `dest[i]` after the XOR loop of `encode_6_and_2`:
cell 0 keeps its fill value, cells 1 to 341 hold their fill value XOR the fill
value of the cell before, and cell 342 holds the fill value of cell 341. -/
def encode_chained (src : List Nat) (i : Nat) : Nat :=
  if i = 0 then encode_fill src 0
  else if i < 342 then encode_fill src i ^^^ encode_fill src (i - 1)
  else encode_fill src 341

/-- The 343 bytes produced by `encode_6_and_2`, in closed form. -/
def encode_6_and_2_result (src : List Nat) : List Nat :=
  (List.range 343).map (fun i => six_and_two_mapping.getD (encode_chained src i) 0)

/-- Three consecutive calls of `bits_write_byte`, as in the prologues and
epilogues of `gcr_encode_bits_for_track` (lines 45-47, 56-58, 70-72, 91-93). -/
def bits_write_3 (buffer : List Nat) (index a b c : Nat) : Option (List Nat × Nat) := do
  let r ← bits_write_byte buffer index a
  let r ← bits_write_byte r.1 r.2 b
  bits_write_byte r.1 r.2 c

/-- The sector header of `gcr_encode_bits_for_track` (lines 40-63) for the
physical sector `s`: prologue, volume, track, sector and checksum in 4-and-4
form, epilogue, 7 sync words. -/
def gcr_sector_header (dest : List Nat) (bit_index track_number s : Nat) :
    Option (List Nat × Nat) := do
  let r ← bits_write_3 dest bit_index 0xD5 0xAA 0x96
  let r ← bits_write_4_and_4 r.1 r.2 DOS_VOLUME_NUMBER
  let r ← bits_write_4_and_4 r.1 r.2 track_number
  let r ← bits_write_4_and_4 r.1 r.2 s
  let r ← bits_write_4_and_4 r.1 r.2 (DOS_VOLUME_NUMBER ^^^ track_number ^^^ s)
  let r ← bits_write_3 r.1 r.2 0xDE 0xAA 0xEB
  for_loop 7 (fun r _ => bits_write_sync r.1 r.2) r

/-- The logical sector that `gcr_encode_bits_for_track` puts into the physical
sector `s` (lines 74-81). -/
def logical_sector (sector_format : dsk_sector_format) (s : Nat) : Nat :=
  if s = 0x0F then 0x0F
  else
    let multiplier := if sector_format = dsk_sector_format.prodos then 8 else 7
    (s * multiplier) % 15

/-- The sector body of `gcr_encode_bits_for_track` (lines 65-103) for the
physical sector `s`: prologue, the 343 encoded bytes of the logical sector,
epilogue, then 16 sync words or, after the last sector, one 0xFF byte. The
local array `encoded_contents` starts as zeros here; `encode_6_and_2` writes
every cell before reading it (`encode_6_and_2_eq`). -/
def gcr_sector_body (dest : List Nat) (bit_index : Nat) (src : List Nat)
    (sector_format : dsk_sector_format) (s : Nat) : Option (List Nat × Nat) := do
  let r ← bits_write_3 dest bit_index 0xD5 0xAA 0xAD
  let encoded_contents ← encode_6_and_2 (List.replicate GCR_SECTOR_ENCODED_SIZE 0)
    (src.drop (logical_sector sector_format s * BYTES_PER_SECTOR))
  let r ← for_loop GCR_SECTOR_ENCODED_SIZE (fun r i => do
    let v ← encoded_contents[i]?
    bits_write_byte r.1 r.2 v) r
  let r ← bits_write_3 r.1 r.2 0xDE 0xAA 0xEB
  if s < SECTORS_PER_TRACK - 1 then
    for_loop 16 (fun r _ => bits_write_sync r.1 r.2) r
  else
    bits_write_byte r.1 r.2 0xFF

/-- The function `gcr_encode_bits_for_track`: returns the destination buffer
after the writes and the bit count. `track_number` is a non-negative `int`
(the shifts of `bits_write_byte` are undefined on a negative one). -/
def gcr_encode_bits_for_track (dest src : List Nat) (track_number : Nat)
    (sector_format : dsk_sector_format) : Option (List Nat × Nat) := do
  let bit_index := 0
  let dest ← memset dest 0 GCR_ENCODED_TRACK_SIZE
  let r ← for_loop TRACK_LEADER_SYNC_COUNT (fun r _ => bits_write_sync r.1 r.2)
    (dest, bit_index)
  for_loop SECTORS_PER_TRACK (fun r s => do
    let r ← gcr_sector_header r.1 r.2 track_number s
    gcr_sector_body r.1 r.2 src sector_format s) r

/-! ## The buffer as a bit stream -/

/-- Bit `k` of the stream held by a buffer: bits are numbered from the most
significant bit of byte 0; bits outside the buffer read as `false`. -/
def bit_at (buffer : List Nat) (k : Nat) : Bool :=
  (buffer.getD (k / 8) 0).testBit (7 - k % 8)

/-- The byte read from the stream at bit offset `index`, most significant bit
first. -/
def bits_read_byte (buffer : List Nat) (index : Nat) : Nat :=
  (List.range 8).foldl (fun acc j => 2 * acc + (bit_at buffer (index + j)).toNat) 0

/-- The `n` bytes read from the stream from bit offset `index` on. -/
def bits_read_bytes (buffer : List Nat) (index n : Nat) : List Nat :=
  (List.range n).map (fun i => bits_read_byte buffer (index + 8 * i))

/-- A track buffer in which nothing is written from bit `index` on: 6656
bytes, all bits from `index` on are 0. -/
def clear_from (buffer : List Nat) (index : Nat) : Prop :=
  buffer.length = 6656 ∧ is_bytes buffer ∧ ∀ k, index ≤ k → bit_at buffer k = false

/-- The two buffers hold the same bits below `limit`. -/
def same_below (buffer buffer' : List Nat) (limit : Nat) : Prop :=
  ∀ k, k < limit → bit_at buffer' k = bit_at buffer k

/-! ## Writers and what they leave on the stream

A writer takes a buffer and a bit index and returns the buffer after its
writes and the new bit index. The content of a writer is a partial description
of the bits it leaves: `some b` at offset `j` means that bit `index + j` is
`b` afterwards, `none` leaves the bit unspecified. -/

/-- The writer `W`, started on a track buffer that is clear from `index` on and
has room for `width + 8` more bits, succeeds, advances the bit index by
`width`, leaves the buffer clear from the new index on, changes no bit below
`index`, and leaves the bits described by `content`. -/
def writes (W : List Nat → Nat → Option (List Nat × Nat)) (width : Nat)
    (content : Nat → Option Bool) : Prop :=
  ∀ buffer index, clear_from buffer index → index + width + 8 ≤ 53248 →
    ∃ buf, W buffer index = some (buf, index + width) ∧ clear_from buf (index + width) ∧
      same_below buffer buf index ∧
      ∀ j b, j < width → content j = some b → bit_at buf (index + j) = b

/-- As `writes`, for a writer that may also set some of the 7 bits before
`index` (a value above 255 passed to `bits_write_byte`); nothing is said about
the bits it leaves. -/
def writes_dirty (W : List Nat → Nat → Option (List Nat × Nat)) (width : Nat) : Prop :=
  ∀ buffer index, clear_from buffer index → index + width + 8 ≤ 53248 →
    ∃ buf, W buffer index = some (buf, index + width) ∧ clear_from buf (index + width) ∧
      same_below buffer buf (index - 7)

/-- The content that specifies no bit. -/
def content_none : Nat → Option Bool := fun _ => none

/-- The content of one writer of width `width` followed by another. -/
def content_seq (width : Nat) (c₁ c₂ : Nat → Option Bool) : Nat → Option Bool :=
  fun j => if j < width then c₁ j else c₂ (j - width)

/-- The content of a sequence of bytes, most significant bit first. -/
def content_bytes (l : List Nat) : Nat → Option Bool :=
  fun j => if j < 8 * l.length then some ((l.getD (j / 8) 0).testBit (7 - j % 8)) else none

/-- The content of a sync word: eight 1-bits, then two 0-bits. -/
def content_sync : Nat → Option Bool :=
  fun j => if j < 8 then some true else if j < 10 then some false else none

/-- The content of a loop whose iteration `i` has width `width` and content
`c i`. -/
def content_loop (width : Nat) (c : Nat → Nat → Option Bool) : Nat → Option Bool :=
  fun j => c (j / width) (j % width)

/-- One writer after the other, as the `do` blocks of the embedding chain
them. -/
def writer_seq (W₁ W₂ : List Nat → Nat → Option (List Nat × Nat)) :
    List Nat → Nat → Option (List Nat × Nat) :=
  fun buffer index => (W₁ buffer index).bind (fun r => W₂ r.1 r.2)

/-- The content of a sequence of bytes followed by the content `c`. -/
def content_bytes_then (l : List Nat) (c : Nat → Option Bool) : Nat → Option Bool :=
  content_seq (8 * l.length) (content_bytes l) c

/-- The 14 bytes of the address field of physical sector `s` on track `t`:
prologue, volume 254, track, sector and checksum in 4-and-4 form, epilogue. -/
def address_field (t s : Nat) : List Nat :=
  [0xD5, 0xAA, 0x96,
    (254 >>> 1) ||| 0xAA, 254 ||| 0xAA,
    (t >>> 1) ||| 0xAA, t ||| 0xAA,
    (s >>> 1) ||| 0xAA, s ||| 0xAA,
    ((254 ^^^ t ^^^ s) >>> 1) ||| 0xAA, (254 ^^^ t ^^^ s) ||| 0xAA,
    0xDE, 0xAA, 0xEB]

/-- The 349 bytes of the data field of physical sector `s`: prologue, the
encoding of its logical sector, epilogue. -/
def data_field (src : List Nat) (sector_format : dsk_sector_format) (s : Nat) : List Nat :=
  [0xD5, 0xAA, 0xAD]
    ++ encode_6_and_2_result (src.drop (logical_sector sector_format s * BYTES_PER_SECTOR))
    ++ [0xDE, 0xAA, 0xEB]

/-- The content of the gap after the data field of physical sector `s`: 16
sync words, or one 0xFF byte after the last sector. -/
def gap_content (s : Nat) : Nat → Option Bool :=
  if s < 15 then content_loop 10 (fun _ => content_sync)
  else content_bytes_then [0xFF] content_none

/-- The content of physical sector `s`, given the content `header s` of its
sector header. -/
def sector_content (header : Nat → Nat → Option Bool) (src : List Nat)
    (sector_format : dsk_sector_format) (s : Nat) : Nat → Option Bool :=
  content_seq 182 (header s) (content_bytes_then (data_field src sector_format s) (gap_content s))

/-- The content of the sector header of sector `s` on a track `t < 256`: the
address field, then 7 sync words. -/
def header_content (t s : Nat) : Nat → Option Bool :=
  content_bytes_then (address_field t s) (content_loop 10 (fun _ => content_sync))

/-- A 4096-byte track payload used to instantiate the theorems: byte `i` is
`i mod 256`. -/
def sample_track : List Nat := (List.range 4096).map (fun i => i % 256)

/-! ## woz_image.c : the growable chunk buffer

`size_t` is 64 bits wide: the sizes that `verify_writable_buffer` computes are
taken modulo 2^64, as in the source. `calloc` is taken to succeed (the source
does not handle its failure). -/

/-- The macro `CHUNK_INITIAL_BUFFER`. -/
def CHUNK_INITIAL_BUFFER : Nat := 4096

/-- The block returned by a successful `calloc(n, 1)`: `n` zero bytes. -/
def calloc (n : Nat) : List Nat := List.replicate n 0

/-- The function `create_woz_chunk(name)`: `none` is the `NULL` it returns when
`malloc` of the struct (`malloc_ok = false`) or `calloc` of the data
(`calloc_ok = false`) fails. `name` is a string of at least 4 characters. -/
def create_woz_chunk (name : List Nat) (malloc_ok calloc_ok : Bool) : Option woz_chunk :=
  if !malloc_ok then none
  else if !calloc_ok then none
  else some
    { name := name.take 4
      mark := 0
      buffer_size := CHUNK_INITIAL_BUFFER
      data := calloc CHUNK_INITIAL_BUFFER }

/-- The function `verify_writable_buffer(chunk, min)`. The sums and the
product are `size_t` expressions and wrap modulo 2^64. `none` when the
`memcpy` of the old `buffer_size` bytes does not fit the new buffer. -/
def verify_writable_buffer (chunk : woz_chunk) (min : Nat) : Option woz_chunk :=
  if (chunk.mark + min) % 2 ^ 64 > chunk.buffer_size then
    let new_size := (chunk.buffer_size * 2) % 2 ^ 64
    let new_size :=
      if (chunk.mark + min) % 2 ^ 64 > new_size then (new_size + min) % 2 ^ 64 else new_size
    let new_buffer := calloc new_size
    (memcpy new_buffer 0 chunk.data chunk.buffer_size).map
      (fun new_buffer => { chunk with data := new_buffer, buffer_size := new_size })
  else some chunk

/-- The statement `chunk->data[chunk->mark++] = v`. -/
def chunk_put (chunk : woz_chunk) (v : Nat) : Option woz_chunk :=
  (store chunk.data chunk.mark v).map
    (fun data => { chunk with data := data, mark := chunk.mark + 1 })

/-- The function `chunk_write_uint8`; the argument is converted to `uint8_t`. -/
def chunk_write_uint8 (chunk : woz_chunk) (u8 : Nat) : Option woz_chunk := do
  let chunk ← verify_writable_buffer chunk 1
  chunk_put chunk (u8 % 256)

/-- The function `chunk_write_uint16`. -/
def chunk_write_uint16 (chunk : woz_chunk) (u16 : Nat) : Option woz_chunk := do
  let chunk ← verify_writable_buffer chunk 2
  let chunk ← chunk_put chunk (u16 &&& 0x00FF)
  chunk_put chunk ((u16 >>> 8) &&& 0x00FF)

/-- The function `chunk_write_uint32`. -/
def chunk_write_uint32 (chunk : woz_chunk) (u32 : Nat) : Option woz_chunk := do
  let chunk ← verify_writable_buffer chunk 4
  let chunk ← chunk_put chunk (u32 &&& 0x000000FF)
  let chunk ← chunk_put chunk ((u32 >>> 8) &&& 0x000000FF)
  let chunk ← chunk_put chunk ((u32 >>> 16) &&& 0x000000FF)
  chunk_put chunk ((u32 >>> 24) &&& 0x000000FF)

/-- The function `chunk_write_utf8(chunk, utf8string, n)` for `n ≥ 0`;
`utf8string` holds the characters before the terminating NUL, so that
`strlen` is its length. -/
def chunk_write_utf8 (chunk : woz_chunk) (utf8string : List Nat) (n : Nat) :
    Option woz_chunk := do
  let chunk ← verify_writable_buffer chunk n
  let len := utf8string.length
  let data ← for_loop n (fun data i =>
    if i < len then do
      let ch ← utf8string[i]?
      store data (chunk.mark + i) (ch % 256)
    else store data (chunk.mark + i) 0x20) chunk.data
  some { chunk with data := data, mark := chunk.mark + n }

/-- The function `chunk_write_bytes`. -/
def chunk_write_bytes (chunk : woz_chunk) (bytes : List Nat) (n : Nat) : Option woz_chunk := do
  let chunk ← verify_writable_buffer chunk n
  let data ← memcpy chunk.data chunk.mark bytes n
  some { chunk with data := data, mark := chunk.mark + n }

/-- The function `chunk_set_mark`. -/
def chunk_set_mark (chunk : woz_chunk) (mark : Nat) : Option woz_chunk :=
  if mark ≤ chunk.mark then some { chunk with mark := mark }
  else do
    let chunk ← verify_writable_buffer chunk (mark - chunk.mark)
    some { chunk with mark := mark }

/-- The function `chunk_advance_mark`: the `int` offset is converted to
`size_t` and added modulo 2^64. -/
def chunk_advance_mark (chunk : woz_chunk) (offset : Int) : Option woz_chunk :=
  let new_mark := (((chunk.mark : Int) + offset) % 2 ^ 64).toNat
  chunk_set_mark chunk new_mark

/-- The statements of a block one after the other, each a chunk operation. -/
def chunk_ops : List (woz_chunk → Option woz_chunk) → woz_chunk → Option woz_chunk
  | [], chunk => some chunk
  | op :: ops, chunk =>
    match op chunk with
    | none => none
    | some chunk => chunk_ops ops chunk

/-- The function `create_empty_woz_file`: `woz_ok` tells whether `malloc` of
the struct succeeds, the four pairs whether the two allocations of each
`create_woz_chunk` succeed. `none` is the `NULL` result. -/
def create_empty_woz_file (woz_ok : Bool) (info_ok tmap_ok trks_ok writ_ok : Bool × Bool) :
    Option woz_file :=
  if woz_ok then
    let woz : woz_file :=
      { info := create_woz_chunk [0x49, 0x4E, 0x46, 0x4F, 0] info_ok.1 info_ok.2
        tmap := create_woz_chunk [0x54, 0x4D, 0x41, 0x50, 0] tmap_ok.1 tmap_ok.2
        trks := create_woz_chunk [0x54, 0x52, 0x4B, 0x53, 0] trks_ok.1 trks_ok.2
        writ := create_woz_chunk [0x57, 0x52, 0x49, 0x54, 0] writ_ok.1 writ_ok.2 }
    if woz.info.isNone || woz.tmap.isNone || woz.writ.isNone then none else some woz
  else none

/-! ## main.c : tracks and the container built from them -/

/-- The macro `TRACKS_PER_DISK`. -/
def TRACKS_PER_DISK : Nat := 46

/-- The macro `BITS_BLOCKS_PER_TRACK`. -/
def BITS_BLOCKS_PER_TRACK : Nat := 13

/-- The macro `BITS_BLOCK_SIZE`. -/
def BITS_BLOCK_SIZE : Nat := 512

/-- The macro `BITS_TRACK_SIZE`. -/
def BITS_TRACK_SIZE : Nat := BITS_BLOCKS_PER_TRACK * BITS_BLOCK_SIZE

/-- The macro `CREATOR_NAME`, the characters of "PictureDSK". -/
def CREATOR_NAME : List Nat := [0x50, 0x69, 0x63, 0x74, 0x75, 0x72, 0x65, 0x44, 0x53, 0x4B]

/-- The struct `track_data`. -/
structure track_data where
  data_length : Nat
  block_count : Nat
  data : List Nat
  deriving DecidableEq, Repr

/-- The function `create_track_data(length)`, `calloc` succeeding. -/
def create_track_data (length : Nat) : track_data :=
  let block_count := length / BITS_BLOCK_SIZE
  let block_count := if length % BITS_BLOCK_SIZE > 0 then block_count + 1 else block_count
  { data_length := length, block_count := block_count, data := calloc length }

/-- Lines 146-147 of `main`: track 0 is created and filled by
`gcr_encode_bits_for_track`, whose return value is not used. -/
def main_track_0 (track_0 : List Nat) : Option track_data :=
  let track := create_track_data BITS_TRACK_SIZE
  (gcr_encode_bits_for_track track.data track_0 0 dsk_sector_format.dos_3_3).map
    (fun r => { track with data := r.1 })

/-- Lines 158-168 of `main` for one of the tracks 1 to 45: the track is created
and every byte is set to 0xFF or 0x96; `bright i` stands for the outcome of the
floating-point test `gray > 0.5` at byte `i`. -/
def main_image_track (bright : Nat → Bool) : Option track_data :=
  let track := create_track_data BITS_TRACK_SIZE
  (for_loop BITS_TRACK_SIZE
    (fun data track_byte_index =>
      store data track_byte_index (if bright track_byte_index then 0xFF else 0x96))
    track.data).map (fun data => { track with data := data })

/-- Lines 181-193 of `main`: the INFO chunk. -/
def main_build_info (info : woz_chunk) : Option woz_chunk :=
  chunk_ops
    [fun c => chunk_write_uint8 c 2,
     fun c => chunk_write_uint8 c 1,
     fun c => chunk_write_uint8 c 1,
     fun c => chunk_write_uint8 c 1,
     fun c => chunk_write_uint8 c 1,
     fun c => chunk_write_utf8 c CREATOR_NAME 32,
     fun c => chunk_write_uint8 c 1,
     fun c => chunk_write_uint8 c 1,
     fun c => chunk_write_uint8 c 32,
     fun c => chunk_write_uint16 c 0x7F,
     fun c => chunk_write_uint16 c 64,
     fun c => chunk_write_uint16 c BITS_BLOCKS_PER_TRACK] info

/-- Body of the loop of lines 205-212 of `main`; the state is the chunk and
`tmap_nominal_track`. -/
def main_tmap_step (state : woz_chunk × Nat) (i : Nat) : Option (woz_chunk × Nat) :=
  let tmap_nominal_track := if i % 3 = 0 then state.2 + 1 else state.2
  if tmap_nominal_track < TRACKS_PER_DISK then
    (chunk_write_uint8 state.1 tmap_nominal_track).map (fun c => (c, tmap_nominal_track))
  else
    (chunk_write_uint8 state.1 0xFF).map (fun c => (c, tmap_nominal_track))

/-- Lines 195-212 of `main`: the TMAP chunk. -/
def main_build_tmap (tmap : woz_chunk) : Option woz_chunk := do
  let tmap ← chunk_write_uint8 tmap 0
  let tmap ← chunk_write_uint8 tmap 0
  let tmap ← chunk_write_uint8 tmap 0xFF
  let tmap_nominal_track := 0
  let state ← for_loop_from main_tmap_step 157 3 (tmap, tmap_nominal_track)
  some state.1

/-- Body of the loop of lines 218-223 of `main`; the state is the chunk and the
`uint16_t starting_block`. -/
def main_trks_directory_step (tracks : List track_data) (state : woz_chunk × Nat) (i : Nat) :
    Option (woz_chunk × Nat) := do
  let track ← tracks[i]?
  let trks ← chunk_write_uint16 state.1 state.2
  let trks ← chunk_write_uint16 trks track.block_count
  let trks ← chunk_write_uint32 trks ((track.data_length % 2 ^ 32 * 8) % 2 ^ 32)
  some (trks, (state.2 + track.block_count) % 2 ^ 16)

/-- The conversion of a `size_t` value to `int`: the low 32 bits as a signed
number. -/
def size_t_to_int (x : Nat) : Int :=
  if x % 2 ^ 32 < 2 ^ 31 then ((x % 2 ^ 32 : Nat) : Int) else ((x % 2 ^ 32 : Nat) : Int) - 2 ^ 32

/-- Body of the loop of lines 225-229 of `main`. -/
def main_trks_data_step (tracks : List track_data) (trks : woz_chunk) (i : Nat) :
    Option woz_chunk := do
  let track ← tracks[i]?
  let trks ← chunk_write_bytes trks track.data track.data_length
  let empty_padding_length :=
    size_t_to_int ((track.block_count * BITS_BLOCK_SIZE + 2 ^ 64 - track.data_length) % 2 ^ 64)
  chunk_advance_mark trks empty_padding_length

/-- Lines 214-229 of `main`: the TRKS chunk. -/
def main_build_trks (tracks : List track_data) (trks : woz_chunk) : Option woz_chunk := do
  let starting_block := 3
  let state ← for_loop TRACKS_PER_DISK (main_trks_directory_step tracks) (trks, starting_block)
  let trks ← chunk_set_mark state.1 1280
  for_loop TRACKS_PER_DISK (main_trks_data_step tracks) trks

/-- Body of the loop of lines 233-250 of `main`; the state is the chunk and
`subtrack_index`. -/
def main_writ_step (tracks : List track_data) (state : woz_chunk × Nat) (i : Nat) :
    Option (woz_chunk × Nat) := do
  let track ← tracks[i]?
  let length_for_crc := (track.data_length + 7) / 8
  let crc ← woz_crc32 track.data length_for_crc
  let writ ← chunk_ops
    [fun c => chunk_write_uint8 c state.2,
     fun c => chunk_write_uint8 c 1,
     fun c => chunk_write_uint8 c 0x01,
     fun c => chunk_write_uint8 c 0,
     fun c => chunk_write_uint32 c crc,
     fun c => chunk_write_uint32 c 0,
     fun c => chunk_write_uint32 c ((track.data_length % 2 ^ 32 * 8) % 2 ^ 32),
     fun c => chunk_write_uint8 c 0x00,
     fun c => chunk_write_uint8 c 0,
     fun c => chunk_write_uint8 c 0,
     fun c => chunk_write_uint8 c 0] state.1
  some (writ, state.2 + (if i = 0 then 4 else 3))

/-- Lines 231-250 of `main`: the WRIT chunk. -/
def main_build_writ (tracks : List track_data) (writ : woz_chunk) : Option woz_chunk := do
  let subtrack_index := 0
  let state ← for_loop TRACKS_PER_DISK (main_writ_step tracks) (writ, subtrack_index)
  some state.1

/-- Lines 175-250 of `main`: the container built from the 46 tracks, all
allocations succeeding. -/
def main_build_woz (tracks : List track_data) : Option woz_file := do
  let woz ← create_empty_woz_file true (true, true) (true, true) (true, true) (true, true)
  let info ← woz.info
  let info ← main_build_info info
  let tmap ← woz.tmap
  let tmap ← main_build_tmap tmap
  let trks ← woz.trks
  let trks ← main_build_trks tracks trks
  let writ ← woz.writ
  let writ ← main_build_writ tracks writ
  some { info := some info, tmap := some tmap, trks := some trks, writ := some writ }

/-- Lines 175-257 of `main`: the bytes that `main` hands to `fwrite`. -/
def main_woz_file (tracks : List track_data) (junk : Nat → Nat) : Option (List Nat) := do
  let woz ← main_build_woz tracks
  write_woz_to_file woz junk

/-- The payload of a chunk: the bytes below its mark. -/
def woz_chunk.payload (chunk : woz_chunk) : List Nat := chunk.data.take chunk.mark

/-- Every allocated byte at or above the mark is zero. -/
def woz_chunk.zero_tail (chunk : woz_chunk) : Prop :=
  ∀ i, chunk.mark ≤ i → chunk.data.getD i 0 = 0

/-- The chunk is well formed, has the tag `name`, holds exactly `payload` below
its mark and zeros above. -/
def woz_chunk.holds (chunk : woz_chunk) (name payload : List Nat) : Prop :=
  chunk.valid ∧ chunk.zero_tail ∧ chunk.name = name ∧ chunk.payload = payload

/-- The chunk holds `payload` and its buffer is no larger than the growth
policy of `verify_writable_buffer` makes it when the mark only moves forward:
the initial size, or at most twice the mark. -/
def woz_chunk.built (chunk : woz_chunk) (name payload : List Nat) : Prop :=
  chunk.holds name payload ∧ chunk.buffer_size ≤ 2 * chunk.mark + CHUNK_INITIAL_BUFFER

/-- The operation `op`, run on a chunk built up to `payload`, succeeds and
leaves a chunk built up to `payload ++ delta`, as long as the new payload is
shorter than 2^60 bytes (so that no size wraps). -/
def appends (op : woz_chunk → Option woz_chunk) (delta : List Nat) : Prop :=
  ∀ chunk name payload, chunk.built name payload → (payload ++ delta).length < 2 ^ 60 →
    ∃ c, op chunk = some c ∧ c.built name (payload ++ delta)

/-- The `n` bytes that `chunk_write_utf8` writes for the text `utf8string`:
its characters, cut or padded with spaces to `n` bytes. -/
def utf8_field (utf8string : List Nat) (n : Nat) : List Nat :=
  (List.range n).map (fun i => if i < utf8string.length then utf8string.getD i 0 % 256 else 0x20)

/-- Lines 143-169 of `main`: the 46 tracks. Track 0 is encoded from `track_0`;
`bright i j` stands for the outcome of the test `gray > 0.5` for byte `j` of
track `i`. -/
def main_tracks (track_0 : List Nat) (bright : Nat → Nat → Bool) : Option (List track_data) := do
  let track ← main_track_0 track_0
  for_loop_from (fun tracks i => (main_image_track (bright i)).map (fun t => tracks ++ [t]))
    (TRACKS_PER_DISK - 1) 1 [track]

/-- A track as `create_track_data(BITS_TRACK_SIZE)` makes it: 6656 bytes in 13
blocks. -/
def track_data.full (t : track_data) : Prop :=
  t.data_length = BITS_TRACK_SIZE ∧ t.block_count = BITS_BLOCKS_PER_TRACK ∧
    t.data.length = BITS_TRACK_SIZE

/-- The array `tracks` as the container code of `main` finds it: 46 tracks of
6656 bytes each. -/
def main_track_list (tracks : List track_data) : Prop :=
  tracks.length = TRACKS_PER_DISK ∧ ∀ t, t ∈ tracks → t.full

/-- The bytes of `tracks[i]->data`. -/
def track_bytes (tracks : List track_data) (i : Nat) : List Nat :=
  match tracks[i]? with
  | some t => t.data
  | none => []

/-- The records `f 0`, `f 1`, ..., `f (n - 1)` one after the other. -/
def records (f : Nat → List Nat) : Nat → List Nat
  | 0 => []
  | n + 1 => records f n ++ f n

/-- The 46 bytes of the INFO payload. -/
def info_payload : List Nat :=
  [2, 1, 1, 1, 1,
   0x50, 0x69, 0x63, 0x74, 0x75, 0x72, 0x65, 0x44, 0x53, 0x4B,
   0x20, 0x20, 0x20, 0x20, 0x20, 0x20, 0x20, 0x20, 0x20, 0x20, 0x20,
   0x20, 0x20, 0x20, 0x20, 0x20, 0x20, 0x20, 0x20, 0x20, 0x20, 0x20,
   1, 1, 32, 0x7F, 0, 64, 0, 13, 0]

/-- Entry `i` of the TMAP payload, for `i ≥ 3`. -/
def tmap_entry (i : Nat) : Nat := if i / 3 < 46 then i / 3 else 0xFF

/-- The TMAP payload. -/
def tmap_payload : List Nat := [0, 0, 0xFF] ++ records (fun k => [tmap_entry (k + 3)]) 157

/-- Directory record `i` of the TRKS payload. -/
def trks_record (i : Nat) : List Nat :=
  [(3 + 13 * i) % 256, (3 + 13 * i) / 256 % 256, 13, 0] ++ le32 53248

/-- The TRKS payload. -/
def trks_payload (tracks : List track_data) : List Nat :=
  records trks_record 46 ++ List.replicate 912 0 ++ records (track_bytes tracks) 46

/-- The subtrack index of WRIT record `i`. -/
def writ_subtrack (i : Nat) : Nat := if i = 0 then 0 else 3 * i + 1

/-- The checksum that `main` computes for track `i`: `woz_crc32` over
`(data_length + 7) / 8 = 832` bytes. -/
def writ_checksum (tracks : List track_data) (i : Nat) : Nat :=
  (woz_crc32 (track_bytes tracks i) 832).getD 0

/-- WRIT record `i`. -/
def writ_record (tracks : List track_data) (i : Nat) : List Nat :=
  [writ_subtrack i, 1, 1, 0] ++ le32 (writ_checksum tracks i) ++ le32 0 ++ le32 53248
    ++ [0, 0, 0, 0]

/-- The WRIT payload. -/
def writ_payload (tracks : List track_data) : List Nat := records (writ_record tracks) 46

/-- The tags of the four chunks. -/
def INFO_TAG : List Nat := [0x49, 0x4E, 0x46, 0x4F]
def TMAP_TAG : List Nat := [0x54, 0x4D, 0x41, 0x50]
def TRKS_TAG : List Nat := [0x54, 0x52, 0x4B, 0x53]
def WRIT_TAG : List Nat := [0x57, 0x52, 0x49, 0x54]

/-- Forty-six tracks filled with 0x96, the byte `main` stores for a dark
sample. -/
def sample_tracks : List track_data :=
  List.replicate 46 { data_length := 6656, block_count := 13, data := List.replicate 6656 0x96 }

/-- The capacity that `verify_writable_buffer(chunk, min)` leaves in
`chunk->buffer_size`, as a function of the capacity and the mark before. -/
def grown_size (buffer_size mark min : Nat) : Nat :=
  if (mark + min) % 2 ^ 64 > buffer_size then
    (if (mark + min) % 2 ^ 64 > (buffer_size * 2) % 2 ^ 64
      then ((buffer_size * 2) % 2 ^ 64 + min) % 2 ^ 64 else (buffer_size * 2) % 2 ^ 64)
  else buffer_size

/-- The chunk `c` is what a write of `n` bytes at the mark makes of `chunk`:
it is well formed, keeps the tag, has the mark advanced by `n` and the capacity
left by `verify_writable_buffer`, and holds at every index outside the `n`
written bytes what `chunk` held there, an index past the end of `chunk`'s
buffer counting as holding 0. -/
def woz_chunk.written (chunk c : woz_chunk) (n : Nat) : Prop :=
  c.valid ∧ c.name = chunk.name ∧ c.mark = chunk.mark + n ∧
    c.buffer_size = grown_size chunk.buffer_size chunk.mark n ∧
    ∀ i, i < chunk.mark ∨ chunk.mark + n ≤ i → c.data.getD i 0 = chunk.data.getD i 0

/-- The outcome of the brightness test for a wholly dark image. -/
def dark_image : Nat → Nat → Bool := fun _ _ => false

/-- The continuation `rest` applied to the accumulator `crc`, once `crc` has
been evaluated. -/
def crc_strict_next (crc : Nat) (rest : Nat → Nat) : Nat :=
  match crc with
  | 0 => rest 0
  | k + 1 => rest (k + 1)

/-- The bit-by-bit CRC-32 accumulator after the bytes of a list, computed with
the accumulator evaluated after every byte. -/
def crc_strict : List Nat → Nat → Nat
  | [], crc => crc
  | b :: p, crc => crc_strict_next (crc32_reference_byte crc b) (fun crc => crc_strict p crc)

/-- The chunk `c` is `chunk` after a write of `n` bytes that made the buffer
grow: the capacity is larger, the mark has advanced by `n`, every byte below
the old mark reads as before, and every byte from the new mark on is zero. -/
def woz_chunk.kept_by_growth (chunk c : woz_chunk) (n : Nat) : Prop :=
  chunk.buffer_size < c.buffer_size ∧ c.data.length = c.buffer_size ∧
    c.mark = chunk.mark + n ∧
    (∀ i, i < chunk.mark → c.data[i]? = chunk.data[i]?) ∧
    (∀ i, c.mark ≤ i → i < c.buffer_size → c.data[i]? = some 0)

/-- The 46 tracks that `main` builds for the sample DOS payload and a wholly
dark image. -/
def dark_disk_tracks : List track_data := (main_tracks sample_track dark_image).getD []

/-- The chunks that `create_woz_chunk` and the operations that never move the
mark back produce: the five write operations, `chunk_set_mark` to a position
at or after the mark, and `chunk_advance_mark` by a non-negative offset that
does not take the mark past 2^64 (where it would wrap to a lower position).
Each step is a call that returns; nothing is assumed on the sizes. -/
inductive append_reachable : woz_chunk → Prop where
  | create (name : List Nat) (c : woz_chunk) :
      4 ≤ name.length → create_woz_chunk name true true = some c → append_reachable c
  | write_uint8 (chunk c : woz_chunk) (u8 : Nat) :
      append_reachable chunk → chunk_write_uint8 chunk u8 = some c → append_reachable c
  | write_uint16 (chunk c : woz_chunk) (u16 : Nat) :
      append_reachable chunk → chunk_write_uint16 chunk u16 = some c → append_reachable c
  | write_uint32 (chunk c : woz_chunk) (u32 : Nat) :
      append_reachable chunk → chunk_write_uint32 chunk u32 = some c → append_reachable c
  | write_utf8 (chunk c : woz_chunk) (utf8string : List Nat) (n : Nat) :
      append_reachable chunk → chunk_write_utf8 chunk utf8string n = some c →
      append_reachable c
  | write_bytes (chunk c : woz_chunk) (bytes : List Nat) (n : Nat) :
      append_reachable chunk → n ≤ bytes.length → chunk_write_bytes chunk bytes n = some c →
      append_reachable c
  | set_mark (chunk c : woz_chunk) (mark : Nat) :
      append_reachable chunk → chunk.mark ≤ mark → chunk_set_mark chunk mark = some c →
      append_reachable c
  | advance_mark (chunk c : woz_chunk) (offset : Int) :
      append_reachable chunk → 0 ≤ offset → (chunk.mark : Int) + offset < 2 ^ 64 →
      chunk_advance_mark chunk offset = some c → append_reachable c

/-- The chunk that `create_woz_chunk("TRKS")` returns. -/
def fresh_trks : woz_chunk :=
  ⟨[0x54, 0x52, 0x4B, 0x53], 0, CHUNK_INITIAL_BUFFER, calloc CHUNK_INITIAL_BUFFER⟩

/-- A 256-byte sector used to instantiate the theorems: byte 0 is 1, the others
are 0. -/
def sample_sector : List Nat := 1 :: List.replicate 255 0

/-- The chunk that `create_woz_chunk("TRKS")` returns after
`chunk_write_uint16(trks, 0xAAD5)`: two bytes written, mark 2. -/
def written_trks : woz_chunk :=
  ⟨[0x54, 0x52, 0x4B, 0x53], 2, CHUNK_INITIAL_BUFFER, 0xD5 :: 0xAA :: List.replicate 4094 0⟩

/-- The chunk `written_trks` after `chunk_set_mark(trks, 1)`: the mark has
been moved back, the byte 0xAA written before is now in front of it. -/
def rewound_trks : woz_chunk :=
  ⟨[0x54, 0x52, 0x4B, 0x53], 1, CHUNK_INITIAL_BUFFER, 0xD5 :: 0xAA :: List.replicate 4094 0⟩

/-- The chunks that `create_woz_chunk` and any sequence of chunk operations
produce, each step being a call that returns. -/
inductive chunk_reachable : woz_chunk → Prop where
  | create (name : List Nat) (c : woz_chunk) :
      4 ≤ name.length → create_woz_chunk name true true = some c → chunk_reachable c
  | write_uint8 (chunk c : woz_chunk) (u8 : Nat) :
      chunk_reachable chunk → chunk_write_uint8 chunk u8 = some c → chunk_reachable c
  | write_uint16 (chunk c : woz_chunk) (u16 : Nat) :
      chunk_reachable chunk → chunk_write_uint16 chunk u16 = some c → chunk_reachable c
  | write_uint32 (chunk c : woz_chunk) (u32 : Nat) :
      chunk_reachable chunk → chunk_write_uint32 chunk u32 = some c → chunk_reachable c
  | write_utf8 (chunk c : woz_chunk) (utf8string : List Nat) (n : Nat) :
      chunk_reachable chunk → chunk_write_utf8 chunk utf8string n = some c →
      chunk_reachable c
  | write_bytes (chunk c : woz_chunk) (bytes : List Nat) (n : Nat) :
      chunk_reachable chunk → chunk_write_bytes chunk bytes n = some c → chunk_reachable c
  | set_mark (chunk c : woz_chunk) (mark : Nat) :
      chunk_reachable chunk → chunk_set_mark chunk mark = some c → chunk_reachable c
  | advance_mark (chunk c : woz_chunk) (offset : Int) :
      chunk_reachable chunk → chunk_advance_mark chunk offset = some c → chunk_reachable c

/-- The chunk `c` comes from `base` by calls that returned and did not lower
the mark: same tag, a buffer of `buffer_size` bytes that is not smaller, a
mark at or after that of `base`, and from its mark on the bytes that `base`
had there, an index past the end of a buffer counting as holding 0. -/
def woz_chunk.follows (base c : woz_chunk) : Prop :=
  c.name = base.name ∧ c.data.length = c.buffer_size ∧ base.mark ≤ c.mark ∧
    (∀ i, c.mark ≤ i → c.data.getD i 0 = base.data.getD i 0) ∧
    base.buffer_size ≤ c.buffer_size


/-! ## CRC-32: the table against the bit-by-bit reference -/

set_option maxRecDepth 100000 in
theorem crc32_tab_eq_map :
    crc32_tab = (List.range 256).map (fun i => crc32_bit_step^[8] i) := by
  rfl

theorem crc32_tab_getElem? (i : Nat) (h : i < 256) :
    crc32_tab[i]? = some (crc32_bit_step^[8] i) := by
  rw [crc32_tab_eq_map, List.getElem?_map, List.getElem?_range h]
  rfl

theorem crc32_bit_step_xor (a b : Nat) :
    crc32_bit_step (a ^^^ b) = crc32_bit_step a ^^^ crc32_bit_step b := by
  unfold crc32_bit_step
  have hs : (a ^^^ b) >>> 1 = (a >>> 1) ^^^ (b >>> 1) := by
    simp only [Nat.shiftRight_one, Nat.xor_div_two]
  have hx := @Nat.xor_mod_two_eq_one a b
  rcases Nat.mod_two_eq_zero_or_one a with ha | ha <;>
    rcases Nat.mod_two_eq_zero_or_one b with hb | hb
  · have hab : ¬ ((a ^^^ b) % 2 = 1) := by rw [hx]; omega
    simp only [ha, hb, hab, hs, if_false, Nat.zero_ne_one]
  · have hab : (a ^^^ b) % 2 = 1 := by rw [hx]; omega
    simp only [ha, hb, hab, hs, if_true, if_false, Nat.zero_ne_one, Nat.xor_assoc]
  · have hab : (a ^^^ b) % 2 = 1 := by rw [hx]; omega
    simp only [ha, hb, hab, hs, if_true, if_false, Nat.zero_ne_one]
    rw [Nat.xor_assoc, Nat.xor_assoc, Nat.xor_comm 0xEDB88320]
  · have hab : ¬ ((a ^^^ b) % 2 = 1) := by rw [hx]; omega
    simp only [ha, hb, hab, hs, if_true, if_false]
    rw [Nat.xor_assoc, ← Nat.xor_assoc 0xEDB88320, Nat.xor_comm 0xEDB88320 (b >>> 1),
      Nat.xor_assoc (b >>> 1), Nat.xor_self, Nat.xor_zero]

theorem crc32_bit_step_iterate_xor (n a b : Nat) :
    crc32_bit_step^[n] (a ^^^ b) = crc32_bit_step^[n] a ^^^ crc32_bit_step^[n] b := by
  induction n generalizing a b with
  | zero => rfl
  | succ n ih =>
    simp only [Function.iterate_succ_apply]
    rw [crc32_bit_step_xor, ih]

theorem crc32_bit_step_iterate_shift (n x : Nat) :
    crc32_bit_step^[n] (x <<< n) = x := by
  induction n generalizing x with
  | zero => simp
  | succ n ih =>
    rw [Function.iterate_succ_apply]
    have h0 : (x <<< (n + 1)) % 2 = 0 := by
      rw [Nat.shiftLeft_eq, Nat.pow_succ, ← Nat.mul_assoc]
      exact Nat.mul_mod_left _ _
    have h1 : crc32_bit_step (x <<< (n + 1)) = x <<< n := by
      unfold crc32_bit_step
      rw [if_neg (by omega)]
      rw [Nat.shiftLeft_eq, Nat.shiftLeft_eq, Nat.shiftRight_one, Nat.pow_succ, ← Nat.mul_assoc]
      exact Nat.mul_div_cancel _ (by decide)
    rw [h1, ih]

theorem split_low_byte (x : Nat) : x = (x &&& 0xFF) ^^^ ((x >>> 8) <<< 8) := by
  apply Nat.eq_of_testBit_eq
  intro i
  have h255 : (0xFF : Nat) = 2 ^ 8 - 1 := by decide
  rw [Nat.testBit_xor, Nat.testBit_and, h255, Nat.testBit_two_pow_sub_one,
    Nat.testBit_shiftLeft, Nat.testBit_shiftRight]
  by_cases h : i < 8
  · have h2 : ¬ (i ≥ 8) := by omega
    simp [h, h2]
  · have h2 : i ≥ 8 := by omega
    have h3 : 8 + (i - 8) = i := by omega
    simp [h, h2, h3]

/-- Eight bit steps split into a table entry for the low byte and the
accumulator shifted right by 8. -/
theorem crc32_bit_step_eight (x : Nat) :
    crc32_bit_step^[8] x = crc32_bit_step^[8] (x &&& 0xFF) ^^^ (x >>> 8) := by
  conv => lhs; rw [split_low_byte x]
  rw [crc32_bit_step_iterate_xor, crc32_bit_step_iterate_shift]

theorem xor_byte_shiftRight (crc b : Nat) (hb : b < 256) :
    (crc ^^^ b) >>> 8 = crc >>> 8 := by
  apply Nat.eq_of_testBit_eq
  intro i
  rw [Nat.testBit_shiftRight, Nat.testBit_shiftRight, Nat.testBit_xor]
  have : b.testBit (8 + i) = false :=
    Nat.testBit_lt_two_pow (Nat.lt_of_lt_of_le hb (by
      calc 256 = 2 ^ 8 := by decide
        _ ≤ 2 ^ (8 + i) := Nat.pow_le_pow_right (by decide) (by omega)))
  simp [this]

theorem woz_crc32_loop_eq (bytes : List Nat) (hb : is_bytes bytes) (crc : Nat) :
    woz_crc32_loop bytes bytes.length crc = some (bytes.foldl crc32_reference_byte crc) := by
  induction bytes generalizing crc with
  | nil => rfl
  | cons b p ih =>
    have hb0 : b < 256 := hb b (List.mem_cons_self _ _)
    have hp : is_bytes p := fun x hx => hb x (List.mem_cons_of_mem _ hx)
    have hidx : (crc ^^^ b) &&& 0xFF < 256 :=
      Nat.and_lt_two_pow _ (by decide : (0xFF : Nat) < 2 ^ 8)
    simp only [List.length_cons, woz_crc32_loop, crc32_tab_getElem? _ hidx, Option.bind_eq_bind,
      Option.some_bind, List.foldl_cons]
    rw [ih hp]
    congr 2
    unfold crc32_reference_byte
    rw [crc32_bit_step_eight (crc ^^^ b), xor_byte_shiftRight crc b hb0]

/-- C6. For every byte sequence the table-driven `woz_crc32` returns the
bit-by-bit reflected CRC-32 of the sequence, and each of the 256 entries
`crc32_tab[i]` is the result of eight shift/XOR steps applied to `i`. -/
theorem woz_crc32_refines_reference (bytes : List Nat) (hb : is_bytes bytes) :
    woz_crc32 bytes bytes.length = some (crc32_reference bytes) ∧
    ∀ i, i < 256 → crc32_tab[i]? = some (crc32_bit_step^[8] i) := by
  refine ⟨?_, crc32_tab_getElem?⟩
  unfold woz_crc32 crc32_reference
  rw [woz_crc32_loop_eq bytes hb]
  rfl

theorem woz_crc32_refines_reference_witness :
    is_bytes [0x57, 0x4F, 0x5A] ∧
    (woz_crc32 [0x57, 0x4F, 0x5A] [0x57, 0x4F, 0x5A].length
        = some (crc32_reference [0x57, 0x4F, 0x5A]) ∧
      ∀ i, i < 256 → crc32_tab[i]? = some (crc32_bit_step^[8] i)) :=
  ⟨by decide, woz_crc32_refines_reference [0x57, 0x4F, 0x5A] (by decide)⟩

set_option maxRecDepth 100000 in
/-- C5. `woz_crc32` applied to the nine ASCII bytes "123456789" returns
`0xCBF43926`. -/
theorem woz_crc32_check_vector :
    woz_crc32 [0x31, 0x32, 0x33, 0x34, 0x35, 0x36, 0x37, 0x38, 0x39] 9 = some 0xCBF43926 := by
  decide

/-! ## Checked accesses on a buffer split into parts -/

theorem exists_split (l : List Nat) (a b : Nat) (h : l.length = a + b) :
    ∃ l₁ l₂, l = l₁ ++ l₂ ∧ l₁.length = a ∧ l₂.length = b := by
  refine ⟨l.take a, l.drop a, (List.take_append_drop a l).symm, ?_, ?_⟩
  · rw [List.length_take]; omega
  · rw [List.length_drop]; omega

theorem exists_cons (l : List Nat) (n : Nat) (h : l.length = n + 1) :
    ∃ x t, l = x :: t ∧ t.length = n := by
  cases l with
  | nil => simp at h
  | cons x t => exact ⟨x, t, rfl, by simpa using h⟩

theorem store_mid (pre rest : List Nat) (x i v : Nat) (hi : pre.length = i) :
    store (pre ++ x :: rest) i v = some (pre ++ v :: rest) := by
  subst hi
  unfold store
  rw [if_pos (by simp)]
  simp

theorem memcpy_mid (pre mid rest src : List Nat) (off n : Nat) (hoff : pre.length = off)
    (hmid : mid.length = n) (hsrc : n ≤ src.length) :
    memcpy (pre ++ mid ++ rest) off src n = some (pre ++ src.take n ++ rest) := by
  subst hoff hmid
  unfold memcpy
  rw [if_pos (by simp; omega)]
  simp [List.take_append_eq_append_take, List.drop_append_eq_append_drop]

theorem le32_eq (n : Nat) :
    [n &&& 0xFF, n >>> 8 &&& 0xFF, n >>> 16 &&& 0xFF, n >>> 24 &&& 0xFF] = le32 n := by
  have h255 : (0xFF : Nat) = 2 ^ 8 - 1 := by decide
  simp only [h255, Nat.and_pow_two_sub_one_eq_mod, Nat.shiftRight_eq_div_pow, le32]

theorem length_le32 (n : Nat) : (le32 n).length = 4 := rfl

theorem read_le32_le32 (n : Nat) (h : n < 2 ^ 32) :
    read_le32 (n % 256) (n / 256 % 256) (n / 65536 % 256) (n / 16777216 % 256) = n := by
  unfold read_le32
  omega

theorem serialize_chunk_to_buffer_mid (chunk : woz_chunk) (hv : chunk.valid)
    (pre mid rest : List Nat) (off : Nat) (hoff : pre.length = off)
    (hmid : mid.length = 8 + chunk.mark) (hm : chunk.mark < 2 ^ 32) :
    serialize_chunk_to_buffer chunk (pre ++ mid ++ rest) off =
      some (pre ++ chunk_layout chunk ++ rest, 8 + chunk.mark) := by
  obtain ⟨hname, hdata, hmark⟩ := hv
  obtain ⟨m4, mid, rfl, h4, hmid⟩ := exists_split mid 4 (4 + chunk.mark) (by omega)
  obtain ⟨a, mid, rfl, hmid⟩ := exists_cons mid (3 + chunk.mark) (by omega)
  obtain ⟨b, mid, rfl, hmid⟩ := exists_cons mid (2 + chunk.mark) (by omega)
  obtain ⟨c, mid, rfl, hmid⟩ := exists_cons mid (1 + chunk.mark) (by omega)
  obtain ⟨d, md, rfl, hmd⟩ := exists_cons mid chunk.mark (by omega)
  · unfold serialize_chunk_to_buffer
    have e1 : pre ++ (m4 ++ a :: b :: c :: d :: md) ++ rest
        = pre ++ m4 ++ (a :: b :: c :: d :: md ++ rest) := by simp
    rw [e1, memcpy_mid pre m4 _ chunk.name off 4 hoff h4 (by omega)]
    have hn : chunk.name.take 4 = chunk.name := List.take_of_length_le (by omega)
    simp only [Option.bind_eq_bind, Option.some_bind, hn]
    have e2 : pre ++ chunk.name ++ (a :: b :: c :: d :: md ++ rest)
        = (pre ++ chunk.name) ++ a :: (b :: c :: d :: md ++ rest) := by simp
    rw [e2, store_mid _ _ _ _ _ (by simp; omega)]
    simp only [Option.some_bind]
    have e3 : ∀ v, (pre ++ chunk.name) ++ v :: (b :: c :: d :: md ++ rest)
        = (pre ++ chunk.name ++ [v]) ++ b :: (c :: d :: md ++ rest) := by intro v; simp
    rw [e3, store_mid _ _ _ _ _ (by simp; omega)]
    simp only [Option.some_bind]
    have e4 : ∀ v w, (pre ++ chunk.name ++ [v]) ++ w :: (c :: d :: md ++ rest)
        = (pre ++ chunk.name ++ [v, w]) ++ c :: (d :: md ++ rest) := by intro v w; simp
    rw [e4, store_mid _ _ _ _ _ (by simp; omega)]
    simp only [Option.some_bind]
    have e5 : ∀ v w x, (pre ++ chunk.name ++ [v, w]) ++ x :: (d :: md ++ rest)
        = (pre ++ chunk.name ++ [v, w, x]) ++ d :: (md ++ rest) := by intro v w x; simp
    rw [e5, store_mid _ _ _ _ _ (by simp; omega)]
    simp only [Option.some_bind]
    have e6 : ∀ v w x y, (pre ++ chunk.name ++ [v, w, x]) ++ y :: (md ++ rest)
        = (pre ++ chunk.name ++ [v, w, x, y]) ++ md ++ rest := by intro v w x y; simp
    rw [e6, memcpy_mid _ md rest chunk.data (off + 8) chunk.mark (by simp; omega) hmd (by omega)]
    simp only [Option.some_bind, le32_eq, chunk_layout]
    rw [Nat.mod_eq_of_lt (by omega)]
    simp [Nat.add_comm]

/-! ## write_woz_to_file -/

set_option maxRecDepth 100000 in
theorem crc32_tab_lt : ∀ t ∈ crc32_tab, t < 2 ^ 32 := by
  decide

set_option maxRecDepth 100000 in
theorem crc32_tab_length : crc32_tab.length = 256 := by
  rfl

theorem woz_crc32_loop_total (p : List Nat) (crc : Nat) (hc : crc < 2 ^ 32) :
    ∃ r, woz_crc32_loop p p.length crc = some r ∧ r < 2 ^ 32 := by
  induction p generalizing crc with
  | nil => exact ⟨crc, rfl, hc⟩
  | cons b p ih =>
    have hidx : (crc ^^^ b) &&& 0xFF < crc32_tab.length := by
      rw [crc32_tab_length]
      exact Nat.and_lt_two_pow _ (by decide : (0xFF : Nat) < 2 ^ 8)
    have ht : crc32_tab[(crc ^^^ b) &&& 0xFF] < 2 ^ 32 :=
      crc32_tab_lt _ (List.getElem_mem _)
    have hs : crc >>> 8 < 2 ^ 32 := by
      rw [Nat.shiftRight_eq_div_pow]
      exact Nat.lt_of_le_of_lt (Nat.div_le_self _ _) hc
    obtain ⟨r, hr, hlt⟩ := ih (crc32_tab[(crc ^^^ b) &&& 0xFF] ^^^ (crc >>> 8))
      (Nat.xor_lt_two_pow ht hs)
    refine ⟨r, ?_, hlt⟩
    simp only [List.length_cons, woz_crc32_loop, List.getElem?_eq_getElem hidx,
      Option.bind_eq_bind, Option.some_bind]
    exact hr

theorem woz_crc32_total (p : List Nat) :
    ∃ r, woz_crc32 p p.length = some r ∧ r < 2 ^ 32 := by
  obtain ⟨r, hr, hlt⟩ := woz_crc32_loop_total p 0xFFFFFFFF (by decide)
  refine ⟨r ^^^ 0xFFFFFFFF, ?_, Nat.xor_lt_two_pow hlt (by decide)⟩
  simp [woz_crc32, hr]

theorem length_chunk_layout (chunk : woz_chunk) (hv : chunk.valid) :
    (chunk_layout chunk).length = 8 + chunk.mark := by
  obtain ⟨hname, hdata, hmark⟩ := hv
  simp only [chunk_layout, List.length_append, hname, length_le32, List.length_take]
  omega

theorem chunk_size_on_disk_eq (chunk : woz_chunk) (h : chunk.mark < 2 ^ 32) :
    chunk_size_on_disk chunk = 8 + chunk.mark := by
  unfold chunk_size_on_disk
  rw [Nat.mod_eq_of_lt (by omega)]

theorem woz_total_file_size_eq (info tmap trks writ : woz_chunk)
    (h1 : info.mark < 2 ^ 32) (h2 : tmap.mark < 2 ^ 32) (h3 : trks.mark < 2 ^ 32)
    (h4 : writ.mark < 2 ^ 32) :
    woz_total_file_size info tmap trks writ
      = 12 + ((8 + info.mark) + ((8 + tmap.mark) + ((8 + trks.mark) + (8 + writ.mark)))) := by
  simp only [woz_total_file_size, WOZ_HEADER_SIZE, chunk_size_on_disk_eq, h1, h2, h3, h4]
  rw [Nat.mod_eq_of_lt (a := 12 + (8 + info.mark)) (by omega),
    Nat.mod_eq_of_lt (a := 12 + (8 + info.mark) + (8 + tmap.mark)) (by omega),
    Nat.mod_eq_of_lt (a := 12 + (8 + info.mark) + (8 + tmap.mark) + (8 + trks.mark)) (by omega),
    Nat.mod_eq_of_lt (by omega)]
  omega

theorem write_woz_magic_eq (H rest : List Nat) (hH : H.length = 8) :
    write_woz_magic (H ++ rest) = some (woz_magic ++ rest) := by
  obtain ⟨j0, H, rfl, hH0⟩ := exists_cons H 7 hH
  obtain ⟨j1, H, rfl, hH1⟩ := exists_cons H 6 hH0
  obtain ⟨j2, H, rfl, hH2⟩ := exists_cons H 5 hH1
  obtain ⟨j3, H, rfl, hH3⟩ := exists_cons H 4 hH2
  obtain ⟨j4, H, rfl, hH4⟩ := exists_cons H 3 hH3
  obtain ⟨j5, H, rfl, hH5⟩ := exists_cons H 2 hH4
  obtain ⟨j6, H, rfl, hH6⟩ := exists_cons H 1 hH5
  obtain ⟨j7, H, rfl, hH7⟩ := exists_cons H 0 hH6
  obtain rfl : H = [] := List.length_eq_zero.mp hH7
  simp [write_woz_magic, store, woz_magic]

theorem write_woz_chunks_eq (info tmap trks writ : woz_chunk)
    (v1 : info.valid) (v2 : tmap.valid) (v3 : trks.valid) (v4 : writ.valid)
    (h1 : info.mark < 2 ^ 32) (h2 : tmap.mark < 2 ^ 32) (h3 : trks.mark < 2 ^ 32)
    (h4 : writ.mark < 2 ^ 32) (H A B C D : List Nat) (hH : H.length = 12)
    (hA : A.length = 8 + info.mark) (hB : B.length = 8 + tmap.mark)
    (hC : C.length = 8 + trks.mark) (hD : D.length = 8 + writ.mark) :
    write_woz_chunks info tmap trks writ (H ++ (A ++ (B ++ (C ++ D))))
      = some (H ++ (chunk_layout info ++ chunk_layout tmap
          ++ chunk_layout trks ++ chunk_layout writ)) := by
  simp only [write_woz_chunks, Option.bind_eq_bind]
  have e1 : H ++ (A ++ (B ++ (C ++ D))) = H ++ A ++ (B ++ (C ++ D)) := by simp
  rw [e1, serialize_chunk_to_buffer_mid info v1 _ A _ WOZ_HEADER_SIZE hH hA h1]
  simp only [Option.bind_eq_bind, Option.some_bind]
  have e2 : H ++ chunk_layout info ++ (B ++ (C ++ D))
      = (H ++ chunk_layout info) ++ B ++ (C ++ D) := by simp
  rw [e2, serialize_chunk_to_buffer_mid tmap v2 _ B _ _ (by
    simp only [List.length_append, length_chunk_layout, v1, WOZ_HEADER_SIZE, hH]
    omega) hB h2]
  simp only [Option.bind_eq_bind, Option.some_bind]
  have e3 : (H ++ chunk_layout info) ++ chunk_layout tmap ++ (C ++ D)
      = ((H ++ chunk_layout info) ++ chunk_layout tmap) ++ C ++ D := by simp
  rw [e3, serialize_chunk_to_buffer_mid trks v3 _ C _ _ (by
    simp only [List.length_append, length_chunk_layout, v1, v2, WOZ_HEADER_SIZE, hH]
    omega) hC h3]
  simp only [Option.bind_eq_bind, Option.some_bind]
  have e4 : ∀ X : List Nat, X ++ D = X ++ D ++ [] := by intro X; simp
  rw [e4, serialize_chunk_to_buffer_mid writ v4 _ D _ _ (by
    simp only [List.length_append, length_chunk_layout, v1, v2, v3, WOZ_HEADER_SIZE, hH]
    omega) hD h4]
  simp

theorem write_woz_crc_eq (K body : List Nat) (hK : K.length = 4) (total crc : Nat)
    (htot : total = 12 + body.length) (hlt : total < 2 ^ 64)
    (hcrc : woz_crc32 body body.length = some crc) :
    write_woz_crc (woz_magic ++ K ++ body) total = some (woz_magic ++ le32 crc ++ body) := by
  obtain ⟨j8, K, rfl, hK0⟩ := exists_cons K 3 hK
  obtain ⟨j9, K, rfl, hK1⟩ := exists_cons K 2 hK0
  obtain ⟨j10, K, rfl, hK2⟩ := exists_cons K 1 hK1
  obtain ⟨j11, K, rfl, hK3⟩ := exists_cons K 0 hK2
  obtain rfl : K = [] := List.length_eq_zero.mp hK3
  unfold write_woz_crc
  have hd : (woz_magic ++ [j8, j9, j10, j11] ++ body).drop WOZ_HEADER_SIZE = body := by
    simp [woz_magic, WOZ_HEADER_SIZE]
  have hsz : (total + 2 ^ 64 - WOZ_HEADER_SIZE) % 2 ^ 64 = body.length := by
    rw [WOZ_HEADER_SIZE]
    omega
  rw [hd, hsz, hcrc]
  simp only [Option.bind_eq_bind, Option.some_bind]
  rw [← le32_eq]
  simp [store, woz_magic]

theorem exists_split_six (J : List Nat) (a b c d e f : Nat)
    (hJ : J.length = a + (b + (c + (d + (e + f))))) :
    ∃ H K A B C D, J = H ++ (K ++ (A ++ (B ++ (C ++ D)))) ∧ H.length = a ∧ K.length = b ∧
      A.length = c ∧ B.length = d ∧ C.length = e ∧ D.length = f := by
  obtain ⟨H, J1, e1, hH, hJ1⟩ := exists_split J a _ hJ
  obtain ⟨K, J2, e2, hK, hJ2⟩ := exists_split J1 b _ hJ1
  obtain ⟨A, J3, e3, hA, hJ3⟩ := exists_split J2 c _ hJ2
  obtain ⟨B, J4, e4, hB, hJ4⟩ := exists_split J3 d _ hJ3
  obtain ⟨C, D, e5, hC, hD⟩ := exists_split J4 e _ hJ4
  exact ⟨H, K, A, B, C, D, by rw [e1, e2, e3, e4, e5], hH, hK, hA, hB, hC, hD⟩

/-- The buffer assembled by `write_woz_to_file`, with the checksum named. -/
theorem write_woz_to_file_eq (info tmap trks writ : woz_chunk)
    (v1 : info.valid) (v2 : tmap.valid) (v3 : trks.valid) (v4 : writ.valid)
    (h1 : info.mark < 2 ^ 32) (h2 : tmap.mark < 2 ^ 32) (h3 : trks.mark < 2 ^ 32)
    (h4 : writ.mark < 2 ^ 32) (junk : Nat → Nat) :
    ∃ crc, crc < 2 ^ 32 ∧
      woz_crc32 (chunk_layout info ++ chunk_layout tmap ++ chunk_layout trks ++ chunk_layout writ)
        (chunk_layout info ++ chunk_layout tmap ++ chunk_layout trks
          ++ chunk_layout writ).length = some crc ∧
      write_woz_to_file ⟨some info, some tmap, some trks, some writ⟩ junk =
        some (woz_magic ++ le32 crc ++ (chunk_layout info ++ chunk_layout tmap
          ++ chunk_layout trks ++ chunk_layout writ)) := by
  obtain ⟨crc, hcrc, hlt⟩ := woz_crc32_total
    (chunk_layout info ++ chunk_layout tmap ++ chunk_layout trks ++ chunk_layout writ)
  refine ⟨crc, hlt, hcrc, ?_⟩
  have hlen : (chunk_layout info ++ chunk_layout tmap ++ chunk_layout trks
      ++ chunk_layout writ).length
      = (8 + info.mark) + ((8 + tmap.mark) + ((8 + trks.mark) + (8 + writ.mark))) := by
    simp only [List.length_append, length_chunk_layout, v1, v2, v3, v4]
    omega
  have htot := woz_total_file_size_eq info tmap trks writ h1 h2 h3 h4
  have hJ : (malloc (woz_total_file_size info tmap trks writ) junk).length
      = 8 + (4 + ((8 + info.mark) + ((8 + tmap.mark) + ((8 + trks.mark) + (8 + writ.mark))))) := by
    simp only [malloc, List.length_map, List.length_range, htot]
    omega
  obtain ⟨H, K, A, B, C, D, hsplit, hH, hK, hA, hB, hC, hD⟩ := exists_split_six _ _ _ _ _ _ _ hJ
  have hbig : woz_total_file_size info tmap trks writ < 2 ^ 64 := by
    rw [htot]
    omega
  have e1 : woz_magic ++ (K ++ (A ++ (B ++ (C ++ D))))
      = (woz_magic ++ K) ++ (A ++ (B ++ (C ++ D))) := by simp
  have hfin : woz_total_file_size info tmap trks writ
      = (woz_magic ++ le32 crc ++ (chunk_layout info ++ chunk_layout tmap
          ++ chunk_layout trks ++ chunk_layout writ)).length := by
    rw [htot, List.length_append, hlen]
    simp [woz_magic, length_le32]
  unfold write_woz_to_file
  simp only [Option.bind_eq_bind]
  rw [hsplit, write_woz_magic_eq H _ hH]
  simp only [Option.some_bind]
  rw [e1, write_woz_chunks_eq info tmap trks writ v1 v2 v3 v4 h1 h2 h3 h4 _ A B C D
    (by simp [woz_magic, hK]) hA hB hC hD]
  simp only [Option.some_bind]
  rw [write_woz_crc_eq K _ hK _ crc (by rw [htot, hlen]) hbig hcrc]
  simp only [Option.some_bind]
  rw [hfin, if_pos (Nat.le_refl _), List.take_length]

/-- C4. For any four chunks with payloads shorter than 2^32 bytes, the buffer
assembled by `write_woz_to_file` is the 8 bytes 'W' 'O' 'Z' '2' 0xFF 0x0A 0x0D
0x0A, then 4 checksum bytes, then the INFO, TMAP, TRKS and WRIT chunks in that
order, each as its tag, its payload length as a little-endian 32-bit value and
its first `mark` data bytes; the total length is 12 plus the sum of
`8 + mark` over the four chunks. The initial content of the allocated block
does not matter. -/
theorem write_woz_to_file_layout (info tmap trks writ : woz_chunk)
    (v1 : info.valid) (v2 : tmap.valid) (v3 : trks.valid) (v4 : writ.valid)
    (h1 : info.mark < 2 ^ 32) (h2 : tmap.mark < 2 ^ 32) (h3 : trks.mark < 2 ^ 32)
    (h4 : writ.mark < 2 ^ 32) (junk : Nat → Nat) :
    ∃ c0 c1 c2 c3 file,
      write_woz_to_file ⟨some info, some tmap, some trks, some writ⟩ junk = some file ∧
      file = [0x57, 0x4F, 0x5A, 0x32, 0xFF, 0x0A, 0x0D, 0x0A] ++ [c0, c1, c2, c3]
        ++ (info.name ++ le32 info.mark ++ info.data.take info.mark)
        ++ (tmap.name ++ le32 tmap.mark ++ tmap.data.take tmap.mark)
        ++ (trks.name ++ le32 trks.mark ++ trks.data.take trks.mark)
        ++ (writ.name ++ le32 writ.mark ++ writ.data.take writ.mark) ∧
      file.length
        = 12 + ((8 + info.mark) + (8 + tmap.mark) + (8 + trks.mark) + (8 + writ.mark)) := by
  obtain ⟨crc, _, _, hw⟩ := write_woz_to_file_eq info tmap trks writ v1 v2 v3 v4 h1 h2 h3 h4 junk
  refine ⟨crc % 256, crc / 256 % 256, crc / 65536 % 256, crc / 16777216 % 256, _, hw, ?_, ?_⟩
  · simp [woz_magic, le32, chunk_layout]
  · have l1 := length_chunk_layout info v1
    have l2 := length_chunk_layout tmap v2
    have l3 := length_chunk_layout trks v3
    have l4 := length_chunk_layout writ v4
    simp only [List.length_append, l1, l2, l3, l4, length_le32]
    simp only [woz_magic, List.length_cons, List.length_nil]

theorem write_woz_to_file_layout_witness :
    (sample_info.valid ∧ sample_tmap.valid ∧ sample_trks.valid ∧ sample_writ.valid ∧
      sample_info.mark < 2 ^ 32 ∧ sample_tmap.mark < 2 ^ 32 ∧ sample_trks.mark < 2 ^ 32 ∧
      sample_writ.mark < 2 ^ 32) ∧
    ∃ c0 c1 c2 c3 file,
      write_woz_to_file ⟨some sample_info, some sample_tmap, some sample_trks,
        some sample_writ⟩ (fun _ => 0xE5) = some file ∧
      file = [0x57, 0x4F, 0x5A, 0x32, 0xFF, 0x0A, 0x0D, 0x0A] ++ [c0, c1, c2, c3]
        ++ (sample_info.name ++ le32 sample_info.mark ++ sample_info.data.take sample_info.mark)
        ++ (sample_tmap.name ++ le32 sample_tmap.mark ++ sample_tmap.data.take sample_tmap.mark)
        ++ (sample_trks.name ++ le32 sample_trks.mark ++ sample_trks.data.take sample_trks.mark)
        ++ (sample_writ.name ++ le32 sample_writ.mark
          ++ sample_writ.data.take sample_writ.mark) ∧
      file.length = 12 + ((8 + sample_info.mark) + (8 + sample_tmap.mark)
        + (8 + sample_trks.mark) + (8 + sample_writ.mark)) :=
  ⟨by decide, write_woz_to_file_layout sample_info sample_tmap sample_trks sample_writ
    (by decide) (by decide) (by decide) (by decide) (by decide) (by decide) (by decide)
    (by decide) (fun _ => 0xE5)⟩

/-- C3. For any four chunks with payloads shorter than 2^32 bytes, bytes 8 to
11 of the buffer assembled by `write_woz_to_file`, read as a little-endian
32-bit value, equal `woz_crc32` of all bytes from offset 12 to the end. -/
theorem write_woz_to_file_crc (info tmap trks writ : woz_chunk)
    (v1 : info.valid) (v2 : tmap.valid) (v3 : trks.valid) (v4 : writ.valid)
    (h1 : info.mark < 2 ^ 32) (h2 : tmap.mark < 2 ^ 32) (h3 : trks.mark < 2 ^ 32)
    (h4 : writ.mark < 2 ^ 32) (junk : Nat → Nat) :
    ∃ file b8 b9 b10 b11,
      write_woz_to_file ⟨some info, some tmap, some trks, some writ⟩ junk = some file ∧
      file[8]? = some b8 ∧ file[9]? = some b9 ∧ file[10]? = some b10 ∧ file[11]? = some b11 ∧
      woz_crc32 (file.drop 12) (file.length - 12) = some (read_le32 b8 b9 b10 b11) := by
  obtain ⟨crc, hlt, hcrc, hw⟩ :=
    write_woz_to_file_eq info tmap trks writ v1 v2 v3 v4 h1 h2 h3 h4 junk
  refine ⟨_, crc % 256, crc / 256 % 256, crc / 65536 % 256, crc / 16777216 % 256, hw,
    ?_, ?_, ?_, ?_, ?_⟩
  · simp [woz_magic, le32]
  · simp [woz_magic, le32]
  · simp [woz_magic, le32]
  · simp [woz_magic, le32]
  · rw [read_le32_le32 crc hlt]
    have hd : (woz_magic ++ le32 crc ++ (chunk_layout info ++ chunk_layout tmap
        ++ chunk_layout trks ++ chunk_layout writ)).drop 12
        = chunk_layout info ++ chunk_layout tmap ++ chunk_layout trks ++ chunk_layout writ := by
      simp [woz_magic, le32]
    have hl : (woz_magic ++ le32 crc ++ (chunk_layout info ++ chunk_layout tmap
        ++ chunk_layout trks ++ chunk_layout writ)).length - 12
        = (chunk_layout info ++ chunk_layout tmap ++ chunk_layout trks
          ++ chunk_layout writ).length := by
      simp [woz_magic, le32]
    rw [hd, hl, hcrc]

theorem write_woz_to_file_crc_witness :
    (sample_info.valid ∧ sample_tmap.valid ∧ sample_trks.valid ∧ sample_writ.valid ∧
      sample_info.mark < 2 ^ 32 ∧ sample_tmap.mark < 2 ^ 32 ∧ sample_trks.mark < 2 ^ 32 ∧
      sample_writ.mark < 2 ^ 32) ∧
    ∃ file b8 b9 b10 b11,
      write_woz_to_file ⟨some sample_info, some sample_tmap, some sample_trks,
        some sample_writ⟩ (fun i => i) = some file ∧
      file[8]? = some b8 ∧ file[9]? = some b9 ∧ file[10]? = some b10 ∧ file[11]? = some b11 ∧
      woz_crc32 (file.drop 12) (file.length - 12) = some (read_le32 b8 b9 b10 b11) :=
  ⟨by decide, write_woz_to_file_crc sample_info sample_tmap sample_trks sample_writ
    (by decide) (by decide) (by decide) (by decide) (by decide) (by decide) (by decide)
    (by decide) (fun i => i)⟩

/-! ## Loops and stores -/

/-- Invariant rule for a counting loop: an invariant that holds at the start
and is carried over by every iteration holds at the end, and the loop does not
fail. -/
theorem for_loop_from_inv {σ : Type} (body : σ → Nat → Option σ) (P : Nat → σ → Prop)
    (count i : Nat) (state : σ) (h0 : P i state)
    (hstep : ∀ j s, i ≤ j → j < i + count → P j s → ∃ s', body s j = some s' ∧ P (j + 1) s') :
    ∃ s', for_loop_from body count i state = some s' ∧ P (i + count) s' := by
  induction count generalizing i state with
  | zero => exact ⟨state, rfl, h0⟩
  | succ count ih =>
    obtain ⟨s1, hs1, hP1⟩ := hstep i state (Nat.le_refl _) (by omega) h0
    obtain ⟨s2, hs2, hP2⟩ := ih (i + 1) s1 hP1
      (fun j s hj hlt hP => hstep j s (by omega) (by omega) hP)
    refine ⟨s2, ?_, ?_⟩
    · simp only [for_loop_from, hs1, Option.bind_eq_bind, Option.some_bind, hs2]
    · rw [show i + (count + 1) = i + 1 + count by omega]
      exact hP2

theorem for_loop_inv {σ : Type} (body : σ → Nat → Option σ) (P : Nat → σ → Prop)
    (n : Nat) (init : σ) (h0 : P 0 init)
    (hstep : ∀ j s, j < n → P j s → ∃ s', body s j = some s' ∧ P (j + 1) s') :
    ∃ s', for_loop n body init = some s' ∧ P n s' := by
  have h := for_loop_from_inv body P n 0 init h0
    (fun j s _ hlt hP => hstep j s (by omega) hP)
  simpa [for_loop] using h

theorem store_eq_some (buffer : List Nat) (i v : Nat) (h : i < buffer.length) :
    store buffer i v = some (buffer.set i v) := by
  unfold store
  rw [if_pos h]

theorem getElem?_getD (l : List Nat) (i : Nat) (h : i < l.length) :
    l[i]? = some (l.getD i 0) := by
  simp [List.getElem?_eq_getElem h]

/-! ## encode_6_and_2 in closed form -/

theorem bit_reverse_lookup (x : Nat) :
    bit_reverse[x &&& 3]? = some (bit_reverse.getD (x &&& 3) 0) := by
  apply getElem?_getD
  have : x &&& 3 < 2 ^ 2 := Nat.and_lt_two_pow _ (by decide)
  simpa [bit_reverse] using this

theorem bit_reverse_lt (x : Nat) : bit_reverse.getD (x &&& 3) 0 < 4 := by
  have h : x &&& 3 < 2 ^ 2 := Nat.and_lt_two_pow _ (by decide)
  have h4 : x &&& 3 < 4 := h
  generalize x &&& 3 = y at h4
  interval_cases y <;> decide

theorem encode_fill_lt (src : List Nat) (hb : is_bytes src) (i : Nat) :
    encode_fill src i < 64 := by
  have h64 : (64 : Nat) = 2 ^ 6 := by decide
  have hr : ∀ x, bit_reverse.getD (x &&& 3) 0 < 2 ^ 6 := fun x =>
    Nat.lt_trans (bit_reverse_lt x) (by decide)
  have hr2 : ∀ x, bit_reverse.getD (x &&& 3) 0 <<< 2 < 2 ^ 6 := fun x => by
    have := bit_reverse_lt x
    rw [Nat.shiftLeft_eq]
    omega
  have hr4 : ∀ x, bit_reverse.getD (x &&& 3) 0 <<< 4 < 2 ^ 6 := fun x => by
    have := bit_reverse_lt x
    rw [Nat.shiftLeft_eq]
    omega
  unfold encode_fill
  rw [h64]
  split
  · exact Nat.or_lt_two_pow (Nat.or_lt_two_pow (hr _) (hr2 _)) (hr4 _)
  · split
    · exact Nat.or_lt_two_pow (by rw [Nat.shiftLeft_zero]; exact hr _) (hr2 _)
    · have hs : src.getD (i - 86) 0 < 256 := by
        rw [List.getD_eq_getElem?_getD]
        cases h : src[i - 86]? with
        | none => simp
        | some v =>
          have := hb v (List.getElem?_mem h)
          simpa using this
      rw [Nat.shiftRight_eq_div_pow]
      omega

theorem encode_chained_lt (src : List Nat) (hb : is_bytes src) (i : Nat) :
    encode_chained src i < 64 := by
  have h64 : (64 : Nat) = 2 ^ 6 := by decide
  unfold encode_chained
  split
  · exact encode_fill_lt src hb 0
  · split
    · rw [h64]
      exact Nat.xor_lt_two_pow (h64 ▸ encode_fill_lt src hb i) (h64 ▸ encode_fill_lt src hb (i - 1))
    · exact encode_fill_lt src hb 341

theorem six_and_two_mapping_lookup (v : Nat) (h : v < 64) :
    six_and_two_mapping[v]? = some (six_and_two_mapping.getD v 0) :=
  getElem?_getD _ _ (by simpa [six_and_two_mapping] using h)

theorem getElem?_set_of_ne (l : List Nat) (i j v : Nat) (h : i ≠ j) :
    (l.set i v)[j]? = l[j]? :=
  List.getElem?_set_ne h

theorem getElem?_set_self_of_lt (l : List Nat) (i v : Nat) (h : i < l.length) :
    (l.set i v)[i]? = some v := by
  rw [List.getElem?_set, if_pos rfl, if_pos h]

theorem encode_low_bits_step_eq (src dest : List Nat) (c : Nat) (hd : dest.length = 343)
    (hs : 256 ≤ src.length) (hc : c < 84) :
    encode_low_bits_step src dest c = some (dest.set c (encode_fill src c)) := by
  unfold encode_low_bits_step
  rw [getElem?_getD src c (by omega), getElem?_getD src (c + 86) (by omega),
    getElem?_getD src (c + 172) (by omega)]
  simp only [Option.bind_eq_bind, Option.some_bind, bit_reverse_lookup]
  rw [store_eq_some _ _ _ (by omega)]
  simp only [encode_fill, if_pos hc]

theorem encode_low_bits_pair_eq (src dest : List Nat) (i : Nat) (hd : dest.length = 343)
    (hs : 256 ≤ src.length) (h1 : 84 ≤ i) (h2 : i < 86) :
    encode_low_bits_pair src dest i i (i + 86) = some (dest.set i (encode_fill src i)) := by
  unfold encode_low_bits_pair
  rw [getElem?_getD src i (by omega), getElem?_getD src (i + 86) (by omega)]
  simp only [Option.bind_eq_bind, Option.some_bind, bit_reverse_lookup]
  rw [store_eq_some _ _ _ (by omega)]
  simp only [encode_fill, if_neg (show ¬ i < 84 by omega), if_pos h2]

theorem encode_high_bits_step_eq (src dest : List Nat) (c : Nat) (hd : dest.length = 343)
    (hs : 256 ≤ src.length) (hc : c < 256) :
    encode_high_bits_step src dest c = some (dest.set (86 + c) (encode_fill src (86 + c))) := by
  unfold encode_high_bits_step
  rw [getElem?_getD src c (by omega)]
  simp only [Option.bind_eq_bind, Option.some_bind]
  rw [store_eq_some _ _ _ (by omega)]
  simp only [encode_fill, if_neg (show ¬ 86 + c < 84 by omega),
    if_neg (show ¬ 86 + c < 86 by omega), Nat.add_sub_cancel_left]

/-- Setting cell `c` to `f c` extends a prefix that agrees with `f`. -/
theorem prefix_set (f : Nat → Nat) (d : List Nat) (c : Nat) (hd : d.length = 343)
    (hc : c < 343) (h : ∀ i < c, d[i]? = some (f i)) :
    (d.set c (f c)).length = 343 ∧ ∀ i < c + 1, (d.set c (f c))[i]? = some (f i) := by
  refine ⟨by rw [List.length_set, hd], fun i hi => ?_⟩
  by_cases hic : i = c
  · subst hic
    exact getElem?_set_self_of_lt _ _ _ (by omega)
  · rw [getElem?_set_of_ne _ _ _ _ (Ne.symm hic)]
    exact h i (by omega)

theorem encode_fill_phase (src dest : List Nat) (hd : dest.length = 343)
    (hs : 256 ≤ src.length) :
    ∃ d1 d2 d3 d4, for_loop 84 (encode_low_bits_step src) dest = some d1 ∧
      encode_low_bits_pair src d1 84 84 170 = some d2 ∧
      encode_low_bits_pair src d2 85 85 171 = some d3 ∧
      for_loop 256 (encode_high_bits_step src) d3 = some d4 ∧
      d4.length = 343 ∧ ∀ i < 342, d4[i]? = some (encode_fill src i) := by
  obtain ⟨d1, e1, l1, p1⟩ := for_loop_inv (encode_low_bits_step src)
    (fun c d => d.length = 343 ∧ ∀ i < c, d[i]? = some (encode_fill src i)) 84 dest
    ⟨hd, fun i hi => absurd hi (Nat.not_lt_zero _)⟩
    (fun j s hj hP => ⟨_, encode_low_bits_step_eq src s j hP.1 hs hj,
      prefix_set (encode_fill src) s j hP.1 (by omega) hP.2⟩)
  obtain ⟨l2, p2⟩ := prefix_set (encode_fill src) d1 84 l1 (by omega) p1
  obtain ⟨l3, p3⟩ := prefix_set (encode_fill src) _ 85 l2 (by omega) p2
  obtain ⟨d4, e4, l4, p4⟩ := for_loop_inv (encode_high_bits_step src)
    (fun c d => d.length = 343 ∧ ∀ i < 86 + c, d[i]? = some (encode_fill src i)) 256
    ((d1.set 84 (encode_fill src 84)).set 85 (encode_fill src 85)) ⟨l3, p3⟩
    (fun j s hj hP => ⟨_, encode_high_bits_step_eq src s j hP.1 hs hj,
      prefix_set (encode_fill src) s (86 + j) hP.1 (by omega) hP.2⟩)
  exact ⟨d1, _, _, d4, e1, encode_low_bits_pair_eq src d1 84 l1 hs (by omega) (by omega),
    encode_low_bits_pair_eq src _ 85 l2 hs (by omega) (by omega), e4, l4, p4⟩

theorem encode_xor_chain_eq (src : List Nat) (location : Nat) (d : List Nat)
    (hl : location ≤ 342) (hd : d.length = 343)
    (hlow : ∀ i < location, d[i]? = some (encode_fill src i))
    (hhigh : ∀ i, location ≤ i → i < 343 → d[i]? = some (encode_chained src i)) :
    ∃ r, encode_xor_chain location d = some r ∧ r.length = 343 ∧
      ∀ i < 343, r[i]? = some (encode_chained src i) := by
  induction location generalizing d with
  | zero => exact ⟨d, rfl, hd, fun i hi => hhigh i (Nat.zero_le _) hi⟩
  | succ n ih =>
    cases n with
    | zero =>
      refine ⟨d, rfl, hd, fun i hi => ?_⟩
      by_cases h0 : i = 0
      · subst h0
        rw [hlow 0 (by omega)]
        simp [encode_chained]
      · exact hhigh i (by omega) hi
    | succ m =>
      have hv : encode_fill src (m + 1) ^^^ encode_fill src m = encode_chained src (m + 1) := by
        simp only [encode_chained, if_neg (Nat.succ_ne_zero m),
          if_pos (show m + 1 < 342 by omega), Nat.add_sub_cancel]
      obtain ⟨r, hr, hlen, hall⟩ := ih (d.set (m + 1) (encode_chained src (m + 1))) (by omega)
        (by rw [List.length_set, hd])
        (fun i hi => by
          rw [getElem?_set_of_ne _ _ _ _ (by omega)]
          exact hlow i (by omega))
        (fun i h1 h2 => by
          by_cases hi : i = m + 1
          · subst hi
            exact getElem?_set_self_of_lt _ _ _ (by omega)
          · rw [getElem?_set_of_ne _ _ _ _ (Ne.symm hi)]
            exact hhigh i (by omega) h2)
      refine ⟨r, ?_, hlen, hall⟩
      simp only [encode_xor_chain, hlow (m + 1) (by omega), hlow m (by omega),
        Option.bind_eq_bind, Option.some_bind]
      rw [store_eq_some _ _ _ (by omega)]
      simp only [Option.some_bind, hv]
      exact hr

theorem encode_map_step_eq (src d : List Nat) (hb : is_bytes src) (c : Nat)
    (hd : d.length = 343) (hc : c < 343) (h : d[c]? = some (encode_chained src c)) :
    encode_map_step d c
      = some (d.set c (six_and_two_mapping.getD (encode_chained src c) 0)) := by
  unfold encode_map_step
  rw [h]
  simp only [Option.bind_eq_bind, Option.some_bind,
    six_and_two_mapping_lookup _ (encode_chained_lt src hb c)]
  exact store_eq_some _ _ _ (by omega)

/-- The function `encode_6_and_2` never fails on a 343-byte `dest` and a source
of at least 256 bytes, and its result is `encode_6_and_2_result`, whatever
`dest` held before. -/
theorem encode_6_and_2_eq (dest src : List Nat) (hd : dest.length = 343)
    (hs : 256 ≤ src.length) (hb : is_bytes src) :
    encode_6_and_2 dest src = some (encode_6_and_2_result src) := by
  obtain ⟨d0, d0a, d0b, d1, e0, e0a, e0b, e1, l1, p1⟩ := encode_fill_phase src dest hd hs
  have l2 : (d1.set 342 (encode_fill src 341)).length = 343 := by rw [List.length_set, l1]
  obtain ⟨d3, e3, l3, p3⟩ := encode_xor_chain_eq src 342
    (d1.set 342 (encode_fill src 341)) (Nat.le_refl _) l2
    (fun i hi => by
      rw [getElem?_set_of_ne _ _ _ _ (by omega)]
      exact p1 i hi)
    (fun i h1 h2 => by
      have hi : i = 342 := by omega
      subst hi
      rw [getElem?_set_self_of_lt _ _ _ (by omega)]
      simp [encode_chained])
  obtain ⟨d4, e4, l4, p4, _⟩ := for_loop_inv encode_map_step
    (fun c d => d.length = 343 ∧
      (∀ i < c, d[i]? = some (six_and_two_mapping.getD (encode_chained src i) 0)) ∧
      (∀ i, c ≤ i → i < 343 → d[i]? = some (encode_chained src i))) 343 d3
    ⟨l3, fun i hi => absurd hi (Nat.not_lt_zero _), fun i _ hi => p3 i hi⟩
    (fun j s hj hP => ⟨_, encode_map_step_eq src s hb j hP.1 hj (hP.2.2 j (Nat.le_refl _) hj),
      by rw [List.length_set, hP.1],
      fun i hi => by
        by_cases hij : i = j
        · subst hij
          exact getElem?_set_self_of_lt _ _ _ (by omega)
        · rw [getElem?_set_of_ne _ _ _ _ (Ne.symm hij)]
          exact hP.2.1 i (by omega),
      fun i h1 h2 => by
        rw [getElem?_set_of_ne _ _ _ _ (by omega)]
        exact hP.2.2 i (by omega) h2⟩)
  have hres : d4 = encode_6_and_2_result src := by
    apply List.ext_getElem?
    intro n
    by_cases hn : n < 343
    · rw [p4 n hn, encode_6_and_2_result, List.getElem?_map, List.getElem?_range hn]
      rfl
    · rw [List.getElem?_eq_none (by omega), List.getElem?_eq_none (by
        simp [encode_6_and_2_result]; omega)]
  have e2 : store d1 342 (encode_fill src 341) = some (d1.set 342 (encode_fill src 341)) :=
    store_eq_some _ _ _ (by omega)
  unfold encode_6_and_2
  simp only [Option.bind_eq_bind]
  rw [e0, Option.some_bind, e0a, Option.some_bind, e0b, Option.some_bind, e1, Option.some_bind,
    p1 341 (by omega), Option.some_bind, e2, Option.some_bind, e3, Option.some_bind, e4, hres]

theorem six_and_two_mapping_length : six_and_two_mapping.length = 64 := rfl

theorem encode_map_step_index (d : List Nat) (c : Nat) (d' : List Nat)
    (h : encode_map_step d c = some d') : ∃ v, d[c]? = some v ∧ v < 64 := by
  unfold encode_map_step at h
  cases hv : d[c]? with
  | none => simp [hv] at h
  | some v =>
    refine ⟨v, rfl, ?_⟩
    by_cases hlt : v < 64
    · exact hlt
    · have hn : six_and_two_mapping[v]? = none :=
        List.getElem?_eq_none (by rw [six_and_two_mapping_length]; omega)
      simp [hv, hn] at h

theorem mem_encode_6_and_2_result (src : List Nat) (hb : is_bytes src) (b : Nat)
    (h : b ∈ encode_6_and_2_result src) : b ∈ six_and_two_mapping := by
  unfold encode_6_and_2_result at h
  obtain ⟨i, _, rfl⟩ := List.mem_map.mp h
  have hlt := encode_chained_lt src hb i
  have hl := six_and_two_mapping_lookup _ hlt
  exact List.getElem?_mem hl

theorem length_encode_6_and_2_result (src : List Nat) :
    (encode_6_and_2_result src).length = 343 := by
  simp [encode_6_and_2_result]

theorem is_bytes_replicate (n v : Nat) (h : v < 256) : is_bytes (List.replicate n v) := by
  intro b hb
  rw [List.eq_of_mem_replicate hb]
  exact h

theorem is_bytes_range_256 : is_bytes (List.range 256) :=
  fun _ hb => List.mem_range.mp hb

theorem getD_replicate_zero (n i : Nat) : (List.replicate n 0).getD i 0 = 0 := by
  rw [List.getD_eq_getElem?_getD, List.getElem?_replicate]
  split <;> rfl

theorem encode_fill_zero (n i : Nat) : encode_fill (List.replicate n 0) i = 0 := by
  unfold encode_fill
  simp only [getD_replicate_zero]
  split
  · decide
  · split <;> decide

theorem encode_chained_zero (n i : Nat) : encode_chained (List.replicate n 0) i = 0 := by
  unfold encode_chained
  simp only [encode_fill_zero]
  split
  · rfl
  · split <;> rfl

theorem encode_6_and_2_result_zero (n : Nat) :
    encode_6_and_2_result (List.replicate n 0) = List.replicate 343 0x96 := by
  apply List.ext_getElem?
  intro i
  unfold encode_6_and_2_result
  rw [List.getElem?_map, List.getElem?_replicate]
  by_cases hi : i < 343
  · rw [List.getElem?_range hi, if_pos hi]
    simp only [Option.map_some', encode_chained_zero]
    rfl
  · rw [List.getElem?_eq_none (by rw [List.length_range]; omega), if_neg hi]
    rfl

/-- C1. For every 256-byte payload (and whatever the 343-byte destination held
before) `encode_6_and_2` returns exactly 343 bytes, each a member of the
64-entry table `six_and_two_mapping`; every table lookup of the last loop uses
an index below 64: a lookup step only succeeds with such an index, and the
index used for output byte `i` is `encode_chained src i < 64`. -/
theorem encode_6_and_2_output (dest src : List Nat) (hd : dest.length = 343)
    (hs : src.length = 256) (hb : is_bytes src) :
    (∃ out, encode_6_and_2 dest src = some out ∧ out.length = 343 ∧
      (∀ b ∈ out, b ∈ six_and_two_mapping) ∧
      ∀ i < 343, encode_chained src i < 64 ∧
        out[i]? = six_and_two_mapping[encode_chained src i]?) ∧
    six_and_two_mapping.length = 64 ∧
    ∀ d c d', encode_map_step d c = some d' → ∃ v, d[c]? = some v ∧ v < 64 := by
  refine ⟨⟨encode_6_and_2_result src, encode_6_and_2_eq dest src hd (by omega) hb,
    length_encode_6_and_2_result src, mem_encode_6_and_2_result src hb, fun i hi => ?_⟩,
    six_and_two_mapping_length, encode_map_step_index⟩
  refine ⟨encode_chained_lt src hb i, ?_⟩
  rw [six_and_two_mapping_lookup _ (encode_chained_lt src hb i), encode_6_and_2_result,
    List.getElem?_map, List.getElem?_range hi]
  rfl

theorem encode_6_and_2_output_witness :
    ((List.replicate 343 0xEE).length = 343 ∧ (List.range 256).length = 256 ∧
      is_bytes (List.range 256)) ∧
    ((∃ out, encode_6_and_2 (List.replicate 343 0xEE) (List.range 256) = some out ∧
      out.length = 343 ∧ (∀ b ∈ out, b ∈ six_and_two_mapping) ∧
      ∀ i < 343, encode_chained (List.range 256) i < 64 ∧
        out[i]? = six_and_two_mapping[encode_chained (List.range 256) i]?) ∧
    six_and_two_mapping.length = 64 ∧
    ∀ d c d', encode_map_step d c = some d' → ∃ v, d[c]? = some v ∧ v < 64) :=
  ⟨⟨List.length_replicate _ _, List.length_range _, is_bytes_range_256⟩,
    encode_6_and_2_output (List.replicate 343 0xEE) (List.range 256)
      (List.length_replicate _ _) (List.length_range _) is_bytes_range_256⟩

/-- C7. Encoding the all-zero 256-byte payload with `encode_6_and_2` yields
343 bytes each equal to 0x96, whatever the destination held before. -/
theorem encode_6_and_2_zero (dest : List Nat) (hd : dest.length = 343) :
    encode_6_and_2 dest (List.replicate 256 0) = some (List.replicate 343 0x96) := by
  rw [encode_6_and_2_eq dest _ hd (Nat.le_of_eq (List.length_replicate _ _).symm)
    (is_bytes_replicate _ _ (by decide)), encode_6_and_2_result_zero]

theorem encode_6_and_2_zero_witness :
    (List.replicate 343 0).length = 343 ∧
    encode_6_and_2 (List.replicate 343 0) (List.replicate 256 0)
      = some (List.replicate 343 0x96) :=
  ⟨List.length_replicate _ _, encode_6_and_2_zero (List.replicate 343 0)
    (List.length_replicate _ _)⟩

/-! ## bits_write_byte on the bit stream -/

theorem getD_set (l : List Nat) (i j v : Nat) (hi : i < l.length) :
    (l.set i v).getD j 0 = if j = i then v else l.getD j 0 := by
  rw [List.getD_eq_getElem?_getD, List.getD_eq_getElem?_getD, List.getElem?_set]
  by_cases h : i = j
  · subst h
    simp [hi]
  · rw [if_neg h, if_neg (Ne.symm h)]

theorem bit_at_set (l : List Nat) (i v k : Nat) (hi : i < l.length) :
    bit_at (l.set i v) k = if k / 8 = i then v.testBit (7 - k % 8) else bit_at l k := by
  unfold bit_at
  rw [getD_set l i (k / 8) v hi]
  split <;> rfl

theorem is_bytes_set (l : List Nat) (i v : Nat) (hl : is_bytes l) (hv : v < 256) :
    is_bytes (l.set i v) := by
  intro b hb
  rcases List.mem_or_eq_of_mem_set hb with h | h
  · exact hl b h
  · rw [h]
    exact hv

theorem testBit_byte_or_shiftRight (b value shift p : Nat) (hp : p < 8) :
    ((b ||| (value >>> shift)) % 256).testBit p = (b.testBit p || value.testBit (shift + p)) := by
  have h256 : (256 : Nat) = 2 ^ 8 := by decide
  rw [h256, Nat.testBit_mod_two_pow, Nat.testBit_or, Nat.testBit_shiftRight]
  simp [hp]

theorem testBit_byte_or_shiftLeft (b value n p : Nat) (hp : p < 8) :
    ((b ||| (value <<< n)) % 256).testBit p
      = (b.testBit p || (decide (n ≤ p) && value.testBit (p - n))) := by
  have h256 : (256 : Nat) = 2 ^ 8 := by decide
  rw [h256, Nat.testBit_mod_two_pow, Nat.testBit_or, Nat.testBit_shiftLeft]
  simp [hp]

theorem and_seven (index : Nat) : index &&& 7 = index % 8 := by
  have h := Nat.and_pow_two_sub_one_eq_mod index 3
  simpa using h

theorem shiftRight_three (index : Nat) : index >>> 3 = index / 8 := by
  rw [Nat.shiftRight_eq_div_pow]

/-- What `bits_write_byte` does to the bit stream: it succeeds when the bytes
it touches are inside the buffer, returns `index + 8`, keeps the length and
byte-ness, and ORs bit `index + 7 - k` of `value` into every bit `k` from the
start of the byte holding `index` up to `index + 8`; all other bits keep their
value. -/
theorem bits_write_byte_bits (buffer : List Nat) (index value : Nat)
    (h : index / 8 < buffer.length) (h' : index % 8 ≠ 0 → index / 8 + 1 < buffer.length) :
    ∃ buf, bits_write_byte buffer index value = some (buf, index + 8) ∧
      buf.length = buffer.length ∧ (is_bytes buffer → is_bytes buf) ∧
      ∀ k, bit_at buf k = (bit_at buffer k ||
        (decide (8 * (index / 8) ≤ k ∧ k < index + 8) && value.testBit (index + 7 - k))) := by
  unfold bits_write_byte
  simp only [and_seven, shiftRight_three]
  rw [getElem?_getD buffer _ h]
  simp only [Option.bind_eq_bind, Option.some_bind]
  rw [store_eq_some _ _ _ h]
  simp only [Option.some_bind]
  have hmod : ∀ x, x % 256 < 256 := fun x => Nat.mod_lt _ (by decide)
  by_cases h0 : index % 8 = 0
  · rw [if_neg (by simpa using h0)]
    refine ⟨_, rfl, List.length_set _ _ _, fun hb => is_bytes_set _ _ _ hb (hmod _), fun k => ?_⟩
    rw [bit_at_set _ _ _ _ h]
    by_cases hk : k / 8 = index / 8
    · rw [if_pos hk, testBit_byte_or_shiftRight _ _ _ _ (by omega)]
      have e1 : index % 8 + (7 - k % 8) = index + 7 - k := by omega
      have e2 : (8 * (index / 8) ≤ k ∧ k < index + 8) := by omega
      rw [e1, decide_eq_true e2, Bool.true_and]
      unfold bit_at
      rw [hk]
    · rw [if_neg hk]
      have e2 : ¬ (8 * (index / 8) ≤ k ∧ k < index + 8) := by omega
      rw [decide_eq_false e2, Bool.false_and, Bool.or_false]
  · have h1 := h' h0
    rw [if_pos (by simpa using h0)]
    have hlen : index / 8 + 1 < (buffer.set (index / 8)
        ((buffer.getD (index / 8) 0 ||| value >>> (index % 8)) % 256)).length := by
      rw [List.length_set]
      exact h1
    rw [getElem?_getD _ _ hlen]
    simp only [Option.some_bind]
    rw [store_eq_some _ _ _ hlen]
    simp only [Option.some_bind]
    refine ⟨_, rfl, by rw [List.length_set, List.length_set],
      fun hb => is_bytes_set _ _ _ (is_bytes_set _ _ _ hb (hmod _)) (hmod _), fun k => ?_⟩
    rw [bit_at_set _ _ _ _ hlen]
    by_cases hk1 : k / 8 = index / 8 + 1
    · rw [if_pos hk1, testBit_byte_or_shiftLeft _ _ _ _ (by omega),
        getD_set _ _ _ _ h, if_neg (by omega)]
      have hb : bit_at buffer k = (buffer.getD (index / 8 + 1) 0).testBit (7 - k % 8) := by
        unfold bit_at
        rw [hk1]
      rw [hb]
      by_cases hlt : k < index + 8
      · have e1 : 7 - k % 8 - (8 - index % 8) = index + 7 - k := by omega
        have e2 : (8 * (index / 8) ≤ k ∧ k < index + 8) := by omega
        have e3 : 8 - index % 8 ≤ 7 - k % 8 := by omega
        rw [e1, decide_eq_true e2, decide_eq_true e3]
      · have e2 : ¬ (8 * (index / 8) ≤ k ∧ k < index + 8) := by omega
        have e3 : ¬ (8 - index % 8 ≤ 7 - k % 8) := by omega
        rw [decide_eq_false e2, decide_eq_false e3, Bool.false_and, Bool.false_and]
    · rw [if_neg hk1, bit_at_set _ _ _ _ h]
      by_cases hk : k / 8 = index / 8
      · rw [if_pos hk, testBit_byte_or_shiftRight _ _ _ _ (by omega)]
        have e1 : index % 8 + (7 - k % 8) = index + 7 - k := by omega
        have e2 : (8 * (index / 8) ≤ k ∧ k < index + 8) := by omega
        rw [e1, decide_eq_true e2, Bool.true_and]
        unfold bit_at
        rw [hk]
      · rw [if_neg hk]
        have e2 : ¬ (8 * (index / 8) ≤ k ∧ k < index + 8) := by omega
        rw [decide_eq_false e2, Bool.false_and, Bool.or_false]

/-! ## Rules for writers -/

theorem writes_congr (W : List Nat → Nat → Option (List Nat × Nat)) (width : Nat)
    (c c' : Nat → Option Bool) (h : writes W width c)
    (hc : ∀ j b, j < width → c' j = some b → c j = some b) : writes W width c' := by
  intro buffer index hcl hroom
  obtain ⟨buf, e, hcl', hs, hb⟩ := h buffer index hcl hroom
  exact ⟨buf, e, hcl', hs, fun j b hj hcj => hb j b hj (hc j b hj hcj)⟩

theorem writes_seq (W₁ W₂ : List Nat → Nat → Option (List Nat × Nat)) (w₁ w₂ : Nat)
    (c₁ c₂ : Nat → Option Bool) (h₁ : writes W₁ w₁ c₁) (h₂ : writes W₂ w₂ c₂) :
    writes (writer_seq W₁ W₂) (w₁ + w₂) (content_seq w₁ c₁ c₂) := by
  intro buffer index hcl hroom
  obtain ⟨b1, e1, hcl1, hs1, hb1⟩ := h₁ buffer index hcl (by omega)
  obtain ⟨b2, e2, hcl2, hs2, hb2⟩ := h₂ b1 (index + w₁) hcl1 (by omega)
  refine ⟨b2, ?_, ?_, ?_, ?_⟩
  · simp only [writer_seq, e1, Option.some_bind, e2, Nat.add_assoc]
  · rw [← Nat.add_assoc]
    exact hcl2
  · intro k hk
    rw [hs2 k (by omega), hs1 k hk]
  · intro j b hj hc
    unfold content_seq at hc
    by_cases hlt : j < w₁
    · rw [if_pos hlt] at hc
      rw [hs2 (index + j) (by omega)]
      exact hb1 j b hlt hc
    · rw [if_neg hlt] at hc
      have := hb2 (j - w₁) b (by omega) hc
      rw [show index + w₁ + (j - w₁) = index + j by omega] at this
      exact this

theorem writes_dirty_of_writes (W : List Nat → Nat → Option (List Nat × Nat)) (width : Nat)
    (c : Nat → Option Bool) (h : writes W width c) : writes_dirty W width := by
  intro buffer index hcl hroom
  obtain ⟨buf, e, hcl', hs, _⟩ := h buffer index hcl hroom
  exact ⟨buf, e, hcl', fun k hk => hs k (by omega)⟩

theorem writes_dirty_seq (W₁ W₂ : List Nat → Nat → Option (List Nat × Nat)) (w₁ w₂ : Nat)
    (h₁ : writes_dirty W₁ w₁) (h₂ : writes_dirty W₂ w₂) :
    writes_dirty (writer_seq W₁ W₂) (w₁ + w₂) := by
  intro buffer index hcl hroom
  obtain ⟨b1, e1, hcl1, hs1⟩ := h₁ buffer index hcl (by omega)
  obtain ⟨b2, e2, hcl2, hs2⟩ := h₂ b1 (index + w₁) hcl1 (by omega)
  refine ⟨b2, ?_, ?_, ?_⟩
  · simp only [writer_seq, e1, Option.some_bind, e2, Nat.add_assoc]
  · rw [← Nat.add_assoc]
    exact hcl2
  · intro k hk
    rw [hs2 k (by omega), hs1 k hk]

theorem writes_seq_dirty (W₁ W₂ : List Nat → Nat → Option (List Nat × Nat)) (w₁ w₂ : Nat)
    (c₁ : Nat → Option Bool) (h₁ : writes W₁ w₁ c₁) (hw : 7 ≤ w₁) (h₂ : writes_dirty W₂ w₂) :
    writes (writer_seq W₁ W₂) (w₁ + w₂) content_none := by
  intro buffer index hcl hroom
  obtain ⟨b1, e1, hcl1, hs1, _⟩ := h₁ buffer index hcl (by omega)
  obtain ⟨b2, e2, hcl2, hs2⟩ := h₂ b1 (index + w₁) hcl1 (by omega)
  refine ⟨b2, ?_, ?_, ?_, ?_⟩
  · simp only [writer_seq, e1, Option.some_bind, e2, Nat.add_assoc]
  · rw [← Nat.add_assoc]
    exact hcl2
  · intro k hk
    rw [hs2 k (by omega), hs1 k hk]
  · intro j b _ hc
    simp [content_none] at hc

/-! ## The elementary writers -/

theorem bits_write_byte_clear (buffer : List Nat) (index value : Nat)
    (hcl : clear_from buffer index) (hroom : index + 16 ≤ 53248) :
    ∃ buf, bits_write_byte buffer index value = some (buf, index + 8) ∧
      clear_from buf (index + 8) ∧
      ∀ k, bit_at buf k = (bit_at buffer k ||
        (decide (8 * (index / 8) ≤ k ∧ k < index + 8) && value.testBit (index + 7 - k))) := by
  obtain ⟨hlen, hbytes, hzero⟩ := hcl
  obtain ⟨buf, e, hl, hb, hbits⟩ := bits_write_byte_bits buffer index value (by omega)
    (fun _ => by omega)
  refine ⟨buf, e, ⟨by rw [hl, hlen], hb hbytes, fun k hk => ?_⟩, hbits⟩
  rw [hbits k, hzero k (by omega)]
  have e2 : ¬ (8 * (index / 8) ≤ k ∧ k < index + 8) := by omega
  rw [decide_eq_false e2]
  rfl

theorem writes_dirty_byte (value : Nat) :
    writes_dirty (fun buffer index => bits_write_byte buffer index value) 8 := by
  intro buffer index hcl hroom
  obtain ⟨buf, e, hcl', hbits⟩ := bits_write_byte_clear buffer index value hcl (by omega)
  refine ⟨buf, e, hcl', fun k hk => ?_⟩
  rw [hbits k]
  have e2 : ¬ (8 * (index / 8) ≤ k ∧ k < index + 8) := by omega
  rw [decide_eq_false e2, Bool.false_and, Bool.or_false]

theorem writes_byte (value : Nat) (hv : value < 256) :
    writes (fun buffer index => bits_write_byte buffer index value) 8
      (content_bytes [value]) := by
  intro buffer index hcl hroom
  obtain ⟨buf, e, hcl', hbits⟩ := bits_write_byte_clear buffer index value hcl (by omega)
  refine ⟨buf, e, hcl', fun k hk => ?_, fun j b hj hc => ?_⟩
  · rw [hbits k]
    by_cases e2 : (8 * (index / 8) ≤ k ∧ k < index + 8)
    · have ht : value.testBit (index + 7 - k) = false :=
        Nat.testBit_lt_two_pow (Nat.lt_of_lt_of_le hv (by
          calc 256 = 2 ^ 8 := by decide
            _ ≤ 2 ^ (index + 7 - k) := Nat.pow_le_pow_right (by decide) (by omega)))
      rw [ht, Bool.and_false, Bool.or_false]
    · rw [decide_eq_false e2, Bool.false_and, Bool.or_false]
  · rw [hbits (index + j), hcl.2.2 (index + j) (by omega)]
    have e2 : (8 * (index / 8) ≤ index + j ∧ index + j < index + 8) := by omega
    rw [decide_eq_true e2, Bool.false_or, Bool.true_and]
    simp only [content_bytes, List.length_singleton, Nat.mul_one, if_pos hj] at hc
    have hj8 : j / 8 = 0 := by omega
    have hjm : j % 8 = j := by omega
    rw [hj8, hjm] at hc
    simp only [List.getD_cons_zero, Option.some.injEq] at hc
    rw [← hc, show index + 7 - (index + j) = 7 - j by omega]

theorem writes_sync : writes bits_write_sync 10 content_sync := by
  intro buffer index hcl hroom
  obtain ⟨buf, e, hcl', hs, hb⟩ := writes_byte 0xFF (by decide) buffer index hcl (by omega)
  refine ⟨buf, ?_, ⟨hcl'.1, hcl'.2.1, fun k hk => hcl'.2.2 k (by omega)⟩, hs,
    fun j b hj hc => ?_⟩
  · simp only [bits_write_sync, Option.bind_eq_bind]
    simp only at e
    rw [e]
    rfl
  · unfold content_sync at hc
    by_cases h8 : j < 8
    · rw [if_pos h8] at hc
      refine hb j b h8 ?_
      simp only [content_bytes, List.length_singleton, Nat.mul_one, if_pos h8]
      have hj8 : j / 8 = 0 := by omega
      rw [hj8, ← hc]
      simp only [List.getD_cons_zero, Option.some.injEq]
      have : j % 8 = j := by omega
      rw [this]
      interval_cases j <;> decide
    · rw [if_neg h8, if_pos hj] at hc
      rw [hcl'.2.2 (index + j) (by omega)]
      simpa using hc

/-! ## Writers of byte sequences and loops -/

theorem content_bytes_then_append (l₁ l₂ : List Nat) (c : Nat → Option Bool) (j : Nat) :
    content_bytes_then (l₁ ++ l₂) c j
      = content_seq (8 * l₁.length) (content_bytes_then l₁ content_none)
          (content_bytes_then l₂ c) j := by
  simp only [content_bytes_then, content_seq, content_bytes, content_none, List.length_append]
  by_cases h1 : j < 8 * l₁.length
  · have hd : j / 8 < l₁.length := by omega
    rw [if_pos (by omega), if_pos (by omega), if_pos h1, if_pos h1, if_pos h1]
    rw [List.getD_eq_getElem?_getD, List.getD_eq_getElem?_getD, List.getElem?_append_left hd]
  · rw [if_neg h1]
    by_cases h2 : j < 8 * (l₁.length + l₂.length)
    · rw [if_pos h2, if_pos h2, if_pos (by omega), if_pos (by omega)]
      rw [List.getD_eq_getElem?_getD, List.getD_eq_getElem?_getD,
        List.getElem?_append_right (by omega)]
      rw [show (j - 8 * l₁.length) / 8 = j / 8 - l₁.length by omega,
        show (j - 8 * l₁.length) % 8 = j % 8 by omega]
    · rw [if_neg h2, if_neg (by omega)]
      rw [show j - 8 * l₁.length - 8 * l₂.length = j - 8 * (l₁.length + l₂.length) by omega]

theorem writes_bytes_single (value : Nat) (hv : value < 256) :
    writes (fun buffer index => bits_write_byte buffer index value) 8
      (content_bytes_then [value] content_none) := by
  refine writes_congr _ _ _ _ (writes_byte value hv) (fun j b hj hc => ?_)
  simp only [content_bytes_then, content_seq, List.length_singleton, Nat.mul_one,
    if_pos hj] at hc
  exact hc

/-- A writer of the bytes `l₁` followed by a writer of the bytes `l₂` and then
`c` writes the bytes `l₁ ++ l₂` and then `c`. -/
theorem writes_bytes_append (W₁ W₂ : List Nat → Nat → Option (List Nat × Nat))
    (l₁ l₂ : List Nat) (c : Nat → Option Bool) (w₁ w₂ w : Nat)
    (h₁ : writes W₁ w₁ (content_bytes_then l₁ content_none))
    (h₂ : writes W₂ w₂ (content_bytes_then l₂ c))
    (hw₁ : w₁ = 8 * l₁.length) (hw : w = w₁ + w₂) :
    writes (writer_seq W₁ W₂) w (content_bytes_then (l₁ ++ l₂) c) := by
  subst hw hw₁
  refine writes_congr _ _ _ _ (writes_seq W₁ W₂ _ _ _ _ h₁ h₂) (fun j b _ hc => ?_)
  rw [content_bytes_then_append] at hc
  exact hc

/-- Any writer writes no bytes and then its content. -/
theorem writes_bytes_nil (W : List Nat → Nat → Option (List Nat × Nat)) (w : Nat)
    (c : Nat → Option Bool) (h : writes W w c) : writes W w (content_bytes_then [] c) := by
  refine writes_congr _ _ _ _ h (fun j b _ hc => ?_)
  simpa [content_bytes_then, content_seq] using hc

theorem writes_bits_write_3 (a b c : Nat) (ha : a < 256) (hb : b < 256) (hc : c < 256) :
    writes (fun buffer index => bits_write_3 buffer index a b c) 24
      (content_bytes_then [a, b, c] content_none) :=
  writes_bytes_append (fun buffer index => bits_write_byte buffer index a) _ [a] [b, c] _ 8 16 24
    (writes_bytes_single a ha)
    (writes_bytes_append (fun buffer index => bits_write_byte buffer index b)
      (fun buffer index => bits_write_byte buffer index c) [b] [c] _ 8 8 16
      (writes_bytes_single b hb) (writes_bytes_single c hc) rfl rfl) rfl rfl

theorem writes_bits_write_4_and_4 (value : Nat) (hv : value < 256) :
    writes (fun buffer index => bits_write_4_and_4 buffer index value) 16
      (content_bytes_then [(value >>> 1) ||| 0xAA, value ||| 0xAA] content_none) := by
  have h256 : (256 : Nat) = 2 ^ 8 := by decide
  have h1 : (value >>> 1) ||| 0xAA < 256 := by
    rw [h256]
    refine Nat.or_lt_two_pow ?_ (by decide)
    rw [Nat.shiftRight_eq_div_pow]
    omega
  have h2 : value ||| 0xAA < 256 := by
    rw [h256]
    exact Nat.or_lt_two_pow (by omega) (by decide)
  exact writes_bytes_append (fun buffer index => bits_write_byte buffer index _)
    (fun buffer index => bits_write_byte buffer index _) [_] [_] _ 8 8 16
    (writes_bytes_single _ h1) (writes_bytes_single _ h2) rfl rfl

theorem writes_dirty_bits_write_4_and_4 (value : Nat) :
    writes_dirty (fun buffer index => bits_write_4_and_4 buffer index value) 16 :=
  writes_dirty_seq (fun buffer index => bits_write_byte buffer index _)
    (fun buffer index => bits_write_byte buffer index _) 8 8
    (writes_dirty_byte _) (writes_dirty_byte _)

theorem for_loop_from_succ {σ : Type} (body : σ → Nat → Option σ) (count i : Nat) (state : σ) :
    for_loop_from body (count + 1) i state
      = (for_loop_from body count i state).bind (fun s => body s (i + count)) := by
  induction count generalizing i state with
  | zero => simp [for_loop_from]
  | succ count ih =>
    rw [for_loop_from]
    simp only [Option.bind_eq_bind]
    cases h : body state i with
    | none => simp [for_loop_from, h]
    | some s1 =>
      rw [Option.some_bind, ih (i + 1) s1]
      conv => rhs; rw [for_loop_from]
      simp only [Option.bind_eq_bind, h, Option.some_bind]
      rw [show i + 1 + count = i + (count + 1) by omega]

theorem for_loop_succ {σ : Type} (body : σ → Nat → Option σ) (n : Nat) (init : σ) :
    for_loop (n + 1) body init = (for_loop n body init).bind (fun s => body s n) := by
  unfold for_loop
  rw [for_loop_from_succ, Nat.zero_add]

/-- A loop of `n` iterations, iteration `i` being a writer of width `w` and
content `c i`, is a writer of width `n * w` whose content is that of the
iterations one after the other. -/
theorem writes_for_loop (body : List Nat × Nat → Nat → Option (List Nat × Nat))
    (w : Nat) (hw : 0 < w) (c : Nat → Nat → Option Bool) (n : Nat)
    (h : ∀ i, i < n → writes (fun buffer index => body (buffer, index) i) w (c i)) :
    writes (fun buffer index => for_loop n body (buffer, index)) (n * w)
      (content_loop w c) := by
  induction n with
  | zero =>
    intro buffer index hcl _
    refine ⟨buffer, ?_, ?_, fun _ _ => rfl, fun j b hj _ => ?_⟩
    · simp [for_loop, for_loop_from]
    · simpa using hcl
    · omega
  | succ n ih =>
    have h1 := ih (fun i hi => h i (by omega))
    have h2 := writes_seq _ _ _ _ _ _ h1 (h n (Nat.lt_succ_self n))
    intro buffer index hcl hroom
    obtain ⟨buf, e, hcl', hs, hb⟩ := h2 buffer index hcl (by
      rw [Nat.succ_mul] at hroom
      exact hroom)
    refine ⟨buf, ?_, ?_, hs, fun j b hj hc => ?_⟩
    · show for_loop (n + 1) body (buffer, index) = _
      rw [for_loop_succ, Nat.succ_mul]
      exact e
    · rw [Nat.succ_mul]
      exact hcl'
    · rw [Nat.succ_mul] at hj
      refine hb j b hj ?_
      unfold content_seq
      unfold content_loop at hc
      by_cases hlt : j < n * w
      · rw [if_pos hlt]
        exact hc
      · rw [if_neg hlt]
        have hj' : j = (j - n * w) + n * w := by omega
        have hd : j / w = n := by
          rw [hj', Nat.add_mul_div_right _ _ hw, Nat.div_eq_of_lt (by omega)]
          omega
        have hm : j % w = j - n * w := by
          rw [hj', Nat.add_mul_mod_self_right, Nat.mod_eq_of_lt (by omega)]
          omega
        rw [hd, hm] at hc
        exact hc

theorem writes_sync_loop (n : Nat) :
    writes (fun buffer index => for_loop n (fun r _ => bits_write_sync r.1 r.2)
      (buffer, index)) (n * 10) (content_loop 10 (fun _ => content_sync)) :=
  writes_for_loop (fun r _ => bits_write_sync r.1 r.2) 10 (by decide) _ n
    (fun _ _ => writes_sync)

/-- The loop that writes the bytes of `l` one after the other. -/
theorem writes_bytes_loop (l : List Nat) (hl : is_bytes l) :
    writes (fun buffer index => for_loop l.length (fun r i => do
      let v ← l[i]?
      bits_write_byte r.1 r.2 v) (buffer, index)) (l.length * 8)
      (content_bytes_then l content_none) := by
  refine writes_congr _ _ _ _ (writes_for_loop (fun r i => do
      let v ← l[i]?
      bits_write_byte r.1 r.2 v) 8 (by decide)
    (fun i => content_bytes [l.getD i 0]) l.length (fun i hi => ?_)) (fun j b hj hc => ?_)
  · have hv : l.getD i 0 < 256 := hl _ (List.getElem?_mem (getElem?_getD l i hi))
    have := writes_byte (l.getD i 0) hv
    simp only [Option.bind_eq_bind, getElem?_getD l i hi, Option.some_bind]
    exact this
  · simp only [content_bytes_then, content_seq, content_bytes, content_loop,
      List.length_singleton, Nat.mul_one] at hc ⊢
    rw [if_pos (by omega)] at hc
    rw [if_pos (by omega)] at hc
    rw [if_pos (Nat.mod_lt _ (by decide))]
    have h0 : j % 8 / 8 = 0 := by omega
    rw [h0, Nat.mod_mod]
    simpa using hc

/-! ## Sector header and sector body as writers -/

theorem xor_lt_256 (a b : Nat) (ha : a < 256) (hb : b < 256) : a ^^^ b < 256 := by
  have h256 : (256 : Nat) = 2 ^ 8 := by decide
  rw [h256] at ha hb ⊢
  exact Nat.xor_lt_two_pow ha hb

theorem gcr_sector_header_eq (t s : Nat) :
    (fun buffer index => gcr_sector_header buffer index t s)
      = writer_seq (fun buffer index => bits_write_3 buffer index 0xD5 0xAA 0x96)
        (writer_seq (fun buffer index => bits_write_4_and_4 buffer index DOS_VOLUME_NUMBER)
        (writer_seq (fun buffer index => bits_write_4_and_4 buffer index t)
        (writer_seq (fun buffer index => bits_write_4_and_4 buffer index s)
        (writer_seq (fun buffer index => bits_write_4_and_4 buffer index
          (DOS_VOLUME_NUMBER ^^^ t ^^^ s))
        (writer_seq (fun buffer index => bits_write_3 buffer index 0xDE 0xAA 0xEB)
          (fun buffer index => for_loop 7 (fun r _ => bits_write_sync r.1 r.2)
            (buffer, index))))))) := by
  rfl

/-- The sector header on a track `t < 256` writes the address field and 7 sync
words. -/
theorem writes_gcr_sector_header (t s : Nat) (ht : t < 256) (hs : s < 256) :
    writes (fun buffer index => gcr_sector_header buffer index t s) 182
      (header_content t s) := by
  rw [gcr_sector_header_eq]
  have hc : DOS_VOLUME_NUMBER ^^^ t ^^^ s < 256 :=
    xor_lt_256 _ _ (xor_lt_256 _ _ (by decide) ht) hs
  exact writes_bytes_append _ _ [0xD5, 0xAA, 0x96] _ _ 24 158 182
    (writes_bits_write_3 _ _ _ (by decide) (by decide) (by decide))
    (writes_bytes_append _ _ [_, _] _ _ 16 142 158
      (writes_bits_write_4_and_4 DOS_VOLUME_NUMBER (by decide))
      (writes_bytes_append _ _ [_, _] _ _ 16 126 142 (writes_bits_write_4_and_4 t ht)
        (writes_bytes_append _ _ [_, _] _ _ 16 110 126 (writes_bits_write_4_and_4 s hs)
          (writes_bytes_append _ _ [_, _] _ _ 16 94 110 (writes_bits_write_4_and_4 _ hc)
            (writes_bytes_append _ _ [0xDE, 0xAA, 0xEB] [] _ 24 70 94
              (writes_bits_write_3 _ _ _ (by decide) (by decide) (by decide))
              (writes_bytes_nil _ _ _ (writes_sync_loop 7)) rfl rfl)
            rfl rfl) rfl rfl) rfl rfl) rfl rfl) rfl rfl

/-- The sector header for any track number: it changes no bit below the index
it starts at. -/
theorem writes_gcr_sector_header_any (t s : Nat) :
    writes (fun buffer index => gcr_sector_header buffer index t s) 182 content_none := by
  rw [gcr_sector_header_eq]
  have hd : writes_dirty
      (writer_seq (fun buffer index => bits_write_4_and_4 buffer index t)
        (writer_seq (fun buffer index => bits_write_4_and_4 buffer index s)
        (writer_seq (fun buffer index => bits_write_4_and_4 buffer index
          (DOS_VOLUME_NUMBER ^^^ t ^^^ s))
        (writer_seq (fun buffer index => bits_write_3 buffer index 0xDE 0xAA 0xEB)
          (fun buffer index => for_loop 7 (fun r _ => bits_write_sync r.1 r.2)
            (buffer, index)))))) 142 :=
    writes_dirty_seq _ _ 16 126 (writes_dirty_bits_write_4_and_4 t)
      (writes_dirty_seq _ _ 16 110 (writes_dirty_bits_write_4_and_4 s)
        (writes_dirty_seq _ _ 16 94 (writes_dirty_bits_write_4_and_4 _)
          (writes_dirty_seq _ _ 24 70
            (writes_dirty_of_writes _ _ _
              (writes_bits_write_3 0xDE 0xAA 0xEB (by decide) (by decide) (by decide)))
            (writes_dirty_of_writes _ _ _ (writes_sync_loop 7)))))
  have h1 := writes_seq_dirty _ _ 16 142 _
    (writes_bits_write_4_and_4 DOS_VOLUME_NUMBER (by decide)) (by decide) hd
  have h2 := writes_seq _ _ 24 158 _ _
    (writes_bits_write_3 0xD5 0xAA 0x96 (by decide) (by decide) (by decide)) h1
  refine writes_congr _ _ _ _ h2 (fun j b _ hc => ?_)
  simp [content_none] at hc

theorem six_and_two_mapping_lt : ∀ v ∈ six_and_two_mapping, v < 256 := by
  decide

theorem is_bytes_encode_6_and_2_result (src : List Nat) (hb : is_bytes src) :
    is_bytes (encode_6_and_2_result src) :=
  fun b h => six_and_two_mapping_lt b (mem_encode_6_and_2_result src hb b h)

theorem logical_sector_le (sector_format : dsk_sector_format) (s : Nat) :
    logical_sector sector_format s ≤ 15 := by
  unfold logical_sector
  split
  · decide
  · exact Nat.le_of_lt (Nat.mod_lt _ (by decide))

theorem is_bytes_drop (l : List Nat) (n : Nat) (hl : is_bytes l) : is_bytes (l.drop n) :=
  fun b h => hl b (List.mem_of_mem_drop h)

theorem encode_6_and_2_sector (src : List Nat) (sector_format : dsk_sector_format) (s : Nat)
    (hs : src.length = 4096) (hb : is_bytes src) :
    encode_6_and_2 (List.replicate GCR_SECTOR_ENCODED_SIZE 0)
        (src.drop (logical_sector sector_format s * BYTES_PER_SECTOR))
      = some (encode_6_and_2_result
          (src.drop (logical_sector sector_format s * BYTES_PER_SECTOR))) := by
  have hl := logical_sector_le sector_format s
  refine encode_6_and_2_eq _ _ (List.length_replicate _ _) ?_ (is_bytes_drop _ _ hb)
  rw [List.length_drop, hs, BYTES_PER_SECTOR]
  omega

/-- The gap after the data field as a writer. -/
theorem writes_gap (s : Nat) :
    writes (fun buffer index =>
        if s < SECTORS_PER_TRACK - 1 then
          for_loop 16 (fun r _ => bits_write_sync r.1 r.2) (buffer, index)
        else bits_write_byte buffer index 0xFF)
      (if s < 15 then 160 else 8) (gap_content s) := by
  unfold gap_content
  by_cases h : s < 15
  · have h' : s < SECTORS_PER_TRACK - 1 := h
    simp only [if_pos h, if_pos h']
    exact writes_sync_loop 16
  · have h' : ¬ s < SECTORS_PER_TRACK - 1 := h
    simp only [if_neg h, if_neg h']
    exact writes_bytes_single 0xFF (by decide)

/-- The sector body writes the data field and the gap. -/
theorem writes_gcr_sector_body (src : List Nat) (sector_format : dsk_sector_format) (s : Nat)
    (hs : src.length = 4096) (hb : is_bytes src) :
    writes (fun buffer index => gcr_sector_body buffer index src sector_format s)
      (2792 + (if s < 15 then 160 else 8))
      (content_bytes_then (data_field src sector_format s) (gap_content s)) := by
  have henc := encode_6_and_2_sector src sector_format s hs hb
  have hloop := writes_bytes_loop _
    (is_bytes_encode_6_and_2_result _ (is_bytes_drop src
      (logical_sector sector_format s * BYTES_PER_SECTOR) hb))
  rw [length_encode_6_and_2_result] at hloop
  have hcomp := writes_bytes_append _ _ [0xD5, 0xAA, 0xAD] _ _ 24
    (2768 + (if s < 15 then 160 else 8)) (2792 + (if s < 15 then 160 else 8))
    (writes_bits_write_3 _ _ _ (by decide) (by decide) (by decide))
    (writes_bytes_append _ _ _ _ _ (343 * 8) (24 + (if s < 15 then 160 else 8))
      (2768 + (if s < 15 then 160 else 8)) hloop
      (writes_bytes_append _ _ [0xDE, 0xAA, 0xEB] [] _ 24 (if s < 15 then 160 else 8)
        (24 + (if s < 15 then 160 else 8))
        (writes_bits_write_3 _ _ _ (by decide) (by decide) (by decide))
        (writes_bytes_nil _ _ _ (writes_gap s)) rfl rfl)
      (by rw [length_encode_6_and_2_result]) (by omega)) rfl (by omega)
  have elist : [0xD5, 0xAA, 0xAD] ++ (encode_6_and_2_result
      (src.drop (logical_sector sector_format s * BYTES_PER_SECTOR))
        ++ ([0xDE, 0xAA, 0xEB] ++ [])) = data_field src sector_format s := by
    simp [data_field]
  rw [elist] at hcomp
  intro buffer index hcl hroom
  obtain ⟨buf, e, rest⟩ := hcomp buffer index hcl hroom
  refine ⟨buf, ?_, rest⟩
  rw [← e]
  simp only [gcr_sector_body, writer_seq, Option.bind_eq_bind, henc, Option.some_bind]
  rfl

/-- A whole sector, header then body, as a writer. -/
theorem writes_gcr_sector (header : Nat → Nat → Option Bool) (src : List Nat)
    (sector_format : dsk_sector_format) (t s : Nat)
    (hs : src.length = 4096) (hb : is_bytes src)
    (hh : writes (fun buffer index => gcr_sector_header buffer index t s) 182 (header s)) :
    writes (fun buffer index => (gcr_sector_header buffer index t s).bind
        (fun r => gcr_sector_body r.1 r.2 src sector_format s))
      (2974 + (if s < 15 then 160 else 8)) (sector_content header src sector_format s) := by
  have h := writes_seq _ _ _ _ _ _ hh (writes_gcr_sector_body src sector_format s hs hb)
  rw [show 182 + (2792 + (if s < 15 then 160 else 8)) = 2974 + (if s < 15 then 160 else 8)
    by omega] at h
  exact h

theorem clear_from_zero : clear_from (List.replicate 6656 0) 0 := by
  refine ⟨List.length_replicate _ _, is_bytes_replicate _ _ (by decide), fun k _ => ?_⟩
  unfold bit_at
  rw [getD_replicate_zero]
  exact Nat.zero_testBit _

theorem memset_track (dest : List Nat) (hd : dest.length = 6656) :
    memset dest 0 GCR_ENCODED_TRACK_SIZE = some (List.replicate 6656 0) := by
  unfold memset
  have hg : GCR_ENCODED_TRACK_SIZE = 6656 := rfl
  rw [hg, if_pos (by omega), List.drop_of_length_le (by omega), List.append_nil]

theorem for_loop_sectors {σ : Type} (body : σ → Nat → Option σ) (init : σ) :
    for_loop SECTORS_PER_TRACK body init
      = (for_loop 15 body init).bind (fun s => body s 15) :=
  for_loop_succ body 15 init

/-- The bit stream left by `gcr_encode_bits_for_track`: the run succeeds,
returns 50632 bits, leaves the buffer clear from bit 50632 on, and physical
sector `s` starts at bit `640 + 3134 * s` with the content `sector_content`,
given the content `header s` of the sector headers. -/
theorem gcr_encode_bits_for_track_bits (dest src : List Nat) (t : Nat)
    (sector_format : dsk_sector_format) (header : Nat → Nat → Option Bool)
    (hd : dest.length = 6656) (hs : src.length = 4096) (hb : is_bytes src)
    (hh : ∀ s, s < 16 →
      writes (fun buffer index => gcr_sector_header buffer index t s) 182 (header s)) :
    ∃ buf, gcr_encode_bits_for_track dest src t sector_format = some (buf, 50632) ∧
      clear_from buf 50632 ∧
      ∀ s j b, s < 16 → j < 2982 → sector_content header src sector_format s j = some b →
        bit_at buf (640 + 3134 * s + j) = b := by
  have hloop := writes_for_loop (fun r s => do
      let r ← gcr_sector_header r.1 r.2 t s
      gcr_sector_body r.1 r.2 src sector_format s) 3134 (by decide)
    (sector_content header src sector_format) 15 (fun s h15 => by
      have h := writes_gcr_sector header src sector_format t s hs hb (hh s (by omega))
      rw [if_pos h15] at h
      exact h)
  have hlast := writes_gcr_sector header src sector_format t 15 hs hb (hh 15 (by decide))
  rw [if_neg (by decide)] at hlast
  have htotal := writes_seq _ _ _ _ _ _ (writes_sync_loop 64) (writes_seq _ _ _ _ _ _ hloop hlast)
  obtain ⟨buf, e, hcl, _, hbits⟩ := htotal (List.replicate 6656 0) 0 clear_from_zero (by omega)
  refine ⟨buf, ?_, hcl, fun s j b hs16 hj hc => ?_⟩
  · have hf : (fun r : List Nat × Nat => for_loop SECTORS_PER_TRACK (fun r s => do
          let r ← gcr_sector_header r.1 r.2 t s
          gcr_sector_body r.1 r.2 src sector_format s) r)
        = (fun r => (for_loop 15 (fun r s => do
          let r ← gcr_sector_header r.1 r.2 t s
          gcr_sector_body r.1 r.2 src sector_format s) r).bind
            (fun r => (gcr_sector_header r.1 r.2 t 15).bind
              (fun r => gcr_sector_body r.1 r.2 src sector_format 15))) :=
      funext (fun r => for_loop_sectors _ r)
    have hrun : gcr_encode_bits_for_track dest src t sector_format
        = (memset dest 0 GCR_ENCODED_TRACK_SIZE).bind (fun dest =>
            (for_loop TRACK_LEADER_SYNC_COUNT (fun r _ => bits_write_sync r.1 r.2) (dest, 0)).bind
              (fun r => for_loop SECTORS_PER_TRACK (fun r s => do
                let r ← gcr_sector_header r.1 r.2 t s
                gcr_sector_body r.1 r.2 src sector_format s) r)) := rfl
    rw [hrun, memset_track dest hd, Option.some_bind, hf]
    exact e
  · have hb' := hbits (640 + 3134 * s + j) b (by omega)
    rw [Nat.zero_add] at hb'
    refine hb' ?_
    unfold content_seq content_loop
    rw [if_neg (by omega)]
    by_cases h15 : s < 15
    · rw [if_pos (by omega)]
      rw [show (640 + 3134 * s + j - 64 * 10) / 3134 = s by omega,
        show (640 + 3134 * s + j - 64 * 10) % 3134 = j by omega]
      exact hc
    · have e15 : s = 15 := by omega
      subst e15
      rw [if_neg (by omega)]
      rw [show 640 + 3134 * 15 + j - 64 * 10 - 15 * 3134 = j by omega]
      exact hc

/-! ## Reading the stream back -/

set_option maxRecDepth 100000 in
theorem byte_of_bits : ∀ v, v < 256 →
    (List.range 8).foldl (fun acc j => 2 * acc + (v.testBit (7 - j)).toNat) 0 = v := by
  decide

theorem bits_read_byte_eq (buffer : List Nat) (index v : Nat) (hv : v < 256)
    (h : ∀ k, k < 8 → bit_at buffer (index + k) = v.testBit (7 - k)) :
    bits_read_byte buffer index = v := by
  have e : bits_read_byte buffer index
      = (List.range 8).foldl (fun acc j => 2 * acc + (v.testBit (7 - j)).toNat) 0 := by
    unfold bits_read_byte
    have hr : List.range 8 = [0, 1, 2, 3, 4, 5, 6, 7] := rfl
    rw [hr]
    simp only [List.foldl_cons, List.foldl_nil]
    rw [h 0 (by decide), h 1 (by decide), h 2 (by decide), h 3 (by decide), h 4 (by decide),
      h 5 (by decide), h 6 (by decide), h 7 (by decide)]
  rw [e]
  exact byte_of_bits v hv

theorem bits_read_bytes_eq (buffer : List Nat) (index : Nat) (l : List Nat) (hl : is_bytes l)
    (h : ∀ j b, j < 8 * l.length → content_bytes l j = some b → bit_at buffer (index + j) = b) :
    bits_read_bytes buffer index l.length = l := by
  apply List.ext_getElem?
  intro i
  unfold bits_read_bytes
  rw [List.getElem?_map]
  by_cases hi : i < l.length
  · rw [List.getElem?_range hi, getElem?_getD l i hi]
    simp only [Option.map_some', Option.some.injEq]
    refine bits_read_byte_eq _ _ _ (hl _ (List.getElem?_mem (getElem?_getD l i hi)))
      (fun k hk => ?_)
    rw [Nat.add_assoc]
    refine h (8 * i + k) _ (by omega) ?_
    simp only [content_bytes]
    rw [if_pos (by omega), show (8 * i + k) / 8 = i by omega,
      show (8 * i + k) % 8 = k by omega]
  · rw [List.getElem?_eq_none (by rw [List.length_range]; omega),
      List.getElem?_eq_none (by omega)]
    rfl

theorem byte_eq_zero (v : Nat) (hv : v < 256) (h : ∀ i, i < 8 → v.testBit i = false) :
    v = 0 := by
  apply Nat.eq_of_testBit_eq
  intro i
  rw [Nat.zero_testBit]
  by_cases hi : i < 8
  · exact h i hi
  · exact Nat.testBit_lt_two_pow (Nat.lt_of_lt_of_le hv (by
      calc 256 = 2 ^ 8 := by decide
        _ ≤ 2 ^ i := Nat.pow_le_pow_right (by decide) (by omega)))

theorem clear_from_getElem? (buffer : List Nat) (index : Nat) (hcl : clear_from buffer index)
    (j : Nat) (h1 : (index + 7) / 8 ≤ j) (h2 : j < 6656) : buffer[j]? = some 0 := by
  obtain ⟨hlen, hbytes, hzero⟩ := hcl
  have hj : j < buffer.length := by omega
  rw [getElem?_getD buffer j hj]
  congr 1
  refine byte_eq_zero _ (hbytes _ (List.getElem?_mem (getElem?_getD buffer j hj)))
    (fun i hi => ?_)
  have := hzero (8 * j + (7 - i)) (by omega)
  unfold bit_at at this
  rw [show (8 * j + (7 - i)) / 8 = j by omega,
    show 7 - (8 * j + (7 - i)) % 8 = i by omega] at this
  exact this

theorem is_bytes_address_field (t s : Nat) (ht : t < 256) (hs : s < 256) :
    is_bytes (address_field t s) := by
  have h256 : (256 : Nat) = 2 ^ 8 := by decide
  have hor : ∀ v, v < 256 → v ||| 0xAA < 256 := fun v hv => by
    rw [h256] at hv ⊢
    exact Nat.or_lt_two_pow hv (by decide)
  have hsh : ∀ v, v < 256 → (v >>> 1) ||| 0xAA < 256 := fun v hv =>
    hor _ (by rw [Nat.shiftRight_eq_div_pow]; omega)
  have hc : 254 ^^^ t ^^^ s < 256 := xor_lt_256 _ _ (xor_lt_256 _ _ (by decide) ht) hs
  intro b hb
  simp only [address_field, List.mem_cons, List.mem_singleton, List.not_mem_nil, or_false] at hb
  rcases hb with h | h | h | h | h | h | h | h | h | h | h | h | h | h <;> subst h
  · decide
  · decide
  · decide
  · decide
  · decide
  · exact hsh t ht
  · exact hor t ht
  · exact hsh s hs
  · exact hor s hs
  · exact hsh _ hc
  · exact hor _ hc
  · decide
  · decide
  · decide

theorem is_bytes_data_field (src : List Nat) (sector_format : dsk_sector_format) (s : Nat)
    (hb : is_bytes src) : is_bytes (data_field src sector_format s) := by
  intro b h
  simp only [data_field, List.mem_append, List.mem_cons, List.mem_singleton,
    List.not_mem_nil, or_false] at h
  rcases h with (h | h) | h
  · rcases h with h | h | h <;> subst h <;> decide
  · exact is_bytes_encode_6_and_2_result _ (is_bytes_drop _ _ hb) b h
  · rcases h with h | h | h <;> subst h <;> decide

theorem length_data_field (src : List Nat) (sector_format : dsk_sector_format) (s : Nat) :
    (data_field src sector_format s).length = 349 := by
  simp [data_field, length_encode_6_and_2_result]

theorem encode_fill_take (l : List Nat) (i : Nat) (hi : i < 342) :
    encode_fill (l.take 256) i = encode_fill l i := by
  have hg : ∀ k, k < 256 → (l.take 256).getD k 0 = l.getD k 0 := fun k hk => by
    rw [List.getD_eq_getElem?_getD, List.getD_eq_getElem?_getD, List.getElem?_take_of_lt hk]
  unfold encode_fill
  by_cases h1 : i < 84
  · rw [if_pos h1, if_pos h1, hg i (by omega), hg (i + 86) (by omega), hg (i + 172) (by omega)]
  · rw [if_neg h1, if_neg h1]
    by_cases h2 : i < 86
    · rw [if_pos h2, if_pos h2, hg i (by omega), hg (i + 86) (by omega)]
    · rw [if_neg h2, if_neg h2, hg (i - 86) (by omega)]

theorem encode_6_and_2_result_take (l : List Nat) :
    encode_6_and_2_result (l.take 256) = encode_6_and_2_result l := by
  unfold encode_6_and_2_result
  apply List.map_congr_left
  intro i hi
  have hi' : i < 343 := List.mem_range.mp hi
  have hc : encode_chained (l.take 256) i = encode_chained l i := by
    unfold encode_chained
    by_cases h0 : i = 0
    · rw [if_pos h0, if_pos h0, encode_fill_take l 0 (by decide)]
    · rw [if_neg h0, if_neg h0]
      by_cases h1 : i < 342
      · rw [if_pos h1, if_pos h1, encode_fill_take l i h1, encode_fill_take l (i - 1) (by omega)]
      · rw [if_neg h1, if_neg h1, encode_fill_take l 341 (by decide)]
  rw [hc]

/-! ## gcr_encode_bits_for_track: the claims -/

theorem length_sample_track : sample_track.length = 4096 := by
  rw [sample_track, List.length_map, List.length_range]

theorem is_bytes_sample_track : is_bytes sample_track := by
  intro b h
  obtain ⟨i, _, rfl⟩ := List.mem_map.mp h
  exact Nat.mod_lt _ (by decide)

/-- C2. For every 4096-byte track payload, every track number and every sector
format, `gcr_encode_bits_for_track` returns a bit count of at most 53248, the
capacity in bits of the 6656-byte destination. -/
theorem gcr_encode_bits_for_track_bound (dest src : List Nat) (track_number : Nat)
    (sector_format : dsk_sector_format) (hd : dest.length = 6656)
    (hs : src.length = 4096) (hb : is_bytes src) :
    ∃ buf bits, gcr_encode_bits_for_track dest src track_number sector_format
        = some (buf, bits) ∧ bits ≤ 53248 ∧ 53248 = 13 * 512 * 8 := by
  obtain ⟨buf, e, _, _⟩ := gcr_encode_bits_for_track_bits dest src track_number sector_format
    (fun _ => content_none) hd hs hb (fun s _ => writes_gcr_sector_header_any track_number s)
  exact ⟨buf, 50632, e, by omega, by omega⟩

theorem gcr_encode_bits_for_track_bound_witness :
    ((List.replicate 6656 0xFF).length = 6656 ∧ (List.replicate 4096 0xE5).length = 4096 ∧
      is_bytes (List.replicate 4096 0xE5)) ∧
    ∃ buf bits, gcr_encode_bits_for_track (List.replicate 6656 0xFF) (List.replicate 4096 0xE5)
        300 dsk_sector_format.prodos = some (buf, bits) ∧ bits ≤ 53248 ∧
        53248 = 13 * 512 * 8 :=
  ⟨⟨List.length_replicate _ _, List.length_replicate _ _, is_bytes_replicate _ _ (by decide)⟩,
    gcr_encode_bits_for_track_bound _ _ 300 dsk_sector_format.prodos
      (List.length_replicate _ _) (List.length_replicate _ _)
      (is_bytes_replicate _ _ (by decide))⟩

/-- C8. For every track payload, every track number `t < 256`, every sector
format and every physical sector `s < 16`, the 14 bytes read from the result
of `gcr_encode_bits_for_track` at bit offset `640 + 3134 * s` are D5 AA 96,
the 4-and-4 pairs of 254, `t`, `s` and `254 XOR t XOR s`, then DE AA EB; they
are followed by 7 sync words: a 0xFF byte and two 0 bits each. -/
theorem gcr_encode_bits_for_track_address (dest src : List Nat) (t : Nat)
    (sector_format : dsk_sector_format) (s : Nat) (hd : dest.length = 6656)
    (hs : src.length = 4096) (hb : is_bytes src) (ht : t < 256) (hs16 : s < 16) :
    ∃ buf bits, gcr_encode_bits_for_track dest src t sector_format = some (buf, bits) ∧
      bits_read_bytes buf (640 + 3134 * s) 14
        = [0xD5, 0xAA, 0x96,
            (254 >>> 1) ||| 0xAA, 254 ||| 0xAA,
            (t >>> 1) ||| 0xAA, t ||| 0xAA,
            (s >>> 1) ||| 0xAA, s ||| 0xAA,
            ((254 ^^^ t ^^^ s) >>> 1) ||| 0xAA, (254 ^^^ t ^^^ s) ||| 0xAA,
            0xDE, 0xAA, 0xEB] ∧
      ∀ i, i < 7 →
        bits_read_byte buf (640 + 3134 * s + 112 + 10 * i) = 0xFF ∧
        bit_at buf (640 + 3134 * s + 112 + 10 * i + 8) = false ∧
        bit_at buf (640 + 3134 * s + 112 + 10 * i + 9) = false := by
  obtain ⟨buf, e, _, hbits⟩ := gcr_encode_bits_for_track_bits dest src t sector_format
    (header_content t) hd hs hb (fun s h => writes_gcr_sector_header t s ht (by omega))
  have hsync : ∀ i k b, i < 7 → k < 10 → content_sync k = some b →
      bit_at buf (640 + 3134 * s + 112 + 10 * i + k) = b := fun i k b hi hk hc => by
    have := hbits s (112 + 10 * i + k) b hs16 (by omega) (by
      simp only [sector_content, content_seq, header_content, content_bytes_then,
        content_loop]
      rw [if_pos (by omega), if_neg (by
        simp only [address_field, List.length_cons, List.length_nil]
        omega)]
      rw [show (112 + 10 * i + k - 8 * (address_field t s).length) % 10 = k by
        simp only [address_field, List.length_cons, List.length_nil]
        omega]
      exact hc)
    rw [← this]
    congr 1
    omega
  refine ⟨buf, 50632, e, ?_, fun i hi => ⟨?_, ?_, ?_⟩⟩
  · have hl : (address_field t s).length = 14 := rfl
    have := bits_read_bytes_eq buf (640 + 3134 * s) (address_field t s)
      (is_bytes_address_field t s ht (by omega)) (fun j b hj hc => by
        rw [hl] at hj
        refine hbits s j b hs16 (by omega) ?_
        simp only [sector_content, content_seq, header_content, content_bytes_then]
        rw [if_pos (by omega), if_pos (by rw [hl]; omega)]
        exact hc)
    rw [hl] at this
    exact this
  · refine bits_read_byte_eq _ _ _ (by decide) (fun k hk => ?_)
    rw [hsync i k true hi (by omega) (by simp [content_sync, hk])]
    interval_cases k <;> rfl
  · exact hsync i 8 false hi (by decide) (by simp [content_sync])
  · exact hsync i 9 false hi (by decide) (by simp [content_sync])

theorem gcr_encode_bits_for_track_address_witness :
    ((List.replicate 6656 0xFF).length = 6656 ∧ sample_track.length = 4096 ∧
      is_bytes sample_track ∧ 17 < 256 ∧ 5 < 16) ∧
    ∃ buf bits, gcr_encode_bits_for_track (List.replicate 6656 0xFF) sample_track 17
        dsk_sector_format.dos_3_3 = some (buf, bits) ∧
      bits_read_bytes buf (640 + 3134 * 5) 14
        = [0xD5, 0xAA, 0x96,
            (254 >>> 1) ||| 0xAA, 254 ||| 0xAA,
            (17 >>> 1) ||| 0xAA, 17 ||| 0xAA,
            (5 >>> 1) ||| 0xAA, 5 ||| 0xAA,
            ((254 ^^^ 17 ^^^ 5) >>> 1) ||| 0xAA, (254 ^^^ 17 ^^^ 5) ||| 0xAA,
            0xDE, 0xAA, 0xEB] ∧
      ∀ i, i < 7 →
        bits_read_byte buf (640 + 3134 * 5 + 112 + 10 * i) = 0xFF ∧
        bit_at buf (640 + 3134 * 5 + 112 + 10 * i + 8) = false ∧
        bit_at buf (640 + 3134 * 5 + 112 + 10 * i + 9) = false :=
  ⟨⟨List.length_replicate _ _, length_sample_track, is_bytes_sample_track,
      by decide, by decide⟩,
    gcr_encode_bits_for_track_address _ _ 17 dsk_sector_format.dos_3_3 5
      (List.length_replicate _ _) length_sample_track is_bytes_sample_track
      (by decide) (by decide)⟩

/-- C9. For every track payload `src`, track number, sector format and physical
sector `s < 16`, the result of `gcr_encode_bits_for_track` holds, from bit
offset `640 + 3134 * s + 182` on, the bytes D5 AA AD, then the 343 bytes that
`encode_6_and_2` gives for the 256 bytes of `src` from `256 * L` on, then
DE AA EB, where `L` is 15 for `s = 15` and `(s * m) mod 15` otherwise, with
`m = 8` for the ProDOS format and `m = 7` for the DOS 3.3 format. -/
theorem gcr_encode_bits_for_track_data (dest src : List Nat) (t : Nat)
    (sector_format : dsk_sector_format) (s : Nat) (hd : dest.length = 6656)
    (hs : src.length = 4096) (hb : is_bytes src) (hs16 : s < 16) :
    ∃ buf bits enc, gcr_encode_bits_for_track dest src t sector_format = some (buf, bits) ∧
      encode_6_and_2 (List.replicate 343 0)
        ((src.drop (256 * (if s = 15 then 15
          else (s * (if sector_format = dsk_sector_format.prodos then 8 else 7)) % 15))).take
            256) = some enc ∧
      bits_read_bytes buf (640 + 3134 * s + 182) 349
        = [0xD5, 0xAA, 0xAD] ++ enc ++ [0xDE, 0xAA, 0xEB] := by
  obtain ⟨buf, e, _, hbits⟩ := gcr_encode_bits_for_track_bits dest src t sector_format
    (fun _ => content_none) hd hs hb (fun s _ => writes_gcr_sector_header_any t s)
  have hL : 256 * (if s = 15 then 15
      else (s * (if sector_format = dsk_sector_format.prodos then 8 else 7)) % 15)
      = logical_sector sector_format s * BYTES_PER_SECTOR := by
    simp only [logical_sector, BYTES_PER_SECTOR]
    rw [Nat.mul_comm]
  have hle := logical_sector_le sector_format s
  have henc : encode_6_and_2 (List.replicate 343 0)
      ((src.drop (logical_sector sector_format s * BYTES_PER_SECTOR)).take 256)
      = some (encode_6_and_2_result
          (src.drop (logical_sector sector_format s * BYTES_PER_SECTOR))) := by
    rw [← encode_6_and_2_result_take]
    refine encode_6_and_2_eq _ _ (List.length_replicate _ _) ?_
      (fun b h => hb b (List.mem_of_mem_drop (List.mem_of_mem_take h)))
    rw [List.length_take, List.length_drop, hs, BYTES_PER_SECTOR]
    omega
  refine ⟨buf, 50632, _, e, by rw [hL]; exact henc, ?_⟩
  have hl := length_data_field src sector_format s
  have := bits_read_bytes_eq buf (640 + 3134 * s + 182) (data_field src sector_format s)
    (is_bytes_data_field src sector_format s hb) (fun j b hj hc => by
      rw [hl] at hj
      have := hbits s (182 + j) b hs16 (by omega) (by
        simp only [sector_content, content_seq, content_bytes_then]
        rw [if_neg (by omega), Nat.add_sub_cancel_left, if_pos (by rw [hl]; omega)]
        exact hc)
      rw [Nat.add_assoc (640 + 3134 * s) 182 j]
      exact this)
  rw [hl] at this
  rw [this, data_field]

theorem gcr_encode_bits_for_track_data_witness :
    ((List.replicate 6656 0x33).length = 6656 ∧ sample_track.length = 4096 ∧
      is_bytes sample_track ∧ 9 < 16) ∧
    ∃ buf bits enc, gcr_encode_bits_for_track (List.replicate 6656 0x33) sample_track 1000
        dsk_sector_format.prodos = some (buf, bits) ∧
      encode_6_and_2 (List.replicate 343 0)
        ((sample_track.drop (256 * (if 9 = 15 then 15
          else (9 * (if dsk_sector_format.prodos = dsk_sector_format.prodos then 8
            else 7)) % 15))).take 256) = some enc ∧
      bits_read_bytes buf (640 + 3134 * 9 + 182) 349
        = [0xD5, 0xAA, 0xAD] ++ enc ++ [0xDE, 0xAA, 0xEB] :=
  ⟨⟨List.length_replicate _ _, length_sample_track, is_bytes_sample_track, by decide⟩,
    gcr_encode_bits_for_track_data _ _ 1000 dsk_sector_format.prodos 9
      (List.length_replicate _ _) length_sample_track is_bytes_sample_track (by decide)⟩

/-- C10. For every input, after `gcr_encode_bits_for_track` every destination
byte at or beyond the returned bit count, that is every byte index from
`ceil(bits / 8)` to 6655 of the 6656-byte buffer, is zero. -/
theorem gcr_encode_bits_for_track_padding (dest src : List Nat) (track_number : Nat)
    (sector_format : dsk_sector_format) (hd : dest.length = 6656)
    (hs : src.length = 4096) (hb : is_bytes src) :
    ∃ buf bits, gcr_encode_bits_for_track dest src track_number sector_format
        = some (buf, bits) ∧ buf.length = 6656 ∧
      ∀ j, (bits + 7) / 8 ≤ j → j < 6656 → buf[j]? = some 0 := by
  obtain ⟨buf, e, hcl, _⟩ := gcr_encode_bits_for_track_bits dest src track_number
    sector_format (fun _ => content_none) hd hs hb
    (fun s _ => writes_gcr_sector_header_any track_number s)
  exact ⟨buf, 50632, e, hcl.1, fun j h1 h2 => clear_from_getElem? buf 50632 hcl j h1 h2⟩

theorem gcr_encode_bits_for_track_padding_witness :
    ((List.range 6656).length = 6656 ∧ sample_track.length = 4096 ∧ is_bytes sample_track) ∧
    ∃ buf bits, gcr_encode_bits_for_track (List.range 6656) sample_track 34
        dsk_sector_format.dos_3_3 = some (buf, bits) ∧ buf.length = 6656 ∧
      ∀ j, (bits + 7) / 8 ≤ j → j < 6656 → buf[j]? = some 0 :=
  ⟨⟨List.length_range _, length_sample_track, is_bytes_sample_track⟩,
    gcr_encode_bits_for_track_padding _ _ 34 dsk_sector_format.dos_3_3
      (List.length_range _) length_sample_track is_bytes_sample_track⟩

/-! ## The growable chunk buffer -/

theorem memcpy_eq_some (dest : List Nat) (off : Nat) (src : List Nat) (n : Nat)
    (h1 : n ≤ src.length) (h2 : off + n ≤ dest.length) :
    memcpy dest off src n = some (dest.take off ++ src.take n ++ dest.drop (off + n)) := by
  unfold memcpy
  rw [if_pos ⟨h1, h2⟩]

/-- What `verify_writable_buffer` does to a well-formed chunk when no size
wraps (`2 * buffer_size + min < 2^64`): it does not fail, keeps tag and mark,
makes room for `min` more bytes, and when it grows the buffer the new size is
`2 * buffer_size`, or `2 * buffer_size + min` when the double is too small;
the old bytes are kept and the new ones are zero. -/
theorem verify_writable_buffer_eq (chunk : woz_chunk) (min : Nat) (hv : chunk.valid)
    (hsz : 2 * chunk.buffer_size + min < 2 ^ 64) :
    ∃ c, verify_writable_buffer chunk min = some c ∧ c.valid ∧ c.name = chunk.name ∧
      c.mark = chunk.mark ∧ chunk.mark + min ≤ c.buffer_size ∧
      c.buffer_size = (if chunk.mark + min > chunk.buffer_size then
          (if chunk.mark + min > chunk.buffer_size * 2 then chunk.buffer_size * 2 + min
            else chunk.buffer_size * 2)
        else chunk.buffer_size) ∧
      c.data = chunk.data ++ List.replicate (c.buffer_size - chunk.buffer_size) 0 := by
  obtain ⟨hname, hdata, hmark⟩ := hv
  have w1 : (chunk.mark + min) % 2 ^ 64 = chunk.mark + min := Nat.mod_eq_of_lt (by omega)
  have w2 : (chunk.buffer_size * 2) % 2 ^ 64 = chunk.buffer_size * 2 :=
    Nat.mod_eq_of_lt (by omega)
  have w3 : (chunk.buffer_size * 2 + min) % 2 ^ 64 = chunk.buffer_size * 2 + min :=
    Nat.mod_eq_of_lt (by omega)
  unfold verify_writable_buffer
  simp only [w1, w2, w3]
  by_cases hg : chunk.mark + min > chunk.buffer_size
  · simp only [if_pos hg]
    have hns : chunk.buffer_size ≤ (if chunk.mark + min > chunk.buffer_size * 2
        then chunk.buffer_size * 2 + min else chunk.buffer_size * 2) := by
      split <;> omega
    have hroom : chunk.mark + min ≤ (if chunk.mark + min > chunk.buffer_size * 2
        then chunk.buffer_size * 2 + min else chunk.buffer_size * 2) := by
      split <;> omega
    rw [memcpy_eq_some _ _ _ _ (by omega) (by simp only [calloc, List.length_replicate]; omega)]
    have hd : List.take 0 (calloc (if chunk.mark + min > chunk.buffer_size * 2
          then chunk.buffer_size * 2 + min else chunk.buffer_size * 2))
        ++ List.take chunk.buffer_size chunk.data
        ++ List.drop (0 + chunk.buffer_size) (calloc (if chunk.mark + min > chunk.buffer_size * 2
          then chunk.buffer_size * 2 + min else chunk.buffer_size * 2))
        = chunk.data ++ List.replicate ((if chunk.mark + min > chunk.buffer_size * 2
          then chunk.buffer_size * 2 + min else chunk.buffer_size * 2) - chunk.buffer_size) 0 := by
      rw [List.take_zero, List.nil_append, List.take_of_length_le (by omega), Nat.zero_add,
        calloc, List.drop_replicate]
    refine ⟨_, rfl, ⟨hname, ?_, ?_⟩, rfl, rfl, hroom, rfl, ?_⟩
    · simp only [Option.map_some', hd, List.length_append, List.length_replicate]
      omega
    · simp only
      omega
    · simp only [hd]
  · simp only [if_neg hg]
    refine ⟨chunk, rfl, ⟨hname, hdata, hmark⟩, rfl, rfl, by omega, rfl, ?_⟩
    simp

theorem getD_append_zeros (l : List Nat) (n i : Nat) :
    (l ++ List.replicate n 0).getD i 0 = l.getD i 0 := by
  rw [List.getD_eq_getElem?_getD, List.getD_eq_getElem?_getD, List.getElem?_append]
  by_cases hi : i < l.length
  · rw [if_pos hi]
  · rw [if_neg hi, List.getElem?_eq_none (Nat.le_of_not_lt hi), List.getElem?_replicate]
    split <;> rfl

theorem verify_writable_buffer_holds (chunk : woz_chunk) (name payload : List Nat) (min : Nat)
    (h : chunk.holds name payload) (hsz : 2 * chunk.buffer_size + min < 2 ^ 64) :
    ∃ c, verify_writable_buffer chunk min = some c ∧ c.holds name payload ∧
      c.mark = chunk.mark ∧ chunk.mark + min ≤ c.buffer_size := by
  obtain ⟨hv, hz, hn, hp⟩ := h
  obtain ⟨c, e, hv', hn', hm', hroom, _, hd'⟩ := verify_writable_buffer_eq chunk min hv hsz
  refine ⟨c, e, ⟨hv', ?_, by rw [hn', hn], ?_⟩, hm', hroom⟩
  · intro i hi
    rw [hd', getD_append_zeros]
    exact hz i (by omega)
  · unfold woz_chunk.payload at hp ⊢
    rw [hd', hm', List.take_append_of_le_length (by
      have := hv.2.1
      have := hv.2.2
      omega)]
    exact hp

theorem length_payload (chunk : woz_chunk) (hv : chunk.valid) :
    chunk.payload.length = chunk.mark := by
  unfold woz_chunk.payload
  rw [List.length_take]
  have := hv.2.1
  have := hv.2.2
  omega

theorem take_set_succ (l : List Nat) (i v : Nat) (h : i < l.length) :
    (l.set i v).take (i + 1) = l.take i ++ [v] := by
  apply List.ext_getElem?
  intro j
  by_cases hj : j < i
  · rw [List.getElem?_take_of_lt (by omega), List.getElem?_set_ne (by omega),
      List.getElem?_append_left (by rw [List.length_take]; omega),
      List.getElem?_take_of_lt hj]
  · by_cases hji : j = i
    · subst hji
      rw [List.getElem?_take_of_lt (by omega), getElem?_set_self_of_lt _ _ _ h,
        List.getElem?_append_right (by rw [List.length_take]; omega)]
      rw [List.length_take, Nat.min_eq_left (by omega), Nat.sub_self]
      rfl
    · rw [List.getElem?_eq_none (by rw [List.length_take, List.length_set]; omega),
        List.getElem?_eq_none (by
          rw [List.length_append, List.length_take, List.length_singleton]; omega)]

theorem chunk_put_holds (chunk : woz_chunk) (name payload : List Nat) (v : Nat)
    (h : chunk.holds name payload) (hroom : chunk.mark < chunk.buffer_size) :
    ∃ c, chunk_put chunk v = some c ∧ c.holds name (payload ++ [v]) ∧
      c.mark = chunk.mark + 1 ∧ c.buffer_size = chunk.buffer_size := by
  obtain ⟨hv, hz, hn, hp⟩ := h
  obtain ⟨hname, hdata, hmark⟩ := hv
  unfold chunk_put
  rw [store_eq_some _ _ _ (by omega)]
  refine ⟨_, rfl, ⟨⟨hname, ?_, ?_⟩, ?_, hn, ?_⟩, rfl, rfl⟩
  · simp only [List.length_set]
    exact hdata
  · simp only
    omega
  · intro i hi
    simp only at hi ⊢
    rw [getD_set _ _ _ _ (by omega), if_neg (by omega)]
    exact hz i (by omega)
  · unfold woz_chunk.payload at hp ⊢
    simp only
    rw [take_set_succ _ _ _ (by omega), hp]

theorem chunk_write_uint8_holds (chunk : woz_chunk) (name payload : List Nat) (u8 : Nat)
    (h : chunk.holds name payload) (hsz : 2 * chunk.buffer_size + 1 < 2 ^ 64) :
    ∃ c, chunk_write_uint8 chunk u8 = some c ∧ c.holds name (payload ++ [u8 % 256]) := by
  obtain ⟨c1, e1, h1, hm1, hr1⟩ := verify_writable_buffer_holds chunk name payload 1 h hsz
  obtain ⟨c2, e2, h2, _, _⟩ := chunk_put_holds c1 name payload (u8 % 256) h1 (by omega)
  refine ⟨c2, ?_, h2⟩
  simp only [chunk_write_uint8, Option.bind_eq_bind, e1, Option.some_bind, e2]

theorem chunk_write_uint16_holds (chunk : woz_chunk) (name payload : List Nat) (u16 : Nat)
    (h : chunk.holds name payload) (hsz : 2 * chunk.buffer_size + 2 < 2 ^ 64) :
    ∃ c, chunk_write_uint16 chunk u16 = some c ∧
      c.holds name (payload ++ [u16 % 256, u16 / 256 % 256]) := by
  obtain ⟨c1, e1, h1, hm1, hr1⟩ := verify_writable_buffer_holds chunk name payload 2 h hsz
  obtain ⟨c2, e2, h2, hm2, hb2⟩ := chunk_put_holds c1 name payload (u16 &&& 0x00FF) h1 (by omega)
  obtain ⟨c3, e3, h3, _, _⟩ := chunk_put_holds c2 name _ ((u16 >>> 8) &&& 0x00FF) h2 (by omega)
  refine ⟨c3, ?_, ?_⟩
  · simp only [chunk_write_uint16, Option.bind_eq_bind, e1, Option.some_bind, e2, e3]
  · have h255 : (0xFF : Nat) = 2 ^ 8 - 1 := by decide
    have ea : u16 &&& 0x00FF = u16 % 256 := by
      rw [h255, Nat.and_pow_two_sub_one_eq_mod]
    have eb : (u16 >>> 8) &&& 0x00FF = u16 / 256 % 256 := by
      rw [h255, Nat.and_pow_two_sub_one_eq_mod, Nat.shiftRight_eq_div_pow]
    rw [ea, eb, List.append_assoc] at h3
    exact h3

theorem chunk_write_uint32_holds (chunk : woz_chunk) (name payload : List Nat) (u32 : Nat)
    (h : chunk.holds name payload) (hsz : 2 * chunk.buffer_size + 4 < 2 ^ 64) :
    ∃ c, chunk_write_uint32 chunk u32 = some c ∧ c.holds name (payload ++ le32 u32) := by
  obtain ⟨c1, e1, h1, hm1, hr1⟩ := verify_writable_buffer_holds chunk name payload 4 h hsz
  obtain ⟨c2, e2, h2, hm2, hb2⟩ :=
    chunk_put_holds c1 name payload (u32 &&& 0x000000FF) h1 (by omega)
  obtain ⟨c3, e3, h3, hm3, hb3⟩ :=
    chunk_put_holds c2 name _ ((u32 >>> 8) &&& 0x000000FF) h2 (by omega)
  obtain ⟨c4, e4, h4, hm4, hb4⟩ :=
    chunk_put_holds c3 name _ ((u32 >>> 16) &&& 0x000000FF) h3 (by omega)
  obtain ⟨c5, e5, h5, _, _⟩ :=
    chunk_put_holds c4 name _ ((u32 >>> 24) &&& 0x000000FF) h4 (by omega)
  refine ⟨c5, ?_, ?_⟩
  · simp only [chunk_write_uint32, Option.bind_eq_bind, e1, Option.some_bind, e2, e3, e4, e5]
  · have e : payload ++ [u32 &&& 0x000000FF] ++ [(u32 >>> 8) &&& 0x000000FF]
        ++ [(u32 >>> 16) &&& 0x000000FF] ++ [(u32 >>> 24) &&& 0x000000FF]
        = payload ++ le32 u32 := by
      rw [← le32_eq]
      simp
    rw [e] at h5
    exact h5

theorem chunk_write_bytes_holds (chunk : woz_chunk) (name payload bytes : List Nat) (n : Nat)
    (h : chunk.holds name payload) (hn : n ≤ bytes.length)
    (hsz : 2 * chunk.buffer_size + n < 2 ^ 64) :
    ∃ c, chunk_write_bytes chunk bytes n = some c ∧
      c.holds name (payload ++ bytes.take n) := by
  obtain ⟨c1, e1, h1, hm1, hr1⟩ := verify_writable_buffer_holds chunk name payload n h hsz
  obtain ⟨⟨hname, hdata, hmark⟩, hz, hnm, hp⟩ := h1
  have hlen : (c1.data.take c1.mark).length = c1.mark := by
    rw [List.length_take]
    omega
  have hlenb : (bytes.take n).length = n := by
    rw [List.length_take]
    omega
  refine ⟨{ c1 with
      data := c1.data.take c1.mark ++ bytes.take n ++ c1.data.drop (c1.mark + n)
      mark := c1.mark + n }, ?_, ⟨⟨hname, ?_, ?_⟩, ?_, hnm, ?_⟩⟩
  · simp only [chunk_write_bytes, Option.bind_eq_bind, e1, Option.some_bind]
    rw [memcpy_eq_some _ _ _ _ hn (by omega)]
    rfl
  · simp only [List.length_append, hlen, hlenb, List.length_drop]
    omega
  · simp only
    omega
  · intro i hi
    simp only at hi ⊢
    rw [List.getD_eq_getElem?_getD, List.getElem?_append_right (by
      rw [List.length_append, hlen, hlenb]; omega)]
    rw [List.length_append, hlen, hlenb, List.getElem?_drop,
      show c1.mark + n + (i - (c1.mark + n)) = i by omega, ← List.getD_eq_getElem?_getD]
    exact hz i (by omega)
  · unfold woz_chunk.payload at hp ⊢
    simp only
    rw [List.take_append_of_le_length (by rw [List.length_append, hlen, hlenb]),
      List.take_of_length_le (by rw [List.length_append, hlen, hlenb]), hp]

theorem take_eq_append_zeros (l : List Nat) (m pos : Nat) (hm : m ≤ pos) (hp : pos ≤ l.length)
    (hz : ∀ i, m ≤ i → l.getD i 0 = 0) :
    l.take pos = l.take m ++ List.replicate (pos - m) 0 := by
  apply List.ext_getElem?
  intro j
  by_cases hj : j < m
  · rw [List.getElem?_take_of_lt (by omega),
      List.getElem?_append_left (by rw [List.length_take]; omega),
      List.getElem?_take_of_lt hj]
  · have hlen : (l.take m).length = m := by
      rw [List.length_take]
      omega
    rw [List.getElem?_append_right (by omega), hlen, List.getElem?_replicate]
    by_cases hjp : j < pos
    · rw [List.getElem?_take_of_lt hjp, if_pos (by omega), getElem?_getD l j (by omega),
        hz j (by omega)]
    · rw [if_neg (by omega), List.getElem?_eq_none (by rw [List.length_take]; omega)]

theorem chunk_set_mark_holds (chunk : woz_chunk) (name payload : List Nat) (mark : Nat)
    (h : chunk.holds name payload) (hm : chunk.mark ≤ mark)
    (hsz : 2 * chunk.buffer_size + (mark - chunk.mark) < 2 ^ 64) :
    ∃ c, chunk_set_mark chunk mark = some c ∧
      c.holds name (payload ++ List.replicate (mark - chunk.mark) 0) := by
  by_cases he : mark ≤ chunk.mark
  · have hmm : mark = chunk.mark := by omega
    subst hmm
    refine ⟨chunk, ?_, ?_⟩
    · simp only [chunk_set_mark, if_pos he]
    · simpa using h
  · obtain ⟨c1, e1, h1, hm1, hr1⟩ :=
      verify_writable_buffer_holds chunk name payload (mark - chunk.mark) h hsz
    obtain ⟨⟨hname, hdata, hmark⟩, hz, hnm, hp⟩ := h1
    refine ⟨{ c1 with mark := mark }, ?_, ⟨⟨hname, hdata, ?_⟩, ?_, hnm, ?_⟩⟩
    · simp only [chunk_set_mark, if_neg he, Option.bind_eq_bind, e1, Option.some_bind]
    · simp only
      omega
    · intro i hi
      simp only at hi ⊢
      exact hz i (by omega)
    · unfold woz_chunk.payload at hp ⊢
      simp only
      rw [take_eq_append_zeros c1.data c1.mark mark (by omega) (by omega) hz, hp, hm1]

theorem chunk_advance_mark_zero (chunk : woz_chunk) (h : chunk.mark < 2 ^ 64) :
    chunk_advance_mark chunk 0 = some chunk := by
  unfold chunk_advance_mark
  simp only [Int.add_zero]
  have e : (((chunk.mark : Int)) % 2 ^ 64).toNat = chunk.mark := by
    omega
  rw [e]
  simp only [chunk_set_mark, if_pos (Nat.le_refl _)]

theorem create_woz_chunk_holds (name : List Nat) (hn : 4 ≤ name.length) :
    ∃ c, create_woz_chunk name true true = some c ∧ c.holds (name.take 4) [] := by
  refine ⟨_, rfl, ⟨⟨?_, ?_, ?_⟩, ?_, rfl, ?_⟩⟩
  · simp only [List.length_take]
    omega
  · simp only [calloc, List.length_replicate]
  · simp only
    exact Nat.zero_le _
  · intro i _
    simp only [calloc]
    exact getD_replicate_zero _ _
  · simp only [woz_chunk.payload, List.take_zero]

/-! ## The chunk buffer: what a write keeps -/

theorem grown_size_eq (buffer_size mark min : Nat) (hm : mark ≤ buffer_size)
    (hsz : 2 * buffer_size + min < 2 ^ 64) :
    grown_size buffer_size mark min
      = (if mark + min > buffer_size then
          (if mark + min > buffer_size * 2 then buffer_size * 2 + min else buffer_size * 2)
        else buffer_size) := by
  have w1 : (mark + min) % 2 ^ 64 = mark + min := Nat.mod_eq_of_lt (by omega)
  have w2 : (buffer_size * 2) % 2 ^ 64 = buffer_size * 2 := Nat.mod_eq_of_lt (by omega)
  have w3 : (buffer_size * 2 + min) % 2 ^ 64 = buffer_size * 2 + min :=
    Nat.mod_eq_of_lt (by omega)
  unfold grown_size
  simp only [w1, w2, w3]

theorem verify_writable_buffer_frame (chunk : woz_chunk) (min : Nat) (hv : chunk.valid)
    (hsz : 2 * chunk.buffer_size + min < 2 ^ 64) :
    ∃ c, verify_writable_buffer chunk min = some c ∧ c.valid ∧ c.name = chunk.name ∧
      c.mark = chunk.mark ∧ chunk.mark + min ≤ c.buffer_size ∧
      c.buffer_size = grown_size chunk.buffer_size chunk.mark min ∧
      ∀ i, c.data.getD i 0 = chunk.data.getD i 0 := by
  obtain ⟨c, e, hv', hn, hm, hroom, hs, hd⟩ := verify_writable_buffer_eq chunk min hv hsz
  refine ⟨c, e, hv', hn, hm, hroom, ?_, fun i => ?_⟩
  · rw [hs, grown_size_eq _ _ _ hv.2.2 hsz]
  · rw [hd, getD_append_zeros]

theorem chunk_put_frame (chunk : woz_chunk) (v : Nat) (hv : chunk.valid)
    (hroom : chunk.mark < chunk.buffer_size) :
    ∃ c, chunk_put chunk v = some c ∧ c.valid ∧ c.name = chunk.name ∧
      c.mark = chunk.mark + 1 ∧ c.buffer_size = chunk.buffer_size ∧
      ∀ i, i ≠ chunk.mark → c.data.getD i 0 = chunk.data.getD i 0 := by
  obtain ⟨hname, hdata, hmark⟩ := hv
  unfold chunk_put
  rw [store_eq_some _ _ _ (by omega)]
  refine ⟨_, rfl, ⟨hname, ?_, ?_⟩, rfl, rfl, rfl, fun i hi => ?_⟩
  · simp only [List.length_set]
    exact hdata
  · simp only
    omega
  · simp only
    rw [List.getD_eq_getElem?_getD, List.getD_eq_getElem?_getD,
      getElem?_set_of_ne _ _ _ _ (fun h => hi h.symm)]

theorem chunk_write_uint8_written (chunk : woz_chunk) (u8 : Nat) (hv : chunk.valid)
    (hsz : 2 * chunk.buffer_size + 1 < 2 ^ 64) :
    ∃ c, chunk_write_uint8 chunk u8 = some c ∧ chunk.written c 1 := by
  obtain ⟨c1, e1, v1, n1, m1, r1, s1, d1⟩ := verify_writable_buffer_frame chunk 1 hv hsz
  obtain ⟨c2, e2, v2, n2, m2, s2, d2⟩ := chunk_put_frame c1 (u8 % 256) v1 (by omega)
  refine ⟨c2, ?_, v2, by rw [n2, n1], by omega, by rw [s2, s1], fun i hi => ?_⟩
  · simp only [chunk_write_uint8, Option.bind_eq_bind, e1, Option.some_bind, e2]
  · rw [d2 i (by omega), d1]

theorem chunk_write_uint16_written (chunk : woz_chunk) (u16 : Nat) (hv : chunk.valid)
    (hsz : 2 * chunk.buffer_size + 2 < 2 ^ 64) :
    ∃ c, chunk_write_uint16 chunk u16 = some c ∧ chunk.written c 2 := by
  obtain ⟨c1, e1, v1, n1, m1, r1, s1, d1⟩ := verify_writable_buffer_frame chunk 2 hv hsz
  obtain ⟨c2, e2, v2, n2, m2, s2, d2⟩ := chunk_put_frame c1 (u16 &&& 0x00FF) v1 (by omega)
  obtain ⟨c3, e3, v3, n3, m3, s3, d3⟩ :=
    chunk_put_frame c2 ((u16 >>> 8) &&& 0x00FF) v2 (by omega)
  refine ⟨c3, ?_, v3, by rw [n3, n2, n1], by omega, by rw [s3, s2, s1], fun i hi => ?_⟩
  · simp only [chunk_write_uint16, Option.bind_eq_bind, e1, Option.some_bind, e2, e3]
  · rw [d3 i (by omega), d2 i (by omega), d1]

theorem chunk_write_uint32_written (chunk : woz_chunk) (u32 : Nat) (hv : chunk.valid)
    (hsz : 2 * chunk.buffer_size + 4 < 2 ^ 64) :
    ∃ c, chunk_write_uint32 chunk u32 = some c ∧ chunk.written c 4 := by
  obtain ⟨c1, e1, v1, n1, m1, r1, s1, d1⟩ := verify_writable_buffer_frame chunk 4 hv hsz
  obtain ⟨c2, e2, v2, n2, m2, s2, d2⟩ := chunk_put_frame c1 (u32 &&& 0x000000FF) v1 (by omega)
  obtain ⟨c3, e3, v3, n3, m3, s3, d3⟩ :=
    chunk_put_frame c2 ((u32 >>> 8) &&& 0x000000FF) v2 (by omega)
  obtain ⟨c4, e4, v4, n4, m4, s4, d4⟩ :=
    chunk_put_frame c3 ((u32 >>> 16) &&& 0x000000FF) v3 (by omega)
  obtain ⟨c5, e5, v5, n5, m5, s5, d5⟩ :=
    chunk_put_frame c4 ((u32 >>> 24) &&& 0x000000FF) v4 (by omega)
  refine ⟨c5, ?_, v5, by rw [n5, n4, n3, n2, n1], by omega, by rw [s5, s4, s3, s2, s1],
    fun i hi => ?_⟩
  · simp only [chunk_write_uint32, Option.bind_eq_bind, e1, Option.some_bind, e2, e3, e4, e5]
  · rw [d5 i (by omega), d4 i (by omega), d3 i (by omega), d2 i (by omega), d1]

theorem chunk_write_utf8_written (chunk : woz_chunk) (utf8string : List Nat) (n : Nat)
    (hv : chunk.valid) (hsz : 2 * chunk.buffer_size + n < 2 ^ 64) :
    ∃ c, chunk_write_utf8 chunk utf8string n = some c ∧ chunk.written c n := by
  obtain ⟨c1, e1, v1, n1, m1, r1, s1, d1⟩ := verify_writable_buffer_frame chunk n hv hsz
  obtain ⟨hname, hdata, hmark⟩ := v1
  obtain ⟨d, ed, hlen, hold⟩ := for_loop_inv
    (fun data i =>
      if i < utf8string.length then do
        let ch ← utf8string[i]?
        store data (c1.mark + i) (ch % 256)
      else store data (c1.mark + i) 0x20)
    (fun _ data => data.length = c1.data.length ∧
      (∀ j, j < c1.mark ∨ c1.mark + n ≤ j → data.getD j 0 = c1.data.getD j 0))
    n c1.data ⟨rfl, fun _ _ => rfl⟩
    (fun i data hi hP => by
      obtain ⟨hl, ho⟩ := hP
      refine ⟨data.set (c1.mark + i)
        (if i < utf8string.length then utf8string.getD i 0 % 256 else 0x20), ?_, ?_, ?_⟩
      · by_cases hlt : i < utf8string.length
        · simp only [if_pos hlt, Option.bind_eq_bind, getElem?_getD utf8string i hlt,
            Option.some_bind]
          exact store_eq_some _ _ _ (by omega)
        · simp only [if_neg hlt]
          exact store_eq_some _ _ _ (by omega)
      · rw [List.length_set, hl]
      · intro j hj
        rw [List.getD_eq_getElem?_getD, getElem?_set_of_ne _ _ _ _ (by omega),
          ← List.getD_eq_getElem?_getD]
        exact ho j hj)
  refine ⟨{ c1 with data := d, mark := c1.mark + n }, ?_, ⟨hname, ?_, ?_⟩, n1, ?_, s1,
    fun i hi => ?_⟩
  · simp only [chunk_write_utf8, Option.bind_eq_bind, e1, Option.some_bind]
    simp only [Option.bind_eq_bind] at ed
    rw [ed]
    rfl
  · simp only
    omega
  · simp only
    omega
  · simp only
    omega
  · simp only
    rw [hold i (by omega), d1]

theorem chunk_write_bytes_written (chunk : woz_chunk) (bytes : List Nat) (n : Nat)
    (hv : chunk.valid) (hn : n ≤ bytes.length) (hsz : 2 * chunk.buffer_size + n < 2 ^ 64) :
    ∃ c, chunk_write_bytes chunk bytes n = some c ∧ chunk.written c n := by
  obtain ⟨c1, e1, v1, n1, m1, r1, s1, d1⟩ := verify_writable_buffer_frame chunk n hv hsz
  obtain ⟨hname, hdata, hmark⟩ := v1
  have hcopy := memcpy_eq_some c1.data c1.mark bytes n hn (by omega)
  have hl1 : (c1.data.take c1.mark).length = c1.mark := by
    rw [List.length_take]
    omega
  have hl2 : (bytes.take n).length = n := by
    rw [List.length_take]
    omega
  refine ⟨{ c1 with data := c1.data.take c1.mark ++ bytes.take n ++ c1.data.drop (c1.mark + n),
                    mark := c1.mark + n }, ?_, ⟨hname, ?_, ?_⟩, n1, ?_, s1, fun i hi => ?_⟩
  · simp only [chunk_write_bytes, Option.bind_eq_bind, e1, Option.some_bind, hcopy]
  · simp only [List.length_append, hl1, hl2, List.length_drop]
    omega
  · simp only
    omega
  · simp only
    omega
  · simp only
    rw [← d1 i, List.getD_eq_getElem?_getD, List.getD_eq_getElem?_getD]
    congr 1
    rcases hi with hi | hi
    · rw [List.append_assoc, List.getElem?_append_left (by omega),
        List.getElem?_take_of_lt (by omega)]
    · rw [List.getElem?_append_right (by rw [List.length_append, hl1, hl2]; omega),
        List.length_append, hl1, hl2, List.getElem?_drop]
      congr 1
      omega

theorem chunk_set_mark_valid (chunk : woz_chunk) (mark : Nat) (hv : chunk.valid)
    (hsz : 2 * chunk.buffer_size + (mark - chunk.mark) < 2 ^ 64) :
    ∃ c, chunk_set_mark chunk mark = some c ∧ c.valid ∧ c.mark = mark := by
  by_cases he : mark ≤ chunk.mark
  · refine ⟨{ chunk with mark := mark }, ?_, ⟨hv.1, hv.2.1, ?_⟩, rfl⟩
    · simp only [chunk_set_mark, if_pos he]
    · have := hv.2.2
      simp only
      omega
  · obtain ⟨c1, e1, v1, n1, m1, r1, s1, d1⟩ :=
      verify_writable_buffer_frame chunk (mark - chunk.mark) hv hsz
    refine ⟨{ c1 with mark := mark }, ?_, ⟨v1.1, v1.2.1, ?_⟩, rfl⟩
    · simp only [chunk_set_mark, if_neg he, Option.bind_eq_bind, e1, Option.some_bind]
    · simp only
      omega

/-- What `chunk_set_mark` does to a well-formed chunk when no size wraps: the
mark is the new position, the capacity is the one `verify_writable_buffer`
leaves for the skipped bytes, and every index reads as before, an index past
the end of the old buffer counting as holding 0. -/
theorem chunk_set_mark_frame (chunk : woz_chunk) (mark : Nat) (hv : chunk.valid)
    (hsz : 2 * chunk.buffer_size + (mark - chunk.mark) < 2 ^ 64) :
    ∃ c, chunk_set_mark chunk mark = some c ∧ c.valid ∧ c.name = chunk.name ∧ c.mark = mark ∧
      c.buffer_size = grown_size chunk.buffer_size chunk.mark (mark - chunk.mark) ∧
      ∀ i, c.data.getD i 0 = chunk.data.getD i 0 := by
  by_cases he : mark ≤ chunk.mark
  · refine ⟨{ chunk with mark := mark }, ?_, ⟨hv.1, hv.2.1, ?_⟩, rfl, rfl, ?_, fun _ => rfl⟩
    · simp only [chunk_set_mark, if_pos he]
    · have := hv.2.2
      simp only
      omega
    · have := hv.2.2
      rw [grown_size_eq _ _ _ hv.2.2 hsz, if_neg (by omega)]
  · obtain ⟨c1, e1, v1, n1, m1, r1, s1, d1⟩ :=
      verify_writable_buffer_frame chunk (mark - chunk.mark) hv hsz
    refine ⟨{ c1 with mark := mark }, ?_, ⟨v1.1, v1.2.1, ?_⟩, n1, rfl, s1, d1⟩
    · simp only [chunk_set_mark, if_neg he, Option.bind_eq_bind, e1, Option.some_bind]
    · simp only
      omega


theorem chunk_write_utf8_holds (chunk : woz_chunk) (name payload utf8string : List Nat)
    (n : Nat) (h : chunk.holds name payload) (hsz : 2 * chunk.buffer_size + n < 2 ^ 64) :
    ∃ c, chunk_write_utf8 chunk utf8string n = some c ∧
      c.holds name (payload ++ utf8_field utf8string n) := by
  obtain ⟨c1, e1, h1, hm1, hr1⟩ := verify_writable_buffer_holds chunk name payload n h hsz
  obtain ⟨⟨hname, hdata, hmark⟩, hz, hnm, hp⟩ := h1
  obtain ⟨d, ed, hlen, hold, hnew⟩ := for_loop_inv
    (fun data i =>
      if i < utf8string.length then do
        let ch ← utf8string[i]?
        store data (c1.mark + i) (ch % 256)
      else store data (c1.mark + i) 0x20)
    (fun i data => data.length = c1.data.length ∧
      (∀ j, j < c1.mark ∨ c1.mark + i ≤ j → data[j]? = c1.data[j]?) ∧
      (∀ j, j < i → data[c1.mark + j]? = some
        (if j < utf8string.length then utf8string.getD j 0 % 256 else 0x20)))
    n c1.data ⟨rfl, fun _ _ => rfl, fun j hj => absurd hj (Nat.not_lt_zero _)⟩
    (fun i data hi hP => by
      obtain ⟨hl, ho, hw⟩ := hP
      refine ⟨data.set (c1.mark + i)
        (if i < utf8string.length then utf8string.getD i 0 % 256 else 0x20), ?_, ?_, ?_, ?_⟩
      · by_cases hlt : i < utf8string.length
        · simp only [if_pos hlt, Option.bind_eq_bind, getElem?_getD utf8string i hlt,
            Option.some_bind]
          exact store_eq_some _ _ _ (by omega)
        · simp only [if_neg hlt]
          exact store_eq_some _ _ _ (by omega)
      · rw [List.length_set, hl]
      · intro j hj
        rw [getElem?_set_of_ne _ _ _ _ (by omega)]
        exact ho j (by omega)
      · intro j hj
        by_cases hji : j = i
        · subst hji
          exact getElem?_set_self_of_lt _ _ _ (by omega)
        · rw [getElem?_set_of_ne _ _ _ _ (by omega)]
          exact hw j (by omega))
  refine ⟨{ c1 with data := d, mark := c1.mark + n }, ?_, ⟨⟨hname, ?_, ?_⟩, ?_, hnm, ?_⟩⟩
  · simp only [chunk_write_utf8, Option.bind_eq_bind, e1, Option.some_bind]
    simp only [Option.bind_eq_bind] at ed
    rw [ed]
    rfl
  · simp only
    omega
  · simp only
    omega
  · intro i hi
    simp only at hi ⊢
    rw [List.getD_eq_getElem?_getD, hold i (Or.inr hi), ← List.getD_eq_getElem?_getD]
    exact hz i (by omega)
  · unfold woz_chunk.payload at hp ⊢
    simp only
    apply List.ext_getElem?
    intro j
    have hpl : payload.length = c1.mark := by
      rw [← hp, List.length_take]
      omega
    by_cases hj : j < c1.mark
    · rw [List.getElem?_take_of_lt (by omega), hold j (Or.inl hj),
        List.getElem?_append_left (by omega), ← hp, List.getElem?_take_of_lt hj]
    · rw [List.getElem?_append_right (by omega), hpl]
      by_cases hjn : j < c1.mark + n
      · rw [List.getElem?_take_of_lt hjn]
        have := hnew (j - c1.mark) (by omega)
        rw [show c1.mark + (j - c1.mark) = j by omega] at this
        rw [this, utf8_field, List.getElem?_map, List.getElem?_range (by omega)]
        rfl
      · rw [List.getElem?_eq_none (by rw [List.length_take]; omega),
          List.getElem?_eq_none (by simp only [utf8_field, List.length_map, List.length_range]
                                    omega)]

/-! ## Operations that append to the payload -/

theorem built_size (chunk : woz_chunk) (name payload : List Nat) (n : Nat)
    (h : chunk.built name payload) (hb : payload.length + n < 2 ^ 60) :
    2 * chunk.buffer_size + n < 2 ^ 64 := by
  have hm : payload.length = chunk.mark := by
    rw [← h.1.2.2.2, length_payload chunk h.1.1]
  have hc := h.2
  have hB : CHUNK_INITIAL_BUFFER = 4096 := rfl
  omega

theorem built_of_written (chunk c : woz_chunk) (name payload delta : List Nat) (n : Nat)
    (h : chunk.built name payload) (hc : c.holds name (payload ++ delta))
    (hw : chunk.written c n) (hsz : 2 * chunk.buffer_size + n < 2 ^ 64) :
    c.built name (payload ++ delta) := by
  refine ⟨hc, ?_⟩
  obtain ⟨_, _, hm, hs, _⟩ := hw
  have hmark := h.1.1.2.2
  have hcomp := h.2
  rw [hs, hm, grown_size_eq _ _ _ hmark hsz]
  split
  · split <;> omega
  · omega

/-- An operation that writes `n` bytes at the mark appends them. -/
theorem appends_of_write (op : woz_chunk → Option woz_chunk) (delta : List Nat) (n : Nat)
    (hlen : delta.length = n)
    (hh : ∀ chunk name payload, chunk.holds name payload →
      2 * chunk.buffer_size + n < 2 ^ 64 →
      ∃ c, op chunk = some c ∧ c.holds name (payload ++ delta))
    (hw : ∀ chunk, chunk.valid → 2 * chunk.buffer_size + n < 2 ^ 64 →
      ∃ c, op chunk = some c ∧ chunk.written c n) :
    appends op delta := by
  intro chunk name payload h hb
  rw [List.length_append, hlen] at hb
  have hsz := built_size chunk name payload n h hb
  obtain ⟨c, e, hc⟩ := hh chunk name payload h.1 hsz
  obtain ⟨c', e', hw'⟩ := hw chunk h.1.1 hsz
  have hcc : c' = c := Option.some.inj (e'.symm.trans e)
  subst hcc
  exact ⟨c', e, built_of_written chunk c' name payload delta n h hc hw' hsz⟩

theorem appends_write_uint8 (u8 : Nat) : appends (fun c => chunk_write_uint8 c u8) [u8 % 256] :=
  appends_of_write _ _ 1 rfl
    (fun chunk name payload h hsz => chunk_write_uint8_holds chunk name payload u8 h hsz)
    (fun chunk hv hsz => chunk_write_uint8_written chunk u8 hv hsz)

theorem appends_write_uint16 (u16 : Nat) :
    appends (fun c => chunk_write_uint16 c u16) [u16 % 256, u16 / 256 % 256] :=
  appends_of_write _ _ 2 rfl
    (fun chunk name payload h hsz => chunk_write_uint16_holds chunk name payload u16 h hsz)
    (fun chunk hv hsz => chunk_write_uint16_written chunk u16 hv hsz)

theorem appends_write_uint32 (u32 : Nat) :
    appends (fun c => chunk_write_uint32 c u32) (le32 u32) :=
  appends_of_write _ _ 4 (length_le32 u32)
    (fun chunk name payload h hsz => chunk_write_uint32_holds chunk name payload u32 h hsz)
    (fun chunk hv hsz => chunk_write_uint32_written chunk u32 hv hsz)

theorem length_utf8_field (utf8string : List Nat) (n : Nat) :
    (utf8_field utf8string n).length = n := by
  rw [utf8_field, List.length_map, List.length_range]

theorem appends_write_utf8 (utf8string : List Nat) (n : Nat) :
    appends (fun c => chunk_write_utf8 c utf8string n) (utf8_field utf8string n) :=
  appends_of_write _ _ n (length_utf8_field utf8string n)
    (fun chunk name payload h hsz =>
      chunk_write_utf8_holds chunk name payload utf8string n h hsz)
    (fun chunk hv hsz => chunk_write_utf8_written chunk utf8string n hv hsz)

theorem appends_write_bytes (bytes : List Nat) (n : Nat) (hn : n ≤ bytes.length) :
    appends (fun c => chunk_write_bytes c bytes n) (bytes.take n) :=
  appends_of_write _ _ n (by rw [List.length_take]; omega)
    (fun chunk name payload h hsz =>
      chunk_write_bytes_holds chunk name payload bytes n h hn hsz)
    (fun chunk hv hsz => chunk_write_bytes_written chunk bytes n hv hn hsz)

/-- A forward `chunk_set_mark` appends zeros up to the new mark. -/
theorem chunk_set_mark_built (chunk : woz_chunk) (name payload : List Nat) (mark : Nat)
    (h : chunk.built name payload) (hm : chunk.mark ≤ mark) (hb : mark < 2 ^ 60) :
    ∃ c, chunk_set_mark chunk mark = some c ∧
      c.built name (payload ++ List.replicate (mark - chunk.mark) 0) := by
  have hpl : payload.length = chunk.mark := by
    rw [← h.1.2.2.2, length_payload chunk h.1.1]
  have hsz := built_size chunk name payload (mark - chunk.mark) h (by omega)
  obtain ⟨c, e, hc⟩ := chunk_set_mark_holds chunk name payload mark h.1 hm hsz
  obtain ⟨c', e', _, _, hm', hs', _⟩ := chunk_set_mark_frame chunk mark h.1.1 hsz
  have hcc : c' = c := Option.some.inj (e'.symm.trans e)
  subst hcc
  refine ⟨c', e, hc, ?_⟩
  have hmark := h.1.1.2.2
  have hcomp := h.2
  rw [hs', hm', grown_size_eq _ _ _ hmark hsz]
  split
  · split <;> omega
  · omega

theorem create_woz_chunk_built (name : List Nat) (hn : 4 ≤ name.length) :
    ∃ c, create_woz_chunk name true true = some c ∧ c.built (name.take 4) [] := by
  obtain ⟨c, e, h⟩ := create_woz_chunk_holds name hn
  refine ⟨c, e, h, ?_⟩
  have hc := (Option.some.inj e).symm
  rw [hc]
  exact Nat.le_add_left _ _

theorem appends_nil : appends (chunk_ops []) [] := by
  intro chunk name payload h _
  refine ⟨chunk, rfl, ?_⟩
  rw [List.append_nil]
  exact h

theorem appends_cons (op : woz_chunk → Option woz_chunk)
    (ops : List (woz_chunk → Option woz_chunk)) (d₁ d₂ : List Nat)
    (h₁ : appends op d₁) (h₂ : appends (chunk_ops ops) d₂) :
    appends (chunk_ops (op :: ops)) (d₁ ++ d₂) := by
  intro chunk name payload h hb
  rw [← List.append_assoc] at hb
  obtain ⟨c1, e1, hc1⟩ := h₁ chunk name payload h (by
    rw [List.length_append] at hb
    omega)
  obtain ⟨c2, e2, hc2⟩ := h₂ c1 name _ hc1 hb
  refine ⟨c2, ?_, ?_⟩
  · simp only [chunk_ops, e1]
    exact e2
  · rw [← List.append_assoc]
    exact hc2

/-! ## Records and loops over a chunk -/

theorem length_records (f : Nat → List Nat) (w : Nat) (n : Nat)
    (h : ∀ i, i < n → (f i).length = w) : (records f n).length = n * w := by
  induction n with
  | zero => simp [records]
  | succ n ih =>
    rw [records, List.length_append, ih (fun i hi => h i (by omega)), h n (by omega)]
    ring

theorem records_slice (f : Nat → List Nat) (w : Nat) (n i : Nat)
    (h : ∀ k, k < n → (f k).length = w) (hi : i < n) :
    ((records f n).drop (i * w)).take w = f i := by
  induction n with
  | zero => exact absurd hi (Nat.not_lt_zero _)
  | succ n ih =>
    have hl := length_records f w n (fun k hk => h k (by omega))
    rw [records]
    by_cases hin : i = n
    · subst hin
      rw [List.drop_append_of_le_length (by omega), List.drop_of_length_le (by omega),
        List.nil_append, List.take_of_length_le (by rw [h i (by omega)])]
    · have hlt : i < n := by omega
      have hle : i * w + w ≤ n * w := by
        have := Nat.mul_le_mul_right w (show i + 1 ≤ n by omega)
        rw [Nat.add_mul, Nat.one_mul] at this
        exact this
      rw [List.drop_append_of_le_length (by omega),
        List.take_append_of_le_length (by rw [List.length_drop]; omega)]
      exact ih (fun k hk => h k (by omega)) hlt

theorem records_singleton (g : Nat → Nat) (n : Nat) :
    records (fun k => [g k]) n = (List.range n).map g := by
  induction n with
  | zero => rfl
  | succ n ih => rw [records, ih, List.range_succ, List.map_append, List.map_singleton]

/-- A loop whose iteration `i0 + k` appends the record `f k` and takes the
extra state from `aux k` to `aux (k + 1)` appends the records one after the
other. -/
theorem for_loop_from_appends {σ : Type} (body : woz_chunk × σ → Nat → Option (woz_chunk × σ))
    (aux : Nat → σ) (f : Nat → List Nat) (count i0 : Nat)
    (hstep : ∀ k, k < count → ∀ c name payload, c.built name payload →
      (payload ++ f k).length < 2 ^ 60 →
      ∃ c', body (c, aux k) (i0 + k) = some (c', aux (k + 1)) ∧ c'.built name (payload ++ f k))
    (c : woz_chunk) (name payload : List Nat) (h : c.built name payload)
    (hb : (payload ++ records f count).length < 2 ^ 60) :
    ∃ c', for_loop_from body count i0 (c, aux 0) = some (c', aux count) ∧
      c'.built name (payload ++ records f count) := by
  induction count with
  | zero =>
    refine ⟨c, rfl, ?_⟩
    rw [records, List.append_nil]
    exact h
  | succ count ih =>
    rw [records, ← List.append_assoc] at hb
    obtain ⟨c1, e1, h1⟩ := ih (fun k hk => hstep k (by omega)) (by
      rw [List.length_append] at hb
      omega)
    obtain ⟨c2, e2, h2⟩ := hstep count (by omega) c1 name _ h1 hb
    refine ⟨c2, ?_, ?_⟩
    · rw [for_loop_from_succ, e1, Option.some_bind, e2]
    · rw [records, ← List.append_assoc]
      exact h2

theorem for_loop_appends (body : woz_chunk → Nat → Option woz_chunk) (f : Nat → List Nat)
    (n : Nat) (P : Nat → List Nat → Prop)
    (hstep : ∀ k, k < n → ∀ c name payload, c.built name payload → P k payload →
      (payload ++ f k).length < 2 ^ 60 →
      ∃ c', body c k = some c' ∧ c'.built name (payload ++ f k) ∧ P (k + 1) (payload ++ f k))
    (c : woz_chunk) (name payload : List Nat) (h : c.built name payload) (hP : P 0 payload)
    (hb : (payload ++ records f n).length < 2 ^ 60) :
    ∃ c', for_loop n body c = some c' ∧ c'.built name (payload ++ records f n) ∧
      P n (payload ++ records f n) := by
  induction n with
  | zero =>
    refine ⟨c, rfl, ?_, ?_⟩
    · rw [records, List.append_nil]
      exact h
    · rw [records, List.append_nil]
      exact hP
  | succ n ih =>
    rw [records, ← List.append_assoc] at hb
    obtain ⟨c1, e1, h1, hP1⟩ := ih (fun k hk => hstep k (by omega)) (by
      rw [List.length_append] at hb
      omega)
    obtain ⟨c2, e2, h2, hP2⟩ := hstep n (by omega) c1 name _ h1 hP1 hb
    refine ⟨c2, ?_, ?_, ?_⟩
    · rw [for_loop_succ, e1, Option.some_bind, e2]
    · rw [records, ← List.append_assoc]
      exact h2
    · rw [records, ← List.append_assoc]
      exact hP2

theorem for_loop_pair_appends {σ : Type} (body : woz_chunk × σ → Nat → Option (woz_chunk × σ))
    (aux : Nat → σ) (f : Nat → List Nat) (count : Nat) (a0 an : σ)
    (h0 : aux 0 = a0) (hn : aux count = an)
    (hstep : ∀ k, k < count → ∀ c name payload, c.built name payload →
      (payload ++ f k).length < 2 ^ 60 →
      ∃ c', body (c, aux k) k = some (c', aux (k + 1)) ∧ c'.built name (payload ++ f k))
    (c : woz_chunk) (name payload : List Nat) (h : c.built name payload)
    (hb : (payload ++ records f count).length < 2 ^ 60) :
    ∃ c', for_loop count body (c, a0) = some (c', an) ∧
      c'.built name (payload ++ records f count) := by
  subst h0
  subst hn
  unfold for_loop
  exact for_loop_from_appends body aux f count 0
    (fun k hk c name payload hc hbk => by
      rw [Nat.zero_add]
      exact hstep k hk c name payload hc hbk) c name payload h hb

/-! ## The four payloads built by main -/

theorem woz_crc32_loop_take (p : List Nat) (size crc : Nat) (h : size ≤ p.length) :
    woz_crc32_loop p size crc = woz_crc32_loop (p.take size) (p.take size).length crc := by
  induction p generalizing size crc with
  | nil =>
    have : size = 0 := by simpa using h
    subst this
    rfl
  | cons b p ih =>
    cases size with
    | zero => rfl
    | succ size =>
      simp only [List.take_succ_cons, List.length_cons, woz_crc32_loop, Option.bind_eq_bind]
      cases crc32_tab[(crc ^^^ b) &&& 0xFF]? with
      | none => rfl
      | some t =>
        simp only [Option.some_bind]
        exact ih size _ (by simpa using h)

theorem woz_crc32_some (buf : List Nat) (size : Nat) (h : size ≤ buf.length) :
    ∃ r, woz_crc32 buf size = some r ∧ r < 2 ^ 32 ∧
      woz_crc32 (buf.take size) (buf.take size).length = some r := by
  obtain ⟨r, hr, hlt⟩ := woz_crc32_total (buf.take size)
  refine ⟨r, ?_, hlt, hr⟩
  unfold woz_crc32 at hr ⊢
  rw [woz_crc32_loop_take buf size _ h]
  exact hr

theorem main_track_list_get (tracks : List track_data) (h : main_track_list tracks)
    (k : Nat) (hk : k < 46) :
    ∃ t, tracks[k]? = some t ∧ t.data_length = 6656 ∧ t.block_count = 13 ∧
      t.data.length = 6656 ∧ track_bytes tracks k = t.data := by
  obtain ⟨hlen, hall⟩ := h
  have hk' : k < tracks.length := by
    rw [hlen]
    exact hk
  have e : tracks[k]? = some tracks[k] := List.getElem?_eq_getElem hk'
  obtain ⟨h1, h2, h3⟩ := hall _ (List.getElem_mem hk')
  refine ⟨tracks[k], e, h1, h2, h3, ?_⟩
  simp only [track_bytes, e]

theorem main_build_info_appends : appends main_build_info info_payload := by
  have key := appends_cons _ _ _ _ (appends_write_uint8 2)
    (appends_cons _ _ _ _ (appends_write_uint8 1)
    (appends_cons _ _ _ _ (appends_write_uint8 1)
    (appends_cons _ _ _ _ (appends_write_uint8 1)
    (appends_cons _ _ _ _ (appends_write_uint8 1)
    (appends_cons _ _ _ _ (appends_write_utf8 CREATOR_NAME 32)
    (appends_cons _ _ _ _ (appends_write_uint8 1)
    (appends_cons _ _ _ _ (appends_write_uint8 1)
    (appends_cons _ _ _ _ (appends_write_uint8 32)
    (appends_cons _ _ _ _ (appends_write_uint16 0x7F)
    (appends_cons _ _ _ _ (appends_write_uint16 64)
    (appends_cons _ _ _ _ (appends_write_uint16 BITS_BLOCKS_PER_TRACK) appends_nil)))))))))))
  intro chunk name payload h hb
  obtain ⟨c, e, hc⟩ := key chunk name payload h hb
  exact ⟨c, e, hc⟩

theorem main_tmap_step_appends (k : Nat) (c : woz_chunk) (name payload : List Nat)
    (h : c.built name payload) (hb : (payload ++ [tmap_entry (k + 3)]).length < 2 ^ 60) :
    ∃ c', main_tmap_step (c, (k + 2) / 3) (3 + k) = some (c', (k + 1 + 2) / 3) ∧
      c'.built name (payload ++ [tmap_entry (k + 3)]) := by
  have e : (if (3 + k) % 3 = 0 then (k + 2) / 3 + 1 else (k + 2) / 3) = (k + 3) / 3 := by
    split <;> omega
  simp only [main_tmap_step, e, TRACKS_PER_DISK, tmap_entry]
  have hb1 : ∀ v : Nat, (payload ++ [v]).length < 2 ^ 60 := fun v => by
    rw [List.length_append, List.length_singleton] at hb ⊢
    exact hb
  by_cases hlt : (k + 3) / 3 < 46
  · obtain ⟨c', e', h'⟩ := appends_write_uint8 ((k + 3) / 3) c name payload h (hb1 _)
    simp only at e'
    rw [if_pos hlt, if_pos hlt, e']
    refine ⟨c', rfl, ?_⟩
    rw [Nat.mod_eq_of_lt (by omega)] at h'
    exact h'
  · obtain ⟨c', e', h'⟩ := appends_write_uint8 0xFF c name payload h (hb1 _)
    simp only at e'
    rw [if_neg hlt, if_neg hlt, e']
    exact ⟨c', rfl, h'⟩

theorem length_tmap_records : (records (fun k => [tmap_entry (k + 3)]) 157).length = 157 := by
  rw [length_records (fun k => [tmap_entry (k + 3)]) 1 157 (fun _ _ => rfl)]

theorem main_build_tmap_appends : appends main_build_tmap tmap_payload := by
  intro chunk name payload h hb
  have hb' : payload.length + 160 < 2 ^ 60 := by
    rw [List.length_append, tmap_payload, List.length_append, length_tmap_records] at hb
    exact hb
  obtain ⟨c1, e1, h1⟩ := appends_write_uint8 0 chunk name payload h (by
    simp only [List.length_append, List.length_singleton]
    omega)
  obtain ⟨c2, e2, h2⟩ := appends_write_uint8 0 c1 name _ h1 (by
    simp only [List.length_append, List.length_singleton]
    omega)
  obtain ⟨c3, e3, h3⟩ := appends_write_uint8 0xFF c2 name _ h2 (by
    simp only [List.length_append, List.length_singleton]
    omega)
  simp only at e1 e2 e3
  obtain ⟨c4, e4, h4⟩ := for_loop_from_appends main_tmap_step (fun k => (k + 2) / 3)
    (fun k => [tmap_entry (k + 3)]) 157 3
    (fun k _ c name payload hc hbk => main_tmap_step_appends k c name payload hc hbk)
    c3 name _ h3 (by
      simp only [List.length_append, List.length_singleton, length_tmap_records]
      omega)
  refine ⟨c4, ?_, ?_⟩
  · simp only [main_build_tmap, Option.bind_eq_bind, e1, Option.some_bind, e2, e3]
    have e4' : for_loop_from main_tmap_step 157 3 (c3, 0) = some (c4, (157 + 2) / 3) := e4
    rw [e4']
    rfl
  · have e : payload ++ tmap_payload
        = payload ++ [0 % 256] ++ [0 % 256] ++ [0xFF % 256]
          ++ records (fun k => [tmap_entry (k + 3)]) 157 := by
      simp [tmap_payload]
    rw [e]
    exact h4

theorem main_trks_directory_step_appends (tracks : List track_data)
    (ht : main_track_list tracks) (k : Nat) (hk : k < 46) (c : woz_chunk)
    (name payload : List Nat) (h : c.built name payload)
    (hsize : (payload ++ trks_record k).length < 2 ^ 60) :
    ∃ c', main_trks_directory_step tracks (c, 3 + 13 * k) k = some (c', 3 + 13 * (k + 1)) ∧
      c'.built name (payload ++ trks_record k) := by
  obtain ⟨t, et, hl, hb, _, _⟩ := main_track_list_get tracks ht k hk
  have hsize' : payload.length + 8 < 2 ^ 60 := by
    rw [List.length_append] at hsize
    exact hsize
  obtain ⟨c1, e1, h1⟩ := appends_write_uint16 (3 + 13 * k) c name payload h (by
    simp only [List.length_append, List.length_cons, List.length_nil]
    omega)
  obtain ⟨c2, e2, h2⟩ := appends_write_uint16 13 c1 name _ h1 (by
    simp only [List.length_append, List.length_cons, List.length_nil]
    omega)
  obtain ⟨c3, e3, h3⟩ := appends_write_uint32 53248 c2 name _ h2 (by
    simp only [List.length_append, List.length_cons, List.length_nil, length_le32]
    omega)
  simp only at e1 e2 e3
  have e53248 : (6656 % 2 ^ 32 * 8) % 2 ^ 32 = 53248 := by decide
  have enext : (3 + 13 * k + 13) % 2 ^ 16 = 3 + 13 * (k + 1) := by omega
  refine ⟨c3, ?_, ?_⟩
  · simp only [main_trks_directory_step, Option.bind_eq_bind, et, Option.some_bind, e1, hb, e2,
      hl, e53248, e3, enext]
  · have e : payload ++ trks_record k
        = payload ++ [(3 + 13 * k) % 256, (3 + 13 * k) / 256 % 256]
          ++ [13 % 256, 13 / 256 % 256] ++ le32 53248 := by
      simp [trks_record]
    rw [e]
    exact h3

theorem size_t_to_int_zero : size_t_to_int 0 = 0 := by decide

theorem main_trks_data_step_appends (tracks : List track_data)
    (ht : main_track_list tracks) (k : Nat) (hk : k < 46) (c : woz_chunk)
    (name payload : List Nat) (h : c.built name payload)
    (hlen : payload.length = 1280 + 6656 * k) :
    ∃ c', main_trks_data_step tracks c k = some c' ∧
      c'.built name (payload ++ track_bytes tracks k) ∧
      (payload ++ track_bytes tracks k).length = 1280 + 6656 * (k + 1) := by
  obtain ⟨t, et, hl, hb, hd, hbytes⟩ := main_track_list_get tracks ht k hk
  obtain ⟨c1, e1, h1⟩ := appends_write_bytes t.data 6656 (by omega) c name payload h (by
    rw [List.length_append, List.length_take, hd, hlen]
    omega)
  simp only at e1
  rw [List.take_of_length_le (by omega)] at h1
  have hmark : c1.mark = 1280 + 6656 * k + 6656 := by
    rw [← length_payload c1 h1.1.1, h1.1.2.2.2, List.length_append, hlen, hd]
  have epad : (13 * BITS_BLOCK_SIZE + 2 ^ 64 - 6656) % 2 ^ 64 = 0 := by decide
  refine ⟨c1, ?_, ?_, ?_⟩
  · simp only [main_trks_data_step, Option.bind_eq_bind, et, Option.some_bind, hl, e1, hb, epad,
      size_t_to_int_zero]
    exact chunk_advance_mark_zero c1 (by omega)
  · rw [hbytes]
    exact h1
  · rw [hbytes, List.length_append, hlen, hd]
    omega

theorem length_trks_directory : (records trks_record 46).length = 368 :=
  length_records trks_record 8 46 (fun _ _ => rfl)

theorem main_build_trks_holds (tracks : List track_data) (ht : main_track_list tracks)
    (c : woz_chunk) (name : List Nat) (h : c.built name []) :
    ∃ c', main_build_trks tracks c = some c' ∧ c'.built name (trks_payload tracks) := by
  obtain ⟨c1, e1, h1⟩ := for_loop_pair_appends (main_trks_directory_step tracks)
    (fun k => 3 + 13 * k) trks_record 46 3 601 rfl rfl
    (fun k hk c name payload hc hbk =>
      main_trks_directory_step_appends tracks ht k hk c name payload hc hbk) c name [] h
    (by
      rw [List.nil_append, length_trks_directory]
      decide)
  have hm1 : c1.mark = 368 := by
    rw [← length_payload c1 h1.1.1, h1.1.2.2.2, List.nil_append, length_trks_directory]
  obtain ⟨c2, e2, h2⟩ := chunk_set_mark_built c1 name _ 1280 h1 (by omega) (by decide)
  rw [hm1] at h2
  have hlen0 : ([] ++ records trks_record 46 ++ List.replicate (1280 - 368) 0).length
      = 1280 + 6656 * 0 := by
    rw [List.nil_append, List.length_append, length_trks_directory, List.length_replicate]
  obtain ⟨c3, e3, h3, _⟩ := for_loop_appends (main_trks_data_step tracks) (track_bytes tracks) 46
    (fun k p => p.length = 1280 + 6656 * k)
    (fun k hk c name payload hc hp _ =>
      main_trks_data_step_appends tracks ht k hk c name payload hc hp) c2 name _ h2 hlen0
    (by
      rw [List.length_append, hlen0, length_records (track_bytes tracks) 6656 46 (fun k hk => by
        obtain ⟨t, _, _, _, hd, hbytes⟩ := main_track_list_get tracks ht k hk
        rw [hbytes, hd])]
      decide)
  have hrun : main_build_trks tracks c
      = (for_loop 46 (main_trks_directory_step tracks) (c, 3)).bind (fun state =>
          (chunk_set_mark state.1 1280).bind (fun trks =>
            for_loop 46 (main_trks_data_step tracks) trks)) := rfl
  refine ⟨c3, ?_, ?_⟩
  · rw [hrun, e1, Option.some_bind, e2, Option.some_bind]
    exact e3
  · rw [List.nil_append] at h3
    exact h3

theorem writ_checksum_eq (tracks : List track_data) (ht : main_track_list tracks)
    (k : Nat) (hk : k < 46) :
    woz_crc32 (track_bytes tracks k) 832 = some (writ_checksum tracks k) ∧
      writ_checksum tracks k < 2 ^ 32 ∧
      woz_crc32 ((track_bytes tracks k).take 832) 832 = some (writ_checksum tracks k) := by
  obtain ⟨t, _, _, _, hd, hbytes⟩ := main_track_list_get tracks ht k hk
  obtain ⟨r, hr, hlt, hr'⟩ := woz_crc32_some (track_bytes tracks k) 832 (by rw [hbytes, hd]; omega)
  have e : writ_checksum tracks k = r := by
    unfold writ_checksum
    rw [hr]
    rfl
  have hlen : ((track_bytes tracks k).take 832).length = 832 := by
    rw [List.length_take, hbytes, hd]
    rfl
  rw [hlen] at hr'
  rw [e]
  exact ⟨hr, hlt, hr'⟩

theorem main_writ_step_appends (tracks : List track_data)
    (ht : main_track_list tracks) (k : Nat) (hk : k < 46) (c : woz_chunk)
    (name payload : List Nat) (h : c.built name payload)
    (hsize : (payload ++ writ_record tracks k).length < 2 ^ 60) :
    ∃ c', main_writ_step tracks (c, writ_subtrack k) k = some (c', writ_subtrack (k + 1)) ∧
      c'.built name (payload ++ writ_record tracks k) := by
  obtain ⟨t, et, hl, hb, hd, hbytes⟩ := main_track_list_get tracks ht k hk
  obtain ⟨hcrc, _, _⟩ := writ_checksum_eq tracks ht k hk
  rw [hbytes] at hcrc
  have key := appends_cons _ _ _ _ (appends_write_uint8 (writ_subtrack k))
    (appends_cons _ _ _ _ (appends_write_uint8 1)
    (appends_cons _ _ _ _ (appends_write_uint8 0x01)
    (appends_cons _ _ _ _ (appends_write_uint8 0)
    (appends_cons _ _ _ _ (appends_write_uint32 (writ_checksum tracks k))
    (appends_cons _ _ _ _ (appends_write_uint32 0)
    (appends_cons _ _ _ _ (appends_write_uint32 53248)
    (appends_cons _ _ _ _ (appends_write_uint8 0x00)
    (appends_cons _ _ _ _ (appends_write_uint8 0)
    (appends_cons _ _ _ _ (appends_write_uint8 0)
    (appends_cons _ _ _ _ (appends_write_uint8 0) appends_nil))))))))))
  obtain ⟨c', e', h'⟩ := key c name payload h (by
    have hl : (writ_record tracks k).length = 20 := rfl
    rw [List.length_append, hl] at hsize
    simp only [List.length_append, List.length_cons, List.length_nil, length_le32]
    omega)
  have e832 : (6656 + 7) / 8 = 832 := by decide
  have e53248 : (6656 % 2 ^ 32 * 8) % 2 ^ 32 = 53248 := by decide
  have enext : writ_subtrack k + (if k = 0 then 4 else 3) = writ_subtrack (k + 1) := by
    unfold writ_subtrack
    split <;> simp <;> omega
  have esub : writ_subtrack k % 256 = writ_subtrack k := by
    unfold writ_subtrack
    split <;> omega
  refine ⟨c', ?_, ?_⟩
  · simp only [main_writ_step, Option.bind_eq_bind, et, Option.some_bind, hl, e832, hcrc,
      e53248, e', enext]
  · have e : payload ++ writ_record tracks k
        = payload ++ ([writ_subtrack k % 256] ++ ([1 % 256] ++ ([0x01 % 256] ++ ([0 % 256]
          ++ (le32 (writ_checksum tracks k) ++ (le32 0 ++ (le32 53248 ++ ([0x00 % 256]
          ++ ([0 % 256] ++ ([0 % 256] ++ ([0 % 256] ++ []))))))))))) := by
      rw [esub]
      simp [writ_record]
    rw [e]
    exact h'

theorem main_build_writ_appends (tracks : List track_data) (ht : main_track_list tracks) :
    appends (main_build_writ tracks) (writ_payload tracks) := by
  intro c name payload h hb
  obtain ⟨c1, e1, h1⟩ := for_loop_pair_appends (main_writ_step tracks)
    writ_subtrack (writ_record tracks) 46 0 (writ_subtrack 46) rfl rfl
    (fun k hk c name payload hc hbk =>
      main_writ_step_appends tracks ht k hk c name payload hc hbk)
    c name payload h hb
  have hrun : main_build_writ tracks c
      = (for_loop 46 (main_writ_step tracks) (c, 0)).bind (fun state => some state.1) := rfl
  refine ⟨c1, ?_, h1⟩
  rw [hrun, e1, Option.some_bind]

theorem length_info_payload : info_payload.length = 46 := rfl

theorem length_tmap_payload : tmap_payload.length = 160 := by
  unfold tmap_payload
  rw [List.length_append, length_records (fun k => [tmap_entry (k + 3)]) 1 157 (fun _ _ => rfl)]
  rfl

theorem length_trks_tracks (tracks : List track_data) (ht : main_track_list tracks) :
    (records (track_bytes tracks) 46).length = 46 * 6656 :=
  length_records _ 6656 46 (fun k hk => by
    obtain ⟨t, _, _, _, hd, hbytes⟩ := main_track_list_get tracks ht k hk
    rw [hbytes, hd])

theorem length_trks_payload (tracks : List track_data) (ht : main_track_list tracks) :
    (trks_payload tracks).length = 307456 := by
  unfold trks_payload
  rw [List.length_append, List.length_append, length_trks_directory, List.length_replicate,
    length_trks_tracks tracks ht]

theorem length_writ_payload (tracks : List track_data) :
    (writ_payload tracks).length = 920 :=
  length_records _ 20 46 (fun _ _ => rfl)

/-- What `main` builds from its 46 tracks: four chunks with the tags INFO,
TMAP, TRKS and WRIT holding the four payloads. -/
theorem main_build_woz_eq (tracks : List track_data) (ht : main_track_list tracks) :
    ∃ info tmap trks writ,
      main_build_woz tracks = some ⟨some info, some tmap, some trks, some writ⟩ ∧
      info.holds INFO_TAG info_payload ∧ tmap.holds TMAP_TAG tmap_payload ∧
      trks.holds TRKS_TAG (trks_payload tracks) ∧ writ.holds WRIT_TAG (writ_payload tracks) := by
  obtain ⟨i0, ei0, hi0⟩ := create_woz_chunk_built [0x49, 0x4E, 0x46, 0x4F, 0] (by decide)
  obtain ⟨m0, em0, hm0⟩ := create_woz_chunk_built [0x54, 0x4D, 0x41, 0x50, 0] (by decide)
  obtain ⟨t0, et0, ht0⟩ := create_woz_chunk_built [0x54, 0x52, 0x4B, 0x53, 0] (by decide)
  obtain ⟨w0, ew0, hw0⟩ := create_woz_chunk_built [0x57, 0x52, 0x49, 0x54, 0] (by decide)
  have hi0' : i0.built INFO_TAG [] := hi0
  have hm0' : m0.built TMAP_TAG [] := hm0
  have ht0' : t0.built TRKS_TAG [] := ht0
  have hw0' : w0.built WRIT_TAG [] := hw0
  obtain ⟨info, e1, h1⟩ := main_build_info_appends i0 INFO_TAG [] hi0' (by
    rw [List.nil_append, length_info_payload]
    decide)
  obtain ⟨tmap, e2, h2⟩ := main_build_tmap_appends m0 TMAP_TAG [] hm0' (by
    rw [List.nil_append, length_tmap_payload]
    decide)
  obtain ⟨trks, e3, h3⟩ := main_build_trks_holds tracks ht t0 TRKS_TAG ht0'
  obtain ⟨writ, e4, h4⟩ := main_build_writ_appends tracks ht w0 WRIT_TAG [] hw0' (by
    rw [List.nil_append, length_writ_payload]
    decide)
  rw [List.nil_append] at h1 h2 h4
  refine ⟨info, tmap, trks, writ, ?_, h1.1, h2.1, h3.1, h4.1⟩
  have hc : create_empty_woz_file true (true, true) (true, true) (true, true) (true, true)
      = some ⟨some i0, some m0, some t0, some w0⟩ := by
    simp [create_empty_woz_file, ei0, em0, et0, ew0]
  have hrun : main_build_woz tracks
      = (create_empty_woz_file true (true, true) (true, true) (true, true) (true, true)).bind
        (fun woz => woz.info.bind (fun info => (main_build_info info).bind (fun info =>
          woz.tmap.bind (fun tmap => (main_build_tmap tmap).bind (fun tmap =>
          woz.trks.bind (fun trks => (main_build_trks tracks trks).bind (fun trks =>
          woz.writ.bind (fun writ => (main_build_writ tracks writ).bind (fun writ =>
            some { info := some info, tmap := some tmap, trks := some trks,
                   writ := some writ }))))))))) := rfl
  rw [hrun, hc]
  simp only [Option.some_bind, e1, e2, e3, e4]

/-! ## The file written by main -/

theorem chunk_layout_holds (c : woz_chunk) (name payload : List Nat)
    (h : c.holds name payload) :
    chunk_layout c = name ++ le32 payload.length ++ payload ∧ c.mark = payload.length := by
  obtain ⟨hv, _, hn, hp⟩ := h
  have hm : c.mark = payload.length := by
    rw [← hp, length_payload c hv]
  refine ⟨?_, hm⟩
  unfold chunk_layout
  rw [hn, ← hm]
  unfold woz_chunk.payload at hp
  rw [hp]

/-- The bytes that `main` hands to `fwrite`: the 12-byte header, then the four
chunks, each an 8-byte chunk header followed by its payload. -/
theorem main_woz_file_eq (tracks : List track_data) (ht : main_track_list tracks)
    (junk : Nat → Nat) :
    ∃ crc, crc < 2 ^ 32 ∧ main_woz_file tracks junk = some
      (woz_magic ++ le32 crc ++ (INFO_TAG ++ le32 46) ++ info_payload
        ++ (TMAP_TAG ++ le32 160) ++ tmap_payload
        ++ (TRKS_TAG ++ le32 307456) ++ trks_payload tracks
        ++ (WRIT_TAG ++ le32 920) ++ writ_payload tracks) := by
  obtain ⟨info, tmap, trks, writ, e, h1, h2, h3, h4⟩ := main_build_woz_eq tracks ht
  obtain ⟨l1, m1⟩ := chunk_layout_holds info _ _ h1
  obtain ⟨l2, m2⟩ := chunk_layout_holds tmap _ _ h2
  obtain ⟨l3, m3⟩ := chunk_layout_holds trks _ _ h3
  obtain ⟨l4, m4⟩ := chunk_layout_holds writ _ _ h4
  rw [length_info_payload] at l1 m1
  rw [length_tmap_payload] at l2 m2
  rw [length_trks_payload tracks ht] at l3 m3
  rw [length_writ_payload] at l4 m4
  obtain ⟨crc, hlt, _, hw⟩ := write_woz_to_file_eq info tmap trks writ h1.1 h2.1 h3.1 h4.1
    (by omega) (by omega) (by omega) (by omega) junk
  refine ⟨crc, hlt, ?_⟩
  have hrun : main_woz_file tracks junk
      = (main_build_woz tracks).bind (fun woz => write_woz_to_file woz junk) := rfl
  rw [hrun, e, Option.some_bind, hw, l1, l2, l3, l4]
  simp only [List.append_assoc]

theorem slice_mid (pre mid post : List Nat) (n a w : Nat) (hn : pre.length = n)
    (h : a + w ≤ mid.length) :
    ((pre ++ mid ++ post).drop (n + a)).take w = (mid.drop a).take w := by
  subst hn
  rw [List.append_assoc, List.drop_append, List.drop_append_of_le_length (by omega),
    List.take_append_of_le_length (by rw [List.length_drop]; omega)]

theorem getElem?_of_slice (l s : List Nat) (n w j : Nat) (h : (l.drop n).take w = s)
    (hj : j < w) : l[n + j]? = s[j]? := by
  rw [← h, List.getElem?_take_of_lt hj, List.getElem?_drop]

/-! ## The tracks built by main -/

theorem for_loop_store_all (v : Nat → Nat) (n : Nat) (init : List Nat) (h : init.length = n) :
    for_loop n (fun data j => store data j (v j)) init = some ((List.range n).map v) := by
  obtain ⟨d, e, hlen, hd⟩ := for_loop_inv (fun data j => store data j (v j))
    (fun i data => data.length = n ∧ ∀ j, j < i → data[j]? = some (v j)) n init
    ⟨h, fun j hj => absurd hj (Nat.not_lt_zero _)⟩
    (fun i data hi hP => by
      obtain ⟨hl, hw⟩ := hP
      refine ⟨data.set i (v i), store_eq_some _ _ _ (by omega), ?_, ?_⟩
      · rw [List.length_set, hl]
      · intro j hj
        by_cases hji : j = i
        · subst hji
          exact getElem?_set_self_of_lt _ _ _ (by omega)
        · rw [getElem?_set_of_ne _ _ _ _ (by omega)]
          exact hw j (by omega))
  rw [e]
  congr 1
  apply List.ext_getElem?
  intro j
  by_cases hj : j < n
  · rw [hd j hj, List.getElem?_map, List.getElem?_range hj]
    rfl
  · rw [List.getElem?_eq_none (by omega),
      List.getElem?_eq_none (by rw [List.length_map, List.length_range]; omega)]

theorem create_track_data_eq :
    create_track_data BITS_TRACK_SIZE
      = (⟨6656, 13, List.replicate 6656 0⟩ : track_data) := by
  rfl

/-- The bytes of an image track: 0xFF where the sample is bright, 0x96
elsewhere. -/
theorem main_image_track_eq (bright : Nat → Bool) :
    main_image_track bright = some
      (⟨6656, 13, (List.range 6656).map (fun j => if bright j then 0xFF else 0x96)⟩ :
        track_data) := by
  have hrun : main_image_track bright
      = (for_loop 6656 (fun data j => store data j (if bright j then 0xFF else 0x96))
          (List.replicate 6656 0)).map
        (fun data => (⟨6656, 13, data⟩ : track_data)) := rfl
  rw [hrun, for_loop_store_all _ 6656 _ (List.length_replicate _ _)]
  rfl

theorem main_track_0_eq (track_0 : List Nat) (hs : track_0.length = 4096)
    (hb : is_bytes track_0) :
    ∃ dest, gcr_encode_bits_for_track (create_track_data BITS_TRACK_SIZE).data track_0 0
        dsk_sector_format.dos_3_3 = some (dest, 50632) ∧ dest.length = 6656 ∧
      main_track_0 track_0 = some (⟨6656, 13, dest⟩ : track_data) := by
  obtain ⟨buf, e, hcl, _⟩ := gcr_encode_bits_for_track_bits (List.replicate 6656 0) track_0 0
    dsk_sector_format.dos_3_3 (fun _ => content_none) (List.length_replicate _ _) hs hb
    (fun s _ => writes_gcr_sector_header_any 0 s)
  have e' : gcr_encode_bits_for_track (create_track_data BITS_TRACK_SIZE).data track_0 0
      dsk_sector_format.dos_3_3 = some (buf, 50632) := by
    rw [create_track_data_eq]
    exact e
  refine ⟨buf, e', hcl.1, ?_⟩
  have hrun : main_track_0 track_0
      = (gcr_encode_bits_for_track (create_track_data BITS_TRACK_SIZE).data track_0 0
          dsk_sector_format.dos_3_3).map
        (fun r => { create_track_data BITS_TRACK_SIZE with data := r.1 }) := rfl
  rw [hrun, e', create_track_data_eq]
  rfl

/-- The 46 tracks of `main`: track 0 holds the bytes left by
`gcr_encode_bits_for_track`, track `i ≥ 1` the bytes chosen by `bright i`. -/
theorem main_tracks_eq (track_0 : List Nat) (bright : Nat → Nat → Bool)
    (hs : track_0.length = 4096) (hb : is_bytes track_0) :
    ∃ dest tracks, gcr_encode_bits_for_track (create_track_data BITS_TRACK_SIZE).data track_0 0
        dsk_sector_format.dos_3_3 = some (dest, 50632) ∧
      main_tracks track_0 bright = some tracks ∧ main_track_list tracks ∧
      track_bytes tracks 0 = dest ∧
      ∀ i, 1 ≤ i → i < 46 → track_bytes tracks i
        = (List.range 6656).map (fun j => if bright i j then 0xFF else 0x96) := by
  obtain ⟨dest, eg, hdl, e0⟩ := main_track_0_eq track_0 hs hb
  obtain ⟨tracks, et, hlen, hfull, h0, himg⟩ := for_loop_from_inv
    (fun tracks i => (main_image_track (bright i)).map (fun t => tracks ++ [t]))
    (fun i (tracks : List track_data) => tracks.length = i ∧ (∀ t, t ∈ tracks → t.full) ∧
      track_bytes tracks 0 = dest ∧
      ∀ k, 1 ≤ k → k < i → track_bytes tracks k
        = (List.range 6656).map (fun j => if bright k j then 0xFF else 0x96))
    45 1 [(⟨6656, 13, dest⟩ : track_data)]
    ⟨rfl, fun t h => by
        rw [List.mem_singleton] at h
        subst h
        exact ⟨rfl, rfl, hdl⟩,
      rfl, fun k h1 h2 => by omega⟩
    (fun i tracks h1 _ hP => by
      obtain ⟨hl, hf, hz, hi⟩ := hP
      refine ⟨tracks ++ [(⟨6656, 13,
          (List.range 6656).map (fun j => if bright i j then 0xFF else 0x96)⟩ : track_data)],
        ?_, ?_, ?_, ?_, ?_⟩
      · show (main_image_track (bright i)).map (fun t => tracks ++ [t]) = _
        rw [main_image_track_eq]
        rfl
      · rw [List.length_append, hl]
        rfl
      · intro t h
        rcases List.mem_append.mp h with h | h
        · exact hf t h
        · rw [List.mem_singleton] at h
          subst h
          exact ⟨rfl, rfl, by rw [List.length_map, List.length_range]; rfl⟩
      · unfold track_bytes at hz ⊢
        rw [List.getElem?_append_left (by omega)]
        exact hz
      · intro k hk1 hk2
        by_cases hki : k = i
        · subst hki
          unfold track_bytes
          rw [List.getElem?_append_right (by omega), hl, Nat.sub_self]
          simp only [List.getElem?_cons_zero]
        · have := hi k hk1 (by omega)
          unfold track_bytes at this ⊢
          rw [List.getElem?_append_left (by omega)]
          exact this)
  refine ⟨dest, tracks, eg, ?_, ⟨hlen, hfull⟩, h0, fun i h1 h2 => himg i h1 (by omega)⟩
  have hrun : main_tracks track_0 bright
      = (main_track_0 track_0).bind (fun track =>
          for_loop_from
            (fun tracks i => (main_image_track (bright i)).map (fun t => tracks ++ [t]))
            45 1 [track]) := rfl
  rw [hrun, e0, Option.some_bind]
  exact et

/-! ## Reading the payloads -/

theorem sub_slice (l s : List Nat) (n w a b : Nat) (h : (l.drop n).take w = s)
    (hab : a + b ≤ w) : (l.drop (n + a)).take b = (s.drop a).take b := by
  apply List.ext_getElem?
  intro j
  by_cases hj : j < b
  · rw [List.getElem?_take_of_lt hj, List.getElem?_take_of_lt hj, List.getElem?_drop,
      List.getElem?_drop, ← h, List.getElem?_take_of_lt (by omega), List.getElem?_drop,
      Nat.add_assoc]
  · rw [List.getElem?_take_eq_none (by omega), List.getElem?_take_eq_none (by omega)]

theorem slice_left (mid post : List Nat) (a w : Nat) (h : a + w ≤ mid.length) :
    ((mid ++ post).drop a).take w = (mid.drop a).take w := by
  have := slice_mid [] mid post 0 a w rfl h
  rw [List.nil_append, Nat.zero_add] at this
  exact this

theorem slice_right (pre mid : List Nat) (n a w : Nat) (hn : pre.length = n)
    (h : a + w ≤ mid.length) :
    ((pre ++ mid).drop (n + a)).take w = (mid.drop a).take w := by
  have := slice_mid pre mid [] n a w hn h
  rw [List.append_nil] at this
  exact this

theorem trks_payload_record (tracks : List track_data) (i : Nat) (hi : i < 46) :
    ((trks_payload tracks).drop (8 * i)).take 8 = trks_record i := by
  have hle : 8 * i + 8 ≤ (records trks_record 46).length := by
    rw [length_trks_directory]
    omega
  unfold trks_payload
  rw [List.append_assoc, slice_left _ _ _ _ hle, Nat.mul_comm]
  exact records_slice trks_record 8 46 i (fun _ _ => rfl) hi

theorem trks_payload_zero (tracks : List track_data) (j : Nat) (h1 : 368 ≤ j) (h2 : j < 1280) :
    (trks_payload tracks)[j]? = some 0 := by
  unfold trks_payload
  rw [List.append_assoc, List.getElem?_append_right (by rw [length_trks_directory]; exact h1),
    length_trks_directory, List.getElem?_append_left (by rw [List.length_replicate]; omega),
    List.getElem?_replicate, if_pos (by omega)]

theorem trks_payload_track (tracks : List track_data) (ht : main_track_list tracks)
    (i : Nat) (hi : i < 46) :
    ((trks_payload tracks).drop (1280 + 6656 * i)).take 6656 = track_bytes tracks i := by
  have hlen : ∀ k, k < 46 → (track_bytes tracks k).length = 6656 := fun k hk => by
    obtain ⟨t, _, _, _, hd, hbytes⟩ := main_track_list_get tracks ht k hk
    rw [hbytes, hd]
  have hle : 6656 * i + 6656 ≤ (records (track_bytes tracks) 46).length := by
    rw [length_trks_tracks tracks ht]
    omega
  have hpre : (records trks_record 46 ++ List.replicate 912 0).length = 1280 := by
    rw [List.length_append, length_trks_directory, List.length_replicate]
  unfold trks_payload
  rw [slice_right _ _ 1280 _ _ hpre hle, Nat.mul_comm]
  exact records_slice (track_bytes tracks) 6656 46 i hlen hi

theorem writ_payload_record (tracks : List track_data) (i : Nat) (hi : i < 46) :
    ((writ_payload tracks).drop (20 * i)).take 20 = writ_record tracks i := by
  unfold writ_payload
  rw [Nat.mul_comm]
  exact records_slice (writ_record tracks) 20 46 i (fun _ _ => rfl) hi

theorem tmap_payload_getElem? (i : Nat) (h1 : 3 ≤ i) (h2 : i < 160) :
    tmap_payload[i]? = some (tmap_entry i) := by
  unfold tmap_payload
  rw [List.getElem?_append_right (by simpa using h1), records_singleton, List.getElem?_map,
    List.getElem?_range (by simp only [List.length_cons, List.length_nil]; omega)]
  simp only [List.length_cons, List.length_nil, Option.map_some']
  congr 2
  omega

theorem sample_tracks_ok : main_track_list sample_tracks := by
  refine ⟨List.length_replicate _ _, fun t h => ?_⟩
  rw [List.eq_of_mem_replicate h]
  exact ⟨rfl, rfl, List.length_replicate _ _⟩

theorem dark_disk_tracks_ok :
    main_tracks sample_track dark_image = some dark_disk_tracks ∧
      main_track_list dark_disk_tracks := by
  obtain ⟨_, tracks, _, et, ht, _, _⟩ :=
    main_tracks_eq sample_track dark_image length_sample_track is_bytes_sample_track
  have e : dark_disk_tracks = tracks := by
    unfold dark_disk_tracks
    rw [et]
    rfl
  rw [e]
  exact ⟨et, ht⟩

/-! ## The container built by main: the claims on the four payloads -/

/-- C12. The TRKS payload that `main` builds for 46 tracks of 6656 bytes each
has length 1280 + 46 * 6656 = 307456. Directory record `i` is the 8 bytes at
`8 * i`: the little-endian 16-bit starting block `3 + 13 * i`, the 16-bit block
count 13 and the 32-bit bit count 53248. Bytes 368 to 1279 are zero, and the
6656 bytes of track `i` are the bytes at `1280 + 6656 * i`, as they are in the
track buffer. -/
theorem main_build_woz_trks (tracks : List track_data) (ht : main_track_list tracks) :
    ∃ woz trks, main_build_woz tracks = some woz ∧ woz.trks = some trks ∧
      trks.payload.length = 307456 ∧ 307456 = 1280 + 46 * 6656 ∧
      (∀ i, i < 46 → (trks.payload.drop (8 * i)).take 8
        = [(3 + 13 * i) % 256, (3 + 13 * i) / 256, 13, 0] ++ le32 53248) ∧
      (∀ j, 368 ≤ j → j < 1280 → trks.payload[j]? = some 0) ∧
      (∀ i, i < 46 → (trks.payload.drop (1280 + 6656 * i)).take 6656 = track_bytes tracks i ∧
        (track_bytes tracks i).length = 6656) := by
  obtain ⟨info, tmap, trks, writ, e, _, _, h3, _⟩ := main_build_woz_eq tracks ht
  have hp : trks.payload = trks_payload tracks := h3.2.2.2
  refine ⟨_, trks, e, rfl, ?_, by decide, fun i hi => ?_, fun j h1 h2 => ?_, fun i hi => ⟨?_, ?_⟩⟩
  · rw [hp, length_trks_payload tracks ht]
  · rw [hp, trks_payload_record tracks i hi, trks_record,
      Nat.mod_eq_of_lt (show (3 + 13 * i) / 256 < 256 by omega)]
  · rw [hp]
    exact trks_payload_zero tracks j h1 h2
  · rw [hp]
    exact trks_payload_track tracks ht i hi
  · obtain ⟨t, _, _, _, hd, hbytes⟩ := main_track_list_get tracks ht i hi
    rw [hbytes, hd]

theorem main_build_woz_trks_witness :
    main_track_list sample_tracks ∧
    ∃ woz trks, main_build_woz sample_tracks = some woz ∧ woz.trks = some trks ∧
      trks.payload.length = 307456 ∧ 307456 = 1280 + 46 * 6656 ∧
      (∀ i, i < 46 → (trks.payload.drop (8 * i)).take 8
        = [(3 + 13 * i) % 256, (3 + 13 * i) / 256, 13, 0] ++ le32 53248) ∧
      (∀ j, 368 ≤ j → j < 1280 → trks.payload[j]? = some 0) ∧
      (∀ i, i < 46 →
        (trks.payload.drop (1280 + 6656 * i)).take 6656 = track_bytes sample_tracks i ∧
        (track_bytes sample_tracks i).length = 6656) :=
  ⟨sample_tracks_ok, main_build_woz_trks sample_tracks sample_tracks_ok⟩

/-- C15. The WRIT payload that `main` builds is 46 records of 20 bytes, 920
bytes in all. Record `i` begins with the subtrack index, 0 for track 0 and
`3 * i + 1` for every track `i ≥ 1` (4 for track 1), then the command count 1,
the flag byte 0x01 and a zero reserved byte. -/
theorem main_build_woz_writ (tracks : List track_data) (ht : main_track_list tracks) :
    ∃ woz writ, main_build_woz tracks = some woz ∧ woz.writ = some writ ∧
      writ.payload.length = 920 ∧ 920 = 46 * 20 ∧
      ∀ i, i < 46 → (writ.payload.drop (20 * i)).take 4
        = [if i = 0 then 0 else 3 * i + 1, 1, 0x01, 0] := by
  obtain ⟨info, tmap, trks, writ, e, _, _, _, h4⟩ := main_build_woz_eq tracks ht
  have hp : writ.payload = writ_payload tracks := h4.2.2.2
  refine ⟨_, writ, e, rfl, ?_, by decide, fun i hi => ?_⟩
  · rw [hp, length_writ_payload]
  · have h := sub_slice _ _ _ _ 0 4 (writ_payload_record tracks i hi) (by decide)
    rw [Nat.add_zero] at h
    rw [hp, h]
    rfl

theorem main_build_woz_writ_witness :
    main_track_list sample_tracks ∧
    ∃ woz writ, main_build_woz sample_tracks = some woz ∧ woz.writ = some writ ∧
      writ.payload.length = 920 ∧ 920 = 46 * 20 ∧
      ∀ i, i < 46 → (writ.payload.drop (20 * i)).take 4
        = [if i = 0 then 0 else 3 * i + 1, 1, 0x01, 0] :=
  ⟨sample_tracks_ok, main_build_woz_writ sample_tracks sample_tracks_ok⟩

/-- C16. The TMAP payload that `main` builds is exactly 160 bytes: entries 0
and 1 are 0, entry 2 is 0xFF, entry `i` for `3 ≤ i ≤ 137` is `i / 3`, and
entries 138 to 159 are 0xFF. -/
theorem main_build_woz_tmap (tracks : List track_data) (ht : main_track_list tracks) :
    ∃ woz tmap, main_build_woz tracks = some woz ∧ woz.tmap = some tmap ∧
      tmap.payload.length = 160 ∧
      tmap.payload[0]? = some 0 ∧ tmap.payload[1]? = some 0 ∧ tmap.payload[2]? = some 0xFF ∧
      (∀ i, 3 ≤ i → i ≤ 137 → tmap.payload[i]? = some (i / 3)) ∧
      (∀ i, 138 ≤ i → i < 160 → tmap.payload[i]? = some 0xFF) := by
  obtain ⟨info, tmap, trks, writ, e, _, h2, _, _⟩ := main_build_woz_eq tracks ht
  have hp : tmap.payload = tmap_payload := h2.2.2.2
  refine ⟨_, tmap, e, rfl, ?_, ?_, ?_, ?_, fun i h1 h2 => ?_, fun i h1 h2 => ?_⟩
  · rw [hp, length_tmap_payload]
  · rw [hp, tmap_payload, List.getElem?_append_left (by decide)]
    rfl
  · rw [hp, tmap_payload, List.getElem?_append_left (by decide)]
    rfl
  · rw [hp, tmap_payload, List.getElem?_append_left (by decide)]
    rfl
  · rw [hp, tmap_payload_getElem? i h1 (by omega), tmap_entry, if_pos (by omega)]
  · rw [hp, tmap_payload_getElem? i (by omega) h2, tmap_entry, if_neg (by omega)]

theorem main_build_woz_tmap_witness :
    main_track_list sample_tracks ∧
    ∃ woz tmap, main_build_woz sample_tracks = some woz ∧ woz.tmap = some tmap ∧
      tmap.payload.length = 160 ∧
      tmap.payload[0]? = some 0 ∧ tmap.payload[1]? = some 0 ∧ tmap.payload[2]? = some 0xFF ∧
      (∀ i, 3 ≤ i → i ≤ 137 → tmap.payload[i]? = some (i / 3)) ∧
      (∀ i, 138 ≤ i → i < 160 → tmap.payload[i]? = some 0xFF) :=
  ⟨sample_tracks_ok, main_build_woz_tmap sample_tracks sample_tracks_ok⟩

/-- C17. The INFO payload that `main` builds is the 46 bytes 02 01 01 01 01,
the 32-byte creator field "PictureDSK" followed by 22 spaces, 01 01 20, then
the little-endian 16-bit values 0x007F, 64 and 13; the last value, 13, is the
block count that the TRKS directory records for every track. -/
theorem main_build_woz_info (tracks : List track_data) (ht : main_track_list tracks) :
    ∃ woz info trks, main_build_woz tracks = some woz ∧ woz.info = some info ∧
      woz.trks = some trks ∧
      info.payload = [0x02, 0x01, 0x01, 0x01, 0x01]
        ++ [0x50, 0x69, 0x63, 0x74, 0x75, 0x72, 0x65, 0x44, 0x53, 0x4B] ++ List.replicate 22 0x20
        ++ [0x01, 0x01, 0x20] ++ [0x7F, 0x00] ++ [64, 0] ++ [13, 0] ∧
      info.payload.length = 46 ∧
      ∀ i, i < 46 → (trks.payload.drop (8 * i + 2)).take 2 = [13, 0] := by
  obtain ⟨info, tmap, trks, writ, e, h1, _, h3, _⟩ := main_build_woz_eq tracks ht
  have hp : info.payload = info_payload := h1.2.2.2
  have hp3 : trks.payload = trks_payload tracks := h3.2.2.2
  refine ⟨_, info, trks, e, rfl, rfl, ?_, ?_, fun i hi => ?_⟩
  · rw [hp]
    rfl
  · rw [hp]
    rfl
  · rw [hp3, sub_slice _ _ _ _ 2 2 (trks_payload_record tracks i hi) (by decide)]
    rfl

theorem main_build_woz_info_witness :
    main_track_list sample_tracks ∧
    ∃ woz info trks, main_build_woz sample_tracks = some woz ∧ woz.info = some info ∧
      woz.trks = some trks ∧
      info.payload = [0x02, 0x01, 0x01, 0x01, 0x01]
        ++ [0x50, 0x69, 0x63, 0x74, 0x75, 0x72, 0x65, 0x44, 0x53, 0x4B] ++ List.replicate 22 0x20
        ++ [0x01, 0x01, 0x20] ++ [0x7F, 0x00] ++ [64, 0] ++ [13, 0] ∧
      info.payload.length = 46 ∧
      ∀ i, i < 46 → (trks.payload.drop (8 * i + 2)).take 2 = [13, 0] :=
  ⟨sample_tracks_ok, main_build_woz_info sample_tracks sample_tracks_ok⟩

/-! ## The file offsets, the bit counts and the checksums -/

theorem crc_strict_next_eq (crc : Nat) (rest : Nat → Nat) :
    crc_strict_next crc rest = rest crc := by
  cases crc <;> rfl

theorem crc_strict_eq (p : List Nat) (crc : Nat) :
    crc_strict p crc = p.foldl crc32_reference_byte crc := by
  induction p generalizing crc with
  | nil => rfl
  | cons b p ih =>
    rw [crc_strict, crc_strict_next_eq, List.foldl_cons, ih]

theorem woz_crc32_replicate (n b : Nat) (hb : b < 256) :
    woz_crc32 (List.replicate n b) n
      = some (crc_strict (List.replicate n b) 0xFFFFFFFF ^^^ 0xFFFFFFFF) := by
  have h := woz_crc32_loop_eq (List.replicate n b) (is_bytes_replicate n b hb) 0xFFFFFFFF
  rw [List.length_replicate] at h
  unfold woz_crc32
  rw [h, crc_strict_eq]
  rfl

set_option maxRecDepth 1000000 in
theorem crc_strict_dark_832 :
    crc_strict (List.replicate 832 0x96) 0xFFFFFFFF ^^^ 0xFFFFFFFF = 0xC2ED66FF := by
  decide!

set_option maxRecDepth 1000000 in
theorem crc_strict_dark_6656 :
    crc_strict (List.replicate 6656 0x96) 0xFFFFFFFF ^^^ 0xFFFFFFFF = 0xCF6D2509 := by
  decide!

theorem map_range_const (n c : Nat) (f : Nat → Nat) (h : ∀ j, f j = c) :
    (List.range n).map f = List.replicate n c := by
  apply List.ext_getElem?
  intro j
  by_cases hj : j < n
  · rw [List.getElem?_map, List.getElem?_range hj, List.getElem?_replicate, if_pos hj]
    exact congrArg some (h j)
  · rw [List.getElem?_eq_none (by rw [List.length_map, List.length_range]; omega),
      List.getElem?_eq_none (by rw [List.length_replicate]; omega)]

/-- The checksum and the bit count that `main` stores in WRIT record `i`: the
checksum is `woz_crc32` over the first 832 bytes of the track, the bit count
is 53248. -/
theorem main_writ_checksum_eq (tracks : List track_data) (ht : main_track_list tracks)
    (i : Nat) (hi : i < 46) :
    ∃ woz writ, main_build_woz tracks = some woz ∧ woz.writ = some writ ∧
      writ_checksum tracks i < 2 ^ 32 ∧
      (writ.payload.drop (20 * i + 4)).take 4 = le32 (writ_checksum tracks i) ∧
      (writ.payload.drop (20 * i + 12)).take 4 = le32 53248 ∧
      woz_crc32 ((track_bytes tracks i).take 832) 832 = some (writ_checksum tracks i) := by
  obtain ⟨info, tmap, trks, writ, e, _, _, _, h4⟩ := main_build_woz_eq tracks ht
  have hp : writ.payload = writ_payload tracks := h4.2.2.2
  obtain ⟨_, hlt, hcrc⟩ := writ_checksum_eq tracks ht i hi
  refine ⟨_, writ, e, rfl, hlt, ?_, ?_, hcrc⟩
  · rw [hp, sub_slice _ _ _ _ 4 4 (writ_payload_record tracks i hi) (by decide)]
    rfl
  · rw [hp, sub_slice _ _ _ _ 12 4 (writ_payload_record tracks i hi) (by decide)]
    rfl


/-- C11. In the file that `main` writes, the 6656 bytes of track `i` begin at
byte offset `1522 + 6656 * i`, whereas the starting block recorded in directory
record `i` of the TRKS chunk (the two bytes at file offset `242 + 8 * i`) is
`3 + 13 * i`, and 512 times that number is 14 bytes further on, where the file
holds the track from its byte 14 on. -/
theorem main_woz_file_track_offset (tracks : List track_data) (junk : Nat → Nat)
    (ht : main_track_list tracks) :
    ∃ file, main_woz_file tracks junk = some file ∧ ∀ i, i < 46 →
      (file.drop (1522 + 6656 * i)).take 6656 = track_bytes tracks i ∧
      (file.drop (242 + 8 * i)).take 2 = [(3 + 13 * i) % 256, (3 + 13 * i) / 256] ∧
      512 * (3 + 13 * i) = 1522 + 6656 * i + 14 ∧
      ∀ j, j + 14 < 6656 → file[512 * (3 + 13 * i) + j]? = (track_bytes tracks i)[j + 14]? := by
  obtain ⟨crc, _, e⟩ := main_woz_file_eq tracks ht junk
  refine ⟨_, e, fun i hi => ?_⟩
  have hpre : (woz_magic ++ le32 crc ++ (INFO_TAG ++ le32 46) ++ info_payload
      ++ (TMAP_TAG ++ le32 160) ++ tmap_payload ++ (TRKS_TAG ++ le32 307456)).length = 242 := by
    simp only [List.length_append, length_le32, length_info_payload, length_tmap_payload]
    rfl
  have hslice : ∀ a w, a + w ≤ 307456 →
      ((woz_magic ++ le32 crc ++ (INFO_TAG ++ le32 46) ++ info_payload
        ++ (TMAP_TAG ++ le32 160) ++ tmap_payload ++ (TRKS_TAG ++ le32 307456)
        ++ trks_payload tracks ++ (WRIT_TAG ++ le32 920) ++ writ_payload tracks).drop
          (242 + a)).take w = ((trks_payload tracks).drop a).take w := fun a w h => by
    rw [List.append_assoc _ (WRIT_TAG ++ le32 920) (writ_payload tracks)]
    exact slice_mid _ _ _ 242 a w hpre (by rw [length_trks_payload tracks ht]; exact h)
  have htrack := hslice (1280 + 6656 * i) 6656 (by omega)
  rw [trks_payload_track tracks ht i hi, ← Nat.add_assoc] at htrack
  have hdir := hslice (8 * i) 2 (by omega)
  have hrec := sub_slice _ _ _ _ 0 2 (trks_payload_record tracks i hi) (by decide)
  rw [Nat.add_zero] at hrec
  rw [hrec] at hdir
  refine ⟨htrack, ?_, by omega, fun j hj => ?_⟩
  · rw [hdir, trks_record, Nat.mod_eq_of_lt (show (3 + 13 * i) / 256 < 256 by omega)]
    rfl
  · have h := getElem?_of_slice _ _ _ _ (j + 14) htrack hj
    have hidx : 512 * (3 + 13 * i) + j = 1522 + 6656 * i + (j + 14) := by omega
    rw [hidx]
    exact h

theorem main_woz_file_track_offset_witness :
    (main_tracks sample_track dark_image = some dark_disk_tracks ∧
      main_track_list dark_disk_tracks) ∧
    ∃ file, main_woz_file dark_disk_tracks (fun _ => 0xE5) = some file ∧ ∀ i, i < 46 →
      (file.drop (1522 + 6656 * i)).take 6656 = track_bytes dark_disk_tracks i ∧
      (file.drop (242 + 8 * i)).take 2 = [(3 + 13 * i) % 256, (3 + 13 * i) / 256] ∧
      512 * (3 + 13 * i) = 1522 + 6656 * i + 14 ∧
      ∀ j, j + 14 < 6656 →
        file[512 * (3 + 13 * i) + j]? = (track_bytes dark_disk_tracks i)[j + 14]? :=
  ⟨dark_disk_tracks_ok,
    main_woz_file_track_offset dark_disk_tracks (fun _ => 0xE5) dark_disk_tracks_ok.2⟩

/-- C13. For track 0, encoded from any 4096-byte payload,
`gcr_encode_bits_for_track` returns the bit count 50632, whereas the bit count
that `main` stores for track 0 in the TRKS directory record (payload bytes 4
to 7) and in the WRIT record (payload bytes 12 to 15) is 53248, the size of
the track buffer in bits. -/
theorem main_track_0_bit_count (track_0 : List Nat) (bright : Nat → Nat → Bool)
    (hs : track_0.length = 4096) (hb : is_bytes track_0) :
    ∃ dest tracks woz trks writ,
      gcr_encode_bits_for_track (create_track_data BITS_TRACK_SIZE).data track_0 0
        dsk_sector_format.dos_3_3 = some (dest, 50632) ∧
      main_tracks track_0 bright = some tracks ∧ track_bytes tracks 0 = dest ∧
      main_build_woz tracks = some woz ∧ woz.trks = some trks ∧ woz.writ = some writ ∧
      (trks.payload.drop 4).take 4 = le32 53248 ∧
      (writ.payload.drop 12).take 4 = le32 53248 ∧
      le32 53248 ≠ le32 50632 ∧ 53248 = 6656 * 8 := by
  obtain ⟨dest, tracks, eg, et, ht, h0, _⟩ := main_tracks_eq track_0 bright hs hb
  obtain ⟨info, tmap, trks, writ, e, _, _, h3, h4⟩ := main_build_woz_eq tracks ht
  have hp3 : trks.payload = trks_payload tracks := h3.2.2.2
  have hp4 : writ.payload = writ_payload tracks := h4.2.2.2
  refine ⟨dest, tracks, _, trks, writ, eg, et, h0, e, rfl, rfl, ?_, ?_, by decide, by decide⟩
  · have h := sub_slice _ _ _ _ 4 4 (trks_payload_record tracks 0 (by decide)) (by decide)
    rw [hp3]
    exact h
  · have h := sub_slice _ _ _ _ 12 4 (writ_payload_record tracks 0 (by decide)) (by decide)
    rw [hp4]
    exact h

theorem main_track_0_bit_count_witness :
    (sample_track.length = 4096 ∧ is_bytes sample_track) ∧
    ∃ dest tracks woz trks writ,
      gcr_encode_bits_for_track (create_track_data BITS_TRACK_SIZE).data sample_track 0
        dsk_sector_format.dos_3_3 = some (dest, 50632) ∧
      main_tracks sample_track dark_image = some tracks ∧ track_bytes tracks 0 = dest ∧
      main_build_woz tracks = some woz ∧ woz.trks = some trks ∧ woz.writ = some writ ∧
      (trks.payload.drop 4).take 4 = le32 53248 ∧
      (writ.payload.drop 12).take 4 = le32 53248 ∧
      le32 53248 ≠ le32 50632 ∧ 53248 = 6656 * 8 :=
  ⟨⟨length_sample_track, is_bytes_sample_track⟩,
    main_track_0_bit_count sample_track dark_image length_sample_track is_bytes_sample_track⟩

/-- C14. The checksum field of a WRIT record is not `woz_crc32` over all the
bytes of the track. For the sample DOS payload and a wholly dark image, track 1
is 6656 bytes 0x96; the checksum that `main` stores for it (payload bytes 24 to
27) is 0xC2ED66FF, which is `woz_crc32` over the first 832 bytes of the track,
whereas `woz_crc32` over the 6656 bytes covered by the bit count 53248 stored
in the same record (payload bytes 32 to 35) is 0xCF6D2509. -/
theorem main_writ_checksum_partial :
    ∃ tracks woz writ,
      main_tracks sample_track dark_image = some tracks ∧ main_build_woz tracks = some woz ∧
      woz.writ = some writ ∧
      track_bytes tracks 1 = List.replicate 6656 0x96 ∧
      (writ.payload.drop (20 * 1 + 4)).take 4 = le32 0xC2ED66FF ∧
      (writ.payload.drop (20 * 1 + 12)).take 4 = le32 53248 ∧ (53248 + 7) / 8 = 6656 ∧
      woz_crc32 ((track_bytes tracks 1).take 832) 832 = some 0xC2ED66FF ∧
      woz_crc32 (track_bytes tracks 1) 6656 = some 0xCF6D2509 ∧
      le32 0xC2ED66FF ≠ le32 0xCF6D2509 := by
  obtain ⟨_, tracks, _, et, ht, _, himg⟩ :=
    main_tracks_eq sample_track dark_image length_sample_track is_bytes_sample_track
  have h1 : track_bytes tracks 1 = List.replicate 6656 0x96 := by
    rw [himg 1 (by decide) (by decide)]
    exact map_range_const 6656 0x96 _ (fun _ => rfl)
  obtain ⟨woz, writ, ew, hw, _, hc, hb, hcrc⟩ := main_writ_checksum_eq tracks ht 1 (by decide)
  have htake : (List.replicate 6656 0x96).take 832 = List.replicate 832 0x96 := by
    rw [List.take_replicate]
    rfl
  have h832 : woz_crc32 ((track_bytes tracks 1).take 832) 832 = some 0xC2ED66FF := by
    rw [h1, htake, woz_crc32_replicate 832 0x96 (by decide), crc_strict_dark_832]
  have h6656 : woz_crc32 (track_bytes tracks 1) 6656 = some 0xCF6D2509 := by
    rw [h1, woz_crc32_replicate 6656 0x96 (by decide), crc_strict_dark_6656]
  have hsum : writ_checksum tracks 1 = 0xC2ED66FF := by
    rw [h832] at hcrc
    exact (Option.some.inj hcrc).symm
  rw [hsum] at hc
  exact ⟨tracks, woz, writ, et, ew, hw, h1, hc, hb, by decide, h832, h6656, by decide⟩

/-! ## The chunk buffer: the claims -/

theorem written_kept_by_growth (chunk c : woz_chunk) (n : Nat) (hv : chunk.valid)
    (hw : chunk.written c n) (hg : chunk.mark + n > chunk.buffer_size)
    (hsz : 2 * chunk.buffer_size + n < 2 ^ 64) :
    chunk.kept_by_growth c n := by
  obtain ⟨_, hdata, hmark⟩ := hv
  obtain ⟨⟨_, hdata', hmark'⟩, _, hm, hs, hd⟩ := hw
  have hlt : chunk.buffer_size < c.buffer_size := by
    rw [hs, grown_size_eq _ _ _ hmark hsz, if_pos hg]
    split <;> omega
  refine ⟨hlt, hdata', hm, fun i hi => ?_, fun i h1 h2 => ?_⟩
  · rw [getElem?_getD c.data i (by omega), getElem?_getD chunk.data i (by omega),
      hd i (Or.inl hi)]
  · rw [getElem?_getD c.data i (by omega), hd i (Or.inr (by omega)),
      List.getD_eq_default _ _ (by omega)]

/-- The capacity computed for a request of 2^64 - 4097 bytes on the chunk that
`create_woz_chunk` returns wraps to 4095, below the 4096 bytes in use. -/
theorem grown_size_wraps : grown_size 4096 0 (2 ^ 64 - 4097) = 4095 := by
  decide

/-- On the chunk that `create_woz_chunk` returns, a request of 2^64 - 4097
bytes makes `verify_writable_buffer` allocate 4095 bytes and copy the 4096 old
bytes into them. -/
theorem verify_writable_buffer_wraps :
    verify_writable_buffer fresh_trks (2 ^ 64 - 4097) = none := by
  have h1 : (fresh_trks.mark + (2 ^ 64 - 4097)) % 2 ^ 64 > fresh_trks.buffer_size := by
    decide
  have h2 : (fresh_trks.mark + (2 ^ 64 - 4097)) % 2 ^ 64
      > fresh_trks.buffer_size * 2 % 2 ^ 64 := by
    decide
  have h3 : (fresh_trks.buffer_size * 2 % 2 ^ 64 + (2 ^ 64 - 4097)) % 2 ^ 64 = 4095 := by
    decide
  have h4 : ¬ (fresh_trks.buffer_size ≤ fresh_trks.data.length ∧
      0 + fresh_trks.buffer_size ≤ (calloc 4095).length) := by
    intro h
    have hl : (calloc 4095).length = 4095 := List.length_replicate _ _
    have hb : fresh_trks.buffer_size = 4096 := rfl
    rw [hl, hb] at h
    omega
  simp only [verify_writable_buffer, if_pos h1, if_pos h2, h3, memcpy, if_neg h4,
    Option.map_none']

/-- C18. A chunk returned by `create_woz_chunk` has `mark ≤ buffer_size`, and
every chunk operation, run on a chunk with `mark ≤ buffer_size` whose buffer
has `buffer_size` bytes, succeeds and returns such a chunk again, as long as
the sizes do not overflow (`2 * buffer_size + n < 2^64` for the `n` bytes
written or skipped): `chunk_write_uint8`, `chunk_write_uint16`,
`chunk_write_uint32`, `chunk_write_utf8`, `chunk_write_bytes` (reading `n`
bytes that the source has), `chunk_set_mark`, and `chunk_advance_mark` with
`mark + offset ≥ 0`. -/
theorem chunk_mark_le_buffer_size (chunk : woz_chunk) (hv : chunk.valid)
    (hsz : 2 * chunk.buffer_size + 4 < 2 ^ 64) :
    (∀ name malloc_ok calloc_ok c, create_woz_chunk name malloc_ok calloc_ok = some c →
      c.mark ≤ c.buffer_size ∧ c.data.length = c.buffer_size) ∧
    (∀ u8, ∃ c, chunk_write_uint8 chunk u8 = some c ∧ c.mark ≤ c.buffer_size ∧ c.valid) ∧
    (∀ u16, ∃ c, chunk_write_uint16 chunk u16 = some c ∧ c.mark ≤ c.buffer_size ∧ c.valid) ∧
    (∀ u32, ∃ c, chunk_write_uint32 chunk u32 = some c ∧ c.mark ≤ c.buffer_size ∧ c.valid) ∧
    (∀ utf8string n, 2 * chunk.buffer_size + n < 2 ^ 64 →
      ∃ c, chunk_write_utf8 chunk utf8string n = some c ∧ c.mark ≤ c.buffer_size ∧ c.valid) ∧
    (∀ bytes n, n ≤ bytes.length → 2 * chunk.buffer_size + n < 2 ^ 64 →
      ∃ c, chunk_write_bytes chunk bytes n = some c ∧ c.mark ≤ c.buffer_size ∧ c.valid) ∧
    (∀ mark, 2 * chunk.buffer_size + (mark - chunk.mark) < 2 ^ 64 →
      ∃ c, chunk_set_mark chunk mark = some c ∧ c.mark = mark ∧ c.mark ≤ c.buffer_size ∧
        c.valid) ∧
    (∀ offset : Int, 0 ≤ (chunk.mark : Int) + offset →
      2 * (chunk.buffer_size : Int) + offset < 2 ^ 64 →
      ∃ c, chunk_advance_mark chunk offset = some c ∧ (c.mark : Int) = chunk.mark + offset ∧
        c.mark ≤ c.buffer_size ∧ c.valid) := by
  have hmark := hv.2.2
  refine ⟨fun name malloc_ok calloc_ok c h => ?_, fun u8 => ?_, fun u16 => ?_, fun u32 => ?_,
    fun utf8string n hn => ?_, fun bytes n hn hn' => ?_, fun mark hm => ?_,
    fun offset h0 ho => ?_⟩
  · unfold create_woz_chunk at h
    cases malloc_ok <;> cases calloc_ok <;> simp at h
    subst h
    exact ⟨Nat.zero_le _, List.length_replicate _ _⟩
  · obtain ⟨c, e, hw⟩ := chunk_write_uint8_written chunk u8 hv (by omega)
    exact ⟨c, e, hw.1.2.2, hw.1⟩
  · obtain ⟨c, e, hw⟩ := chunk_write_uint16_written chunk u16 hv (by omega)
    exact ⟨c, e, hw.1.2.2, hw.1⟩
  · obtain ⟨c, e, hw⟩ := chunk_write_uint32_written chunk u32 hv hsz
    exact ⟨c, e, hw.1.2.2, hw.1⟩
  · obtain ⟨c, e, hw⟩ := chunk_write_utf8_written chunk utf8string n hv hn
    exact ⟨c, e, hw.1.2.2, hw.1⟩
  · obtain ⟨c, e, hw⟩ := chunk_write_bytes_written chunk bytes n hv hn hn'
    exact ⟨c, e, hw.1.2.2, hw.1⟩
  · obtain ⟨c, e, hc, hm'⟩ := chunk_set_mark_valid chunk mark hv hm
    exact ⟨c, e, hm', hc.2.2, hc⟩
  · have hnew : (((chunk.mark : Int) + offset) % 2 ^ 64).toNat
        = ((chunk.mark : Int) + offset).toNat := by omega
    obtain ⟨c, e, hc, hm'⟩ := chunk_set_mark_valid chunk
      ((chunk.mark : Int) + offset).toNat hv (by omega)
    refine ⟨c, ?_, ?_, hc.2.2, hc⟩
    · unfold chunk_advance_mark
      simp only [hnew]
      exact e
    · rw [hm']
      omega

theorem chunk_mark_le_buffer_size_witness :
    (sample_info.valid ∧ 2 * sample_info.buffer_size + 4 < 2 ^ 64) ∧
    ((∀ name malloc_ok calloc_ok c, create_woz_chunk name malloc_ok calloc_ok = some c →
      c.mark ≤ c.buffer_size ∧ c.data.length = c.buffer_size) ∧
    (∀ u8, ∃ c, chunk_write_uint8 sample_info u8 = some c ∧ c.mark ≤ c.buffer_size ∧ c.valid) ∧
    (∀ u16, ∃ c, chunk_write_uint16 sample_info u16 = some c ∧
      c.mark ≤ c.buffer_size ∧ c.valid) ∧
    (∀ u32, ∃ c, chunk_write_uint32 sample_info u32 = some c ∧
      c.mark ≤ c.buffer_size ∧ c.valid) ∧
    (∀ utf8string n, 2 * sample_info.buffer_size + n < 2 ^ 64 →
      ∃ c, chunk_write_utf8 sample_info utf8string n = some c ∧
        c.mark ≤ c.buffer_size ∧ c.valid) ∧
    (∀ bytes n, n ≤ bytes.length → 2 * sample_info.buffer_size + n < 2 ^ 64 →
      ∃ c, chunk_write_bytes sample_info bytes n = some c ∧
        c.mark ≤ c.buffer_size ∧ c.valid) ∧
    (∀ mark, 2 * sample_info.buffer_size + (mark - sample_info.mark) < 2 ^ 64 →
      ∃ c, chunk_set_mark sample_info mark = some c ∧ c.mark = mark ∧
        c.mark ≤ c.buffer_size ∧ c.valid) ∧
    (∀ offset : Int, 0 ≤ (sample_info.mark : Int) + offset →
      2 * (sample_info.buffer_size : Int) + offset < 2 ^ 64 →
      ∃ c, chunk_advance_mark sample_info offset = some c ∧
        (c.mark : Int) = sample_info.mark + offset ∧ c.mark ≤ c.buffer_size ∧ c.valid)) :=
  ⟨⟨by decide, by decide⟩, chunk_mark_le_buffer_size sample_info (by decide) (by decide)⟩

/-- C19. When `verify_writable_buffer` has to grow the buffer of a chunk with
`mark ≤ buffer_size` for `min` more bytes, and the sizes do not wrap
(`2 * buffer_size + min < 2^64`), every byte below the old `buffer_size` reads
as before and every added byte is zero; after each write that forced the
growth every byte below the old mark still reads as before and every byte from
the new mark on is zero. -/
theorem verify_writable_buffer_keeps (chunk : woz_chunk) (min : Nat) (hv : chunk.valid)
    (hg : chunk.mark + min > chunk.buffer_size)
    (hsz : 2 * chunk.buffer_size + min < 2 ^ 64) :
    (∃ c, verify_writable_buffer chunk min = some c ∧ chunk.buffer_size < c.buffer_size ∧
      c.data.length = c.buffer_size ∧ c.mark = chunk.mark ∧
      (∀ i, i < chunk.buffer_size → c.data[i]? = chunk.data[i]?) ∧
      (∀ i, chunk.buffer_size ≤ i → i < c.buffer_size → c.data[i]? = some 0)) ∧
    (∀ bytes, min ≤ bytes.length →
      ∃ c, chunk_write_bytes chunk bytes min = some c ∧ chunk.kept_by_growth c min) ∧
    (∀ utf8string,
      ∃ c, chunk_write_utf8 chunk utf8string min = some c ∧ chunk.kept_by_growth c min) ∧
    (∀ u8, min = 1 → ∃ c, chunk_write_uint8 chunk u8 = some c ∧ chunk.kept_by_growth c 1) ∧
    (∀ u16, min = 2 → ∃ c, chunk_write_uint16 chunk u16 = some c ∧ chunk.kept_by_growth c 2) ∧
    (∀ u32, min = 4 → ∃ c, chunk_write_uint32 chunk u32 = some c ∧ chunk.kept_by_growth c 4) := by
  refine ⟨?_, fun bytes hn => ?_, fun utf8string => ?_, fun u8 h1 => ?_, fun u16 h2 => ?_,
    fun u32 h4 => ?_⟩
  · obtain ⟨c, e, hv', _, hm, _, hs, hd⟩ := verify_writable_buffer_frame chunk min hv hsz
    have hlt : chunk.buffer_size < c.buffer_size := by
      rw [hs, grown_size_eq _ _ _ hv.2.2 hsz, if_pos hg]
      have := hv.2.2
      split <;> omega
    refine ⟨c, e, hlt, hv'.2.1, hm, fun i hi => ?_, fun i h1 h2 => ?_⟩
    · rw [getElem?_getD c.data i (by have := hv'.2.1; omega),
        getElem?_getD chunk.data i (by have := hv.2.1; omega), hd i]
    · rw [getElem?_getD c.data i (by have := hv'.2.1; omega), hd i,
        List.getD_eq_default _ _ (by have := hv.2.1; omega)]
  · obtain ⟨c, e, hw⟩ := chunk_write_bytes_written chunk bytes min hv hn hsz
    exact ⟨c, e, written_kept_by_growth chunk c min hv hw hg hsz⟩
  · obtain ⟨c, e, hw⟩ := chunk_write_utf8_written chunk utf8string min hv hsz
    exact ⟨c, e, written_kept_by_growth chunk c min hv hw hg hsz⟩
  · subst h1
    obtain ⟨c, e, hw⟩ := chunk_write_uint8_written chunk u8 hv hsz
    exact ⟨c, e, written_kept_by_growth chunk c 1 hv hw hg hsz⟩
  · subst h2
    obtain ⟨c, e, hw⟩ := chunk_write_uint16_written chunk u16 hv hsz
    exact ⟨c, e, written_kept_by_growth chunk c 2 hv hw hg hsz⟩
  · subst h4
    obtain ⟨c, e, hw⟩ := chunk_write_uint32_written chunk u32 hv hsz
    exact ⟨c, e, written_kept_by_growth chunk c 4 hv hw hg hsz⟩

theorem verify_writable_buffer_keeps_witness :
    (sample_tmap.valid ∧ sample_tmap.mark + 2 > sample_tmap.buffer_size ∧
      2 * sample_tmap.buffer_size + 2 < 2 ^ 64) ∧
    ((∃ c, verify_writable_buffer sample_tmap 2 = some c ∧
      sample_tmap.buffer_size < c.buffer_size ∧
      c.data.length = c.buffer_size ∧ c.mark = sample_tmap.mark ∧
      (∀ i, i < sample_tmap.buffer_size → c.data[i]? = sample_tmap.data[i]?) ∧
      (∀ i, sample_tmap.buffer_size ≤ i → i < c.buffer_size → c.data[i]? = some 0)) ∧
    (∀ bytes, 2 ≤ bytes.length →
      ∃ c, chunk_write_bytes sample_tmap bytes 2 = some c ∧ sample_tmap.kept_by_growth c 2) ∧
    (∀ utf8string,
      ∃ c, chunk_write_utf8 sample_tmap utf8string 2 = some c ∧
        sample_tmap.kept_by_growth c 2) ∧
    (∀ u8, 2 = 1 →
      ∃ c, chunk_write_uint8 sample_tmap u8 = some c ∧ sample_tmap.kept_by_growth c 1) ∧
    (∀ u16, 2 = 2 →
      ∃ c, chunk_write_uint16 sample_tmap u16 = some c ∧ sample_tmap.kept_by_growth c 2) ∧
    (∀ u32, 2 = 4 →
      ∃ c, chunk_write_uint32 sample_tmap u32 = some c ∧ sample_tmap.kept_by_growth c 4)) :=
  ⟨⟨by decide, by decide, by decide⟩,
    verify_writable_buffer_keeps sample_tmap 2 (by decide) (by decide) (by decide)⟩

/-- Counterexample for C19 as first worded: on the chunk that
`create_woz_chunk` returns (mark 0 ≤ buffer_size 4096) a request of
2^64 - 4097 bytes forces a growth, the new capacity `2 * 4096 + (2^64 - 4097)`
wraps to 4095, and the copy of the 4096 old bytes does not fit the new
buffer: `verify_writable_buffer` has no defined result, and the byte at index
4095, below the old `buffer_size`, has no place in the new buffer. -/
theorem verify_writable_buffer_keeps_counterexample :
    create_woz_chunk [0x54, 0x52, 0x4B, 0x53, 0] true true = some fresh_trks ∧
    fresh_trks.mark ≤ fresh_trks.buffer_size ∧
    (fresh_trks.mark + (2 ^ 64 - 4097)) % 2 ^ 64 > fresh_trks.buffer_size ∧
    grown_size fresh_trks.buffer_size fresh_trks.mark (2 ^ 64 - 4097) = 4095 ∧
    4095 < fresh_trks.buffer_size ∧
    verify_writable_buffer fresh_trks (2 ^ 64 - 4097) = none :=
  ⟨rfl, by decide, by decide, grown_size_wraps, by decide, verify_writable_buffer_wraps⟩

/-- C20. For every chunk with `mark ≤ buffer_size` and every pending write of
`min` bytes with `mark + min > buffer_size` and `2 * buffer_size + min < 2^64`,
`verify_writable_buffer` sets the new capacity to `2 * buffer_size` when that
is at least `mark + min`, and otherwise to `2 * buffer_size + min`, which is
more than the required size `mark + min` as soon as the buffer was not
empty. -/
theorem verify_writable_buffer_capacity (chunk : woz_chunk) (min : Nat) (hv : chunk.valid)
    (hg : chunk.mark + min > chunk.buffer_size)
    (hsz : 2 * chunk.buffer_size + min < 2 ^ 64) :
    ∃ c, verify_writable_buffer chunk min = some c ∧
      (2 * chunk.buffer_size ≥ chunk.mark + min → c.buffer_size = 2 * chunk.buffer_size) ∧
      (2 * chunk.buffer_size < chunk.mark + min →
        c.buffer_size = 2 * chunk.buffer_size + min ∧
        (0 < chunk.buffer_size → chunk.mark + min < c.buffer_size)) := by
  obtain ⟨c, e, _, _, _, _, hs, _⟩ := verify_writable_buffer_eq chunk min hv hsz
  have hm := hv.2.2
  refine ⟨c, e, fun h => ?_, fun h => ⟨?_, fun h0 => ?_⟩⟩
  · rw [hs, if_pos hg, if_neg (by omega)]
    omega
  · rw [hs, if_pos hg, if_pos (by omega)]
    omega
  · rw [hs, if_pos hg, if_pos (by omega)]
    omega

theorem verify_writable_buffer_capacity_witness :
    (sample_trks.valid ∧ sample_trks.mark + 5 > sample_trks.buffer_size ∧
      2 * sample_trks.buffer_size + 5 < 2 ^ 64) ∧
    ∃ c, verify_writable_buffer sample_trks 5 = some c ∧
      (2 * sample_trks.buffer_size ≥ sample_trks.mark + 5 →
        c.buffer_size = 2 * sample_trks.buffer_size) ∧
      (2 * sample_trks.buffer_size < sample_trks.mark + 5 →
        c.buffer_size = 2 * sample_trks.buffer_size + 5 ∧
        (0 < sample_trks.buffer_size → sample_trks.mark + 5 < c.buffer_size)) :=
  ⟨⟨by decide, by decide, by decide⟩,
    verify_writable_buffer_capacity sample_trks 5 (by decide) (by decide) (by decide)⟩

/-- Counterexample for C20 as first worded: on the chunk that
`create_woz_chunk` returns (mark 0, capacity 4096) and a pending write of 10000
bytes, doubling gives 8192, which is not enough, and the new capacity is
18192, not the required size 10000. -/
theorem verify_writable_buffer_capacity_counterexample :
    ∃ chunk c, create_woz_chunk [0x54, 0x52, 0x4B, 0x53, 0] true true = some chunk ∧
      chunk.mark ≤ chunk.buffer_size ∧ chunk.mark + 10000 > chunk.buffer_size ∧
      ¬ (2 * chunk.buffer_size ≥ chunk.mark + 10000) ∧
      verify_writable_buffer chunk 10000 = some c ∧ c.buffer_size = 18192 ∧
      c.buffer_size ≠ chunk.mark + 10000 := by
  obtain ⟨chunk, e, hh⟩ := create_woz_chunk_holds [0x54, 0x52, 0x4B, 0x53, 0] (by decide)
  have hc : chunk = ⟨[0x54, 0x52, 0x4B, 0x53], 0, 4096, calloc 4096⟩ :=
    (Option.some.inj e).symm
  have hm : chunk.mark = 0 := by rw [hc]
  have hb : chunk.buffer_size = 4096 := by rw [hc]
  obtain ⟨c, ec, _, _, _, _, hs, _⟩ := verify_writable_buffer_eq chunk 10000 hh.1 (by
    rw [hb]
    decide)
  rw [hm, hb] at hs
  have hs' : c.buffer_size = 18192 := by
    rw [hs]
    decide
  refine ⟨chunk, c, e, ?_, ?_, ?_, ec, hs', ?_⟩
  · rw [hm, hb]
    decide
  · rw [hm, hb]
    decide
  · rw [hm, hb]
    decide
  · rw [hs', hm]
    decide

/-! ## The chunk buffer: what a write stores -/

theorem chunk_put_at (chunk : woz_chunk) (v : Nat) (hv : chunk.valid)
    (hroom : chunk.mark < chunk.buffer_size) :
    ∃ c, chunk_put chunk v = some c ∧ c.valid ∧ c.mark = chunk.mark + 1 ∧
      c.buffer_size = chunk.buffer_size ∧ c.data.getD chunk.mark 0 = v ∧
      ∀ i, i ≠ chunk.mark → c.data.getD i 0 = chunk.data.getD i 0 := by
  obtain ⟨hname, hdata, hmark⟩ := hv
  unfold chunk_put
  rw [store_eq_some _ _ _ (by omega)]
  refine ⟨_, rfl, ⟨hname, ?_, ?_⟩, rfl, rfl, ?_, fun i hi => ?_⟩
  · simp only [List.length_set]
    exact hdata
  · simp only
    omega
  · simp only
    rw [getD_set _ _ _ _ (by omega), if_pos rfl]
  · simp only
    rw [getD_set _ _ _ _ (by omega), if_neg hi]

theorem and_255 (x : Nat) : x &&& 0xFF = x % 256 := by
  have h := Nat.and_pow_two_sub_one_eq_mod x 8
  simpa using h

theorem chunk_write_uint8_stored (chunk : woz_chunk) (u8 : Nat) (hv : chunk.valid)
    (hsz : 2 * chunk.buffer_size + 1 < 2 ^ 64) :
    ∃ c, chunk_write_uint8 chunk u8 = some c ∧ c.data.getD chunk.mark 0 = u8 % 256 := by
  obtain ⟨c1, e1, v1, n1, m1, r1, s1, d1⟩ := verify_writable_buffer_frame chunk 1 hv hsz
  obtain ⟨c2, e2, v2, m2, s2, g2, d2⟩ := chunk_put_at c1 (u8 % 256) v1 (by omega)
  refine ⟨c2, ?_, ?_⟩
  · simp only [chunk_write_uint8, Option.bind_eq_bind, e1, Option.some_bind, e2]
  · rw [← m1]
    exact g2

theorem chunk_write_uint16_stored (chunk : woz_chunk) (u16 : Nat) (hv : chunk.valid)
    (hsz : 2 * chunk.buffer_size + 2 < 2 ^ 64) :
    ∃ c, chunk_write_uint16 chunk u16 = some c ∧ c.data.getD chunk.mark 0 = u16 % 256 ∧
      c.data.getD (chunk.mark + 1) 0 = u16 / 256 % 256 := by
  obtain ⟨c1, e1, v1, n1, m1, r1, s1, d1⟩ := verify_writable_buffer_frame chunk 2 hv hsz
  obtain ⟨c2, e2, v2, m2, s2, g2, d2⟩ := chunk_put_at c1 (u16 &&& 0x00FF) v1 (by omega)
  obtain ⟨c3, e3, v3, m3, s3, g3, d3⟩ :=
    chunk_put_at c2 ((u16 >>> 8) &&& 0x00FF) v2 (by omega)
  refine ⟨c3, ?_, ?_, ?_⟩
  · simp only [chunk_write_uint16, Option.bind_eq_bind, e1, Option.some_bind, e2, e3]
  · rw [← m1, d3 _ (by omega), g2, and_255]
  · rw [← m1, ← m2, g3, and_255, Nat.shiftRight_eq_div_pow]

theorem chunk_write_uint32_stored (chunk : woz_chunk) (u32 : Nat) (hv : chunk.valid)
    (hsz : 2 * chunk.buffer_size + 4 < 2 ^ 64) :
    ∃ c, chunk_write_uint32 chunk u32 = some c ∧
      ∀ j, j < 4 → c.data.getD (chunk.mark + j) 0 = (le32 u32).getD j 0 := by
  obtain ⟨c1, e1, v1, n1, m1, r1, s1, d1⟩ := verify_writable_buffer_frame chunk 4 hv hsz
  obtain ⟨c2, e2, v2, m2, s2, g2, d2⟩ := chunk_put_at c1 (u32 &&& 0x000000FF) v1 (by omega)
  obtain ⟨c3, e3, v3, m3, s3, g3, d3⟩ :=
    chunk_put_at c2 ((u32 >>> 8) &&& 0x000000FF) v2 (by omega)
  obtain ⟨c4, e4, v4, m4, s4, g4, d4⟩ :=
    chunk_put_at c3 ((u32 >>> 16) &&& 0x000000FF) v3 (by omega)
  obtain ⟨c5, e5, v5, m5, s5, g5, d5⟩ :=
    chunk_put_at c4 ((u32 >>> 24) &&& 0x000000FF) v4 (by omega)
  refine ⟨c5, ?_, fun j hj => ?_⟩
  · simp only [chunk_write_uint32, Option.bind_eq_bind, e1, Option.some_bind, e2, e3, e4, e5]
  · have h0 : c5.data.getD chunk.mark 0 = u32 % 256 := by
      rw [d5 _ (by omega), d4 _ (by omega), d3 _ (by omega), ← m1, g2, and_255]
    have h1 : c5.data.getD (chunk.mark + 1) 0 = u32 / 256 % 256 := by
      rw [d5 _ (by omega), d4 _ (by omega), ← m1, ← m2, g3, and_255, Nat.shiftRight_eq_div_pow]
    have h2 : c5.data.getD (chunk.mark + 2) 0 = u32 / 65536 % 256 := by
      rw [d5 _ (by omega), show chunk.mark + 2 = c3.mark by omega, g4, and_255,
        Nat.shiftRight_eq_div_pow]
    have h3 : c5.data.getD (chunk.mark + 3) 0 = u32 / 16777216 % 256 := by
      rw [show chunk.mark + 3 = c4.mark by omega, g5, and_255, Nat.shiftRight_eq_div_pow]
    have hj' : j = 0 ∨ j = 1 ∨ j = 2 ∨ j = 3 := by omega
    rcases hj' with h | h | h | h <;> subst h
    · exact h0
    · exact h1
    · exact h2
    · exact h3

theorem chunk_write_bytes_stored (chunk : woz_chunk) (bytes : List Nat) (n : Nat)
    (hv : chunk.valid) (hn : n ≤ bytes.length) (hsz : 2 * chunk.buffer_size + n < 2 ^ 64) :
    ∃ c, chunk_write_bytes chunk bytes n = some c ∧
      ∀ j, j < n → c.data.getD (chunk.mark + j) 0 = bytes.getD j 0 := by
  obtain ⟨c1, e1, v1, n1, m1, r1, s1, d1⟩ := verify_writable_buffer_frame chunk n hv hsz
  obtain ⟨hname, hdata, hmark⟩ := v1
  have hcopy := memcpy_eq_some c1.data c1.mark bytes n hn (by omega)
  have hl1 : (c1.data.take c1.mark).length = c1.mark := by
    rw [List.length_take]
    omega
  refine ⟨{ c1 with data := c1.data.take c1.mark ++ bytes.take n ++ c1.data.drop (c1.mark + n),
                    mark := c1.mark + n }, ?_, fun j hj => ?_⟩
  · simp only [chunk_write_bytes, Option.bind_eq_bind, e1, Option.some_bind, hcopy]
  · simp only
    rw [List.getD_eq_getElem?_getD, List.getD_eq_getElem?_getD, List.append_assoc,
      List.getElem?_append_right (by rw [hl1]; omega), hl1,
      List.getElem?_append_left (by rw [List.length_take]; omega),
      List.getElem?_take_of_lt (by omega)]
    congr 2
    omega

theorem chunk_write_utf8_stored (chunk : woz_chunk) (utf8string : List Nat) (n : Nat)
    (hv : chunk.valid) (hsz : 2 * chunk.buffer_size + n < 2 ^ 64) :
    ∃ c, chunk_write_utf8 chunk utf8string n = some c ∧
      ∀ j, j < n → c.data.getD (chunk.mark + j) 0
        = if j < utf8string.length then utf8string.getD j 0 % 256 else 0x20 := by
  obtain ⟨c1, e1, v1, n1, m1, r1, s1, d1⟩ := verify_writable_buffer_frame chunk n hv hsz
  obtain ⟨hname, hdata, hmark⟩ := v1
  obtain ⟨d, ed, hlen, hnew⟩ := for_loop_inv
    (fun data i =>
      if i < utf8string.length then do
        let ch ← utf8string[i]?
        store data (c1.mark + i) (ch % 256)
      else store data (c1.mark + i) 0x20)
    (fun i data => data.length = c1.data.length ∧
      (∀ j, j < i → data.getD (c1.mark + j) 0
        = if j < utf8string.length then utf8string.getD j 0 % 256 else 0x20))
    n c1.data ⟨rfl, fun j hj => absurd hj (Nat.not_lt_zero _)⟩
    (fun i data hi hP => by
      obtain ⟨hl, hw⟩ := hP
      refine ⟨data.set (c1.mark + i)
        (if i < utf8string.length then utf8string.getD i 0 % 256 else 0x20), ?_, ?_, ?_⟩
      · by_cases hlt : i < utf8string.length
        · simp only [if_pos hlt, Option.bind_eq_bind, getElem?_getD utf8string i hlt,
            Option.some_bind]
          exact store_eq_some _ _ _ (by omega)
        · simp only [if_neg hlt]
          exact store_eq_some _ _ _ (by omega)
      · rw [List.length_set, hl]
      · intro j hj
        rw [getD_set _ _ _ _ (by omega)]
        by_cases hji : j = i
        · subst hji
          rw [if_pos rfl]
        · rw [if_neg (by omega)]
          exact hw j (by omega))
  refine ⟨{ c1 with data := d, mark := c1.mark + n }, ?_, fun j hj => ?_⟩
  · simp only [chunk_write_utf8, Option.bind_eq_bind, e1, Option.some_bind]
    simp only [Option.bind_eq_bind] at ed
    rw [ed]
    rfl
  · simp only
    rw [← m1]
    exact hnew j hj

theorem written_below (chunk c : woz_chunk) (n : Nat) (hv : chunk.valid)
    (hw : chunk.written c n) (i : Nat) (hi : i < chunk.mark) :
    c.data[i]? = chunk.data[i]? := by
  obtain ⟨_, hdata, hmark⟩ := hv
  obtain ⟨⟨_, hdata', hmark'⟩, _, hm, _, hd⟩ := hw
  rw [getElem?_getD c.data i (by omega), getElem?_getD chunk.data i (by omega),
    hd i (Or.inl hi)]

theorem slice_of_getD (l enc : List Nat) (m : Nat) (hlen : m + enc.length ≤ l.length)
    (h : ∀ j, j < enc.length → l.getD (m + j) 0 = enc.getD j 0) :
    (l.drop m).take enc.length = enc := by
  apply List.ext_getElem?
  intro j
  by_cases hj : j < enc.length
  · rw [List.getElem?_take_of_lt hj, List.getElem?_drop, getElem?_getD l _ (by omega),
      getElem?_getD enc j hj, h j hj]
  · rw [List.getElem?_take_eq_none (by omega), List.getElem?_eq_none (by omega)]

/-! ## The chunk operations: the claims on writes and on the mark -/

/-- C21. On a chunk with mark `m ≤ buffer_size`, `chunk_write_uint8`,
`chunk_write_uint16`, `chunk_write_uint32` and `chunk_write_bytes` succeed,
leave the bytes below `m` unchanged, store at `m` the little-endian bytes of
the value (1, 2 or 4 of them), respectively the `n` given bytes in order, and
set the mark to `m` plus the number of bytes stored, whether or not the buffer
has to grow. The sizes are those of objects that fit a 64-bit address space:
`2 * buffer_size + n < 2^64` for the `n` bytes written. -/
theorem chunk_write_stores (chunk : woz_chunk) (hv : chunk.valid)
    (hsz : 2 * chunk.buffer_size + 4 < 2 ^ 64) :
    (∀ u8, ∃ c, chunk_write_uint8 chunk u8 = some c ∧ c.mark = chunk.mark + 1 ∧
      (∀ i, i < chunk.mark → c.data[i]? = chunk.data[i]?) ∧
      (c.data.drop chunk.mark).take 1 = [u8 % 256]) ∧
    (∀ u16, ∃ c, chunk_write_uint16 chunk u16 = some c ∧ c.mark = chunk.mark + 2 ∧
      (∀ i, i < chunk.mark → c.data[i]? = chunk.data[i]?) ∧
      (c.data.drop chunk.mark).take 2 = [u16 % 256, u16 / 256 % 256]) ∧
    (∀ u32, ∃ c, chunk_write_uint32 chunk u32 = some c ∧ c.mark = chunk.mark + 4 ∧
      (∀ i, i < chunk.mark → c.data[i]? = chunk.data[i]?) ∧
      (c.data.drop chunk.mark).take 4
        = [u32 % 256, u32 / 256 % 256, u32 / 65536 % 256, u32 / 16777216 % 256]) ∧
    (∀ bytes n, n ≤ bytes.length → 2 * chunk.buffer_size + n < 2 ^ 64 →
      ∃ c, chunk_write_bytes chunk bytes n = some c ∧ c.mark = chunk.mark + n ∧
      (∀ i, i < chunk.mark → c.data[i]? = chunk.data[i]?) ∧
      (c.data.drop chunk.mark).take n = bytes.take n) := by
  have hsz1 : 2 * chunk.buffer_size + 1 < 2 ^ 64 := by omega
  have hsz2 : 2 * chunk.buffer_size + 2 < 2 ^ 64 := by omega
  refine ⟨fun u8 => ?_, fun u16 => ?_, fun u32 => ?_, fun bytes n hn hszn => ?_⟩
  · obtain ⟨c, e, hw⟩ := chunk_write_uint8_written chunk u8 hv hsz1
    obtain ⟨c', e', hs⟩ := chunk_write_uint8_stored chunk u8 hv hsz1
    have hc : c' = c := Option.some.inj (e'.symm.trans e)
    subst hc
    have hlen : chunk.mark + 1 ≤ c'.data.length := by
      have h1 := hw.1.2.1
      have h2 := hw.1.2.2
      have h3 := hw.2.2.1
      omega
    refine ⟨c', e, hw.2.2.1, written_below chunk c' 1 hv hw, ?_⟩
    exact slice_of_getD c'.data [u8 % 256] chunk.mark hlen (fun j hj => by
      have hj0 : j = 0 := by
        simp only [List.length_singleton] at hj
        omega
      subst hj0
      exact hs)
  · obtain ⟨c, e, hw⟩ := chunk_write_uint16_written chunk u16 hv hsz2
    obtain ⟨c', e', hs0, hs1⟩ := chunk_write_uint16_stored chunk u16 hv hsz2
    have hc : c' = c := Option.some.inj (e'.symm.trans e)
    subst hc
    have hlen : chunk.mark + 2 ≤ c'.data.length := by
      have h1 := hw.1.2.1
      have h2 := hw.1.2.2
      have h3 := hw.2.2.1
      omega
    refine ⟨c', e, hw.2.2.1, written_below chunk c' 2 hv hw, ?_⟩
    exact slice_of_getD c'.data [u16 % 256, u16 / 256 % 256] chunk.mark hlen (fun j hj => by
      have hj' : j = 0 ∨ j = 1 := by
        simp only [List.length_cons, List.length_nil] at hj
        omega
      rcases hj' with h | h <;> subst h
      · exact hs0
      · exact hs1)
  · obtain ⟨c, e, hw⟩ := chunk_write_uint32_written chunk u32 hv hsz
    obtain ⟨c', e', hs⟩ := chunk_write_uint32_stored chunk u32 hv hsz
    have hc : c' = c := Option.some.inj (e'.symm.trans e)
    subst hc
    have hlen : chunk.mark + 4 ≤ c'.data.length := by
      have h1 := hw.1.2.1
      have h2 := hw.1.2.2
      have h3 := hw.2.2.1
      omega
    refine ⟨c', e, hw.2.2.1, written_below chunk c' 4 hv hw, ?_⟩
    exact slice_of_getD c'.data (le32 u32) chunk.mark hlen (fun j hj => hs j hj)
  · obtain ⟨c, e, hw⟩ := chunk_write_bytes_written chunk bytes n hv hn hszn
    obtain ⟨c', e', hs⟩ := chunk_write_bytes_stored chunk bytes n hv hn hszn
    have hc : c' = c := Option.some.inj (e'.symm.trans e)
    subst hc
    have hl : (bytes.take n).length = n := by
      rw [List.length_take]
      omega
    have hlen : chunk.mark + (bytes.take n).length ≤ c'.data.length := by
      have h1 := hw.1.2.1
      have h2 := hw.1.2.2
      have h3 := hw.2.2.1
      omega
    refine ⟨c', e, hw.2.2.1, written_below chunk c' n hv hw, ?_⟩
    have h := slice_of_getD c'.data (bytes.take n) chunk.mark hlen (fun j hj => by
      rw [hl] at hj
      rw [hs j hj, List.getD_eq_getElem?_getD, List.getD_eq_getElem?_getD,
        List.getElem?_take_of_lt hj])
    rw [hl] at h
    exact h

theorem chunk_write_stores_witness :
    (sample_writ.valid ∧ 2 * sample_writ.buffer_size + 4 < 2 ^ 64) ∧
    ((∀ u8, ∃ c, chunk_write_uint8 sample_writ u8 = some c ∧ c.mark = sample_writ.mark + 1 ∧
      (∀ i, i < sample_writ.mark → c.data[i]? = sample_writ.data[i]?) ∧
      (c.data.drop sample_writ.mark).take 1 = [u8 % 256]) ∧
    (∀ u16, ∃ c, chunk_write_uint16 sample_writ u16 = some c ∧ c.mark = sample_writ.mark + 2 ∧
      (∀ i, i < sample_writ.mark → c.data[i]? = sample_writ.data[i]?) ∧
      (c.data.drop sample_writ.mark).take 2 = [u16 % 256, u16 / 256 % 256]) ∧
    (∀ u32, ∃ c, chunk_write_uint32 sample_writ u32 = some c ∧ c.mark = sample_writ.mark + 4 ∧
      (∀ i, i < sample_writ.mark → c.data[i]? = sample_writ.data[i]?) ∧
      (c.data.drop sample_writ.mark).take 4
        = [u32 % 256, u32 / 256 % 256, u32 / 65536 % 256, u32 / 16777216 % 256]) ∧
    (∀ bytes n, n ≤ bytes.length → 2 * sample_writ.buffer_size + n < 2 ^ 64 →
      ∃ c, chunk_write_bytes sample_writ bytes n = some c ∧ c.mark = sample_writ.mark + n ∧
      (∀ i, i < sample_writ.mark → c.data[i]? = sample_writ.data[i]?) ∧
      (c.data.drop sample_writ.mark).take n = bytes.take n)) :=
  ⟨⟨by decide, by decide⟩, chunk_write_stores sample_writ (by decide) (by decide)⟩

/-- C22. On a chunk with mark `m ≤ buffer_size`, for every text of byte
characters and every `n`, `chunk_write_utf8` writes exactly `n` bytes at `m`:
byte `i` is character `i` of the text when `i` is below the length of the text
and the space 0x20 otherwise; it sets the mark to `m + n` and leaves the bytes
below `m` unchanged. The sizes are those of objects that fit a 64-bit address
space: `2 * buffer_size + n < 2^64`. -/
theorem chunk_write_utf8_stores (chunk : woz_chunk) (utf8string : List Nat) (n : Nat)
    (hv : chunk.valid) (hb : is_bytes utf8string)
    (hsz : 2 * chunk.buffer_size + n < 2 ^ 64) :
    ∃ c, chunk_write_utf8 chunk utf8string n = some c ∧ c.mark = chunk.mark + n ∧
      (∀ i, i < chunk.mark → c.data[i]? = chunk.data[i]?) ∧
      (∀ i, i < n → i < utf8string.length → c.data[chunk.mark + i]? = utf8string[i]?) ∧
      (∀ i, i < n → utf8string.length ≤ i → c.data[chunk.mark + i]? = some 0x20) ∧
      (c.data.drop chunk.mark).take n
        = utf8string.take n ++ List.replicate (n - utf8string.length) 0x20 := by
  obtain ⟨c, e, hw⟩ := chunk_write_utf8_written chunk utf8string n hv hsz
  obtain ⟨c', e', hs⟩ := chunk_write_utf8_stored chunk utf8string n hv hsz
  have hc : c' = c := Option.some.inj (e'.symm.trans e)
  subst hc
  have hlen : chunk.mark + n ≤ c'.data.length := by
    have h1 := hw.1.2.1
    have h2 := hw.1.2.2
    have h3 := hw.2.2.1
    omega
  have hchar : ∀ i, i < n → i < utf8string.length →
      c'.data[chunk.mark + i]? = utf8string[i]? := fun i hi hl => by
    rw [getElem?_getD c'.data _ (by omega), hs i hi, if_pos hl, getElem?_getD utf8string i hl,
      Nat.mod_eq_of_lt (hb _ (List.getElem?_mem (getElem?_getD utf8string i hl)))]
  have hpad : ∀ i, i < n → utf8string.length ≤ i →
      c'.data[chunk.mark + i]? = some 0x20 := fun i hi hl => by
    rw [getElem?_getD c'.data _ (by omega), hs i hi, if_neg (by omega)]
  refine ⟨c', e, hw.2.2.1, written_below chunk c' n hv hw, hchar, hpad, ?_⟩
  apply List.ext_getElem?
  intro j
  by_cases hj : j < n
  · rw [List.getElem?_take_of_lt hj, List.getElem?_drop]
    by_cases hl : j < utf8string.length
    · rw [hchar j hj hl, List.getElem?_append_left (by rw [List.length_take]; omega),
        List.getElem?_take_of_lt hj]
    · rw [hpad j hj (by omega),
        List.getElem?_append_right (by rw [List.length_take]; omega),
        List.getElem?_replicate, if_pos (by rw [List.length_take]; omega)]
  · rw [List.getElem?_take_eq_none (by omega),
      List.getElem?_eq_none (by
        rw [List.length_append, List.length_take, List.length_replicate]
        omega)]

theorem chunk_write_utf8_stores_witness :
    (sample_tmap.valid ∧ is_bytes CREATOR_NAME ∧ 2 * sample_tmap.buffer_size + 12 < 2 ^ 64) ∧
    ∃ c, chunk_write_utf8 sample_tmap CREATOR_NAME 12 = some c ∧ c.mark = sample_tmap.mark + 12 ∧
      (∀ i, i < sample_tmap.mark → c.data[i]? = sample_tmap.data[i]?) ∧
      (∀ i, i < 12 → i < CREATOR_NAME.length →
        c.data[sample_tmap.mark + i]? = CREATOR_NAME[i]?) ∧
      (∀ i, i < 12 → CREATOR_NAME.length ≤ i → c.data[sample_tmap.mark + i]? = some 0x20) ∧
      (c.data.drop sample_tmap.mark).take 12
        = CREATOR_NAME.take 12 ++ List.replicate (12 - CREATOR_NAME.length) 0x20 :=
  ⟨⟨by decide, by decide, by decide⟩,
    chunk_write_utf8_stores sample_tmap CREATOR_NAME 12 (by decide) (by decide) (by decide)⟩

/-! ## The chunk operations: what follows from a call that returns -/

theorem for_loop_some_inv {σ : Type} (body : σ → Nat → Option σ) (P : Nat → σ → Prop)
    (n : Nat) (init : σ) (h0 : P 0 init)
    (hstep : ∀ k s s', k < n → P k s → body s k = some s' → P (k + 1) s')
    (r : σ) (hr : for_loop n body init = some r) : P n r := by
  induction n generalizing r with
  | zero =>
    have e : init = r := Option.some.inj hr
    rw [← e]
    exact h0
  | succ n ih =>
    rw [for_loop_succ] at hr
    cases hm : for_loop n body init with
    | none =>
      rw [hm] at hr
      exact absurd hr (by simp)
    | some s =>
      rw [hm, Option.some_bind] at hr
      exact hstep n s r (by omega)
        (ih (fun k s s' hk hP hb => hstep k s s' (by omega) hP hb) s hm) hr

theorem store_of_some (buffer buffer' : List Nat) (i v : Nat)
    (h : store buffer i v = some buffer') : i < buffer.length ∧ buffer' = buffer.set i v := by
  unfold store at h
  by_cases hi : i < buffer.length
  · rw [if_pos hi] at h
    exact ⟨hi, (Option.some.inj h).symm⟩
  · rw [if_neg hi] at h
    exact absurd h (by simp)

theorem grow_of_some (chunk c : woz_chunk) (new_size : Nat)
    (hl : chunk.data.length = chunk.buffer_size)
    (h : (memcpy (calloc new_size) 0 chunk.data chunk.buffer_size).map
      (fun new_buffer => { chunk with data := new_buffer, buffer_size := new_size }) = some c) :
    c.name = chunk.name ∧ c.mark = chunk.mark ∧ c.data.length = c.buffer_size ∧
      chunk.buffer_size ≤ c.buffer_size ∧ ∀ i, c.data.getD i 0 = chunk.data.getD i 0 := by
  unfold memcpy at h
  by_cases hc : chunk.buffer_size ≤ chunk.data.length ∧
      0 + chunk.buffer_size ≤ (calloc new_size).length
  · rw [if_pos hc, Option.map_some'] at h
    have hle : chunk.buffer_size ≤ new_size := by
      have h2 := hc.2
      rw [calloc, List.length_replicate] at h2
      omega
    have hd : List.take 0 (calloc new_size) ++ List.take chunk.buffer_size chunk.data
        ++ List.drop (0 + chunk.buffer_size) (calloc new_size)
        = chunk.data ++ List.replicate (new_size - chunk.buffer_size) 0 := by
      rw [List.take_zero, List.nil_append, List.take_of_length_le (by omega), Nat.zero_add,
        calloc, List.drop_replicate]
    rw [hd] at h
    have hcc := (Option.some.inj h).symm
    subst hcc
    refine ⟨rfl, rfl, ?_, hle, fun i => getD_append_zeros _ _ _⟩
    simp only [List.length_append, List.length_replicate]
    omega
  · rw [if_neg hc] at h
    exact absurd h (by simp)

theorem verify_writable_buffer_of_some (chunk c : woz_chunk) (min : Nat)
    (hl : chunk.data.length = chunk.buffer_size)
    (h : verify_writable_buffer chunk min = some c) :
    c.name = chunk.name ∧ c.mark = chunk.mark ∧ c.data.length = c.buffer_size ∧
      chunk.buffer_size ≤ c.buffer_size ∧ ∀ i, c.data.getD i 0 = chunk.data.getD i 0 := by
  unfold verify_writable_buffer at h
  by_cases hg : (chunk.mark + min) % 2 ^ 64 > chunk.buffer_size
  · rw [if_pos hg] at h
    exact grow_of_some chunk c _ hl h
  · rw [if_neg hg] at h
    have hcc := (Option.some.inj h).symm
    subst hcc
    exact ⟨rfl, rfl, hl, Nat.le_refl _, fun _ => rfl⟩

theorem chunk_put_of_some (chunk c : woz_chunk) (v : Nat) (h : chunk_put chunk v = some c) :
    c.name = chunk.name ∧ c.mark = chunk.mark + 1 ∧ c.buffer_size = chunk.buffer_size ∧
      c.data.length = chunk.data.length ∧
      ∀ i, i ≠ chunk.mark → c.data.getD i 0 = chunk.data.getD i 0 := by
  unfold chunk_put at h
  cases hs : store chunk.data chunk.mark v with
  | none =>
    rw [hs] at h
    exact absurd h (by simp)
  | some d =>
    rw [hs, Option.map_some'] at h
    obtain ⟨_, hd⟩ := store_of_some _ _ _ _ hs
    have hcc := (Option.some.inj h).symm
    subst hcc
    subst hd
    refine ⟨rfl, rfl, rfl, List.length_set _ _ _, fun i hi => ?_⟩
    simp only
    rw [List.getD_eq_getElem?_getD, List.getD_eq_getElem?_getD,
      getElem?_set_of_ne _ _ _ _ (fun h => hi h.symm)]

theorem follows_of_verify (chunk c : woz_chunk) (min : Nat)
    (hl : chunk.data.length = chunk.buffer_size)
    (h : verify_writable_buffer chunk min = some c) : chunk.follows c := by
  obtain ⟨hn, hm, hl', hb, hd⟩ := verify_writable_buffer_of_some chunk c min hl h
  exact ⟨hn, hl', by omega, fun i _ => hd i, hb⟩

theorem follows_put (base c1 c2 : woz_chunk) (v : Nat) (h1 : base.follows c1)
    (h : chunk_put c1 v = some c2) : base.follows c2 := by
  obtain ⟨hn, hm, hb, hl, hd⟩ := chunk_put_of_some c1 c2 v h
  obtain ⟨hn1, hl1, hm1, hd1, hb1⟩ := h1
  refine ⟨by rw [hn, hn1], by rw [hl, hb, hl1], by omega, fun i hi => ?_, by omega⟩
  rw [hd i (by omega)]
  exact hd1 i (by omega)

theorem zero_tail_follows (base c : woz_chunk) (hz : base.zero_tail) (h : base.follows c) :
    c.zero_tail := by
  intro i hi
  rw [h.2.2.2.1 i hi]
  exact hz i (Nat.le_trans h.2.2.1 hi)

theorem chunk_write_uint8_follows (chunk c : woz_chunk) (u8 : Nat)
    (hl : chunk.data.length = chunk.buffer_size) (h : chunk_write_uint8 chunk u8 = some c) :
    chunk.follows c := by
  simp only [chunk_write_uint8, Option.bind_eq_bind] at h
  obtain ⟨c1, e1, e2⟩ := Option.bind_eq_some.1 h
  exact follows_put chunk c1 c _ (follows_of_verify chunk c1 1 hl e1) e2

theorem chunk_write_uint16_follows (chunk c : woz_chunk) (u16 : Nat)
    (hl : chunk.data.length = chunk.buffer_size) (h : chunk_write_uint16 chunk u16 = some c) :
    chunk.follows c := by
  simp only [chunk_write_uint16, Option.bind_eq_bind] at h
  obtain ⟨c1, e1, h⟩ := Option.bind_eq_some.1 h
  obtain ⟨c2, e2, e3⟩ := Option.bind_eq_some.1 h
  exact follows_put chunk c2 c _
    (follows_put chunk c1 c2 _ (follows_of_verify chunk c1 2 hl e1) e2) e3

theorem chunk_write_uint32_follows (chunk c : woz_chunk) (u32 : Nat)
    (hl : chunk.data.length = chunk.buffer_size) (h : chunk_write_uint32 chunk u32 = some c) :
    chunk.follows c := by
  simp only [chunk_write_uint32, Option.bind_eq_bind] at h
  obtain ⟨c1, e1, h⟩ := Option.bind_eq_some.1 h
  obtain ⟨c2, e2, h⟩ := Option.bind_eq_some.1 h
  obtain ⟨c3, e3, h⟩ := Option.bind_eq_some.1 h
  obtain ⟨c4, e4, e5⟩ := Option.bind_eq_some.1 h
  exact follows_put chunk c4 c _ (follows_put chunk c3 c4 _ (follows_put chunk c2 c3 _
    (follows_put chunk c1 c2 _ (follows_of_verify chunk c1 4 hl e1) e2) e3) e4) e5

theorem chunk_write_utf8_follows (chunk c : woz_chunk) (utf8string : List Nat) (n : Nat)
    (hl : chunk.data.length = chunk.buffer_size)
    (h : chunk_write_utf8 chunk utf8string n = some c) : chunk.follows c := by
  simp only [chunk_write_utf8, Option.bind_eq_bind] at h
  obtain ⟨c1, e1, h⟩ := Option.bind_eq_some.1 h
  obtain ⟨d, ed, h⟩ := Option.bind_eq_some.1 h
  obtain ⟨hn1, hl1, hm1, hd1, hb1⟩ := follows_of_verify chunk c1 n hl e1
  have hP := for_loop_some_inv _
    (fun k data => data.length = c1.data.length ∧
      ∀ j, c1.mark + k ≤ j → data.getD j 0 = c1.data.getD j 0)
    n c1.data ⟨rfl, fun _ _ => rfl⟩
    (fun k s s' _ hP hb => by
      obtain ⟨hlen, hfr⟩ := hP
      have key : ∀ v, store s (c1.mark + k) v = some s' →
          s'.length = c1.data.length ∧
            ∀ j, c1.mark + (k + 1) ≤ j → s'.getD j 0 = c1.data.getD j 0 := fun v hs => by
        obtain ⟨_, hset⟩ := store_of_some _ _ _ _ hs
        subst hset
        refine ⟨by rw [List.length_set, hlen], fun j hj => ?_⟩
        rw [List.getD_eq_getElem?_getD, getElem?_set_of_ne _ _ _ _ (by omega),
          ← List.getD_eq_getElem?_getD]
        exact hfr j (by omega)
      by_cases hlt : k < utf8string.length
      · simp only [if_pos hlt, Option.bind_eq_bind] at hb
        obtain ⟨ch, _, hs⟩ := Option.bind_eq_some.1 hb
        exact key _ hs
      · simp only [if_neg hlt] at hb
        exact key _ hb) d ed
  have hcc := (Option.some.inj h).symm
  subst hcc
  refine ⟨hn1, ?_, ?_, fun i hi => ?_, hb1⟩
  · simp only
    rw [hP.1, hl1]
  · simp only
    omega
  · simp only at hi ⊢
    rw [hP.2 i hi]
    exact hd1 i (by omega)

theorem chunk_write_bytes_follows (chunk c : woz_chunk) (bytes : List Nat) (n : Nat)
    (hl : chunk.data.length = chunk.buffer_size)
    (h : chunk_write_bytes chunk bytes n = some c) : chunk.follows c := by
  simp only [chunk_write_bytes, Option.bind_eq_bind] at h
  obtain ⟨c1, e1, h⟩ := Option.bind_eq_some.1 h
  obtain ⟨d, ed, h⟩ := Option.bind_eq_some.1 h
  obtain ⟨hn1, hl1, hm1, hd1, hb1⟩ := follows_of_verify chunk c1 n hl e1
  unfold memcpy at ed
  by_cases hc : n ≤ bytes.length ∧ c1.mark + n ≤ c1.data.length
  · rw [if_pos hc] at ed
    have hd := (Option.some.inj ed).symm
    subst hd
    have hcc := (Option.some.inj h).symm
    subst hcc
    have hl2 : (c1.data.take c1.mark).length = c1.mark := by
      rw [List.length_take]
      omega
    have hl3 : (bytes.take n).length = n := by
      rw [List.length_take]
      omega
    refine ⟨hn1, ?_, ?_, fun i hi => ?_, hb1⟩
    · simp only [List.length_append, hl2, hl3, List.length_drop]
      omega
    · simp only
      omega
    · simp only at hi ⊢
      rw [← hd1 i (by omega), List.getD_eq_getElem?_getD, List.getD_eq_getElem?_getD,
        List.getElem?_append_right (by rw [List.length_append, hl2, hl3]; omega),
        List.length_append, hl2, hl3, List.getElem?_drop]
      congr 2
      omega
  · rw [if_neg hc] at ed
    exact absurd ed (by simp)

/-- A `chunk_set_mark` that returns changes the mark only, up to a growth of
the buffer by zero bytes. -/
theorem chunk_set_mark_of_some (chunk c : woz_chunk) (pos : Nat)
    (hl : chunk.data.length = chunk.buffer_size) (h : chunk_set_mark chunk pos = some c) :
    c.name = chunk.name ∧ c.mark = pos ∧ c.data.length = c.buffer_size ∧
      chunk.buffer_size ≤ c.buffer_size ∧ ∀ i, c.data.getD i 0 = chunk.data.getD i 0 := by
  unfold chunk_set_mark at h
  by_cases he : pos ≤ chunk.mark
  · rw [if_pos he] at h
    have hcc := (Option.some.inj h).symm
    subst hcc
    exact ⟨rfl, rfl, hl, Nat.le_refl _, fun _ => rfl⟩
  · rw [if_neg he] at h
    simp only [Option.bind_eq_bind] at h
    obtain ⟨c1, e1, h⟩ := Option.bind_eq_some.1 h
    obtain ⟨hn, hm, hl', hb, hd⟩ := verify_writable_buffer_of_some chunk c1 _ hl e1
    have hcc := (Option.some.inj h).symm
    subst hcc
    exact ⟨hn, rfl, hl', hb, hd⟩

theorem chunk_set_mark_follows (chunk c : woz_chunk) (pos : Nat)
    (hl : chunk.data.length = chunk.buffer_size) (hp : chunk.mark ≤ pos)
    (h : chunk_set_mark chunk pos = some c) : chunk.follows c := by
  obtain ⟨hn, hm, hl', hb, hd⟩ := chunk_set_mark_of_some chunk c pos hl h
  exact ⟨hn, hl', by omega, fun i _ => hd i, hb⟩

/-- Every chunk reached without lowering the mark has a 4-byte tag, a buffer
of `buffer_size` bytes, and zeros from the mark on. -/
theorem append_reachable_inv (c : woz_chunk) (h : append_reachable c) :
    c.name.length = 4 ∧ c.data.length = c.buffer_size ∧ c.zero_tail := by
  have step : ∀ chunk c : woz_chunk,
      (chunk.name.length = 4 ∧ chunk.data.length = chunk.buffer_size ∧ chunk.zero_tail) →
      chunk.follows c → c.name.length = 4 ∧ c.data.length = c.buffer_size ∧ c.zero_tail :=
    fun chunk c hi hf => ⟨by rw [hf.1]; exact hi.1, hf.2.1, zero_tail_follows chunk c hi.2.2 hf⟩
  induction h with
  | create name c hn e =>
    obtain ⟨c', e', h'⟩ := create_woz_chunk_holds name hn
    have hc : c' = c := Option.some.inj (e'.symm.trans e)
    subst hc
    exact ⟨h'.1.1, h'.1.2.1, h'.2.1⟩
  | write_uint8 chunk c u8 _ e ih =>
    exact step chunk c ih (chunk_write_uint8_follows chunk c u8 ih.2.1 e)
  | write_uint16 chunk c u16 _ e ih =>
    exact step chunk c ih (chunk_write_uint16_follows chunk c u16 ih.2.1 e)
  | write_uint32 chunk c u32 _ e ih =>
    exact step chunk c ih (chunk_write_uint32_follows chunk c u32 ih.2.1 e)
  | write_utf8 chunk c utf8string n _ e ih =>
    exact step chunk c ih (chunk_write_utf8_follows chunk c utf8string n ih.2.1 e)
  | write_bytes chunk c bytes n _ _ e ih =>
    exact step chunk c ih (chunk_write_bytes_follows chunk c bytes n ih.2.1 e)
  | set_mark chunk c mark _ hm e ih =>
    exact step chunk c ih (chunk_set_mark_follows chunk c mark ih.2.1 hm e)
  | advance_mark chunk c offset _ h0 hlt e ih =>
    have hnew : chunk.mark ≤ (((chunk.mark : Int) + offset) % 2 ^ 64).toNat := by omega
    exact step chunk c ih (chunk_set_mark_follows chunk c _ ih.2.1 hnew e)

/-- Every chunk reached by chunk operations that return has a 4-byte tag and
a buffer of `buffer_size` bytes. -/
theorem chunk_reachable_length (c : woz_chunk) (h : chunk_reachable c) :
    c.name.length = 4 ∧ c.data.length = c.buffer_size := by
  have step : ∀ chunk c : woz_chunk, chunk.name.length = 4 → chunk.follows c →
      c.name.length = 4 ∧ c.data.length = c.buffer_size :=
    fun chunk c hn hf => ⟨by rw [hf.1]; exact hn, hf.2.1⟩
  have move : ∀ (chunk c : woz_chunk) (pos : Nat),
      chunk.name.length = 4 ∧ chunk.data.length = chunk.buffer_size →
      chunk_set_mark chunk pos = some c →
      c.name.length = 4 ∧ c.data.length = c.buffer_size := fun chunk c pos hi e => by
    obtain ⟨hn, _, hl, _⟩ := chunk_set_mark_of_some chunk c pos hi.2 e
    exact ⟨by rw [hn]; exact hi.1, hl⟩
  induction h with
  | create name c hn e =>
    obtain ⟨c', e', h'⟩ := create_woz_chunk_holds name hn
    have hc : c' = c := Option.some.inj (e'.symm.trans e)
    subst hc
    exact ⟨h'.1.1, h'.1.2.1⟩
  | write_uint8 chunk c u8 _ e ih =>
    exact step chunk c ih.1 (chunk_write_uint8_follows chunk c u8 ih.2 e)
  | write_uint16 chunk c u16 _ e ih =>
    exact step chunk c ih.1 (chunk_write_uint16_follows chunk c u16 ih.2 e)
  | write_uint32 chunk c u32 _ e ih =>
    exact step chunk c ih.1 (chunk_write_uint32_follows chunk c u32 ih.2 e)
  | write_utf8 chunk c utf8string n _ e ih =>
    exact step chunk c ih.1 (chunk_write_utf8_follows chunk c utf8string n ih.2 e)
  | write_bytes chunk c bytes n _ e ih =>
    exact step chunk c ih.1 (chunk_write_bytes_follows chunk c bytes n ih.2 e)
  | set_mark chunk c mark _ e ih => exact move chunk c mark ih e
  | advance_mark chunk c offset _ e ih => exact move chunk c _ ih e

/-! ## Two chunks reached by calls -/

theorem chunk_put_eq (chunk : woz_chunk) (v : Nat) (h : chunk.mark < chunk.data.length) :
    chunk_put chunk v
      = some ⟨chunk.name, chunk.mark + 1, chunk.buffer_size, chunk.data.set chunk.mark v⟩ := by
  unfold chunk_put
  rw [store_eq_some _ _ _ h]
  rfl

theorem chunk_write_uint16_fresh :
    chunk_write_uint16 fresh_trks 0xAAD5 = some written_trks := by
  have hno : ¬ ((fresh_trks.mark + 2) % 2 ^ 64 > fresh_trks.buffer_size) := by decide
  have e1 : verify_writable_buffer fresh_trks 2 = some fresh_trks := by
    simp only [verify_writable_buffer, if_neg hno]
  have hlen : fresh_trks.data.length = 4096 := List.length_replicate _ _
  have e2 := chunk_put_eq fresh_trks (0xAAD5 &&& 0x00FF) (by rw [hlen]; decide)
  have hd1 : fresh_trks.data.set fresh_trks.mark (0xAAD5 &&& 0x00FF)
      = 0xD5 :: 0 :: List.replicate 4094 0 := rfl
  rw [hd1] at e2
  have e3 := chunk_put_eq
    ⟨fresh_trks.name, fresh_trks.mark + 1, fresh_trks.buffer_size,
      0xD5 :: 0 :: List.replicate 4094 0⟩ ((0xAAD5 >>> 8) &&& 0x00FF) (by
      show 1 < (0xD5 :: 0 :: List.replicate 4094 0).length
      simp only [List.length_cons]
      omega)
  simp only [chunk_write_uint16, Option.bind_eq_bind, e1, Option.some_bind, e2, e3]
  rfl

theorem written_trks_reachable : append_reachable written_trks :=
  append_reachable.write_uint16 fresh_trks written_trks 0xAAD5
    (append_reachable.create [0x54, 0x52, 0x4B, 0x53, 0] fresh_trks (by decide) rfl)
    chunk_write_uint16_fresh

theorem chunk_set_mark_written : chunk_set_mark written_trks 1 = some rewound_trks := by
  have hle : 1 ≤ written_trks.mark := by decide
  simp only [chunk_set_mark, if_pos hle]
  rfl

theorem rewound_trks_reachable : chunk_reachable rewound_trks :=
  chunk_reachable.set_mark written_trks rewound_trks 1
    (chunk_reachable.write_uint16 fresh_trks written_trks 0xAAD5
      (chunk_reachable.create [0x54, 0x52, 0x4B, 0x53, 0] fresh_trks (by decide) rfl)
      chunk_write_uint16_fresh)
    chunk_set_mark_written


/-! ## The chunk operations: moves of the mark -/

/-- C23. For every chunk reached from `create_woz_chunk` by chunk operations
that return, and every position `pos`, in particular one after the mark: when
`chunk_set_mark` returns, the mark is `pos` and every byte of the buffer holds
what the buffer held at its index before, an index past the end of the old
buffer counting as holding 0; so the bytes of the gap from the old mark to
`pos` are zero when the bytes from the old mark to the old `buffer_size` were
zero, and are otherwise the bytes that were there. The call does return, with
the buffer reaching `pos`, when `mark ≤ buffer_size` and no size wraps
(`2 * buffer_size + (pos - mark) < 2^64`). -/
theorem chunk_set_mark_gap (chunk : woz_chunk) (pos : Nat) (h : chunk_reachable chunk) :
    (∀ c, chunk_set_mark chunk pos = some c →
      c.mark = pos ∧ c.data.length = c.buffer_size ∧
      (∀ i, i < c.buffer_size → c.data[i]? = some (chunk.data.getD i 0)) ∧
      ((∀ i, chunk.mark ≤ i → i < chunk.buffer_size → chunk.data[i]? = some 0) →
        ∀ i, chunk.mark ≤ i → i < pos → i < c.buffer_size → c.data[i]? = some 0)) ∧
    (chunk.mark ≤ chunk.buffer_size →
      2 * chunk.buffer_size + (pos - chunk.mark) < 2 ^ 64 →
      ∃ c, chunk_set_mark chunk pos = some c ∧ pos ≤ c.buffer_size) := by
  obtain ⟨hname, hl⟩ := chunk_reachable_length chunk h
  refine ⟨fun c e => ?_, fun hm hsz => ?_⟩
  · obtain ⟨_, hm, hl', _, hd⟩ := chunk_set_mark_of_some chunk c pos hl e
    have hget : ∀ i, i < c.buffer_size → c.data[i]? = some (chunk.data.getD i 0) :=
      fun i hi => by rw [getElem?_getD c.data i (by omega), hd i]
    refine ⟨hm, hl', hget, fun hz i h1 _ h3 => ?_⟩
    rw [hget i h3]
    by_cases hi : i < chunk.buffer_size
    · have h0 := hz i h1 hi
      rw [getElem?_getD chunk.data i (by omega)] at h0
      exact h0
    · rw [List.getD_eq_default _ _ (by omega)]
  · obtain ⟨c, e, hv, hm'⟩ := chunk_set_mark_valid chunk pos ⟨hname, hl, hm⟩ hsz
    refine ⟨c, e, ?_⟩
    have := hv.2.2
    omega

theorem chunk_set_mark_gap_witness :
    chunk_reachable rewound_trks ∧
    ((∀ c, chunk_set_mark rewound_trks 5000 = some c →
      c.mark = 5000 ∧ c.data.length = c.buffer_size ∧
      (∀ i, i < c.buffer_size → c.data[i]? = some (rewound_trks.data.getD i 0)) ∧
      ((∀ i, rewound_trks.mark ≤ i → i < rewound_trks.buffer_size →
          rewound_trks.data[i]? = some 0) →
        ∀ i, rewound_trks.mark ≤ i → i < 5000 → i < c.buffer_size → c.data[i]? = some 0)) ∧
    (rewound_trks.mark ≤ rewound_trks.buffer_size →
      2 * rewound_trks.buffer_size + (5000 - rewound_trks.mark) < 2 ^ 64 →
      ∃ c, chunk_set_mark rewound_trks 5000 = some c ∧ 5000 ≤ c.buffer_size)) :=
  ⟨rewound_trks_reachable, chunk_set_mark_gap rewound_trks 5000 rewound_trks_reachable⟩

/-- Counterexample for C23 as first worded: write the byte 0xFF to the chunk
that `create_woz_chunk` returns, move the mark back to 0, then forward to 1;
the gap from 0 to 1 holds 0xFF, not zero. -/
theorem chunk_set_mark_gap_counterexample :
    ∃ c1 c2 c3, chunk_write_uint8 fresh_trks 0xFF = some c1 ∧
      chunk_set_mark c1 0 = some c2 ∧ c2.mark = 0 ∧ c2.mark < 1 ∧
      chunk_set_mark c2 1 = some c3 ∧ c3.mark = 1 ∧ c3.data[0]? = some 0xFF ∧
      create_woz_chunk [0x54, 0x52, 0x4B, 0x53, 0] true true = some fresh_trks := by
  have hv : fresh_trks.valid := ⟨rfl, List.length_replicate _ _, Nat.zero_le _⟩
  have hsz : 2 * fresh_trks.buffer_size + 1 < 2 ^ 64 := by decide
  obtain ⟨c1, e1, hw⟩ := chunk_write_uint8_written fresh_trks 0xFF hv hsz
  obtain ⟨c1', e1', hs⟩ := chunk_write_uint8_stored fresh_trks 0xFF hv hsz
  have hc : c1' = c1 := Option.some.inj (e1'.symm.trans e1)
  subst hc
  obtain ⟨hv1, _, hm1, hs1, _⟩ := hw
  have hm1' : c1'.mark = 1 := hm1
  have hb1 : c1'.buffer_size = 4096 := by
    rw [hs1]
    decide
  have hl1 : c1'.data.length = 4096 := by rw [hv1.2.1, hb1]
  have hd0 : c1'.data[0]? = some 0xFF := by
    rw [getElem?_getD c1'.data 0 (by omega)]
    exact congrArg some hs
  have e2 : chunk_set_mark c1' 0 = some { c1' with mark := 0 } := by
    simp only [chunk_set_mark, if_pos (Nat.zero_le _)]
  have e3 : chunk_set_mark { c1' with mark := 0 } 1 = some { c1' with mark := 1 } := by
    have hno : ¬ ((0 + (1 - 0)) % 2 ^ 64 > c1'.buffer_size) := by omega
    simp only [chunk_set_mark, verify_writable_buffer, if_neg hno, Option.bind_eq_bind,
      Option.some_bind]
    rfl
  exact ⟨c1', _, _, e1, e2, rfl, Nat.zero_lt_one, e3, rfl, hd0, rfl⟩

theorem testBit_byte_high (value p : Nat) (hv : value < 256) (hp : 8 ≤ p) :
    value.testBit p = false :=
  Nat.testBit_lt_two_pow (Nat.lt_of_lt_of_le hv (by
    calc 256 = 2 ^ 8 := by decide
      _ ≤ 2 ^ p := Nat.pow_le_pow_right (by decide) hp))

/-- What `bits_write_byte` does with a value below 256 on any buffer in which
the bytes it touches exist: bit `k` of the eight bits from `index` on becomes
the old bit OR bit `7 - (k - index)` of the value, every other bit keeps its
value. -/
theorem bits_write_byte_or (buffer : List Nat) (index value : Nat) (hv : value < 256)
    (h : index / 8 < buffer.length) (h' : index % 8 ≠ 0 → index / 8 + 1 < buffer.length) :
    ∃ buf, bits_write_byte buffer index value = some (buf, index + 8) ∧
      buf.length = buffer.length ∧
      (∀ k, index ≤ k → k < index + 8 →
        bit_at buf k = (bit_at buffer k || value.testBit (7 - (k - index)))) ∧
      (∀ k, k < index ∨ index + 8 ≤ k → bit_at buf k = bit_at buffer k) := by
  obtain ⟨buf, e, hl, _, hbits⟩ := bits_write_byte_bits buffer index value h h'
  refine ⟨buf, e, hl, fun k h1 h2 => ?_, fun k hk => ?_⟩
  · have e2 : (8 * (index / 8) ≤ k ∧ k < index + 8) := by omega
    rw [hbits k, decide_eq_true e2, Bool.true_and,
      show index + 7 - k = 7 - (k - index) by omega]
  · rw [hbits k]
    by_cases e2 : (8 * (index / 8) ≤ k ∧ k < index + 8)
    · rw [testBit_byte_high value _ hv (by omega), Bool.and_false, Bool.or_false]
    · rw [decide_eq_false e2, Bool.false_and, Bool.or_false]

theorem bits_read_byte_written (buffer buf : List Nat) (index value : Nat) (hv : value < 256)
    (hz : ∀ k, index ≤ k → k < index + 8 → bit_at buffer k = false)
    (hor : ∀ k, index ≤ k → k < index + 8 →
      bit_at buf k = (bit_at buffer k || value.testBit (7 - (k - index)))) :
    bits_read_byte buf index = value := by
  refine bits_read_byte_eq buf index value hv (fun k hk => ?_)
  rw [hor (index + k) (by omega) (by omega), hz (index + k) (by omega) (by omega),
    Bool.false_or, show index + k - index = k by omega]

theorem bits_write_byte_loop (v : Nat → Nat) (n : Nat) (buffer : List Nat) (index : Nat)
    (h : index / 8 + n ≤ buffer.length)
    (h' : index % 8 ≠ 0 → index / 8 + n < buffer.length) :
    ∃ buf, for_loop n (fun r i => bits_write_byte r.1 r.2 (v i)) (buffer, index)
        = some (buf, index + 8 * n) ∧ buf.length = buffer.length ∧
      ∀ k, bit_at buffer k = true → bit_at buf k = true := by
  induction n with
  | zero => exact ⟨buffer, rfl, rfl, fun _ hk => hk⟩
  | succ n ih =>
    obtain ⟨b1, e1, l1, m1⟩ := ih (by omega) (fun h0 => by have := h' h0; omega)
    obtain ⟨b2, e2, l2, _, hbits⟩ := bits_write_byte_bits b1 (index + 8 * n) (v n)
      (by rw [l1]; omega) (fun h0 => by
        rw [l1]
        have := h' (by omega)
        omega)
    refine ⟨b2, ?_, by rw [l2, l1], fun k hk => ?_⟩
    · rw [for_loop_succ, e1, Option.some_bind]
      simp only
      rw [e2, show index + 8 * n + 8 = index + 8 * (n + 1) by omega]
    · rw [hbits k, m1 k hk, Bool.true_or]

/-- C25. For every buffer, every bit index whose target bytes exist and every
value below 256, `bits_write_byte` returns the index plus 8 and a buffer in
which each of the eight bits from the index on is the old bit OR bit
`7 - (k - index)` of the value, and every other bit is as before; so no set
bit is cleared, and when the eight target bits were zero the byte read back at
the index is the value. `n` calls in a row advance the index by `8 * n` and
clear no bit. -/
theorem bits_write_byte_stream (buffer : List Nat) (idx value : Nat) (hv : value < 256)
    (h : idx / 8 < buffer.length) (h' : idx % 8 ≠ 0 → idx / 8 + 1 < buffer.length) :
    (∃ buf, bits_write_byte buffer idx value = some (buf, idx + 8) ∧
      (∀ k, idx ≤ k → k < idx + 8 →
        bit_at buf k = (bit_at buffer k || value.testBit (7 - (k - idx)))) ∧
      (∀ k, k < idx ∨ idx + 8 ≤ k → bit_at buf k = bit_at buffer k) ∧
      (∀ k, bit_at buffer k = true → bit_at buf k = true) ∧
      ((∀ k, idx ≤ k → k < idx + 8 → bit_at buffer k = false) →
        bits_read_byte buf idx = value)) ∧
    (∀ n (v : Nat → Nat), idx / 8 + n ≤ buffer.length →
      (idx % 8 ≠ 0 → idx / 8 + n < buffer.length) →
      ∃ buf, for_loop n (fun r i => bits_write_byte r.1 r.2 (v i)) (buffer, idx)
          = some (buf, idx + 8 * n) ∧
        ∀ k, bit_at buffer k = true → bit_at buf k = true) := by
  obtain ⟨buf, e, _, hor, hsame⟩ := bits_write_byte_or buffer idx value hv h h'
  refine ⟨⟨buf, e, hor, hsame, fun k hk => ?_,
    fun hz => bits_read_byte_written buffer buf idx value hv hz hor⟩, fun n v hn hn' => ?_⟩
  · by_cases hin : idx ≤ k ∧ k < idx + 8
    · rw [hor k hin.1 hin.2, hk, Bool.true_or]
    · rw [hsame k (by omega)]
      exact hk
  · obtain ⟨b, eb, _, hm⟩ := bits_write_byte_loop v n buffer idx hn hn'
    exact ⟨b, eb, hm⟩

theorem bits_write_byte_stream_witness :
    ((0xD5 : Nat) < 256 ∧ 11 / 8 < [0xFF, 0xE0, 0x1F, 0x40].length ∧
      (11 % 8 ≠ 0 → 11 / 8 + 1 < [0xFF, 0xE0, 0x1F, 0x40].length)) ∧
    ((∃ buf, bits_write_byte [0xFF, 0xE0, 0x1F, 0x40] 11 0xD5 = some (buf, 11 + 8) ∧
      (∀ k, 11 ≤ k → k < 11 + 8 →
        bit_at buf k = (bit_at [0xFF, 0xE0, 0x1F, 0x40] k || (0xD5).testBit (7 - (k - 11)))) ∧
      (∀ k, k < 11 ∨ 11 + 8 ≤ k → bit_at buf k = bit_at [0xFF, 0xE0, 0x1F, 0x40] k) ∧
      (∀ k, bit_at [0xFF, 0xE0, 0x1F, 0x40] k = true → bit_at buf k = true) ∧
      ((∀ k, 11 ≤ k → k < 11 + 8 → bit_at [0xFF, 0xE0, 0x1F, 0x40] k = false) →
        bits_read_byte buf 11 = 0xD5)) ∧
    (∀ n (v : Nat → Nat), 11 / 8 + n ≤ [0xFF, 0xE0, 0x1F, 0x40].length →
      (11 % 8 ≠ 0 → 11 / 8 + n < [0xFF, 0xE0, 0x1F, 0x40].length) →
      ∃ buf, for_loop n (fun r i => bits_write_byte r.1 r.2 (v i))
          ([0xFF, 0xE0, 0x1F, 0x40], 11) = some (buf, 11 + 8 * n) ∧
        ∀ k, bit_at [0xFF, 0xE0, 0x1F, 0x40] k = true → bit_at buf k = true)) :=
  ⟨⟨by decide, by decide, by decide⟩,
    bits_write_byte_stream [0xFF, 0xE0, 0x1F, 0x40] 11 0xD5 (by decide) (by decide)
      (by decide)⟩

theorem testBit_255 (p : Nat) (hp : p < 8) : (0xFF : Nat).testBit p = true := by
  have h : (0xFF : Nat) = 2 ^ 8 - 1 := by decide
  rw [h, Nat.testBit_two_pow_sub_one]
  exact decide_eq_true hp

/-- C26. For every buffer whose ten bits from `idx` on are zero (the bytes
that `bits_write_byte` touches existing), `bits_write_sync` returns
`idx + 10`, leaves the eight bits from `idx` on all set, so that the byte read
at `idx` is 0xFF, leaves bits `idx + 8` and `idx + 9` zero and every other bit
unchanged. -/
theorem bits_write_sync_stream (buffer : List Nat) (idx : Nat)
    (h : idx / 8 < buffer.length) (h' : idx % 8 ≠ 0 → idx / 8 + 1 < buffer.length)
    (hz : ∀ k, idx ≤ k → k < idx + 10 → bit_at buffer k = false) :
    ∃ buf, bits_write_sync buffer idx = some (buf, idx + 10) ∧
      (∀ k, idx ≤ k → k < idx + 8 → bit_at buf k = true) ∧
      bits_read_byte buf idx = 0xFF ∧
      bit_at buf (idx + 8) = false ∧ bit_at buf (idx + 9) = false ∧
      ∀ k, k < idx ∨ idx + 8 ≤ k → bit_at buf k = bit_at buffer k := by
  obtain ⟨buf, e, _, hor, hsame⟩ := bits_write_byte_or buffer idx 0xFF (by decide) h h'
  refine ⟨buf, ?_, fun k h1 h2 => ?_, ?_, ?_, ?_, hsame⟩
  · have hrun : bits_write_sync buffer idx
        = (bits_write_byte buffer idx 0xFF).bind (fun r => some (r.1, r.2 + 2)) := rfl
    rw [hrun, e, Option.some_bind]
  · rw [hor k h1 h2, testBit_255 _ (by omega), Bool.or_true]
  · exact bits_read_byte_written buffer buf idx 0xFF (by decide)
      (fun k h1 h2 => hz k h1 (by omega)) hor
  · rw [hsame _ (Or.inr (Nat.le_refl _))]
    exact hz _ (by omega) (by omega)
  · rw [hsame _ (Or.inr (by omega))]
    exact hz _ (by omega) (by omega)

theorem bits_write_sync_stream_witness :
    (5 / 8 < [0xF8, 0x00, 0x01].length ∧ (5 % 8 ≠ 0 → 5 / 8 + 1 < [0xF8, 0x00, 0x01].length) ∧
      ∀ k, 5 ≤ k → k < 5 + 10 → bit_at [0xF8, 0x00, 0x01] k = false) ∧
    ∃ buf, bits_write_sync [0xF8, 0x00, 0x01] 5 = some (buf, 5 + 10) ∧
      (∀ k, 5 ≤ k → k < 5 + 8 → bit_at buf k = true) ∧
      bits_read_byte buf 5 = 0xFF ∧
      bit_at buf (5 + 8) = false ∧ bit_at buf (5 + 9) = false ∧
      ∀ k, k < 5 ∨ 5 + 8 ≤ k → bit_at buf k = bit_at [0xF8, 0x00, 0x01] k :=
  ⟨⟨by decide, by decide, by decide⟩,
    bits_write_sync_stream [0xF8, 0x00, 0x01] 5 (by decide) (by decide) (by decide)⟩

/-- What `bits_write_4_and_4` leaves on 16 zero bits: the two bytes
`(value >> 1) | 0xAA` and `value | 0xAA`. -/
theorem bits_write_4_and_4_reads (buffer : List Nat) (idx value : Nat) (hv : value < 256)
    (h : idx / 8 + 1 < buffer.length) (h' : idx % 8 ≠ 0 → idx / 8 + 2 < buffer.length)
    (hz : ∀ k, idx ≤ k → k < idx + 16 → bit_at buffer k = false) :
    ∃ buf, bits_write_4_and_4 buffer idx value = some (buf, idx + 16) ∧
      bits_read_byte buf idx = (value >>> 1) ||| 0xAA ∧
      bits_read_byte buf (idx + 8) = value ||| 0xAA := by
  have h256 : (256 : Nat) = 2 ^ 8 := by decide
  have hv1 : (value >>> 1) ||| 0xAA < 256 := by
    rw [h256]
    refine Nat.or_lt_two_pow ?_ (by decide)
    rw [Nat.shiftRight_eq_div_pow]
    omega
  have hv2 : value ||| 0xAA < 256 := by
    rw [h256]
    exact Nat.or_lt_two_pow (by omega) (by decide)
  obtain ⟨b1, e1, l1, hor1, hsame1⟩ := bits_write_byte_or buffer idx _ hv1 (by omega)
    (fun _ => by omega)
  obtain ⟨b2, e2, l2, hor2, hsame2⟩ := bits_write_byte_or b1 (idx + 8) _ hv2
    (by rw [l1]; omega) (fun h0 => by
      rw [l1]
      have := h' (by omega)
      omega)
  refine ⟨b2, ?_, ?_, ?_⟩
  · have hrun : bits_write_4_and_4 buffer idx value
        = (bits_write_byte buffer idx ((value >>> 1) ||| 0xAA)).bind
            (fun r => bits_write_byte r.1 r.2 (value ||| 0xAA)) := rfl
    rw [hrun, e1, Option.some_bind]
    exact e2
  · refine bits_read_byte_eq b2 idx _ hv1 (fun k hk => ?_)
    rw [hsame2 (idx + k) (Or.inl (by omega)), hor1 (idx + k) (by omega) (by omega),
      hz (idx + k) (by omega) (by omega), Bool.false_or, show idx + k - idx = k by omega]
  · refine bits_read_byte_written b1 b2 (idx + 8) _ hv2 (fun k h1 h2 => ?_) hor2
    rw [hsame1 k (Or.inr h1)]
    exact hz k (by omega) (by omega)

/-- C27. For every value below 256 and every buffer whose 16 bits from `idx`
on are zero (the bytes touched existing), `bits_write_4_and_4` returns
`idx + 16`, and the bytes read at `idx` and `idx + 8` are `(value >> 1) | 0xAA`
and `value | 0xAA`. -/
theorem bits_write_4_and_4_stream (buffer : List Nat) (idx value : Nat) (hv : value < 256)
    (h : idx / 8 + 1 < buffer.length) (h' : idx % 8 ≠ 0 → idx / 8 + 2 < buffer.length)
    (hz : ∀ k, idx ≤ k → k < idx + 16 → bit_at buffer k = false) :
    ∃ buf, bits_write_4_and_4 buffer idx value = some (buf, idx + 16) ∧
      bits_read_byte buf idx = (value >>> 1) ||| 0xAA ∧
      bits_read_byte buf (idx + 8) = value ||| 0xAA :=
  bits_write_4_and_4_reads buffer idx value hv h h' hz

theorem bits_write_4_and_4_stream_witness :
    ((0x11 : Nat) < 256 ∧ 3 / 8 + 1 < [0xE0, 0x00, 0x1F].length ∧
      (3 % 8 ≠ 0 → 3 / 8 + 2 < [0xE0, 0x00, 0x1F].length) ∧
      ∀ k, 3 ≤ k → k < 3 + 16 → bit_at [0xE0, 0x00, 0x1F] k = false) ∧
    ∃ buf, bits_write_4_and_4 [0xE0, 0x00, 0x1F] 3 0x11 = some (buf, 3 + 16) ∧
      bits_read_byte buf 3 = (0x11 >>> 1) ||| 0xAA ∧
      bits_read_byte buf (3 + 8) = 0x11 ||| 0xAA :=
  ⟨⟨by decide, by decide, by decide, by decide⟩,
    bits_write_4_and_4_stream [0xE0, 0x00, 0x1F] 3 0x11 (by decide) (by decide) (by decide)
      (by decide)⟩

/-! ## encode_6_and_2: the XOR chain; gcr_encode_bits_for_track: the destination -/

theorem encode_6_and_2_result_getElem? (src : List Nat) (hb : is_bytes src) (i : Nat)
    (hi : i < 343) :
    (encode_6_and_2_result src)[i]? = six_and_two_mapping[encode_chained src i]? := by
  rw [six_and_two_mapping_lookup _ (encode_chained_lt src hb i), encode_6_and_2_result,
    List.getElem?_map, List.getElem?_range hi]
  rfl

theorem xor_lt_64 (a b : Nat) (ha : a < 64) (hb : b < 64) : a ^^^ b < 64 := by
  have h64 : (64 : Nat) = 2 ^ 6 := by decide
  rw [h64] at ha hb ⊢
  exact Nat.xor_lt_two_pow ha hb

theorem encode_fill_low (src : List Nat) (c : Nat) (hc : c < 84) :
    encode_fill src c = bit_reverse.getD (src.getD c 0 &&& 3) 0
      ||| (bit_reverse.getD (src.getD (c + 86) 0 &&& 3) 0 <<< 2)
      ||| (bit_reverse.getD (src.getD (c + 172) 0 &&& 3) 0 <<< 4) := by
  unfold encode_fill
  rw [if_pos hc]

theorem length_sample_sector : sample_sector.length = 256 := by
  rw [sample_sector, List.length_cons, List.length_replicate]

theorem is_bytes_sample_sector : is_bytes sample_sector := by
  intro b h
  rw [sample_sector, List.mem_cons] at h
  rcases h with h | h
  · rw [h]
    decide
  · rw [List.eq_of_mem_replicate h]
    decide

/-- C28. For every 256-byte payload, output byte 0 of `encode_6_and_2` is the
table translation of its own initial-fill value alone, and output byte 1 is
the table translation of its initial-fill value XOR the initial-fill value of
byte 0: byte 1 is chained, byte 0 is not. The initial-fill value of byte `k`,
for `k` 0 or 1, packs the reversed low bit pairs of payload bytes `k`,
`k + 86` and `k + 172`. -/
theorem encode_6_and_2_first_bytes (dest src : List Nat) (hd : dest.length = 343)
    (hs : src.length = 256) (hb : is_bytes src) :
    ∃ out, encode_6_and_2 dest src = some out ∧
      encode_fill src 0 < 64 ∧ encode_fill src 1 ^^^ encode_fill src 0 < 64 ∧
      out[0]? = six_and_two_mapping[encode_fill src 0]? ∧
      out[1]? = six_and_two_mapping[encode_fill src 1 ^^^ encode_fill src 0]? ∧
      ∀ k, k < 2 → encode_fill src k = bit_reverse.getD (src.getD k 0 &&& 3) 0
        ||| (bit_reverse.getD (src.getD (k + 86) 0 &&& 3) 0 <<< 2)
        ||| (bit_reverse.getD (src.getD (k + 172) 0 &&& 3) 0 <<< 4) := by
  refine ⟨encode_6_and_2_result src, encode_6_and_2_eq dest src hd (by omega) hb,
    encode_fill_lt src hb 0,
    xor_lt_64 _ _ (encode_fill_lt src hb 1) (encode_fill_lt src hb 0), ?_, ?_,
    fun k hk => encode_fill_low src k (by omega)⟩
  · rw [encode_6_and_2_result_getElem? src hb 0 (by decide)]
    rfl
  · rw [encode_6_and_2_result_getElem? src hb 1 (by decide)]
    rfl

theorem encode_6_and_2_first_bytes_witness :
    ((List.replicate 343 0xEE).length = 343 ∧ sample_sector.length = 256 ∧
      is_bytes sample_sector) ∧
    ∃ out, encode_6_and_2 (List.replicate 343 0xEE) sample_sector = some out ∧
      encode_fill sample_sector 0 < 64 ∧
      encode_fill sample_sector 1 ^^^ encode_fill sample_sector 0 < 64 ∧
      out[0]? = six_and_two_mapping[encode_fill sample_sector 0]? ∧
      out[1]? = six_and_two_mapping[encode_fill sample_sector 1
        ^^^ encode_fill sample_sector 0]? ∧
      ∀ k, k < 2 → encode_fill sample_sector k
        = bit_reverse.getD (sample_sector.getD k 0 &&& 3) 0
        ||| (bit_reverse.getD (sample_sector.getD (k + 86) 0 &&& 3) 0 <<< 2)
        ||| (bit_reverse.getD (sample_sector.getD (k + 172) 0 &&& 3) 0 <<< 4) :=
  ⟨⟨List.length_replicate _ _, length_sample_sector, is_bytes_sample_sector⟩,
    encode_6_and_2_first_bytes (List.replicate 343 0xEE) sample_sector
      (List.length_replicate _ _) length_sample_sector is_bytes_sample_sector⟩

set_option maxRecDepth 100000 in
/-- Counterexample for C28 as first worded: for the payload whose byte 0 is 1
and whose other bytes are 0, output byte 1 of `encode_6_and_2` is 0x9A, the
translation of 2, whereas the translation of the initial-fill value of byte 1
alone, which is 0, is 0x96. -/
theorem encode_6_and_2_first_bytes_counterexample :
    ∃ out, encode_6_and_2 (List.replicate 343 0) sample_sector = some out ∧
      out[1]? = some 0x9A ∧
      six_and_two_mapping[bit_reverse.getD (sample_sector.getD 1 0 &&& 3) 0
        ||| (bit_reverse.getD (sample_sector.getD (1 + 86) 0 &&& 3) 0 <<< 2)
        ||| (bit_reverse.getD (sample_sector.getD (1 + 172) 0 &&& 3) 0 <<< 4)]? = some 0x96 := by
  refine ⟨encode_6_and_2_result sample_sector,
    encode_6_and_2_eq _ sample_sector (List.length_replicate _ _)
      (Nat.le_of_eq length_sample_sector.symm) is_bytes_sample_sector, ?_, ?_⟩
  · rw [encode_6_and_2_result_getElem? sample_sector is_bytes_sample_sector 1 (by decide)]
    decide
  · decide

/-- C29. For every 256-byte payload and every `i` from 2 to 341, output byte
`i` of `encode_6_and_2` is the table translation of the initial-fill value of
byte `i` XOR that of byte `i - 1`. The initial fill packs the reversed low bit
pairs of payload bytes `c`, `c + 86` and `c + 172` into byte `c < 84`, those of
bytes 84 and 170 into byte 84, those of bytes 85 and 171 into byte 85, and
puts `payload[c] >> 2` into byte `86 + c`. -/
theorem encode_6_and_2_chained (dest src : List Nat) (hd : dest.length = 343)
    (hs : src.length = 256) (hb : is_bytes src) :
    ∃ out, encode_6_and_2 dest src = some out ∧
      (∀ i, 2 ≤ i → i ≤ 341 → encode_fill src i ^^^ encode_fill src (i - 1) < 64 ∧
        out[i]? = six_and_two_mapping[encode_fill src i ^^^ encode_fill src (i - 1)]?) ∧
      (∀ c, c < 84 → encode_fill src c = bit_reverse.getD (src.getD c 0 &&& 3) 0
        ||| (bit_reverse.getD (src.getD (c + 86) 0 &&& 3) 0 <<< 2)
        ||| (bit_reverse.getD (src.getD (c + 172) 0 &&& 3) 0 <<< 4)) ∧
      encode_fill src 84 = bit_reverse.getD (src.getD 84 0 &&& 3) 0
        ||| (bit_reverse.getD (src.getD 170 0 &&& 3) 0 <<< 2) ∧
      encode_fill src 85 = bit_reverse.getD (src.getD 85 0 &&& 3) 0
        ||| (bit_reverse.getD (src.getD 171 0 &&& 3) 0 <<< 2) ∧
      (∀ c, c < 256 → encode_fill src (86 + c) = src.getD c 0 >>> 2) ∧
      bit_reverse = [0, 2, 1, 3] := by
  refine ⟨encode_6_and_2_result src, encode_6_and_2_eq dest src hd (by omega) hb,
    fun i h2 h341 => ⟨xor_lt_64 _ _ (encode_fill_lt src hb i) (encode_fill_lt src hb (i - 1)),
      ?_⟩, fun c hc => encode_fill_low src c hc, ?_, ?_, fun c hc => ?_, rfl⟩
  · rw [encode_6_and_2_result_getElem? src hb i (by omega)]
    unfold encode_chained
    rw [if_neg (by omega), if_pos (by omega)]
  · unfold encode_fill
    rw [if_neg (by decide), if_pos (by decide), Nat.shiftLeft_zero]
  · unfold encode_fill
    rw [if_neg (by decide), if_pos (by decide), Nat.shiftLeft_zero]
  · unfold encode_fill
    rw [if_neg (by omega), if_neg (by omega), Nat.add_sub_cancel_left]

theorem encode_6_and_2_chained_witness :
    ((List.replicate 343 0xEE).length = 343 ∧ (List.range 256).length = 256 ∧
      is_bytes (List.range 256)) ∧
    ∃ out, encode_6_and_2 (List.replicate 343 0xEE) (List.range 256) = some out ∧
      (∀ i, 2 ≤ i → i ≤ 341 →
        encode_fill (List.range 256) i ^^^ encode_fill (List.range 256) (i - 1) < 64 ∧
        out[i]? = six_and_two_mapping[encode_fill (List.range 256) i
          ^^^ encode_fill (List.range 256) (i - 1)]?) ∧
      (∀ c, c < 84 → encode_fill (List.range 256) c
        = bit_reverse.getD ((List.range 256).getD c 0 &&& 3) 0
        ||| (bit_reverse.getD ((List.range 256).getD (c + 86) 0 &&& 3) 0 <<< 2)
        ||| (bit_reverse.getD ((List.range 256).getD (c + 172) 0 &&& 3) 0 <<< 4)) ∧
      encode_fill (List.range 256) 84 = bit_reverse.getD ((List.range 256).getD 84 0 &&& 3) 0
        ||| (bit_reverse.getD ((List.range 256).getD 170 0 &&& 3) 0 <<< 2) ∧
      encode_fill (List.range 256) 85 = bit_reverse.getD ((List.range 256).getD 85 0 &&& 3) 0
        ||| (bit_reverse.getD ((List.range 256).getD 171 0 &&& 3) 0 <<< 2) ∧
      (∀ c, c < 256 → encode_fill (List.range 256) (86 + c)
        = (List.range 256).getD c 0 >>> 2) ∧
      bit_reverse = [0, 2, 1, 3] :=
  ⟨⟨List.length_replicate _ _, List.length_range _, is_bytes_range_256⟩,
    encode_6_and_2_chained (List.replicate 343 0xEE) (List.range 256)
      (List.length_replicate _ _) (List.length_range _) is_bytes_range_256⟩

theorem gcr_encode_bits_for_track_memset (dest src : List Nat) (t : Nat)
    (sector_format : dsk_sector_format) (hd : dest.length = 6656) :
    gcr_encode_bits_for_track dest src t sector_format
      = gcr_encode_bits_for_track (List.replicate 6656 0) src t sector_format := by
  have hrun : ∀ d, gcr_encode_bits_for_track d src t sector_format
      = (memset d 0 GCR_ENCODED_TRACK_SIZE).bind (fun dest =>
          (for_loop TRACK_LEADER_SYNC_COUNT (fun r _ => bits_write_sync r.1 r.2) (dest, 0)).bind
            (fun r => for_loop SECTORS_PER_TRACK (fun r s => do
              let r ← gcr_sector_header r.1 r.2 t s
              gcr_sector_body r.1 r.2 src sector_format s) r)) := fun _ => rfl
  rw [hrun dest, hrun (List.replicate 6656 0), memset_track dest hd,
    memset_track _ (List.length_replicate _ _)]

/-- C30. `gcr_encode_bits_for_track` does not depend on what the destination
held before: for two 6656-byte destinations with any contents, runs with the
same 4096-byte payload, track number and format both succeed, leave the same
6656 bytes and return the same bit count. The local array handed to
`encode_6_and_2` does not matter either: the encoding of a sector is the same
whatever the 343 bytes of the array held before. -/
theorem gcr_encode_bits_for_track_deterministic (dest₁ dest₂ src : List Nat) (t : Nat)
    (sector_format : dsk_sector_format) (h₁ : dest₁.length = 6656)
    (h₂ : dest₂.length = 6656) (hs : src.length = 4096) (hb : is_bytes src) :
    (∃ buf bits, gcr_encode_bits_for_track dest₁ src t sector_format = some (buf, bits) ∧
      gcr_encode_bits_for_track dest₂ src t sector_format = some (buf, bits) ∧
      buf.length = 6656) ∧
    ∀ e₁ e₂ s, e₁.length = 343 → e₂.length = 343 → s < 16 →
      encode_6_and_2 e₁ (src.drop (s * BYTES_PER_SECTOR))
        = encode_6_and_2 e₂ (src.drop (s * BYTES_PER_SECTOR)) := by
  have heq : gcr_encode_bits_for_track dest₁ src t sector_format
      = gcr_encode_bits_for_track dest₂ src t sector_format := by
    rw [gcr_encode_bits_for_track_memset dest₁ src t sector_format h₁,
      gcr_encode_bits_for_track_memset dest₂ src t sector_format h₂]
  refine ⟨?_, fun e₁ e₂ s he₁ he₂ hs16 => ?_⟩
  · obtain ⟨buf, e, hcl, _⟩ := gcr_encode_bits_for_track_bits dest₁ src t sector_format
      (fun _ => content_none) h₁ hs hb (fun s _ => writes_gcr_sector_header_any t s)
    exact ⟨buf, 50632, e, by rw [← heq]; exact e, hcl.1⟩
  · have hl : 256 ≤ (src.drop (s * BYTES_PER_SECTOR)).length := by
      have hB : BYTES_PER_SECTOR = 256 := rfl
      rw [List.length_drop, hs, hB]
      omega
    rw [encode_6_and_2_eq e₁ _ he₁ hl (is_bytes_drop _ _ hb),
      encode_6_and_2_eq e₂ _ he₂ hl (is_bytes_drop _ _ hb)]

theorem gcr_encode_bits_for_track_deterministic_witness :
    ((List.replicate 6656 0xFF).length = 6656 ∧ (List.replicate 6656 0x5A).length = 6656 ∧
      sample_track.length = 4096 ∧ is_bytes sample_track) ∧
    ((∃ buf bits, gcr_encode_bits_for_track (List.replicate 6656 0xFF) sample_track 17
        dsk_sector_format.dos_3_3 = some (buf, bits) ∧
      gcr_encode_bits_for_track (List.replicate 6656 0x5A) sample_track 17
        dsk_sector_format.dos_3_3 = some (buf, bits) ∧
      buf.length = 6656) ∧
    ∀ e₁ e₂ s, e₁.length = 343 → e₂.length = 343 → s < 16 →
      encode_6_and_2 e₁ (sample_track.drop (s * BYTES_PER_SECTOR))
        = encode_6_and_2 e₂ (sample_track.drop (s * BYTES_PER_SECTOR))) :=
  ⟨⟨List.length_replicate _ _, List.length_replicate _ _, length_sample_track,
      is_bytes_sample_track⟩,
    gcr_encode_bits_for_track_deterministic (List.replicate 6656 0xFF) (List.replicate 6656 0x5A)
      sample_track 17 dsk_sector_format.dos_3_3 (List.length_replicate _ _)
      (List.length_replicate _ _) length_sample_track is_bytes_sample_track⟩

/-! ## Further properties of the track encoder, the chunks and the container -/

/-- C32. For every 4096-byte payload, every track number and every sector
format, `gcr_encode_bits_for_track` returns exactly 50632 bits, that is
64 sync words of 10 bits, 15 sectors of 3134 bits and a last sector of 2982
bits, or 6329 whole bytes. -/
theorem gcr_encode_bits_for_track_count (dest src : List Nat) (track_number : Nat)
    (sector_format : dsk_sector_format) (hd : dest.length = 6656)
    (hs : src.length = 4096) (hb : is_bytes src) :
    ∃ buf, gcr_encode_bits_for_track dest src track_number sector_format = some (buf, 50632) ∧
      50632 = 64 * 10 + 15 * 3134 + 2982 ∧ 50632 = 6329 * 8 ∧
      3134 = 182 + 2792 + 160 ∧ 2982 = 182 + 2792 + 8 := by
  obtain ⟨buf, e, _, _⟩ := gcr_encode_bits_for_track_bits dest src track_number sector_format
    (fun _ => content_none) hd hs hb (fun s _ => writes_gcr_sector_header_any track_number s)
  exact ⟨buf, e, by decide, by decide, by decide, by decide⟩

theorem gcr_encode_bits_for_track_count_witness :
    ((List.replicate 6656 0x11).length = 6656 ∧ sample_track.length = 4096 ∧
      is_bytes sample_track) ∧
    ∃ buf, gcr_encode_bits_for_track (List.replicate 6656 0x11) sample_track 34
        dsk_sector_format.prodos = some (buf, 50632) ∧
      50632 = 64 * 10 + 15 * 3134 + 2982 ∧ 50632 = 6329 * 8 ∧
      3134 = 182 + 2792 + 160 ∧ 2982 = 182 + 2792 + 8 :=
  ⟨⟨List.length_replicate _ _, length_sample_track, is_bytes_sample_track⟩,
    gcr_encode_bits_for_track_count (List.replicate 6656 0x11) sample_track 34
      dsk_sector_format.prodos (List.length_replicate _ _) length_sample_track
      is_bytes_sample_track⟩

/-- C33. For each of the two sector formats the physical-to-logical mapping of
`gcr_encode_bits_for_track` is a bijection on the sectors 0 to 15: it stays
below 16, sends 15 to 15, takes no value twice and takes every value. -/
theorem logical_sector_bijective (sector_format : dsk_sector_format) :
    (∀ s, s < 16 → logical_sector sector_format s < 16) ∧
    logical_sector sector_format 15 = 15 ∧
    (∀ s, s < 16 → ∀ s', s' < 16 →
      logical_sector sector_format s = logical_sector sector_format s' → s = s') ∧
    (∀ l, l < 16 → ∃ s, s < 16 ∧ logical_sector sector_format s = l) := by
  cases sector_format <;> decide

set_option maxRecDepth 100000 in
theorem decode_4_and_4 : ∀ v, v < 256 →
    ((((v >>> 1) ||| 0xAA) <<< 1) ||| 1) &&& (v ||| 0xAA) = v := by
  decide

/-- C36. The two bytes that `bits_write_4_and_4` writes for a value below 256
on 16 zero bits decode to the value: with `a` the byte read at `idx` and `b`
the byte read at `idx + 8`, `((a << 1) | 1) & b` is the value. -/
theorem bits_write_4_and_4_decodes (buffer : List Nat) (idx value : Nat) (hv : value < 256)
    (h : idx / 8 + 1 < buffer.length) (h' : idx % 8 ≠ 0 → idx / 8 + 2 < buffer.length)
    (hz : ∀ k, idx ≤ k → k < idx + 16 → bit_at buffer k = false) :
    ∃ buf a b, bits_write_4_and_4 buffer idx value = some (buf, idx + 16) ∧
      bits_read_byte buf idx = a ∧ bits_read_byte buf (idx + 8) = b ∧
      a = (value >>> 1) ||| 0xAA ∧ b = value ||| 0xAA ∧
      ((a <<< 1) ||| 1) &&& b = value := by
  obtain ⟨buf, e, ha, hb⟩ := bits_write_4_and_4_reads buffer idx value hv h h' hz
  refine ⟨buf, _, _, e, ha, hb, rfl, rfl, ?_⟩
  exact decode_4_and_4 value hv

theorem bits_write_4_and_4_decodes_witness :
    ((0xC7 : Nat) < 256 ∧ 3 / 8 + 1 < [0xE0, 0x00, 0x1F].length ∧
      (3 % 8 ≠ 0 → 3 / 8 + 2 < [0xE0, 0x00, 0x1F].length) ∧
      ∀ k, 3 ≤ k → k < 3 + 16 → bit_at [0xE0, 0x00, 0x1F] k = false) ∧
    ∃ buf a b, bits_write_4_and_4 [0xE0, 0x00, 0x1F] 3 0xC7 = some (buf, 3 + 16) ∧
      bits_read_byte buf 3 = a ∧ bits_read_byte buf (3 + 8) = b ∧
      a = (0xC7 >>> 1) ||| 0xAA ∧ b = 0xC7 ||| 0xAA ∧
      ((a <<< 1) ||| 1) &&& b = 0xC7 :=
  ⟨⟨by decide, by decide, by decide, by decide⟩,
    bits_write_4_and_4_decodes [0xE0, 0x00, 0x1F] 3 0xC7 (by decide) (by decide) (by decide)
      (by decide)⟩

/-- C37. In every chunk reached from `create_woz_chunk` by calls of the write
operations and of mark moves that do not lower the mark, the buffer has
`buffer_size` bytes and every data byte from the mark up to `buffer_size` is
zero, whatever the sizes. So after a forward `chunk_set_mark` that returns,
every byte of the skipped gap that lies in the buffer is zero; and when the
chunk has `mark ≤ buffer_size` and the sizes do not wrap, the forward
`chunk_set_mark` does return, and the payload, and the serialized chunk, hold
the old payload followed by zeros up to the new mark. -/
theorem append_reachable_zero_tail (chunk : woz_chunk) (h : append_reachable chunk) :
    chunk.data.length = chunk.buffer_size ∧
    (∀ i, chunk.mark ≤ i → i < chunk.buffer_size → chunk.data[i]? = some 0) ∧
    (∀ pos c, chunk.mark ≤ pos → chunk_set_mark chunk pos = some c →
      ∀ i, chunk.mark ≤ i → i < pos → i < c.buffer_size → c.data[i]? = some 0) ∧
    ∀ pos, chunk.mark ≤ pos → chunk.mark ≤ chunk.buffer_size →
      2 * chunk.buffer_size + (pos - chunk.mark) < 2 ^ 64 →
      ∃ c, chunk_set_mark chunk pos = some c ∧ c.mark = pos ∧ pos ≤ c.buffer_size ∧
        c.data.take c.mark = chunk.data.take chunk.mark
          ++ List.replicate (pos - chunk.mark) 0 ∧
        chunk_layout c = chunk.name ++ le32 pos
          ++ (chunk.data.take chunk.mark ++ List.replicate (pos - chunk.mark) 0) := by
  obtain ⟨hname, hlen, hz⟩ := append_reachable_inv chunk h
  refine ⟨hlen, fun i h1 h2 => ?_, fun pos c hpos e i h1 h2 h3 => ?_,
    fun pos hpos hmark hsz => ?_⟩
  · rw [getElem?_getD chunk.data i (by omega), hz i h1]
  · obtain ⟨_, _, hl', _, hd⟩ := chunk_set_mark_of_some chunk c pos hlen e
    rw [getElem?_getD c.data i (by omega), hd i, hz i h1]
  · have hv : chunk.valid := ⟨hname, hlen, hmark⟩
    obtain ⟨c, e, hc⟩ := chunk_set_mark_holds chunk chunk.name (chunk.data.take chunk.mark) pos
      ⟨hv, hz, rfl, rfl⟩ hpos hsz
    obtain ⟨hl, hm⟩ := chunk_layout_holds c _ _ hc
    have hpl : (chunk.data.take chunk.mark).length = chunk.mark := by
      rw [List.length_take]
      omega
    have hlen' : (chunk.data.take chunk.mark
        ++ List.replicate (pos - chunk.mark) 0).length = pos := by
      rw [List.length_append, List.length_replicate, hpl]
      omega
    rw [hlen'] at hl hm
    refine ⟨c, e, hm, ?_, hc.2.2.2, hl⟩
    have := hc.1.2.2
    omega

theorem append_reachable_zero_tail_witness :
    append_reachable written_trks ∧
    (written_trks.data.length = written_trks.buffer_size ∧
    (∀ i, written_trks.mark ≤ i → i < written_trks.buffer_size →
      written_trks.data[i]? = some 0) ∧
    (∀ pos c, written_trks.mark ≤ pos → chunk_set_mark written_trks pos = some c →
      ∀ i, written_trks.mark ≤ i → i < pos → i < c.buffer_size → c.data[i]? = some 0) ∧
    ∀ pos, written_trks.mark ≤ pos → written_trks.mark ≤ written_trks.buffer_size →
      2 * written_trks.buffer_size + (pos - written_trks.mark) < 2 ^ 64 →
      ∃ c, chunk_set_mark written_trks pos = some c ∧ c.mark = pos ∧ pos ≤ c.buffer_size ∧
        c.data.take c.mark = written_trks.data.take written_trks.mark
          ++ List.replicate (pos - written_trks.mark) 0 ∧
        chunk_layout c = written_trks.name ++ le32 pos
          ++ (written_trks.data.take written_trks.mark
            ++ List.replicate (pos - written_trks.mark) 0)) :=
  ⟨written_trks_reachable, append_reachable_zero_tail written_trks written_trks_reachable⟩

/-- C38. The TMAP and WRIT chunks that `main` builds agree: for every track
`i` from 0 to 45 the subtrack index in the first byte of WRIT record `i` is
below 160, and the TMAP entry at that index is `i`. -/
theorem main_build_woz_tmap_writ (tracks : List track_data) (ht : main_track_list tracks) :
    ∃ woz tmap writ, main_build_woz tracks = some woz ∧ woz.tmap = some tmap ∧
      woz.writ = some writ ∧
      ∀ i, i < 46 → ∃ subtrack, (writ.payload.drop (20 * i)).take 1 = [subtrack] ∧
        subtrack < 160 ∧ tmap.payload[subtrack]? = some i := by
  obtain ⟨info, tmap, trks, writ, e, _, h2, _, h4⟩ := main_build_woz_eq tracks ht
  have hp2 : tmap.payload = tmap_payload := h2.2.2.2
  have hp4 : writ.payload = writ_payload tracks := h4.2.2.2
  refine ⟨_, tmap, writ, e, rfl, rfl, fun i hi => ⟨writ_subtrack i, ?_, ?_, ?_⟩⟩
  · have h := sub_slice _ _ _ _ 0 1 (writ_payload_record tracks i hi) (by decide)
    rw [Nat.add_zero] at h
    rw [hp4, h]
    rfl
  · unfold writ_subtrack
    split <;> omega
  · rw [hp2]
    by_cases h0 : i = 0
    · subst h0
      rw [tmap_payload, List.getElem?_append_left (by decide)]
      rfl
    · have hs : writ_subtrack i = 3 * i + 1 := by
        unfold writ_subtrack
        rw [if_neg h0]
      have hd : (3 * i + 1) / 3 = i := by omega
      rw [hs, tmap_payload_getElem? (3 * i + 1) (by omega) (by omega), tmap_entry, hd,
        if_pos hi]

theorem main_build_woz_tmap_writ_witness :
    (main_tracks sample_track dark_image = some dark_disk_tracks ∧
      main_track_list dark_disk_tracks) ∧
    ∃ woz tmap writ, main_build_woz dark_disk_tracks = some woz ∧ woz.tmap = some tmap ∧
      woz.writ = some writ ∧
      ∀ i, i < 46 → ∃ subtrack, (writ.payload.drop (20 * i)).take 1 = [subtrack] ∧
        subtrack < 160 ∧ tmap.payload[subtrack]? = some i :=
  ⟨dark_disk_tracks_ok, main_build_woz_tmap_writ dark_disk_tracks dark_disk_tracks_ok.2⟩

/-- C39. When the creation of the TRKS chunk fails while the other allocations
succeed, `create_empty_woz_file` does not return `NULL`: it returns a container
whose TRKS chunk is `NULL`. A failure of the INFO, TMAP or WRIT chunk does give
`NULL`. -/
theorem create_empty_woz_file_trks (trks_ok : Bool × Bool)
    (h : (trks_ok.1 && trks_ok.2) = false) :
    (∃ woz, create_empty_woz_file true (true, true) (true, true) trks_ok (true, true)
        = some woz ∧ woz.trks = none ∧ woz.info.isSome = true ∧ woz.tmap.isSome = true ∧
        woz.writ.isSome = true) ∧
    ∀ woz_ok info_ok tmap_ok trks_ok' writ_ok woz,
      create_empty_woz_file woz_ok info_ok tmap_ok trks_ok' writ_ok = some woz →
      woz.info.isSome = true ∧ woz.tmap.isSome = true ∧ woz.writ.isSome = true := by
  refine ⟨?_, fun woz_ok info_ok tmap_ok trks_ok' writ_ok woz hw => ?_⟩
  · have hn : create_woz_chunk [0x54, 0x52, 0x4B, 0x53, 0] trks_ok.1 trks_ok.2 = none := by
      unfold create_woz_chunk
      rcases trks_ok with ⟨a, b⟩
      cases a <;> cases b <;> simp at h ⊢
    refine ⟨_, rfl, hn, rfl, rfl, rfl⟩
  · unfold create_empty_woz_file at hw
    cases woz_ok
    · simp at hw
    · simp only [if_true] at hw
      split at hw
      · exact absurd hw (by simp)
      · next hc =>
        have hw' := Option.some.inj hw
        subst hw'
        simp only [Bool.or_eq_true, not_or, Bool.not_eq_true, Option.isNone_eq_false_iff]
          at hc
        simp only [Option.isSome_iff_ne_none, ne_eq]
        simp only [Option.isSome_iff_ne_none, ne_eq] at hc
        exact ⟨hc.1.1, hc.1.2, hc.2⟩

theorem create_empty_woz_file_trks_witness :
    ((false, true).1 && (false, true).2) = false ∧
    ((∃ woz, create_empty_woz_file true (true, true) (true, true) (false, true) (true, true)
        = some woz ∧ woz.trks = none ∧ woz.info.isSome = true ∧ woz.tmap.isSome = true ∧
        woz.writ.isSome = true) ∧
    ∀ woz_ok info_ok tmap_ok trks_ok' writ_ok woz,
      create_empty_woz_file woz_ok info_ok tmap_ok trks_ok' writ_ok = some woz →
      woz.info.isSome = true ∧ woz.tmap.isSome = true ∧ woz.writ.isSome = true) :=
  ⟨rfl, create_empty_woz_file_trks (false, true) rfl⟩

/-! ## Every access of the track encoder is in range -/

theorem bits_write_byte_out_of_range (buffer : List Nat) (index value : Nat)
    (h : ¬ (index / 8 < buffer.length ∧ (index % 8 ≠ 0 → index / 8 + 1 < buffer.length))) :
    bits_write_byte buffer index value = none := by
  have h3 : index >>> 3 = index / 8 := Nat.shiftRight_eq_div_pow index 3
  have h7 : index &&& 7 = index % 8 := Nat.and_pow_two_sub_one_eq_mod index 3
  unfold bits_write_byte
  simp only [h3, h7]
  by_cases h1 : index / 8 < buffer.length
  · have h2 : index % 8 ≠ 0 ∧ ¬ index / 8 + 1 < buffer.length := by
      by_cases h0 : index % 8 = 0
      · exact absurd ⟨h1, fun hne => absurd h0 hne⟩ h
      · exact ⟨h0, fun hlt => h ⟨h1, fun _ => hlt⟩⟩
    have hn : (buffer.set (index / 8)
        ((buffer.getD (index / 8) 0 ||| value >>> (index % 8)) % 256))[index / 8 + 1]? = none :=
      List.getElem?_eq_none (by rw [List.length_set]; omega)
    simp only [getElem?_getD buffer _ h1, Option.bind_eq_bind, Option.some_bind,
      store_eq_some buffer _ _ h1, if_pos h2.1, hn, Option.none_bind]
  · rw [List.getElem?_eq_none (by omega)]
    rfl

theorem encode_high_bits_step_out_of_range (src dest : List Nat) (c : Nat)
    (h : src.length ≤ c) : encode_high_bits_step src dest c = none := by
  unfold encode_high_bits_step
  rw [List.getElem?_eq_none h]
  rfl

theorem encode_map_step_out_of_range (dest : List Nat) (c d : Nat) (h : dest[c]? = some d)
    (hd : 64 ≤ d) : encode_map_step dest c = none := by
  unfold encode_map_step
  have hn : six_and_two_mapping[d]? = none :=
    List.getElem?_eq_none (by simpa [six_and_two_mapping] using hd)
  simp only [h, Option.bind_eq_bind, Option.some_bind, hn, Option.none_bind]

/-- C31. With a destination of 6656 bytes and a source of 4096 bytes,
`gcr_encode_bits_for_track` returns for every track number and format: no
access leaves its array. The checks are real: `bits_write_byte` fails when
the byte at `index / 8`, or the spill-over byte after it, is outside the
buffer, a read of the source at or after its length fails, and a table
lookup at 64 or more fails; every sector read stays below 4096 and every
table index is below 64. -/
theorem gcr_encode_bits_for_track_in_range (dest src : List Nat) (track_number : Nat)
    (sector_format : dsk_sector_format) (hd : dest.length = 6656)
    (hs : src.length = 4096) (hb : is_bytes src) :
    (∃ buf bits, gcr_encode_bits_for_track dest src track_number sector_format
        = some (buf, bits) ∧ buf.length = 6656 ∧ bits ≤ 8 * buf.length) ∧
    (∀ buffer index value,
      ¬ (index / 8 < buffer.length ∧ (index % 8 ≠ 0 → index / 8 + 1 < buffer.length)) →
      bits_write_byte buffer index value = none) ∧
    (∀ src' dest' c, src'.length ≤ c → encode_high_bits_step src' dest' c = none) ∧
    (∀ dest' c d, dest'[c]? = some d → 64 ≤ d → encode_map_step dest' c = none) ∧
    (∀ s, s < 16 → logical_sector sector_format s * BYTES_PER_SECTOR + 256 ≤ src.length) ∧
    (∀ s, s < 16 → ∀ i, i < 343 →
      encode_chained (src.drop (logical_sector sector_format s * BYTES_PER_SECTOR)) i < 64) := by
  obtain ⟨buf, e, hc, _⟩ := gcr_encode_bits_for_track_bits dest src track_number sector_format
    (fun _ => content_none) hd hs hb (fun s _ => writes_gcr_sector_header_any track_number s)
  refine ⟨⟨buf, 50632, e, hc.1, ?_⟩, bits_write_byte_out_of_range,
    fun src' dest' c h => encode_high_bits_step_out_of_range src' dest' c h,
    fun dest' c d h h64 => encode_map_step_out_of_range dest' c d h h64,
    fun s _ => ?_, fun s _ i _ => encode_chained_lt _ (is_bytes_drop _ _ hb) i⟩
  · rw [hc.1]
    decide
  · have hl := logical_sector_le sector_format s
    have hB : BYTES_PER_SECTOR = 256 := rfl
    rw [hs, hB]
    omega

theorem gcr_encode_bits_for_track_in_range_witness :
    ((List.replicate 6656 0x11).length = 6656 ∧ sample_track.length = 4096 ∧
      is_bytes sample_track) ∧
    ((∃ buf bits, gcr_encode_bits_for_track (List.replicate 6656 0x11) sample_track 34
        dsk_sector_format.dos_3_3 = some (buf, bits) ∧ buf.length = 6656 ∧
        bits ≤ 8 * buf.length) ∧
    (∀ buffer index value,
      ¬ (index / 8 < buffer.length ∧ (index % 8 ≠ 0 → index / 8 + 1 < buffer.length)) →
      bits_write_byte buffer index value = none) ∧
    (∀ src' dest' c, src'.length ≤ c → encode_high_bits_step src' dest' c = none) ∧
    (∀ dest' c d, dest'[c]? = some d → 64 ≤ d → encode_map_step dest' c = none) ∧
    (∀ s, s < 16 →
      logical_sector dsk_sector_format.dos_3_3 s * BYTES_PER_SECTOR + 256
        ≤ sample_track.length) ∧
    (∀ s, s < 16 → ∀ i, i < 343 →
      encode_chained
        (sample_track.drop (logical_sector dsk_sector_format.dos_3_3 s * BYTES_PER_SECTOR))
        i < 64)) :=
  ⟨⟨List.length_replicate _ _, length_sample_track, is_bytes_sample_track⟩,
    gcr_encode_bits_for_track_in_range (List.replicate 6656 0x11) sample_track 34
      dsk_sector_format.dos_3_3 (List.length_replicate _ _) length_sample_track
      is_bytes_sample_track⟩

/-! ## The six-bit values behind an encoded sector -/

set_option maxRecDepth 100000 in
theorem six_and_two_mapping_nodup : six_and_two_mapping.Nodup := by
  decide

theorem six_and_two_mapping_inj (a b : Nat) (ha : a < 64) (hb : b < 64)
    (h : six_and_two_mapping[a]? = six_and_two_mapping[b]?) : a = b := by
  have hl : six_and_two_mapping.length = 64 := rfl
  have ha' : a < six_and_two_mapping.length := by rw [hl]; exact ha
  have hb' : b < six_and_two_mapping.length := by rw [hl]; exact hb
  rw [List.getElem?_eq_getElem ha', List.getElem?_eq_getElem hb'] at h
  exact (List.Nodup.getElem_inj_iff six_and_two_mapping_nodup).1 (Option.some.inj h)

theorem encode_chained_succ (src : List Nat) (n : Nat) (hn : n + 1 < 342) :
    encode_chained src (n + 1) = encode_fill src (n + 1) ^^^ encode_fill src n := by
  unfold encode_chained
  rw [if_neg (Nat.succ_ne_zero n), if_pos hn, Nat.add_sub_cancel]

theorem encode_chained_xor (src : List Nat) (n : Nat) (hn : n ≤ 341) :
    (List.range (n + 1)).foldl (fun acc i => acc ^^^ encode_chained src i) 0
      = encode_fill src n := by
  induction n with
  | zero =>
    simp only [List.range_succ, List.range_zero, List.nil_append, List.foldl_cons,
      List.foldl_nil, Nat.zero_xor, Nat.zero_add]
    rfl
  | succ n ih =>
    rw [List.range_succ, List.foldl_append, ih (by omega)]
    simp only [List.foldl_cons, List.foldl_nil]
    rw [encode_chained_succ src n (by omega), Nat.xor_comm (encode_fill src (n + 1)),
      ← Nat.xor_assoc, Nat.xor_self, Nat.zero_xor]

theorem encode_chained_last (src : List Nat) :
    encode_chained src 342 = src.getD 255 0 >>> 2 := rfl

theorem encode_fill_last (src : List Nat) :
    encode_fill src 341 = src.getD 255 0 >>> 2 := rfl

theorem encode_chained_values_getD (src : List Nat) (i : Nat) (hi : i < 343) :
    ((List.range 343).map (encode_chained src)).getD i 0 = encode_chained src i := by
  rw [List.getD_eq_getElem?_getD, List.getElem?_map, List.getElem?_range hi]
  rfl

theorem encode_chained_values_xor (src : List Nat) :
    ((List.range 343).map (encode_chained src))[342]? = some (src.getD 255 0 >>> 2) ∧
    ((((List.range 343).map (encode_chained src)).take 342).foldl
      (fun acc v => acc ^^^ v) 0 = src.getD 255 0 >>> 2) ∧
    ((List.range 343).map (encode_chained src)).foldl (fun acc v => acc ^^^ v) 0 = 0 := by
  have hr : List.range 343 = List.range 342 ++ [342] := List.range_succ 342
  have h342 : (List.range 342).foldl (fun acc i => acc ^^^ encode_chained src i) 0
      = encode_fill src 341 := encode_chained_xor src 341 (Nat.le_refl _)
  have hl : ((List.range 342).map (encode_chained src)).length = 342 := by
    rw [List.length_map, List.length_range]
  have hm : ((List.range 342).map (encode_chained src)).foldl (fun acc v => acc ^^^ v) 0
      = encode_fill src 341 := by
    rw [List.foldl_map]
    exact h342
  refine ⟨?_, ?_, ?_⟩
  · rw [List.getElem?_map, List.getElem?_range (by decide)]
    rfl
  · rw [hr, List.map_append, List.take_left' hl, hm]
    rfl
  · rw [hr, List.map_append, List.foldl_append, hm]
    simp only [List.map_cons, List.map_nil, List.foldl_cons, List.foldl_nil]
    rw [encode_chained_last, encode_fill_last, Nat.xor_self]

/-- C35. The six-bit values behind the 343 bytes that `encode_6_and_2`
produces for a 256-byte payload, that is the table indices below 64 that the
bytes are the entries of, exist and are unique; the last one is
`src[255] >> 2`, which is the XOR of the 342 values before it, so the XOR of
all 343 values is 0. -/
theorem encode_6_and_2_checksum (dest src : List Nat) (hd : dest.length = 343)
    (hs : src.length = 256) (hb : is_bytes src) :
    ∃ out pre, encode_6_and_2 dest src = some out ∧ out.length = 343 ∧ pre.length = 343 ∧
      (∀ i, i < 343 → pre.getD i 0 < 64 ∧ out[i]? = six_and_two_mapping[pre.getD i 0]?) ∧
      (∀ pre' : List Nat, pre'.length = 343 →
        (∀ i, i < 343 →
          pre'.getD i 0 < 64 ∧ out[i]? = six_and_two_mapping[pre'.getD i 0]?) →
        pre' = pre) ∧
      pre[342]? = some (src.getD 255 0 >>> 2) ∧
      (pre.take 342).foldl (fun acc v => acc ^^^ v) 0 = src.getD 255 0 >>> 2 ∧
      pre.foldl (fun acc v => acc ^^^ v) 0 = 0 := by
  have hpl : ((List.range 343).map (encode_chained src)).length = 343 := by
    rw [List.length_map, List.length_range]
  obtain ⟨h1, h2, h3⟩ := encode_chained_values_xor src
  refine ⟨encode_6_and_2_result src, (List.range 343).map (encode_chained src),
    encode_6_and_2_eq dest src hd (by omega) hb, length_encode_6_and_2_result src, hpl,
    fun i hi => ?_, fun pre' hl' hp' => ?_, h1, h2, h3⟩
  · rw [encode_chained_values_getD src i hi]
    exact ⟨encode_chained_lt src hb i, encode_6_and_2_result_getElem? src hb i hi⟩
  · apply List.ext_getElem?
    intro i
    by_cases hi : i < 343
    · obtain ⟨hlt, he⟩ := hp' i hi
      rw [encode_6_and_2_result_getElem? src hb i hi] at he
      have hv := six_and_two_mapping_inj _ _ hlt (encode_chained_lt src hb i) he.symm
      rw [getElem?_getD pre' i (by omega), hv, List.getElem?_map, List.getElem?_range hi]
      rfl
    · rw [List.getElem?_eq_none (by omega), List.getElem?_eq_none (by omega)]

theorem encode_6_and_2_checksum_witness :
    ((List.replicate 343 0x33).length = 343 ∧ sample_sector.length = 256 ∧
      is_bytes sample_sector) ∧
    ∃ out pre, encode_6_and_2 (List.replicate 343 0x33) sample_sector = some out ∧
      out.length = 343 ∧ pre.length = 343 ∧
      (∀ i, i < 343 → pre.getD i 0 < 64 ∧ out[i]? = six_and_two_mapping[pre.getD i 0]?) ∧
      (∀ pre' : List Nat, pre'.length = 343 →
        (∀ i, i < 343 →
          pre'.getD i 0 < 64 ∧ out[i]? = six_and_two_mapping[pre'.getD i 0]?) →
        pre' = pre) ∧
      pre[342]? = some (sample_sector.getD 255 0 >>> 2) ∧
      (pre.take 342).foldl (fun acc v => acc ^^^ v) 0 = sample_sector.getD 255 0 >>> 2 ∧
      pre.foldl (fun acc v => acc ^^^ v) 0 = 0 :=
  ⟨⟨List.length_replicate _ _, length_sample_sector, is_bytes_sample_sector⟩,
    encode_6_and_2_checksum (List.replicate 343 0x33) sample_sector (List.length_replicate _ _)
      length_sample_sector is_bytes_sample_sector⟩

/-! ## The sector encoding loses nothing -/

theorem unpack_three : ∀ a, a < 4 → ∀ b, b < 4 → ∀ c, c < 4 →
    (a ||| (b <<< 2) ||| (c <<< 4)) &&& 3 = a ∧
    ((a ||| (b <<< 2) ||| (c <<< 4)) >>> 2) &&& 3 = b ∧
    (a ||| (b <<< 2) ||| (c <<< 4)) >>> 4 = c := by
  decide

theorem unpack_two : ∀ a, a < 4 → ∀ b, b < 4 →
    ((a <<< 0) ||| (b <<< 2)) &&& 3 = a ∧ ((a <<< 0) ||| (b <<< 2)) >>> 2 = b := by
  decide

theorem bit_reverse_inj : ∀ a, a < 4 → ∀ b, b < 4 →
    bit_reverse.getD a 0 = bit_reverse.getD b 0 → a = b := by
  decide

theorem and_3_lt (x : Nat) : x &&& 3 < 4 :=
  Nat.lt_of_le_of_lt Nat.and_le_right (by decide)

theorem low_bits_eq (x y : Nat)
    (h : bit_reverse.getD (x &&& 3) 0 = bit_reverse.getD (y &&& 3) 0) : x &&& 3 = y &&& 3 :=
  bit_reverse_inj _ (and_3_lt x) _ (and_3_lt y) h

theorem byte_eq_of_parts (x y : Nat) (h2 : x >>> 2 = y >>> 2) (h3 : x &&& 3 = y &&& 3) :
    x = y := by
  have e3 : ∀ z : Nat, z &&& 3 = z % 4 := fun z => Nat.and_pow_two_sub_one_eq_mod z 2
  have e2 : ∀ z : Nat, z >>> 2 = z / 4 := fun z => Nat.shiftRight_eq_div_pow z 2
  rw [e3, e3] at h3
  rw [e2, e2] at h2
  omega

theorem encode_fill_three (src src' : List Nat) (j : Nat) (hj : j < 84)
    (h : encode_fill src j = encode_fill src' j) :
    src.getD j 0 &&& 3 = src'.getD j 0 &&& 3 ∧
    src.getD (j + 86) 0 &&& 3 = src'.getD (j + 86) 0 &&& 3 ∧
    src.getD (j + 172) 0 &&& 3 = src'.getD (j + 172) 0 &&& 3 := by
  rw [encode_fill_low src j hj, encode_fill_low src' j hj] at h
  obtain ⟨a1, a2, a3⟩ := unpack_three _ (bit_reverse_lt (src.getD j 0))
    _ (bit_reverse_lt (src.getD (j + 86) 0)) _ (bit_reverse_lt (src.getD (j + 172) 0))
  obtain ⟨b1, b2, b3⟩ := unpack_three _ (bit_reverse_lt (src'.getD j 0))
    _ (bit_reverse_lt (src'.getD (j + 86) 0)) _ (bit_reverse_lt (src'.getD (j + 172) 0))
  rw [h] at a1 a2 a3
  exact ⟨low_bits_eq _ _ (a1.symm.trans b1), low_bits_eq _ _ (a2.symm.trans b2),
    low_bits_eq _ _ (a3.symm.trans b3)⟩

theorem encode_fill_two (src src' : List Nat) (j : Nat) (h1 : 84 ≤ j) (h2 : j < 86)
    (h : encode_fill src j = encode_fill src' j) :
    src.getD j 0 &&& 3 = src'.getD j 0 &&& 3 ∧
    src.getD (j + 86) 0 &&& 3 = src'.getD (j + 86) 0 &&& 3 := by
  unfold encode_fill at h
  rw [if_neg (by omega), if_pos h2, if_neg (by omega), if_pos h2] at h
  obtain ⟨a1, a2⟩ := unpack_two _ (bit_reverse_lt (src.getD j 0))
    _ (bit_reverse_lt (src.getD (j + 86) 0))
  obtain ⟨b1, b2⟩ := unpack_two _ (bit_reverse_lt (src'.getD j 0))
    _ (bit_reverse_lt (src'.getD (j + 86) 0))
  rw [h] at a1 a2
  exact ⟨low_bits_eq _ _ (a1.symm.trans b1), low_bits_eq _ _ (a2.symm.trans b2)⟩

theorem encode_fill_high (src : List Nat) (c : Nat) :
    encode_fill src (86 + c) = src.getD c 0 >>> 2 := by
  unfold encode_fill
  rw [if_neg (by omega), if_neg (by omega), Nat.add_sub_cancel_left]

theorem encode_fill_of_chained (src src' : List Nat)
    (h : ∀ i, i < 343 → encode_chained src i = encode_chained src' i) (n : Nat)
    (hn : n ≤ 341) : encode_fill src n = encode_fill src' n := by
  induction n with
  | zero => exact h 0 (by decide)
  | succ n ih =>
    have key : ∀ s : List Nat,
        encode_fill s (n + 1) = encode_chained s (n + 1) ^^^ encode_fill s n := fun s => by
      rw [encode_chained_succ s n (by omega), Nat.xor_assoc, Nat.xor_self, Nat.xor_zero]
    rw [key src, key src', h (n + 1) (by omega), ih (by omega)]

theorem encode_fill_inj (src src' : List Nat)
    (h : ∀ n, n ≤ 341 → encode_fill src n = encode_fill src' n) (c : Nat) (hc : c < 256) :
    src.getD c 0 = src'.getD c 0 := by
  have hh : src.getD c 0 >>> 2 = src'.getD c 0 >>> 2 := by
    rw [← encode_fill_high src c, ← encode_fill_high src' c]
    exact h _ (by omega)
  refine byte_eq_of_parts _ _ hh ?_
  by_cases c1 : c < 84
  · exact (encode_fill_three src src' c c1 (h c (by omega))).1
  by_cases c2 : c < 86
  · exact (encode_fill_two src src' c (by omega) c2 (h c (by omega))).1
  by_cases c3 : c < 170
  · have e := (encode_fill_three src src' (c - 86) (by omega) (h _ (by omega))).2.1
    rwa [Nat.sub_add_cancel (by omega)] at e
  by_cases c4 : c < 172
  · have e := (encode_fill_two src src' (c - 86) (by omega) (by omega) (h _ (by omega))).2
    rwa [Nat.sub_add_cancel (by omega)] at e
  · have e := (encode_fill_three src src' (c - 172) (by omega) (h _ (by omega))).2.2
    rwa [Nat.sub_add_cancel (by omega)] at e

theorem encode_6_and_2_result_inj (src src' : List Nat) (hs : src.length = 256)
    (hs' : src'.length = 256) (hb : is_bytes src) (hb' : is_bytes src')
    (h : encode_6_and_2_result src = encode_6_and_2_result src') : src = src' := by
  have hch : ∀ i, i < 343 → encode_chained src i = encode_chained src' i := fun i hi => by
    have e := congrArg (fun l : List Nat => l[i]?) h
    simp only [] at e
    rw [encode_6_and_2_result_getElem? src hb i hi,
      encode_6_and_2_result_getElem? src' hb' i hi] at e
    exact six_and_two_mapping_inj _ _ (encode_chained_lt src hb i)
      (encode_chained_lt src' hb' i) e
  have hf := encode_fill_of_chained src src' hch
  apply List.ext_getElem?
  intro c
  by_cases hc : c < 256
  · rw [getElem?_getD src c (by omega), getElem?_getD src' c (by omega),
      encode_fill_inj src src' hf c hc]
  · rw [List.getElem?_eq_none (by omega), List.getElem?_eq_none (by omega)]

/-- C34. The function `encode_6_and_2` is injective on 256-byte payloads: it
returns for both payloads, and the two 343-byte outputs are equal exactly
when the payloads are. -/
theorem encode_6_and_2_injective (dest dest' src src' : List Nat)
    (hd : dest.length = 343) (hd' : dest'.length = 343)
    (hs : src.length = 256) (hs' : src'.length = 256)
    (hb : is_bytes src) (hb' : is_bytes src') :
    ∃ out out', encode_6_and_2 dest src = some out ∧ encode_6_and_2 dest' src' = some out' ∧
      out.length = 343 ∧ out'.length = 343 ∧ (out = out' ↔ src = src') := by
  refine ⟨_, _, encode_6_and_2_eq dest src hd (by omega) hb,
    encode_6_and_2_eq dest' src' hd' (by omega) hb', length_encode_6_and_2_result src,
    length_encode_6_and_2_result src',
    fun h => encode_6_and_2_result_inj src src' hs hs' hb hb' h, fun h => by rw [h]⟩

theorem encode_6_and_2_injective_witness :
    ((List.replicate 343 0).length = 343 ∧ (List.replicate 343 0xFF).length = 343 ∧
      sample_sector.length = 256 ∧ (List.replicate 256 0).length = 256 ∧
      is_bytes sample_sector ∧ is_bytes (List.replicate 256 0)) ∧
    ∃ out out', encode_6_and_2 (List.replicate 343 0) sample_sector = some out ∧
      encode_6_and_2 (List.replicate 343 0xFF) (List.replicate 256 0) = some out' ∧
      out.length = 343 ∧ out'.length = 343 ∧
      (out = out' ↔ sample_sector = List.replicate 256 0) :=
  ⟨⟨List.length_replicate _ _, List.length_replicate _ _, length_sample_sector,
      List.length_replicate _ _, is_bytes_sample_sector, is_bytes_replicate 256 0 (by decide)⟩,
    encode_6_and_2_injective (List.replicate 343 0) (List.replicate 343 0xFF) sample_sector
      (List.replicate 256 0) (List.length_replicate _ _) (List.length_replicate _ _)
      length_sample_sector (List.length_replicate _ _) is_bytes_sample_sector
      (is_bytes_replicate 256 0 (by decide))⟩

end PictureDsk
